import Mathlib

/-!
# Search server and companions: a shallow embedding

The first and largest part embeds `search-server/search_server.{h,cpp}`; it is followed
by `RemoveDuplicates` (remove_duplicates.cpp), `Paginator` (paginator.h), the password
generator (rng.cpp, passgen.cpp), `SimpleVector` (simple_vector.h) and `Vector`
(advanced-vector/vector.h), each with its own conventions stated where its section
begins.

The C++ class `SearchServer` keeps an inverted index
(`word_to_document_frequency_`), a forward index (`doc_id_to_word_frequency_`),
the rating/status records (`document_data_`) and the ordered set of known ids
(`added_documents_`).  The embedding keeps the same four containers together
with the immutable stop-word set.

Modelling conventions.

* `std::map` / `std::set` are association lists / lists kept in ascending key
  order; iteration over the container is iteration over the list.
* `std::string` is `String`, `int` is `Int`; the `int` accumulation in
  `ComputeAverageRating` wraps modulo `2^32`.
* `double` is modelled by exact rationals `ℚ`; `std::log` is an arbitrary
  function `ln : ℚ → ℚ` passed as a parameter.
* A member function that can throw returns the exception (if any) together
  with the state the object is left in at the point of the throw.
* `SplitIntoWords` lives in `string_processing.h`, which this development
  does not cover; the functions that call it take the tokenizer as a
  parameter, and `SplitIntoWordsSpec` is the tokenizer the specification
  describes, used for concrete evaluations.
* `std::sort` is the introsort of libstdc++: partitioning and heap sort on
  ranges of more than 16 elements, then the final insertion sort.
* `RemoveDuplicates` of `remove_duplicates.cpp` follows the server; what it
  prints to `std::cout` is not modelled.
-/

/-- Exceptions of the search server.  `division_by_zero` stands for the integer
division by `ratings.size() == 0` in `ComputeAverageRating`, which C++ leaves
undefined. -/
inductive Error where
  | invalid_argument
  | out_of_range
  | division_by_zero
deriving DecidableEq

instance instDecidableEqExcept {ε α : Type} [DecidableEq ε] [DecidableEq α] :
    DecidableEq (Except ε α)
  | .ok a, .ok b =>
    if h : a = b then isTrue (by rw [h]) else isFalse (fun h2 => h (by cases h2; rfl))
  | .error a, .error b =>
    if h : a = b then isTrue (by rw [h]) else isFalse (fun h2 => h (by cases h2; rfl))
  | .ok _, .error _ => isFalse (fun h2 => by cases h2)
  | .error _, .ok _ => isFalse (fun h2 => by cases h2)

/-- The enumeration `DocumentStatus` of document.h. -/
inductive DocumentStatus where
  | ACTUAL
  | IRRELEVANT
  | BANNED
  | REMOVED
deriving DecidableEq

/-- The struct `Document` of document.h. -/
structure Document where
  id : Int
  relevance : ℚ
  rating : Int
deriving DecidableEq

/-- The strict order `std::less<K>` in which `std::map` and `std::set` keep
their keys. -/
class StdLess (κ : Type) where
  less : κ → κ → Bool

instance instStdLessInt : StdLess Int := ⟨fun a b => decide (a < b)⟩

/-- Lexicographic comparison of two character sequences by character code, as
`std::string::compare` does. -/
def lexLess : List Char → List Char → Bool
  | [], [] => false
  | [], _ :: _ => true
  | _ :: _, [] => false
  | a :: as, b :: bs =>
    if a.toNat < b.toNat then true
    else if b.toNat < a.toNat then false
    else lexLess as bs

instance instStdLessString : StdLess String := ⟨fun a b => lexLess a.data b.data⟩

/-- A `std::map<K, V>`: the entries in ascending key order. -/
abbrev StdMap (κ ν : Type) := List (κ × ν)

/-- A `std::set<K>`: the elements in ascending order. -/
abbrev StdSet (κ : Type) := List κ

namespace StdMap

variable {κ ν : Type} [DecidableEq κ] [StdLess κ]

/-- The value stored under `k`, if any (`find`). -/
def find? : StdMap κ ν → κ → Option ν
  | [], _ => none
  | (k', v) :: rest, k => if k' = k then some v else find? rest k

/-- The member `count`: 1 if the key is present, else 0. -/
def count (m : StdMap κ ν) (k : κ) : Nat :=
  match find? m k with
  | some _ => 1
  | none => 0

/-- The member `at`: throws `std::out_of_range` when the key is absent. -/
def atKey (m : StdMap κ ν) (k : κ) : Except Error ν :=
  match find? m k with
  | some v => .ok v
  | none => .error Error.out_of_range

/-- Insertion of a key that is not yet present, at its place in the order. -/
def insertNew (k : κ) (v : ν) : StdMap κ ν → StdMap κ ν
  | [] => [(k, v)]
  | (k', v') :: rest =>
    if StdLess.less k k' then (k, v) :: (k', v') :: rest
    else (k', v') :: insertNew k v rest

/-- Overwriting the value of a key that is present. -/
def replace (k : κ) (v : ν) : StdMap κ ν → StdMap κ ν
  | [] => []
  | (k', v') :: rest =>
    if k' = k then (k, v) :: rest else (k', v') :: replace k v rest

/-- The assignment `m[k] = v`. -/
def set (m : StdMap κ ν) (k : κ) (v : ν) : StdMap κ ν :=
  match find? m k with
  | some _ => replace k v m
  | none => insertNew k v m

/-- The value `operator[]` refers to: the stored one, or the default `d` that
`operator[]` inserts for an absent key. -/
def getD (m : StdMap κ ν) (k : κ) (d : ν) : ν :=
  match find? m k with
  | some v => v
  | none => d

/-- The member `erase(key)`. -/
def erase (m : StdMap κ ν) (k : κ) : StdMap κ ν :=
  m.filter (fun e => decide (e.1 ≠ k))

/-- The keys in iteration order. -/
def keys (m : StdMap κ ν) : List κ := m.map Prod.fst

/-- The entry `index[a][b]` of a map of maps, when both keys are present. -/
def find2? {κ₂ : Type} [DecidableEq κ₂] (index : StdMap κ (StdMap κ₂ ν)) (a : κ) (b : κ₂) :
    Option ν :=
  match find? index a with
  | some row => find? row b
  | none => none

end StdMap

namespace StdSet

variable {κ : Type} [DecidableEq κ] [StdLess κ]

/-- The member `count`. -/
def count (s : StdSet κ) (k : κ) : Nat := if k ∈ s then 1 else 0

/-- Insertion at the place the order gives. -/
def insertNew (k : κ) : StdSet κ → StdSet κ
  | [] => [k]
  | k' :: rest => if StdLess.less k k' then k :: k' :: rest else k' :: insertNew k rest

/-- The member `insert`: nothing happens when the element is already there. -/
def insert (s : StdSet κ) (k : κ) : StdSet κ :=
  if k ∈ s then s else insertNew k s

/-- The member `erase(key)`. -/
def erase (s : StdSet κ) (k : κ) : StdSet κ :=
  s.filter (fun e => decide (e ≠ k))

end StdSet

/-- The private struct `SearchServer::DocumentData`. -/
structure DocumentData where
  rating : Int
  status : DocumentStatus
deriving DecidableEq

/-- The data members of the class `SearchServer`. -/
structure SearchServer where
  word_to_document_frequency_ : StdMap String (StdMap Int ℚ)
  stop_words_ : StdSet String
  document_data_ : StdMap Int DocumentData
  added_documents_ : StdSet Int
  doc_id_to_word_frequency_ : StdMap Int (StdMap String ℚ)
deriving DecidableEq

/-- The private struct `SearchServer::ProcessedQuery`. -/
structure ProcessedQuery where
  plus_words : StdSet String
  minus_words : StdSet String
deriving DecidableEq

/-- The private struct `SearchServer::QueryWord`. -/
structure QueryWord where
  word : String
  is_minus_word : Bool
  is_stop_word : Bool
deriving DecidableEq

/-- The constant `MAX_RESULT_DOCUMENT_COUNT`. -/
def MAX_RESULT_DOCUMENT_COUNT : Nat := 5

/-- The constant `MAX_RELEVANCE_DIFFERENCE`. -/
def MAX_RELEVANCE_DIFFERENCE : ℚ := 1 / 1000000

/-- Splitting a character sequence at white space, dropping empty pieces;
`cur` is the word being read, in reverse. -/
def splitChars : List Char → List Char → List String
  | [], cur => if cur = [] then [] else [String.mk cur.reverse]
  | c :: cs, cur =>
    if c.isWhitespace then
      (if cur = [] then splitChars cs [] else String.mk cur.reverse :: splitChars cs [])
    else splitChars cs (c :: cur)

/-- Modelled from the spec: `SplitIntoWords` of string_processing.h, whose
definition is missing.  The specification describes it as a word-tokenizer
that splits text on whitespace. -/
def SplitIntoWordsSpec (text : String) : List String := splitChars text.data []

/-- Modelled from the spec: `MakeUniqueNonEmptyStrings` of string_processing.h,
whose definition is missing.  The specification says that stop words are
deduplicated and emptied of blank entries. -/
def MakeUniqueNonEmptyStrings (strings : List String) : StdSet String :=
  strings.foldl (fun acc str => if str = "" then acc else StdSet.insert acc str) []

/-- Two's-complement wrap of an `int`. -/
def wrapInt32 (x : Int) : Int := (x + 2147483648) % 4294967296 - 2147483648

namespace SearchServer

/-- `SearchServer::IsValidWord`: no character `c` with `c >= '\0' && c < ' '`. -/
def IsValidWord (text : String) : Bool :=
  text.data.all (fun c => !(decide (c.toNat < 32)))

/-- The constructor template `SearchServer(const StringCollection&)`. -/
def New (stop_words_init : List String) : Except Error SearchServer :=
  let stop_words := MakeUniqueNonEmptyStrings stop_words_init
  if stop_words.all IsValidWord then
    .ok { word_to_document_frequency_ := [], stop_words_ := stop_words,
          document_data_ := [], added_documents_ := [],
          doc_id_to_word_frequency_ := [] }
  else .error Error.invalid_argument

/-- `SearchServer::IsStopWord`. -/
def IsStopWord (s : SearchServer) (word : String) : Bool :=
  decide (StdSet.count s.stop_words_ word > 0)

/-- `SearchServer::ComputeAverageRating`; `none` is the division by zero. -/
def ComputeAverageRating (ratings : List Int) : Option Int :=
  let rating_sum := ratings.foldl (fun acc r => wrapInt32 (acc + r)) 0
  if ratings.length = 0 then none else some (Int.tdiv rating_sum (ratings.length : Int))

/-- The statement `index[outer][inner] += x` on a map of maps of doubles. -/
def addFrequency {κ₁ κ₂ : Type} [DecidableEq κ₁] [StdLess κ₁] [DecidableEq κ₂] [StdLess κ₂]
    (index : StdMap κ₁ (StdMap κ₂ ℚ)) (outer : κ₁) (inner : κ₂) (x : ℚ) :
    StdMap κ₁ (StdMap κ₂ ℚ) :=
  let row := StdMap.getD index outer []
  StdMap.set index outer (StdMap.set row inner (StdMap.getD row inner 0 + x))

section Tokenizer

variable (SplitIntoWords : String → List String)

/-- `SearchServer::SplitIntoWordsNoStop`. -/
def SplitIntoWordsNoStop (s : SearchServer) (text : String) : List String :=
  (SplitIntoWords text).filter (fun word => !(IsStopWord s word))

/-- The loop of `AddDocument` over the words still to be processed; `size` is
`words.size()`.  A throw leaves the indices as the earlier iterations made
them. -/
def AddDocument_loop (size : Nat) (document_id : Int) :
    List String → SearchServer → Except Error Unit × SearchServer
  | [], s => (.ok (), s)
  | word :: rest, s =>
    if !(IsValidWord word) then (.error Error.invalid_argument, s)
    else
      AddDocument_loop size document_id rest
        { s with
          word_to_document_frequency_ :=
            addFrequency s.word_to_document_frequency_ word document_id (1 / (size : ℚ)),
          doc_id_to_word_frequency_ :=
            addFrequency s.doc_id_to_word_frequency_ document_id word (1 / (size : ℚ)) }

/-- `SearchServer::AddDocument`: the exception thrown, if any, and the state
the server is left in. -/
def AddDocument (s : SearchServer) (document_id : Int) (document : String)
    (status : DocumentStatus) (ratings : List Int) : Except Error Unit × SearchServer :=
  if document_id < 0 ∨ StdMap.count s.document_data_ document_id = 1 then
    (.error Error.invalid_argument, s)
  else
    let words := SplitIntoWordsNoStop SplitIntoWords s document
    match AddDocument_loop words.length document_id words s with
    | (.error e, s₁) => (.error e, s₁)
    | (.ok (), s₁) =>
      match ComputeAverageRating ratings with
      | none => (.error Error.division_by_zero, s₁)
      | some rating =>
        (.ok (),
          { s₁ with
            document_data_ := StdMap.set s₁.document_data_ document_id ⟨rating, status⟩,
            added_documents_ := StdSet.insert s₁.added_documents_ document_id })

end Tokenizer

/-- `SearchServer::GetDocumentCount`. -/
def GetDocumentCount (s : SearchServer) : Nat := s.document_data_.length

/-- `SearchServer::GetWordFrequencies`. -/
def GetWordFrequencies (s : SearchServer) (document_id : Int) : StdMap String ℚ :=
  if StdMap.count s.doc_id_to_word_frequency_ document_id ≠ 0 then
    StdMap.getD s.doc_id_to_word_frequency_ document_id []
  else []

/-- The loop of `RemoveDocument` over the words of the forward-index entry. -/
def RemoveDocument_loop (document_id : Int) :
    List String → StdMap String (StdMap Int ℚ) →
      Except Error Unit × StdMap String (StdMap Int ℚ)
  | [], index => (.ok (), index)
  | word :: rest, index =>
    match StdMap.find? index word with
    | none => (.error Error.out_of_range, index)
    | some postings =>
      let postings₁ := StdMap.erase postings document_id
      if postings₁.isEmpty then
        RemoveDocument_loop document_id rest (StdMap.erase index word)
      else
        RemoveDocument_loop document_id rest (StdMap.replace word postings₁ index)

/-- `SearchServer::RemoveDocument`: the exception thrown, if any, and the state
the server is left in. -/
def RemoveDocument (s : SearchServer) (document_id : Int) :
    Except Error Unit × SearchServer :=
  match StdMap.atKey s.doc_id_to_word_frequency_ document_id with
  | .error e => (.error e, s)
  | .ok entry =>
    match RemoveDocument_loop document_id (StdMap.keys entry) s.word_to_document_frequency_ with
    | (.error e, index) => (.error e, { s with word_to_document_frequency_ := index })
    | (.ok (), index) =>
      (.ok (),
        { s with
          word_to_document_frequency_ := index,
          document_data_ := StdMap.erase s.document_data_ document_id,
          added_documents_ := StdSet.erase s.added_documents_ document_id,
          doc_id_to_word_frequency_ := StdMap.erase s.doc_id_to_word_frequency_ document_id })

end SearchServer

/-! ## `std::sort`

The call `std::sort(first, last, comp)` is embedded as libstdc++ (GCC 12) implements it
(bits/stl_algo.h, bits/stl_heap.h): `std::__introsort_loop` with the depth limit
`2 * std::__lg(last - first)`, which partitions ranges of more than 16 elements around the
median of three elements and sorts a range by the heap when the depth limit is used up,
followed by `std::__final_insertion_sort`.  A range is the list of its elements and an
iterator into it is a position.  The loops of libstdc++ that have no test of the bounds
(`std::__unguarded_linear_insert`, `std::__unguarded_partition`) stop at the bounds of
the range here; `stdSortChecked` is the same algorithm with a failure where such a loop
would leave the range. -/

/-- The inner loop of `__unguarded_linear_insert`: `sorted_rev` is the sorted
range read from its last element backwards; `val` moves towards the front
while `comp val` holds of the element before it. -/
def unguardedLinearInsert {α : Type} (comp : α → α → Bool) (val : α) : List α → List α
  | [] => [val]
  | y :: ys => if comp val y then y :: unguardedLinearInsert comp val ys else val :: y :: ys

/-- One step of `__insertion_sort`: the next element goes to the front when it
compares less than the first element, and is otherwise inserted linearly from
the back. -/
def insertionStep {α : Type} (comp : α → α → Bool) (sorted : List α) (val : α) : List α :=
  match sorted with
  | [] => [val]
  | first :: _ =>
    if comp val first then val :: sorted
    else (unguardedLinearInsert comp val sorted.reverse).reverse

/-- One step of `std::__unguarded_insertion_sort`: `std::__unguarded_linear_insert(i)`
with the elements before `i` in `sorted`. -/
def unguardedInsertionStep {α : Type} (comp : α → α → Bool) (sorted : List α) (val : α) :
    List α :=
  (unguardedLinearInsert comp val sorted.reverse).reverse

/-- `std::__final_insertion_sort`, with `_S_threshold = 16`. -/
def finalInsertionSort {α : Type} (comp : α → α → Bool) (range : List α) : List α :=
  if range.length > 16 then
    (range.drop 16).foldl (unguardedInsertionStep comp)
      ((range.take 16).foldl (insertionStep comp) [])
  else range.foldl (insertionStep comp) []

/-- The comparison `comp(i, j)` of the elements at two positions of the range. -/
def compAt {α : Type} (comp : α → α → Bool) (range : List α) (i j : Nat) : Bool :=
  match range[i]?, range[j]? with
  | some x, some y => comp x y
  | _, _ => false

/-- `std::iter_swap(a, b)`. -/
def iterSwap {α : Type} (range : List α) (a b : Nat) : List α :=
  match range[a]?, range[b]? with
  | some x, some y => (range.set a y).set b x
  | _, _ => range

/-- `std::__move_median_to_first(result, a, b, c, comp)`. -/
def moveMedianToFirst {α : Type} (comp : α → α → Bool) (range : List α)
    (result a b c : Nat) : List α :=
  if compAt comp range a b then
    if compAt comp range b c then iterSwap range result b
    else if compAt comp range a c then iterSwap range result c
    else iterSwap range result a
  else if compAt comp range a c then iterSwap range result a
  else if compAt comp range b c then iterSwap range result c
  else iterSwap range result b

/-- The loop `while (comp(first, pivot)) ++first;` of `std::__unguarded_partition`;
`count` is the distance from `first` to the end of the range. -/
def partitionScanUp {α : Type} (comp : α → α → Bool) (range : List α) (pivot : Nat) :
    Nat → Nat → Nat
  | 0, first => first
  | count + 1, first =>
    if compAt comp range first pivot then partitionScanUp comp range pivot count (first + 1)
    else first

/-- The loop `while (comp(pivot, last)) --last;` of `std::__unguarded_partition`. -/
def partitionScanDown {α : Type} (comp : α → α → Bool) (range : List α) (pivot : Nat) :
    Nat → Nat
  | 0 => 0
  | last + 1 =>
    if compAt comp range pivot (last + 1) then partitionScanDown comp range pivot last
    else last + 1

/-- `std::__unguarded_partition(first, last, pivot, comp)`: the range afterwards and the
iterator returned.  `steps` bounds the iterations of the outer loop by `last - first`. -/
def unguardedPartition {α : Type} (comp : α → α → Bool) (pivot : Nat) :
    Nat → List α → Nat → Nat → List α × Nat
  | 0, range, first, _ =>
    (range, partitionScanUp comp range pivot (range.length - first) first)
  | steps + 1, range, first, last =>
    let first₁ := partitionScanUp comp range pivot (range.length - first) first
    let last₁ := partitionScanDown comp range pivot (last - 1)
    if first₁ < last₁ then
      unguardedPartition comp pivot steps (iterSwap range first₁ last₁) (first₁ + 1) last₁
    else (range, first₁)

/-- `std::__unguarded_partition_pivot(first, last, comp)` on the whole range. -/
def unguardedPartitionPivot {α : Type} (comp : α → α → Bool) (range : List α) :
    List α × Nat :=
  let mid := range.length / 2
  unguardedPartition comp 0 (range.length - 1)
    (moveMedianToFirst comp range 0 1 mid (range.length - 1)) 1 range.length

/-- `std::__push_heap(first, holeIndex, topIndex, value, comp)`; `steps` bounds the
iterations by `holeIndex`. -/
def pushHeap {α : Type} (comp : α → α → Bool) (topIndex : Nat) (value : α) :
    Nat → List α → Nat → List α
  | 0, range, holeIndex => range.set holeIndex value
  | steps + 1, range, holeIndex =>
    let parent := (holeIndex - 1) / 2
    match range[parent]? with
    | some p =>
      if holeIndex > topIndex ∧ comp p value then
        pushHeap comp topIndex value steps (range.set holeIndex p) parent
      else range.set holeIndex value
    | none => range.set holeIndex value

/-- The first loop of `std::__adjust_heap`, in which `holeIndex` and `secondChild` are
equal at every test of the condition: the range and the hole afterwards.  `steps` bounds
the iterations by `len`. -/
def adjustHeapLoop {α : Type} (comp : α → α → Bool) (len : Nat) :
    Nat → List α → Nat → List α × Nat
  | 0, range, holeIndex => (range, holeIndex)
  | steps + 1, range, holeIndex =>
    if holeIndex < (len - 1) / 2 then
      let secondChild := 2 * (holeIndex + 1)
      let secondChild₁ :=
        if compAt comp range secondChild (secondChild - 1) then secondChild - 1
        else secondChild
      match range[secondChild₁]? with
      | some child => adjustHeapLoop comp len steps (range.set holeIndex child) secondChild₁
      | none => (range, holeIndex)
    else (range, holeIndex)

/-- The statement of `std::__adjust_heap` after its first loop, for a hole whose only child
is the last element of a heap of even length: the range and the hole afterwards. -/
def adjustHeapLast {α : Type} (len : Nat) (range : List α) (holeIndex : Nat) : List α × Nat :=
  if len % 2 = 0 ∧ holeIndex = (len - 2) / 2 then
    match range[2 * (holeIndex + 1) - 1]? with
    | some child => (range.set holeIndex child, 2 * (holeIndex + 1) - 1)
    | none => (range, holeIndex)
  else (range, holeIndex)

/-- `std::__adjust_heap(first, holeIndex, len, value, comp)`. -/
def adjustHeap {α : Type} (comp : α → α → Bool) (range : List α) (holeIndex len : Nat)
    (value : α) : List α :=
  let loop := adjustHeapLoop comp len len range holeIndex
  let last := adjustHeapLast len loop.1 loop.2
  pushHeap comp holeIndex value last.2 last.1 last.2

/-- The loop of `std::__make_heap` from `parent` down to 0. -/
def makeHeapLoop {α : Type} (comp : α → α → Bool) (len : Nat) : Nat → List α → List α
  | 0, range =>
    match range[0]? with
    | some value => adjustHeap comp range 0 len value
    | none => range
  | parent + 1, range =>
    match range[parent + 1]? with
    | some value => makeHeapLoop comp len parent (adjustHeap comp range (parent + 1) len value)
    | none => range

/-- `std::__make_heap(first, last, comp)` on the whole range. -/
def makeHeap {α : Type} (comp : α → α → Bool) (range : List α) : List α :=
  if range.length < 2 then range
  else makeHeapLoop comp range.length ((range.length - 2) / 2) range

/-- `std::__pop_heap(first, last, result, comp)`. -/
def popHeap {α : Type} (comp : α → α → Bool) (range : List α) (last result : Nat) : List α :=
  match range[result]?, range[0]? with
  | some value, some top => adjustHeap comp (range.set result top) 0 last value
  | _, _ => range

/-- `std::__sort_heap(first, last, comp)`. -/
def sortHeap {α : Type} (comp : α → α → Bool) : Nat → List α → List α
  | 0, range => range
  | last + 1, range =>
    if last + 1 > 1 then sortHeap comp last (popHeap comp range last last) else range

/-- `std::__partial_sort(first, last, last, comp)`: `std::__heap_select` with an empty
second range, which is `std::__make_heap`, then `std::__sort_heap`. -/
def heapSort {α : Type} (comp : α → α → Bool) (range : List α) : List α :=
  sortHeap comp range.length (makeHeap comp range)

/-- `std::__introsort_loop(first, last, depth_limit, comp)`: every iteration of the loop
partitions the range, sorts the part from the cut on by the recursive call and goes on
with the part before the cut. -/
def introsortLoop {α : Type} (comp : α → α → Bool) : Nat → List α → List α
  | 0, range => if range.length > 16 then heapSort comp range else range
  | depth_limit + 1, range =>
    if range.length > 16 then
      let cut := unguardedPartitionPivot comp range
      introsortLoop comp depth_limit (cut.1.take cut.2) ++
        introsortLoop comp depth_limit (cut.1.drop cut.2)
    else range

/-- The loop of `std::__lg`: the number of halvings that take `n` below 2. -/
def lgLoop : Nat → Nat → Nat
  | 0, _ => 0
  | steps + 1, n => if n < 2 then 0 else lgLoop steps (n / 2) + 1

/-- `std::__lg(n)`, the position of the highest set bit of `n`. -/
def lg (n : Nat) : Nat := lgLoop n n

/-- The call `std::sort(first, last, comp)` as libstdc++ implements it. -/
def stdSort {α : Type} (comp : α → α → Bool) (range : List α) : List α :=
  finalInsertionSort comp (introsortLoop comp (lg range.length * 2) range)

/-- The positions of the heap below `root`, `root` included: the children of the position
`node` are the positions `2 * node + 1` and `2 * node + 2`. -/
inductive InSubtree (root : Nat) : Nat → Prop
  | root : InSubtree root root
  | left (node : Nat) : InSubtree root node → InSubtree root (2 * node + 1)
  | right (node : Nat) : InSubtree root node → InSubtree root (2 * node + 2)

/-! ### `std::sort` with a test of the bounds

The same algorithm, with `none` as soon as one of the loops that libstdc++ runs without a
test of the bounds would read an element outside the range it works on.  For an asymmetric
comparator this does not happen (`stdSortChecked_eq`). -/

/-- `std::__unguarded_linear_insert` on the reversed elements before `val`; `none` when
the loop passes the first element of the range. -/
def unguardedLinearInsertChecked {α : Type} (comp : α → α → Bool) (val : α) :
    List α → Option (List α)
  | [] => none
  | y :: ys =>
    if comp val y then (unguardedLinearInsertChecked comp val ys).map (fun rest => y :: rest)
    else some (val :: y :: ys)

/-- One step of `std::__unguarded_insertion_sort`, with the test of the bound. -/
def unguardedInsertionStepChecked {α : Type} (comp : α → α → Bool)
    (sorted : Option (List α)) (val : α) : Option (List α) :=
  match sorted with
  | none => none
  | some sorted₁ =>
    (unguardedLinearInsertChecked comp val sorted₁.reverse).map List.reverse

/-- `std::__final_insertion_sort`, with the test of the bound. -/
def finalInsertionSortChecked {α : Type} (comp : α → α → Bool) (range : List α) :
    Option (List α) :=
  if range.length > 16 then
    (range.drop 16).foldl (unguardedInsertionStepChecked comp)
      (some ((range.take 16).foldl (insertionStep comp) []))
  else some (range.foldl (insertionStep comp) [])

/-- The loop `while (comp(first, pivot)) ++first;`; `none` when it reaches the end of the
range, `count` positions from `first`. -/
def partitionScanUpChecked {α : Type} (comp : α → α → Bool) (range : List α) (pivot : Nat) :
    Nat → Nat → Option Nat
  | 0, _ => none
  | count + 1, first =>
    if compAt comp range first pivot then
      partitionScanUpChecked comp range pivot count (first + 1)
    else some first

/-- The loop `while (comp(pivot, last)) --last;`; `none` when it passes the first element
of the range. -/
def partitionScanDownChecked {α : Type} (comp : α → α → Bool) (range : List α) (pivot : Nat) :
    Nat → Option Nat
  | 0 => if compAt comp range pivot 0 then none else some 0
  | last + 1 =>
    if compAt comp range pivot (last + 1) then partitionScanDownChecked comp range pivot last
    else some (last + 1)

/-- `std::__unguarded_partition`, with the tests of the bounds. -/
def unguardedPartitionChecked {α : Type} (comp : α → α → Bool) (pivot : Nat) :
    Nat → List α → Nat → Nat → Option (List α × Nat)
  | 0, range, first, _ =>
    match partitionScanUpChecked comp range pivot (range.length - first) first with
    | some first₁ => some (range, first₁)
    | none => none
  | steps + 1, range, first, last =>
    match partitionScanUpChecked comp range pivot (range.length - first) first,
      partitionScanDownChecked comp range pivot (last - 1) with
    | some first₁, some last₁ =>
      if first₁ < last₁ then
        unguardedPartitionChecked comp pivot steps (iterSwap range first₁ last₁) (first₁ + 1)
          last₁
      else some (range, first₁)
    | _, _ => none

/-- `std::__unguarded_partition_pivot`, with the tests of the bounds. -/
def unguardedPartitionPivotChecked {α : Type} (comp : α → α → Bool) (range : List α) :
    Option (List α × Nat) :=
  let mid := range.length / 2
  unguardedPartitionChecked comp 0 (range.length - 1)
    (moveMedianToFirst comp range 0 1 mid (range.length - 1)) 1 range.length

/-- `std::__introsort_loop`, with the tests of the bounds. -/
def introsortLoopChecked {α : Type} (comp : α → α → Bool) : Nat → List α → Option (List α)
  | 0, range => if range.length > 16 then some (heapSort comp range) else some range
  | depth_limit + 1, range =>
    if range.length > 16 then
      match unguardedPartitionPivotChecked comp range with
      | some cut =>
        match introsortLoopChecked comp depth_limit (cut.1.take cut.2),
          introsortLoopChecked comp depth_limit (cut.1.drop cut.2) with
        | some before, some after => some (before ++ after)
        | _, _ => none
      | none => none
    else some range

/-- The call `std::sort(first, last, comp)`, with the tests of the bounds. -/
def stdSortChecked {α : Type} (comp : α → α → Bool) (range : List α) : Option (List α) :=
  match introsortLoopChecked comp (lg range.length * 2) range with
  | some sorted => finalInsertionSortChecked comp sorted
  | none => none

namespace SearchServer

/-- The comparator passed to `std::sort` in `FindTopDocuments`. -/
def compareDocuments (lhs rhs : Document) : Bool :=
  if |lhs.relevance - rhs.relevance| < MAX_RELEVANCE_DIFFERENCE then
    decide (lhs.rating > rhs.rating)
  else
    decide (lhs.relevance > rhs.relevance)

/-- `SearchServer::ProcessQueryWord`. -/
def ProcessQueryWord (s : SearchServer) (raw_word : String) : Except Error QueryWord :=
  let is_minus_word : Bool := decide (raw_word.data.head? = some '-')
  let word : String := if is_minus_word then String.mk raw_word.data.tail else raw_word
  if is_minus_word && decide (word.data = []) then .error Error.invalid_argument
  else if !(IsValidWord word) then .error Error.invalid_argument
  else if decide (word.data.head? = some '-') || decide (word.data.getLast? = some '-') then
    .error Error.invalid_argument
  else .ok ⟨word, is_minus_word, IsStopWord s word⟩

/-- The loop of `ParseQuery` over the tokens of the query. -/
def ParseQuery_loop (s : SearchServer) :
    List String → ProcessedQuery → Except Error ProcessedQuery
  | [], query => .ok query
  | word :: rest, query =>
    match ProcessQueryWord s word with
    | .error e => .error e
    | .ok word_struct =>
      if word_struct.is_stop_word then ParseQuery_loop s rest query
      else if word_struct.is_minus_word then
        ParseQuery_loop s rest
          { query with minus_words := StdSet.insert query.minus_words word_struct.word }
      else
        ParseQuery_loop s rest
          { query with plus_words := StdSet.insert query.plus_words word_struct.word }

/-- `SearchServer::ParseQuery`. -/
def ParseQuery (SplitIntoWords : String → List String) (s : SearchServer) (text : String) :
    Except Error ProcessedQuery :=
  ParseQuery_loop s (SplitIntoWords text) ⟨[], []⟩

/-- `SearchServer::CalculateIDF`. -/
def CalculateIDF (ln : ℚ → ℚ) (s : SearchServer) (word : String) : ℚ :=
  match StdMap.find? s.word_to_document_frequency_ word with
  | some postings => ln ((s.document_data_.length : ℚ) / (postings.length : ℚ))
  | none => 0

/-- The loop of `FindAllDocuments` over the postings of one plus-word. -/
def FindAllDocuments_postings (s : SearchServer)
    (filtering_predicat : Int → DocumentStatus → Int → Bool) (IDF : ℚ) :
    List (Int × ℚ) → StdMap Int ℚ → Except Error (StdMap Int ℚ)
  | [], matched_documents => .ok matched_documents
  | (document_id, freq) :: rest, matched_documents =>
    match StdMap.atKey s.document_data_ document_id with
    | .error e => .error e
    | .ok data =>
      if filtering_predicat document_id data.status data.rating then
        FindAllDocuments_postings s filtering_predicat IDF rest
          (StdMap.set matched_documents document_id
            (StdMap.getD matched_documents document_id 0 + IDF * freq))
      else FindAllDocuments_postings s filtering_predicat IDF rest matched_documents

/-- The loop of `FindAllDocuments` over the plus-words. -/
def FindAllDocuments_plus (ln : ℚ → ℚ) (s : SearchServer)
    (filtering_predicat : Int → DocumentStatus → Int → Bool) :
    List String → StdMap Int ℚ → Except Error (StdMap Int ℚ)
  | [], matched_documents => .ok matched_documents
  | plus_word :: rest, matched_documents =>
    match StdMap.find? s.word_to_document_frequency_ plus_word with
    | none => FindAllDocuments_plus ln s filtering_predicat rest matched_documents
    | some postings =>
      match FindAllDocuments_postings s filtering_predicat (CalculateIDF ln s plus_word)
          postings matched_documents with
      | .error e => .error e
      | .ok matched₁ => FindAllDocuments_plus ln s filtering_predicat rest matched₁

/-- The loop of `FindAllDocuments` over the minus-words. -/
def FindAllDocuments_minus (s : SearchServer) : List String → StdMap Int ℚ → StdMap Int ℚ
  | [], matched_documents => matched_documents
  | minus_word :: rest, matched_documents =>
    match StdMap.find? s.word_to_document_frequency_ minus_word with
    | none => FindAllDocuments_minus s rest matched_documents
    | some postings =>
      FindAllDocuments_minus s rest
        (postings.foldl (fun acc entry => StdMap.erase acc entry.1) matched_documents)

/-- The last loop of `FindAllDocuments`: the map of relevances becomes the
vector of results. -/
def FindAllDocuments_vector (s : SearchServer) : List (Int × ℚ) → Except Error (List Document)
  | [] => .ok []
  | (document_id, relevance) :: rest =>
    match StdMap.atKey s.document_data_ document_id with
    | .error e => .error e
    | .ok data =>
      match FindAllDocuments_vector s rest with
      | .error e => .error e
      | .ok documents => .ok (⟨document_id, relevance, data.rating⟩ :: documents)

/-- `SearchServer::FindAllDocuments`. -/
def FindAllDocuments (ln : ℚ → ℚ) (s : SearchServer) (processed_query : ProcessedQuery)
    (filtering_predicat : Int → DocumentStatus → Int → Bool) : Except Error (List Document) :=
  match FindAllDocuments_plus ln s filtering_predicat processed_query.plus_words [] with
  | .error e => .error e
  | .ok matched_documents =>
    FindAllDocuments_vector s
      (FindAllDocuments_minus s processed_query.minus_words matched_documents)

/-- The template `SearchServer::FindTopDocuments(raw_query, filtering_predicat)`. -/
def FindTopDocuments (SplitIntoWords : String → List String) (ln : ℚ → ℚ) (s : SearchServer)
    (raw_query : String) (filtering_predicat : Int → DocumentStatus → Int → Bool) :
    Except Error (List Document) :=
  match ParseQuery SplitIntoWords s raw_query with
  | .error e => .error e
  | .ok query =>
    match FindAllDocuments ln s query filtering_predicat with
    | .error e => .error e
    | .ok matched_documents =>
      let sorted := stdSort compareDocuments matched_documents
      if sorted.length > MAX_RESULT_DOCUMENT_COUNT then
        .ok (sorted.take MAX_RESULT_DOCUMENT_COUNT)
      else .ok sorted

/-- The overload `SearchServer::FindTopDocuments(raw_query, doc_status)`. -/
def FindTopDocumentsByStatus (SplitIntoWords : String → List String) (ln : ℚ → ℚ)
    (s : SearchServer) (raw_query : String) (doc_status : DocumentStatus) :
    Except Error (List Document) :=
  FindTopDocuments SplitIntoWords ln s raw_query
    (fun _document_id status _rating => decide (status = doc_status))

/-- The overload `SearchServer::FindTopDocuments(raw_query)`. -/
def FindTopDocumentsActual (SplitIntoWords : String → List String) (ln : ℚ → ℚ)
    (s : SearchServer) (raw_query : String) : Except Error (List Document) :=
  FindTopDocumentsByStatus SplitIntoWords ln s raw_query DocumentStatus.ACTUAL

end SearchServer

/-- Whether the document has a rating/status record on which the filter answers
`true`. -/
def SearchServer.passes (s : SearchServer)
    (filtering_predicat : Int → DocumentStatus → Int → Bool) (document_id : Int) : Bool :=
  match StdMap.find? s.document_data_ document_id with
  | some data => filtering_predicat document_id data.status data.rating
  | none => false

/-! ## Sequences of calls -/

/-- A call of one of the two member functions that change the server. -/
inductive Call where
  | AddDocument (document_id : Int) (document : String) (status : DocumentStatus)
      (ratings : List Int)
  | RemoveDocument (document_id : Int)

/-- Running a call: the exception thrown, if any, and the state afterwards. -/
def Call.run (SplitIntoWords : String → List String) (s : SearchServer) :
    Call → Except Error Unit × SearchServer
  | .AddDocument document_id document status ratings =>
    SearchServer.AddDocument SplitIntoWords s document_id document status ratings
  | .RemoveDocument document_id => SearchServer.RemoveDocument s document_id

/-- The states a server can be in after construction and any sequence of
`AddDocument` and `RemoveDocument` calls, whether they throw or not. -/
inductive Reachable (SplitIntoWords : String → List String) : SearchServer → Prop
  | construct (stop_words : List String) (s : SearchServer) :
      SearchServer.New stop_words = .ok s → Reachable SplitIntoWords s
  | call (s : SearchServer) (c : Call) :
      Reachable SplitIntoWords s → Reachable SplitIntoWords (c.run SplitIntoWords s).2

/-- The states a server can be in after construction and a sequence of
`AddDocument` and `RemoveDocument` calls none of which threw. -/
inductive ReachableOk (SplitIntoWords : String → List String) : SearchServer → Prop
  | construct (stop_words : List String) (s : SearchServer) :
      SearchServer.New stop_words = .ok s → ReachableOk SplitIntoWords s
  | call (s : SearchServer) (c : Call) :
      ReachableOk SplitIntoWords s → (c.run SplitIntoWords s).1 = .ok () →
      ReachableOk SplitIntoWords (c.run SplitIntoWords s).2

/-- The two indices agree and no row of either lists a key twice. -/
structure IndexConsistent (s : SearchServer) : Prop where
  sync : ∀ (word : String) (document_id : Int),
    StdMap.find2? s.word_to_document_frequency_ word document_id =
      StdMap.find2? s.doc_id_to_word_frequency_ document_id word
  forward_rows : ∀ (document_id : Int) (row : StdMap String ℚ),
    StdMap.find? s.doc_id_to_word_frequency_ document_id = some row → (StdMap.keys row).Nodup
  inverted_rows : ∀ (word : String) (row : StdMap Int ℚ),
    StdMap.find? s.word_to_document_frequency_ word = some row → (StdMap.keys row).Nodup

/-- The invariant of every reachable state. -/
structure Consistent (s : SearchServer) : Prop where
  index : IndexConsistent s
  known : ∀ document_id : Int,
    document_id ∈ StdMap.keys s.document_data_ ↔ document_id ∈ s.added_documents_

/-- The invariant of the states reached without a throw: moreover every
document of the forward index has a rating/status record. -/
structure ConsistentOk (s : SearchServer) : Prop where
  consistent : Consistent s
  forward_known : ∀ document_id : Int,
    document_id ∈ StdMap.keys s.doc_id_to_word_frequency_ →
      document_id ∈ StdMap.keys s.document_data_

/-! ## Concrete servers -/

/-- The server `SearchServer server(""s)` of the unit tests: no stop words. -/
def emptyServer : SearchServer :=
  { word_to_document_frequency_ := [], stop_words_ := [], document_data_ := [],
    added_documents_ := [], doc_id_to_word_frequency_ := [] }

/-- The server after a call of `AddDocument` whose second word is rejected. -/
def residueServer : SearchServer :=
  (SearchServer.AddDocument SplitIntoWordsSpec emptyServer 1 "a \x01"
    DocumentStatus.ACTUAL [1]).2

/-- The server after the rejected call and a successful call with the same id. -/
def residueServer₂ : SearchServer :=
  (SearchServer.AddDocument SplitIntoWordsSpec residueServer 1 "a" DocumentStatus.ACTUAL [1]).2

/-- The server of the unit tests after its first document has been added. -/
def catServer : SearchServer :=
  (SearchServer.AddDocument SplitIntoWordsSpec emptyServer 42 "cat in the city"
    DocumentStatus.ACTUAL [1, 2, 3]).2

/-- The server of the relevance unit test, with both documents added. -/
def twoCatServer : SearchServer :=
  (SearchServer.AddDocument SplitIntoWordsSpec catServer 1 "orange cat near the library cat"
    DocumentStatus.ACTUAL [4, 5, 6]).2

/-- The server with the documents 1 to `count`, every one with the text "a", the status
`ACTUAL` and the rating 1. -/
def sameDocumentsServer : Nat → SearchServer
  | 0 => emptyServer
  | count + 1 =>
    (SearchServer.AddDocument SplitIntoWordsSpec (sameDocumentsServer count) (count + 1 : Nat)
      "a" DocumentStatus.ACTUAL [1]).2

/-- A rational function standing in for `std::log` in concrete evaluations. -/
def lnSample (x : ℚ) : ℚ := x - 1

/-- The filter `document_id % 2 == 0` of the unit test on predicates. -/
def evenId (document_id : Int) (_status : DocumentStatus) (_rating : Int) : Bool :=
  decide (document_id % 2 = 0)

/-! ## `MatchDocument` and the vocabulary of the claims about queries -/

namespace SearchServer

/-- The first loop of `MatchDocument`: whether some minus-word has the document
in its posting list, which makes the function return at once. -/
def MatchDocument_minus (s : SearchServer) (document_id : Int) : List String → Bool
  | [] => false
  | minus_word :: rest =>
    match StdMap.find? s.word_to_document_frequency_ minus_word with
    | none => MatchDocument_minus s document_id rest
    | some postings =>
      if StdMap.count postings document_id ≠ 0 then true
      else MatchDocument_minus s document_id rest

/-- The second loop of `MatchDocument`: the plus-words whose posting list has the
document are pushed back onto `plus_words_in_document`. -/
def MatchDocument_plus (s : SearchServer) (document_id : Int) :
    List String → List String → List String
  | [], plus_words_in_document => plus_words_in_document
  | plus_word :: rest, plus_words_in_document =>
    match StdMap.find? s.word_to_document_frequency_ plus_word with
    | none => MatchDocument_plus s document_id rest plus_words_in_document
    | some postings =>
      if StdMap.count postings document_id ≠ 0 then
        MatchDocument_plus s document_id rest (plus_words_in_document ++ [plus_word])
      else MatchDocument_plus s document_id rest plus_words_in_document

/-- `SearchServer::MatchDocument`. -/
def MatchDocument (SplitIntoWords : String → List String) (s : SearchServer)
    (raw_query : String) (document_id : Int) :
    Except Error (List String × DocumentStatus) :=
  match ParseQuery SplitIntoWords s raw_query with
  | .error e => .error e
  | .ok query =>
    if MatchDocument_minus s document_id query.minus_words then
      match StdMap.atKey s.document_data_ document_id with
      | .error e => .error e
      | .ok data => .ok ([], data.status)
    else
      match StdMap.atKey s.document_data_ document_id with
      | .error e => .error e
      | .ok data => .ok (MatchDocument_plus s document_id query.plus_words [], data.status)

end SearchServer

/-- The word a query token stands for: the token without one leading `-`. -/
def stripMinus (token : String) : String :=
  if token.data.head? = some '-' then String.mk token.data.tail else token

/-- A malformed query token: after removing one leading `-` it is empty, or starts
with `-`, or ends with `-`, or has a character with code below `0x20`. -/
def MalformedToken (token : String) : Prop :=
  (stripMinus token).data = [] ∨ (stripMinus token).data.head? = some '-' ∨
    (stripMinus token).data.getLast? = some '-' ∨
    ∃ c ∈ (stripMinus token).data, c.toNat < 32

/-- A server whose only stop word ends with a minus sign. -/
def dashStopServer : SearchServer :=
  { word_to_document_frequency_ := [], stop_words_ := ["a-"], document_data_ := [],
    added_documents_ := [], doc_id_to_word_frequency_ := [] }

/-- The server after a document with an empty text has been added. -/
def emptyDocServer : SearchServer :=
  (SearchServer.AddDocument SplitIntoWordsSpec emptyServer 1 "" DocumentStatus.ACTUAL [1]).2

/-- The server of the stop-word unit test: stop words "in" and "the", one document. -/
def inTheServer : SearchServer :=
  (SearchServer.AddDocument SplitIntoWordsSpec
    { word_to_document_frequency_ := [], stop_words_ := ["in", "the"], document_data_ := [],
      added_documents_ := [], doc_id_to_word_frequency_ := [] }
    42 "cat in the city" DocumentStatus.ACTUAL [1, 2, 3]).2

/-- The server of the removal unit test after its document has been removed. -/
def removedServer : SearchServer := (SearchServer.RemoveDocument catServer 42).2

/-! ## Ordered containers -/

/-- The requirements of the standard on the comparison of a `std::map` or
`std::set`: a strict order in which distinct keys are comparable. -/
structure StdLessOrder (κ : Type) [StdLess κ] : Prop where
  irrefl : ∀ a : κ, StdLess.less a a = false
  trans : ∀ a b c : κ, StdLess.less a b = true → StdLess.less b c = true →
    StdLess.less a c = true
  total : ∀ a b : κ, a ≠ b → StdLess.less a b = false → StdLess.less b a = true

/-- The keys of the map are strictly ascending. -/
def StdMap.Sorted {κ ν : Type} [StdLess κ] (m : StdMap κ ν) : Prop :=
  (m.map Prod.fst).Pairwise (fun a b => StdLess.less a b = true)

/-- The elements of the set are strictly ascending. -/
def StdSet.Sorted {κ : Type} [StdLess κ] (s : StdSet κ) : Prop :=
  List.Pairwise (fun a b => StdLess.less a b = true) s

/-- The containers of the server are in the form the standard containers keep
them in: keys strictly ascending, and no word or document with an empty row. -/
structure Canonical (s : SearchServer) : Prop where
  inverted_sorted : StdMap.Sorted s.word_to_document_frequency_
  inverted_rows : ∀ e ∈ s.word_to_document_frequency_, StdMap.Sorted e.2 ∧ e.2 ≠ []
  forward_sorted : StdMap.Sorted s.doc_id_to_word_frequency_
  forward_rows : ∀ e ∈ s.doc_id_to_word_frequency_, StdMap.Sorted e.2 ∧ e.2 ≠ []
  data_sorted : StdMap.Sorted s.document_data_
  ids_sorted : StdSet.Sorted s.added_documents_

/-- The server of the unit tests after a call of `AddDocument` with an empty
ratings list. -/
def noRatingsServer : SearchServer :=
  (SearchServer.AddDocument SplitIntoWordsSpec emptyServer 1 "cat" DocumentStatus.ACTUAL []).2

/-- The server after a document with the ratings -7 and 2 has been added. -/
def negativeRatingServer : SearchServer :=
  (SearchServer.AddDocument SplitIntoWordsSpec emptyServer 3 "cat" DocumentStatus.ACTUAL
    [-7, 2]).2

/-- The known ids of the documents that pass the filter, have at least one
plus-word of the query and have none of its minus-words, in ascending order. -/
def SearchServer.matchingIds (s : SearchServer) (query : ProcessedQuery)
    (filtering_predicat : Int → DocumentStatus → Int → Bool) : List Int :=
  s.added_documents_.filter (fun document_id =>
    SearchServer.passes s filtering_predicat document_id &&
    query.plus_words.any
      (fun w => decide (StdMap.find2? s.word_to_document_frequency_ w document_id ≠ none)) &&
    query.minus_words.all
      (fun w => decide (StdMap.find2? s.word_to_document_frequency_ w document_id = none)))

/-- The server with the stop word "a-" after the document "cat a-" has been added. -/
def dashDocServer : SearchServer :=
  (SearchServer.AddDocument SplitIntoWordsSpec dashStopServer 1 "cat a-"
    DocumentStatus.ACTUAL [1]).2

/-- The characters of `n` copies of the word "y", each after a blank. -/
def repeatWord : Nat → List Char
  | 0 => []
  | n + 1 => ' ' :: 'y' :: repeatWord n

/-- The text "x y y ... y" with `n` copies of the word "y". -/
def longText (n : Nat) : String := String.mk ('x' :: repeatWord n)

/-- A server with two long documents that differ by one word, and a third document. -/
def tieServer : SearchServer :=
  (SearchServer.AddDocument SplitIntoWordsSpec
    (SearchServer.AddDocument SplitIntoWordsSpec
      (SearchServer.AddDocument SplitIntoWordsSpec emptyServer 1 (longText 999)
        DocumentStatus.ACTUAL [1]).2
      2 (longText 1000) DocumentStatus.ACTUAL [9]).2
    3 "z" DocumentStatus.ACTUAL [1]).2

/-! ## `RemoveDuplicates` (remove_duplicates.cpp) -/

/-- The order `operator<` of `std::set<std::string>`: lexicographic comparison of the
two ascending sequences of words. -/
def setLess : List String → List String → Bool
  | [], [] => false
  | [], _ :: _ => true
  | _ :: _, [] => false
  | a :: as, b :: bs =>
    if StdLess.less a b then true
    else if StdLess.less b a then false
    else setLess as bs

instance instStdLessStringSet : StdLess (StdSet String) := ⟨setLess⟩

/-- The set `doc_words` that `RemoveDuplicates` builds for a document: the keys of
`GetWordFrequencies(doc_id)`, inserted one by one. -/
def RemoveDuplicates_words (s : SearchServer) (doc_id : Int) : StdSet String :=
  (SearchServer.GetWordFrequencies s doc_id).foldl (fun doc_words entry =>
    StdSet.insert doc_words entry.1) []

/-- The first loop of `RemoveDuplicates`, over the ids still to be visited: the map
`words_to_id` and the vector `ids_of_duplicates` at the end. -/
def RemoveDuplicates_scan (s : SearchServer) :
    List Int → StdMap (StdSet String) Int → List Int → StdMap (StdSet String) Int × List Int
  | [], words_to_id, ids_of_duplicates => (words_to_id, ids_of_duplicates)
  | doc_id :: rest, words_to_id, ids_of_duplicates =>
    if StdMap.count words_to_id (RemoveDuplicates_words s doc_id) ≠ 0 then
      RemoveDuplicates_scan s rest words_to_id (ids_of_duplicates ++ [doc_id])
    else
      RemoveDuplicates_scan s rest
        (StdMap.set words_to_id (RemoveDuplicates_words s doc_id) doc_id) ids_of_duplicates

/-- The second loop of `RemoveDuplicates`; the argument is `ids_of_duplicates` read
from the back.  A throw of `RemoveDocument` ends the function. -/
def RemoveDuplicates_loop : List Int → SearchServer → Except Error Unit × SearchServer
  | [], s => (.ok (), s)
  | back :: rest, s =>
    match SearchServer.RemoveDocument s back with
    | (.error e, s₁) => (.error e, s₁)
    | (.ok (), s₁) => RemoveDuplicates_loop rest s₁

/-- `RemoveDuplicates`: the exception thrown, if any, and the state the server is
left in. -/
def RemoveDuplicates (s : SearchServer) : Except Error Unit × SearchServer :=
  RemoveDuplicates_loop (RemoveDuplicates_scan s s.added_documents_ [] []).2.reverse s

/-- The server of the unit test of `RemoveDuplicates`, with stop words "and", "with". -/
def duplicatesServer : SearchServer :=
  [((1 : Int), "funny pet and nasty rat", [(7 : Int), 2, 7]),
    (2, "funny pet with curly hair", [1, 2]),
    (3, "funny pet with curly hair", [1, 2]),
    (4, "funny pet and curly hair", [1, 2]),
    (5, "funny funny pet and nasty nasty rat", [1, 2]),
    (6, "funny pet and not very nasty rat", [1, 2]),
    (7, "very nasty rat and not very funny pet", [1, 2]),
    (8, "pet with rat and rat and rat", [1, 2]),
    (9, "nasty rat with curly hair", [1, 2])].foldl
    (fun server call =>
      (SearchServer.AddDocument SplitIntoWordsSpec server call.1 call.2.1
        DocumentStatus.ACTUAL call.2.2).2)
    { word_to_document_frequency_ := [], stop_words_ := ["and", "with"], document_data_ := [],
      added_documents_ := [], doc_id_to_word_frequency_ := [] }

/-! ## `Paginator` (paginator.h)

Iterators into the paginated container are positions `0 .. size`. -/

/-- The class template `IteratorRange`. -/
structure IteratorRange where
  begin_ : Nat
  end_ : Nat
deriving DecidableEq

/-- `IteratorRange::size`: `std::distance(begin_, end_)`. -/
def IteratorRange.size (range : IteratorRange) : Nat := range.end_ - range.begin_

/-- The elements `*it` of the container `c` for `it` from `begin()` to `end()` of the
range, as `operator<<` visits them. -/
def IteratorRange.elements {α : Type} (c : List α) (range : IteratorRange) : List α :=
  (c.drop range.begin_).take (range.end_ - range.begin_)

/-- The loop of the constructor of `Paginator` with `remaining` iterations to go, and the
`push_back` after it: the vector `page_ranges_`. -/
def Paginator_loop (begin_it end_it page_size : Nat) :
    Nat → Nat → Nat → List IteratorRange → List IteratorRange
  | 0, _, left_it, page_ranges => page_ranges ++ [⟨left_it, end_it⟩]
  | remaining + 1, doc_it, left_it, page_ranges =>
    if (doc_it - left_it) % page_size = 0 ∧ doc_it ≠ begin_it then
      Paginator_loop begin_it end_it page_size remaining (doc_it + 1) doc_it
        (page_ranges ++ [⟨left_it, doc_it⟩])
    else
      Paginator_loop begin_it end_it page_size remaining (doc_it + 1) left_it page_ranges

/-- The constructor `Paginator(begin, end, page_size)`: the pages it stores.  `none`
stands for undefined behaviour: `end` cannot be reached from `begin`, or the first
iteration divides by `page_size == 0`. -/
def Paginator (begin_it end_it page_size : Nat) : Option (List IteratorRange) :=
  if end_it < begin_it ∨ (page_size = 0 ∧ begin_it ≠ end_it) then none
  else some (Paginator_loop begin_it end_it page_size (end_it - begin_it) begin_it begin_it [])

/-- The function template `Paginate(c, page_size)`. -/
def Paginate {α : Type} (c : List α) (page_size : Nat) : Option (List IteratorRange) :=
  Paginator 0 c.length page_size

/-- Consecutive pages from position `left` to `end_it`: all but the last have `page_size`
elements, the last one has between `least` and `page_size` elements. -/
inductive PagesFrom (page_size end_it least : Nat) : Nat → List IteratorRange → Prop
  | last (left : Nat) : left + least ≤ end_it → end_it - left ≤ page_size →
      PagesFrom page_size end_it least left [⟨left, end_it⟩]
  | page (left : Nat) (rest : List IteratorRange) :
      PagesFrom page_size end_it least (left + page_size) rest →
      PagesFrom page_size end_it least left (⟨left, left + page_size⟩ :: rest)

/-! ## The password generator (rng.cpp, passgen.cpp)

Arrays are lists; `time(0)` is the parameter `seed`.  `none` stands for undefined
behaviour: an access outside an array, an allocation of a non-positive size that is
written to, or a division by zero. -/

/-- Two's-complement wrap of an `int64_t`. -/
def wrapInt64 (x : Int) : Int :=
  (x + 9223372036854775808) % 18446744073709551616 - 9223372036854775808

/-- The first loop of `RNG` with `count` cells to fill: `nums[i] = (nums[i-1]*a+b)%m`,
where `previous` is `seed` for the first cell. -/
def RNG_nums (a b m : Int) : Nat → Int → List Int
  | 0, _ => []
  | count + 1, previous =>
    (Int.tmod (wrapInt64 (wrapInt64 (previous * a) + b)) m) ::
      RNG_nums a b m count (Int.tmod (wrapInt64 (wrapInt64 (previous * a) + b)) m)

/-- The function `RNG`; `N` and `max_bound` are of type `int`. -/
def RNG (a b m seed : Int) (N max_bound : Int) : Option (List Int) :=
  if N ≤ 0 ∨ m = 0 ∨ max_bound = 0 then none
  else some ((RNG_nums a b m N.toNat seed).map (fun num => Int.tmod num max_bound))

/-- The last loop of `RNG_Upgrade`: `array4[i] = array1[array3[i]]`. -/
def RNG_Upgrade_pick (array1 : List Int) : List Int → Option (List Int)
  | [] => some []
  | index :: rest =>
    if 0 ≤ index then
      match array1[index.toNat]?, RNG_Upgrade_pick array1 rest with
      | some num, some nums => some (num :: nums)
      | _, _ => none
    else none

/-- The function `RNG_Upgrade`, for the value `seed` of `time(0)`.  The `int64_t`
constant `max_bound` is narrowed to the `int` parameter of `RNG`. -/
def RNG_Upgrade (seed : Int) (N : Int) : Option (List Int) :=
  let max_bound : Int := 10000000000000000
  match RNG 7141 54773 259200 seed (wrapInt32 (2 * N)) (wrapInt32 max_bound),
      RNG 8121 28411 134456 seed (wrapInt32 (2 * N)) (wrapInt32 max_bound) with
  | some array1, some array2 =>
    match RNG 8121 28411 134456 (Int.tmod seed 1000) N (wrapInt32 (2 * N)) with
    | some array3 =>
      RNG_Upgrade_pick
        (List.zipWith (fun num1 num2 => wrapInt64 (num1 + Int.tdiv num2 367)) array1 array2)
        array3
    | none => none
  | _, _ => none

/-- The loop of `main` in passgen.cpp for the input `N`: the values
`rng_nums[i] % 94 + 33` that are cast to `char` and printed. -/
def passgen_main (seed : Int) (N : Int) : Option (List Int) :=
  match RNG_Upgrade seed N with
  | some rng_nums => some (rng_nums.map (fun num => Int.tmod num 94 + 33))
  | none => none

/-! ## `SimpleVector` (simple_vector.h)

Iterators are positions in the array.  The algorithms `std::copy`, `std::move` and
`std::copy_backward` are modelled by the effect the standard gives them. -/

/-- Failures of the vector classes: the exception `std::out_of_range`, and undefined
behaviour (a failed `assert`, an access outside the array, an invalid iterator range). -/
inductive VectorError where
  | out_of_range
  | undefined
deriving DecidableEq

/-- The modulus of `size_t` arithmetic. -/
def SIZE_MODULUS : Nat := 18446744073709551616

/-- Modelled from the spec: `ArrayPtr<Type>` of array_ptr.h, whose definition is missing.
The specification treats the storage of the vectors as plain dynamic-array storage: the
owned array is the list of its cells. -/
abbrev ArrayPtr (α : Type) := List α

/-- Modelled from the spec: reading `ptr[index]`. -/
def ArrayPtr.read {α : Type} (ptr : ArrayPtr α) (index : Nat) : Except VectorError α :=
  match ptr[index]? with
  | some value => .ok value
  | none => .error VectorError.undefined

/-- Modelled from the spec: the assignment `ptr[index] = value`. -/
def ArrayPtr.write {α : Type} (ptr : ArrayPtr α) (index : Nat) (value : α) :
    Except VectorError (ArrayPtr α) :=
  if index < ptr.length then .ok (ptr.set index value) else .error VectorError.undefined

/-- `std::copy(first, last, d_first)` and `std::move(first, last, d_first)` from the
array `src` into the array `dest` (which may be the same array when `d_first` is not in
`[first, last)`): cell `d_first + k` gets the value of cell `first + k`; the result is
the destination and the iterator past the last cell written. -/
def stdCopy {α : Type} (src : List α) (first last : Nat) (dest : List α) (d_first : Nat) :
    Except VectorError (List α × Nat) :=
  if first ≤ last ∧ last ≤ src.length ∧ d_first + (last - first) ≤ dest.length then
    .ok (dest.take d_first ++ (src.drop first).take (last - first) ++
      dest.drop (d_first + (last - first)), d_first + (last - first))
  else .error VectorError.undefined

/-- `std::copy_backward(first, last, d_last)` and `std::move_backward` inside one array:
cell `d_last - k` gets the value of cell `last - k`; the result is the array and the
iterator to the last cell written.  The standard leaves the call undefined when
`[first, last)` is not a valid range or `d_last` is in `(first, last]`. -/
def stdCopyBackward {α : Type} (array : List α) (first last d_last : Nat) :
    Except VectorError (List α × Nat) :=
  if first ≤ last ∧ last ≤ array.length ∧ last - first ≤ d_last ∧ d_last ≤ array.length ∧
      ¬ (first < d_last ∧ d_last ≤ last) then
    .ok (array.take (d_last - (last - first)) ++ (array.drop first).take (last - first) ++
      array.drop d_last, d_last - (last - first))
  else .error VectorError.undefined

/-- The object a parameter of type `const Type&` is bound to: an object that is not a cell
of the array of the vector, with the value it holds, or the cell `index` of the array the
vector owns when the member function is called (as in `v.PushBack(v[0])`). -/
inductive Reference (α : Type) where
  | object (value : α)
  | cell (index : Nat)
deriving DecidableEq

/-- Reading through a reference: `array` is the array the vector owned when the member
function was called, in its present state, and `released` tells whether that array has
been released since.  A reference into a released array is dangling. -/
def Reference.read {α : Type} (r : Reference α) (array : ArrayPtr α) (released : Bool) :
    Except VectorError α :=
  match r with
  | .object value => .ok value
  | .cell index => if released then .error VectorError.undefined else ArrayPtr.read array index

/-- The data members of the class template `SimpleVector`. -/
structure SimpleVector (α : Type) where
  size_ : Nat
  capacity_ : Nat
  ptr_ : ArrayPtr α
deriving DecidableEq

namespace SimpleVector

variable {α : Type} [Inhabited α]

/-- The default constructor. -/
def New : SimpleVector α := ⟨0, 0, []⟩

/-- The constructor `SimpleVector(size_t size)`: an array of `size` cells, every one of
which is assigned `Type{}`. -/
def NewSized (size : Nat) : SimpleVector α := ⟨size, size, List.replicate size default⟩

/-- The constructor `SimpleVector(size_t size, const Type& value)`. -/
def NewFilled (size : Nat) (value : α) : SimpleVector α :=
  ⟨size, size, List.replicate size value⟩

/-- The constructor `SimpleVector(std::initializer_list<Type> init)`. -/
def NewFromList (init : List α) : SimpleVector α := ⟨init.length, init.length, init⟩

/-- `GetSize`. -/
def GetSize (v : SimpleVector α) : Nat := v.size_

/-- `GetCapacity`. -/
def GetCapacity (v : SimpleVector α) : Nat := v.capacity_

/-- The elements from `begin()` to `end()`. -/
def toList (v : SimpleVector α) : List α := v.ptr_.take v.size_

/-- `operator[]`, with its `assert(index < size_)`. -/
def Index (v : SimpleVector α) (index : Nat) : Except VectorError α :=
  if index < v.size_ then ArrayPtr.read v.ptr_ index else .error VectorError.undefined

/-- The assignment `v[index] = value` through the reference `operator[]` returns. -/
def Assign (v : SimpleVector α) (index : Nat) (value : α) :
    Except VectorError (SimpleVector α) :=
  if index < v.size_ then
    match ArrayPtr.write v.ptr_ index value with
    | .error e => .error e
    | .ok ptr => .ok { v with ptr_ := ptr }
  else .error VectorError.undefined

/-- `At`. -/
def At (v : SimpleVector α) (index : Nat) : Except VectorError α :=
  if index ≥ v.size_ then .error VectorError.out_of_range
  else ArrayPtr.read v.ptr_ index

/-- `Clear`. -/
def Clear (v : SimpleVector α) : SimpleVector α := { v with size_ := 0 }

/-- `Resize`.  The inner call `temp.Resize(new_size)` only sets the size of `temp`,
since `new_size` is not greater than the capacity `new_capacity` of `temp`. -/
def Resize (v : SimpleVector α) (new_size : Nat) : Except VectorError (SimpleVector α) :=
  if new_size > v.capacity_ then
    let new_capacity := max (v.capacity_ * 2 % SIZE_MODULUS) new_size
    let temp : SimpleVector α := { (NewSized new_capacity : SimpleVector α) with size_ := new_size }
    match stdCopy v.ptr_ 0 v.size_ temp.ptr_ 0 with
    | .error e => .error e
    | .ok (ptr, _) => .ok ⟨temp.size_, temp.capacity_, ptr⟩
  else .ok { v with size_ := new_size }

/-- `PushBack(const Type& item)`.  On a full vector `item` is read after `Resize` has
returned: when `Resize` has moved the elements to a new array, the array the vector owned
before has been released with `temp`. -/
def PushBack (v : SimpleVector α) (item : Reference α) : Except VectorError (SimpleVector α) :=
  if v.size_ = v.capacity_ then
    match Resize v ((v.size_ + 1) % SIZE_MODULUS) with
    | .error e => .error e
    | .ok v₁ =>
      match Reference.read item v₁.ptr_ (decide ((v.size_ + 1) % SIZE_MODULUS > v.capacity_)) with
      | .error e => .error e
      | .ok value =>
        match ArrayPtr.write v₁.ptr_ ((v₁.size_ + SIZE_MODULUS - 1) % SIZE_MODULUS) value with
        | .error e => .error e
        | .ok ptr => .ok { v₁ with ptr_ := ptr }
  else
    match Reference.read item v.ptr_ false with
    | .error e => .error e
    | .ok value =>
      match ArrayPtr.write v.ptr_ v.size_ value with
      | .error e => .error e
      | .ok ptr => .ok ⟨(v.size_ + 1) % SIZE_MODULUS, v.capacity_, ptr⟩

/-- `Insert(pos, const Type& value)`: the vector afterwards and the iterator returned.  On
a full vector `value` is read while the vector still owns its array, which the copies have
not changed; otherwise it is read after `std::copy_backward` has shifted the cells of the
array. -/
def Insert (v : SimpleVector α) (pos : Nat) (value : Reference α) :
    Except VectorError (SimpleVector α × Nat) :=
  if ¬ pos ≤ v.size_ then .error VectorError.undefined
  else if v.size_ = v.capacity_ then
    let new_capacity := max (v.capacity_ * 2 % SIZE_MODULUS) ((v.size_ + 1) % SIZE_MODULUS)
    match Resize (NewSized new_capacity : SimpleVector α) ((v.size_ + 1) % SIZE_MODULUS) with
    | .error e => .error e
    | .ok temp =>
      match stdCopy v.ptr_ 0 pos temp.ptr_ 0 with
      | .error e => .error e
      | .ok (ptr₁, paste_it) =>
        match Reference.read value v.ptr_ false with
        | .error e => .error e
        | .ok value₁ =>
          match ArrayPtr.write ptr₁ paste_it value₁ with
          | .error e => .error e
          | .ok ptr₂ =>
            match stdCopy v.ptr_ pos v.size_ ptr₂ (paste_it + 1) with
            | .error e => .error e
            | .ok (ptr₃, _) => .ok (⟨temp.size_, temp.capacity_, ptr₃⟩, paste_it)
  else
    let size₁ := (v.size_ + 1) % SIZE_MODULUS
    match stdCopyBackward v.ptr_ pos ((size₁ + SIZE_MODULUS - 1) % SIZE_MODULUS) size₁ with
    | .error e => .error e
    | .ok (ptr₁, _) =>
      match Reference.read value ptr₁ false with
      | .error e => .error e
      | .ok value₁ =>
        match ArrayPtr.write ptr₁ pos value₁ with
        | .error e => .error e
        | .ok ptr₂ => .ok (⟨size₁, v.capacity_, ptr₂⟩, pos)

/-- `PopBack`, with its `assert(!IsEmpty())`. -/
def PopBack (v : SimpleVector α) : Except VectorError (SimpleVector α) :=
  if v.size_ = 0 then .error VectorError.undefined
  else .ok { v with size_ := v.size_ - 1 }

/-- `Erase(pos)`: the vector afterwards and the iterator returned. -/
def Erase (v : SimpleVector α) (pos : Nat) : Except VectorError (SimpleVector α × Nat) :=
  if ¬ pos < v.size_ then .error VectorError.undefined
  else
    match stdCopy v.ptr_ (pos + 1) v.size_ v.ptr_ pos with
    | .error e => .error e
    | .ok (ptr, _) => .ok (⟨v.size_ - 1, v.capacity_, ptr⟩, pos)

/-- `Reserve`. -/
def Reserve (v : SimpleVector α) (new_capacity : Nat) : Except VectorError (SimpleVector α) :=
  if new_capacity > v.capacity_ then
    match Resize (NewSized new_capacity : SimpleVector α) v.size_ with
    | .error e => .error e
    | .ok temp =>
      match stdCopy v.ptr_ 0 v.size_ temp.ptr_ 0 with
      | .error e => .error e
      | .ok (ptr, _) => .ok ⟨temp.size_, temp.capacity_, ptr⟩
  else .ok v

/-- The vectors a program can build: constructed, then changed by member functions that
returned. -/
inductive Reachable : SimpleVector α → Prop
  | new : Reachable New
  | newSized (size : Nat) : Reachable (NewSized size)
  | newFilled (size : Nat) (value : α) : Reachable (NewFilled size value)
  | newFromList (init : List α) : Reachable (NewFromList init)
  | assign (v v₁ : SimpleVector α) (index : Nat) (value : α) :
      Reachable v → Assign v index value = .ok v₁ → Reachable v₁
  | reserve (v v₁ : SimpleVector α) (new_capacity : Nat) :
      Reachable v → Reserve v new_capacity = .ok v₁ → Reachable v₁
  | clear (v : SimpleVector α) : Reachable v → Reachable (Clear v)
  | resize (v v₁ : SimpleVector α) (new_size : Nat) :
      Reachable v → Resize v new_size = .ok v₁ → Reachable v₁
  | pushBack (v v₁ : SimpleVector α) (item : Reference α) :
      Reachable v → PushBack v item = .ok v₁ → Reachable v₁
  | insert (v v₁ : SimpleVector α) (pos it : Nat) (value : Reference α) :
      Reachable v → Insert v pos value = .ok (v₁, it) → Reachable v₁
  | popBack (v v₁ : SimpleVector α) : Reachable v → PopBack v = .ok v₁ → Reachable v₁
  | erase (v v₁ : SimpleVector α) (pos it : Nat) :
      Reachable v → Erase v pos = .ok (v₁, it) → Reachable v₁

/-- The class invariant: the array has `capacity_` cells, of which `size_` are in use. -/
structure WellFormed (v : SimpleVector α) : Prop where
  array : v.ptr_.length = v.capacity_
  size : v.size_ ≤ v.capacity_

end SimpleVector

/-! ## `Vector` (advanced-vector/vector.h)

The buffer of a `RawMemory` is the list of its cells; a cell of raw memory in which no
object has been constructed is `none`.  Iterators are positions in the buffer. -/

namespace AdvancedVector

/-- The data members of the class template `RawMemory`. -/
structure RawMemory (α : Type) where
  buffer_ : List (Option α)
  capacity_ : Nat
deriving DecidableEq

/-- The constructor `RawMemory(capacity)`: `Allocate(capacity)` returns raw memory. -/
def RawMemory.New {α : Type} (capacity : Nat) : RawMemory α :=
  ⟨List.replicate capacity none, capacity⟩

/-- The placement `new (buffer + index) T(value)`, and the assignment
`*(buffer + index) = value`: the cell holds `value` afterwards. -/
def RawMemory.store {α : Type} (cells : List (Option α)) (index : Nat) (value : α) :
    Except VectorError (List (Option α)) :=
  if index < cells.length then .ok (cells.set index (some value))
  else .error VectorError.undefined

/-- Reading the object `*(buffer + index)`. -/
def RawMemory.load {α : Type} (cells : List (Option α)) (index : Nat) :
    Except VectorError α :=
  match cells[index]? with
  | some (some value) => .ok value
  | _ => .error VectorError.undefined

/-- The data members of the class template `Vector`. -/
structure Vector (α : Type) where
  data_ : RawMemory α
  size_ : Nat
deriving DecidableEq

namespace Vector

variable {α : Type}

/-- The default constructor. -/
def New : Vector α := ⟨⟨[], 0⟩, 0⟩

/-- `Size`. -/
def Size (v : Vector α) : Nat := v.size_

/-- `Capacity`. -/
def Capacity (v : Vector α) : Nat := v.data_.capacity_

/-- The cells from `begin()` to `end()`. -/
def toList (v : Vector α) : List (Option α) := v.data_.buffer_.take v.size_

/-- `FullCopyOrMoveToNewDestination(dest, src, old_size)`: the buffer `src` holds after
the call, that is, `dest` with the first `old_size` objects of `src` moved into it. -/
def FullCopyOrMoveToNewDestination (dest src : RawMemory α) (old_size : Nat) :
    Except VectorError (RawMemory α) :=
  match stdCopy src.buffer_ 0 old_size dest.buffer_ 0 with
  | .error e => .error e
  | .ok (cells, _) => .ok ⟨cells, dest.capacity_⟩

/-- `Reserve`. -/
def Reserve (v : Vector α) (new_capacity : Nat) : Except VectorError (Vector α) :=
  if new_capacity ≤ Capacity v then .ok v
  else
    match FullCopyOrMoveToNewDestination (RawMemory.New new_capacity) v.data_ v.size_ with
    | .error e => .error e
    | .ok data => .ok ⟨data, v.size_⟩

/-- `EmplaceBack` with one constructor argument, which `PushBack` calls. -/
def EmplaceBack (v : Vector α) (value : α) : Except VectorError (Vector α) :=
  if v.size_ = Capacity v then
    let new_data : RawMemory α :=
      RawMemory.New (if v.size_ = 0 then 1 else v.size_ * 2 % SIZE_MODULUS)
    match RawMemory.store new_data.buffer_ v.size_ value with
    | .error e => .error e
    | .ok cells =>
      match FullCopyOrMoveToNewDestination ⟨cells, new_data.capacity_⟩ v.data_ v.size_ with
      | .error e => .error e
      | .ok data => .ok ⟨data, (v.size_ + 1) % SIZE_MODULUS⟩
  else
    match RawMemory.store v.data_.buffer_ v.size_ value with
    | .error e => .error e
    | .ok cells => .ok ⟨⟨cells, v.data_.capacity_⟩, (v.size_ + 1) % SIZE_MODULUS⟩

/-- `Emplace(pos, value)` with one constructor argument, which `Insert` calls: the
vector afterwards and the iterator returned. -/
def Emplace (v : Vector α) (pos : Nat) (value : α) : Except VectorError (Vector α × Nat) :=
  if v.size_ = Capacity v then
    let new_data : RawMemory α :=
      RawMemory.New (if v.size_ = 0 then 1 else v.size_ * 2 % SIZE_MODULUS)
    let offset := pos
    match RawMemory.store new_data.buffer_ offset value with
    | .error e => .error e
    | .ok cells₁ =>
      match stdCopy v.data_.buffer_ 0 offset cells₁ 0 with
      | .error e => .error e
      | .ok (cells₂, _) =>
        match stdCopy v.data_.buffer_ offset
            (offset + (v.size_ + SIZE_MODULUS - offset) % SIZE_MODULUS) cells₂ (offset + 1) with
        | .error e => .error e
        | .ok (cells₃, _) =>
          .ok (⟨⟨cells₃, new_data.capacity_⟩, (v.size_ + 1) % SIZE_MODULUS⟩, offset)
  else if v.size_ = 0 then
    match RawMemory.store v.data_.buffer_ v.size_ value with
    | .error e => .error e
    | .ok cells => .ok (⟨⟨cells, v.data_.capacity_⟩, (v.size_ + 1) % SIZE_MODULUS⟩, v.size_)
  else
    match RawMemory.load v.data_.buffer_ (v.size_ - 1) with
    | .error e => .error e
    | .ok last =>
      match RawMemory.store v.data_.buffer_ v.size_ last with
      | .error e => .error e
      | .ok cells₁ =>
        match stdCopyBackward cells₁ pos (v.size_ - 1) v.size_ with
        | .error e => .error e
        | .ok (cells₂, it) =>
          if it = 0 then .error VectorError.undefined
          else
            match RawMemory.store cells₂ (it - 1) value with
            | .error e => .error e
            | .ok cells₃ =>
              .ok (⟨⟨cells₃, v.data_.capacity_⟩, (v.size_ + 1) % SIZE_MODULUS⟩, it - 1)

/-- `Insert(pos, value)`. -/
def Insert (v : Vector α) (pos : Nat) (value : α) : Except VectorError (Vector α × Nat) :=
  Emplace v pos value

/-- The vectors a program can build: constructed, then changed by member functions that
returned. -/
inductive Reachable : Vector α → Prop
  | new : Reachable New
  | reserve (v v₁ : Vector α) (new_capacity : Nat) :
      Reachable v → Reserve v new_capacity = .ok v₁ → Reachable v₁
  | emplaceBack (v v₁ : Vector α) (value : α) :
      Reachable v → EmplaceBack v value = .ok v₁ → Reachable v₁
  | emplace (v v₁ : Vector α) (pos it : Nat) (value : α) :
      Reachable v → Emplace v pos value = .ok (v₁, it) → Reachable v₁

end Vector

end AdvancedVector

/-! ## Facts about the container model -/

set_option linter.unusedSectionVars false

namespace StdMap

variable {κ ν : Type} [DecidableEq κ] [StdLess κ]

theorem find?_replace (k : κ) (v : ν) (m : StdMap κ ν) (k' : κ) (h : find? m k ≠ none) :
    find? (replace k v m) k' = if k' = k then some v else find? m k' := by
  induction m with
  | nil => simp [find?] at h
  | cons e rest ih =>
    obtain ⟨k₀, v₀⟩ := e
    by_cases h0 : k₀ = k
    · subst h0
      by_cases h1 : k' = k₀
      · subst h1; simp [replace, find?]
      · have h2 : ¬ k₀ = k' := fun h => h1 h.symm
        simp [replace, find?, h1, h2]
    · have hrest : find? rest k ≠ none := by simpa [find?, h0] using h
      by_cases h1 : k' = k
      · subst h1
        simp [replace, find?, h0, ih hrest]
      · by_cases h2 : k₀ = k'
        · simp [replace, find?, h0, h1, h2]
        · simp [replace, find?, h0, h1, h2, ih hrest]

theorem find?_insertNew (k : κ) (v : ν) (m : StdMap κ ν) (k' : κ) (h : find? m k = none) :
    find? (insertNew k v m) k' = if k' = k then some v else find? m k' := by
  induction m with
  | nil =>
    by_cases h1 : k' = k
    · subst h1; simp [insertNew, find?]
    · have h2 : ¬ k = k' := fun h => h1 h.symm
      simp [insertNew, find?, h1, h2]
  | cons e rest ih =>
    obtain ⟨k₀, v₀⟩ := e
    have h0 : ¬ k₀ = k := by
      intro h0; simp [find?, h0] at h
    have hrest : find? rest k = none := by simpa [find?, h0] using h
    by_cases hl : StdLess.less k k₀ = true
    · by_cases h1 : k' = k
      · subst h1; simp [insertNew, find?, hl]
      · have h2 : ¬ k = k' := fun h => h1 h.symm
        simp [insertNew, find?, hl, h1, h2]
    · by_cases h1 : k' = k
      · subst h1; simp [insertNew, find?, hl, h0, ih hrest]
      · by_cases h2 : k₀ = k'
        · subst h2; simp [insertNew, find?, hl, h0]
        · simp [insertNew, find?, hl, h1, h2, ih hrest]

theorem find?_set (m : StdMap κ ν) (k : κ) (v : ν) (k' : κ) :
    find? (set m k v) k' = if k' = k then some v else find? m k' := by
  unfold set
  cases h : find? m k with
  | none => simpa using find?_insertNew k v m k' h
  | some v₀ => simpa using find?_replace k v m k' (by simp [h])

theorem find?_erase (m : StdMap κ ν) (k k' : κ) :
    find? (erase m k) k' = if k' = k then none else find? m k' := by
  induction m with
  | nil => simp [erase, find?]
  | cons e rest ih =>
    obtain ⟨k₀, v₀⟩ := e
    unfold erase at ih ⊢
    by_cases h0 : k₀ = k
    · subst h0
      by_cases h1 : k' = k₀
      · subst h1; simpa [List.filter, find?] using ih
      · have h2 : ¬ k₀ = k' := fun h => h1 h.symm
        simpa [List.filter, find?, h1, h2] using ih
    · by_cases h1 : k' = k
      · subst h1; simpa [List.filter, find?, h0] using ih
      · by_cases h2 : k₀ = k'
        · simp [List.filter, find?, h0, h1, h2]
        · simpa [List.filter, find?, h0, h1, h2] using ih

theorem find?_isSome_iff_mem_keys (m : StdMap κ ν) (k : κ) :
    (find? m k).isSome = true ↔ k ∈ keys m := by
  induction m with
  | nil => simp [find?, keys]
  | cons e rest ih =>
    obtain ⟨k₀, v₀⟩ := e
    by_cases h0 : k₀ = k
    · simp [find?, keys, h0]
    · have h1 : ¬ k = k₀ := fun h => h0 h.symm
      simpa [find?, keys, h0, h1] using ih

theorem find?_eq_none_iff (m : StdMap κ ν) (k : κ) : find? m k = none ↔ k ∉ keys m := by
  rw [← find?_isSome_iff_mem_keys]
  cases find? m k <;> simp

theorem find?_of_mem {m : StdMap κ ν} (hm : (keys m).Nodup) {k : κ} {v : ν}
    (h : (k, v) ∈ m) : find? m k = some v := by
  induction m with
  | nil => simp at h
  | cons e rest ih =>
    obtain ⟨k₀, v₀⟩ := e
    simp only [keys, List.map_cons, List.nodup_cons] at hm
    rcases List.mem_cons.mp h with h1 | h1
    · cases h1; simp [find?]
    · have hk : k ∈ keys rest := List.mem_map.mpr ⟨(k, v), h1, rfl⟩
      have h0 : ¬ k₀ = k := fun h0 => hm.1 (by rw [h0]; exact hk)
      simpa [find?, h0] using ih hm.2 h1

theorem mem_of_find? {m : StdMap κ ν} {k : κ} {v : ν} (h : find? m k = some v) :
    (k, v) ∈ m := by
  induction m with
  | nil => simp [find?] at h
  | cons e rest ih =>
    obtain ⟨k₀, v₀⟩ := e
    by_cases h0 : k₀ = k
    · simp [find?, h0] at h; simp [h0, h]
    · simp [find?, h0] at h; exact List.mem_cons_of_mem _ (ih h)

theorem keys_replace (k : κ) (v : ν) (m : StdMap κ ν) : keys (replace k v m) = keys m := by
  induction m with
  | nil => rfl
  | cons e rest ih =>
    obtain ⟨k₀, v₀⟩ := e
    by_cases h0 : k₀ = k
    · simp [replace, keys, h0]
    · simpa [replace, keys, h0] using ih

theorem keys_insertNew_perm (k : κ) (v : ν) (m : StdMap κ ν) :
    (keys (insertNew k v m)).Perm (k :: keys m) := by
  induction m with
  | nil => simp [insertNew, keys]
  | cons e rest ih =>
    obtain ⟨k₀, v₀⟩ := e
    by_cases hl : StdLess.less k k₀ = true
    · simp [insertNew, keys, hl]
    · simp only [insertNew, hl, keys, List.map_cons]
      exact ((List.Perm.cons k₀ ih).trans (List.Perm.swap k k₀ _))

theorem nodup_keys_set {m : StdMap κ ν} (hm : (keys m).Nodup) (k : κ) (v : ν) :
    (keys (set m k v)).Nodup := by
  unfold set
  cases h : find? m k with
  | none =>
    have hk : k ∉ keys m := (find?_eq_none_iff m k).mp h
    exact (keys_insertNew_perm k v m).nodup_iff.mpr (List.nodup_cons.mpr ⟨hk, hm⟩)
  | some v₀ => simpa [keys_replace] using hm

theorem keys_erase_sublist (m : StdMap κ ν) (k : κ) : (keys (erase m k)).Sublist (keys m) := by
  unfold erase keys
  exact (List.filter_sublist m).map _

theorem nodup_keys_erase {m : StdMap κ ν} (hm : (keys m).Nodup) (k : κ) :
    (keys (erase m k)).Nodup :=
  hm.sublist (keys_erase_sublist m k)

theorem mem_keys_set (m : StdMap κ ν) (k : κ) (v : ν) (k' : κ) :
    k' ∈ keys (set m k v) ↔ k' = k ∨ k' ∈ keys m := by
  rw [← find?_isSome_iff_mem_keys, ← find?_isSome_iff_mem_keys, find?_set]
  by_cases h : k' = k <;> simp [h]

theorem mem_keys_erase (m : StdMap κ ν) (k k' : κ) :
    k' ∈ keys (erase m k) ↔ k' ≠ k ∧ k' ∈ keys m := by
  rw [← find?_isSome_iff_mem_keys, ← find?_isSome_iff_mem_keys, find?_erase]
  by_cases h : k' = k <;> simp [h]

end StdMap

namespace StdSet

variable {κ : Type} [DecidableEq κ] [StdLess κ]

theorem insertNew_perm (k : κ) (s : StdSet κ) : (insertNew k s).Perm (k :: s) := by
  induction s with
  | nil => simp [insertNew]
  | cons k₀ rest ih =>
    by_cases hl : StdLess.less k k₀ = true
    · simp [insertNew, hl]
    · simp only [insertNew, hl]
      exact ((List.Perm.cons k₀ ih).trans (List.Perm.swap k k₀ _))

theorem mem_insert (s : StdSet κ) (k k' : κ) : k' ∈ insert s k ↔ k' = k ∨ k' ∈ s := by
  unfold insert
  by_cases h : k ∈ s
  · simp only [h, if_true]
    constructor
    · exact Or.inr
    · rintro (h1 | h1)
      · rw [h1]; exact h
      · exact h1
  · simp only [h, if_false]
    rw [(insertNew_perm k s).mem_iff, List.mem_cons]

theorem nodup_insert {s : StdSet κ} (hs : s.Nodup) (k : κ) : (insert s k).Nodup := by
  unfold insert
  by_cases h : k ∈ s
  · simpa [h] using hs
  · simp only [h, if_false]
    exact (insertNew_perm k s).nodup_iff.mpr (List.nodup_cons.mpr ⟨h, hs⟩)

theorem mem_erase (s : StdSet κ) (k k' : κ) : k' ∈ erase s k ↔ k' ≠ k ∧ k' ∈ s := by
  unfold erase
  simp [List.mem_filter, and_comm]

end StdSet

namespace StdMap

variable {κ ν : Type} [DecidableEq κ] [StdLess κ]

theorem find2?_set_row {κ₂ : Type} [DecidableEq κ₂] (index : StdMap κ (StdMap κ₂ ν)) (a : κ)
    (row : StdMap κ₂ ν) (a' : κ) (b' : κ₂) :
    find2? (set index a row) a' b' = if a' = a then find? row b' else find2? index a' b' := by
  unfold find2?
  rw [find?_set]
  by_cases h : a' = a <;> simp [h]

theorem find2?_erase_row {κ₂ : Type} [DecidableEq κ₂] (index : StdMap κ (StdMap κ₂ ν)) (a : κ)
    (a' : κ) (b' : κ₂) :
    find2? (erase index a) a' b' = if a' = a then none else find2? index a' b' := by
  unfold find2?
  rw [find?_erase]
  by_cases h : a' = a <;> simp [h]

theorem find?_getD_nil {κ₂ : Type} [DecidableEq κ₂] (index : StdMap κ (StdMap κ₂ ν)) (a : κ)
    (b : κ₂) : find? (getD index a []) b = find2? index a b := by
  unfold getD find2?
  cases find? index a <;> simp [find?]

theorem getD_eq (m : StdMap κ ν) (k : κ) (d : ν) : getD m k d = (find? m k).getD d := by
  unfold getD
  cases find? m k <;> rfl

end StdMap

namespace SearchServer

open StdMap

theorem find2?_addFrequency {κ₁ κ₂ : Type} [DecidableEq κ₁] [StdLess κ₁] [DecidableEq κ₂]
    [StdLess κ₂] (index : StdMap κ₁ (StdMap κ₂ ℚ)) (a : κ₁) (b : κ₂) (x : ℚ) (a' : κ₁) (b' : κ₂) :
    find2? (addFrequency index a b x) a' b' =
      if a' = a ∧ b' = b then some ((find2? index a b).getD 0 + x) else find2? index a' b' := by
  unfold addFrequency
  simp only []
  rw [find2?_set_row, find?_set, find?_getD_nil, getD_eq, find?_getD_nil]
  by_cases h1 : a' = a
  · subst h1
    by_cases h2 : b' = b <;> simp [h2]
  · simp [h1]

theorem rows_nodup_addFrequency {κ₁ κ₂ : Type} [DecidableEq κ₁] [StdLess κ₁] [DecidableEq κ₂]
    [StdLess κ₂] (index : StdMap κ₁ (StdMap κ₂ ℚ)) (a : κ₁) (b : κ₂) (x : ℚ)
    (h : ∀ a' row, find? index a' = some row → (keys row).Nodup) :
    ∀ a' row, find? (addFrequency index a b x) a' = some row → (keys row).Nodup := by
  intro a' row hrow
  unfold addFrequency at hrow
  simp only [] at hrow
  rw [find?_set] at hrow
  by_cases h1 : a' = a
  · simp only [h1, if_true, Option.some.injEq] at hrow
    rw [← hrow]
    apply nodup_keys_set
    unfold getD
    cases hf : find? index a with
    | none => simp [keys]
    | some r => exact h a r hf
  · simp only [h1, if_false] at hrow
    exact h a' row hrow

end SearchServer

namespace SearchServer

open StdMap

/-! ### `AddDocument` -/

theorem AddDocument_loop_fields (size : Nat) (document_id : Int) (words : List String)
    (s : SearchServer) :
    (AddDocument_loop size document_id words s).2.document_data_ = s.document_data_ ∧
    (AddDocument_loop size document_id words s).2.added_documents_ = s.added_documents_ ∧
    (AddDocument_loop size document_id words s).2.stop_words_ = s.stop_words_ := by
  induction words generalizing s with
  | nil => simp [AddDocument_loop]
  | cons word rest ih =>
    unfold AddDocument_loop
    by_cases hv : IsValidWord word = true
    · simp only [hv, Bool.not_true, Bool.false_eq_true, if_false]
      exact ih _
    · simp [hv]

theorem AddDocument_loop_result (size : Nat) (document_id : Int) (words : List String)
    (s : SearchServer) :
    (AddDocument_loop size document_id words s).1 =
      if words.all IsValidWord then .ok () else .error Error.invalid_argument := by
  induction words generalizing s with
  | nil => simp [AddDocument_loop]
  | cons word rest ih =>
    unfold AddDocument_loop
    by_cases hv : IsValidWord word = true
    · simp only [hv, Bool.not_true, Bool.false_eq_true, if_false, List.all_cons, Bool.true_and]
      exact ih _
    · simp [hv]

theorem indexConsistent_step (s : SearchServer) (h : IndexConsistent s) (word : String)
    (document_id : Int) (x : ℚ) :
    IndexConsistent
      { s with
        word_to_document_frequency_ :=
          addFrequency s.word_to_document_frequency_ word document_id x,
        doc_id_to_word_frequency_ :=
          addFrequency s.doc_id_to_word_frequency_ document_id word x } := by
  refine ⟨?_, ?_, ?_⟩
  · intro w d
    simp only [find2?_addFrequency]
    rw [h.sync w d, h.sync word document_id]
    by_cases h1 : w = word <;> by_cases h2 : d = document_id <;> simp [h1, h2]
  · exact rows_nodup_addFrequency _ _ _ _ h.forward_rows
  · exact rows_nodup_addFrequency _ _ _ _ h.inverted_rows

theorem AddDocument_loop_indexConsistent (size : Nat) (document_id : Int) (words : List String)
    (s : SearchServer) (h : IndexConsistent s) :
    IndexConsistent (AddDocument_loop size document_id words s).2 := by
  induction words generalizing s with
  | nil => simpa [AddDocument_loop] using h
  | cons word rest ih =>
    unfold AddDocument_loop
    by_cases hv : IsValidWord word = true
    · simp only [hv, Bool.not_true, Bool.false_eq_true, if_false]
      exact ih _ (indexConsistent_step s h word document_id _)
    · simpa [hv] using h

theorem AddDocument_loop_forward (size : Nat) (document_id : Int) (words : List String)
    (s : SearchServer) (hvalid : words.all IsValidWord = true) (d : Int) (w : String) :
    find2? (AddDocument_loop size document_id words s).2.doc_id_to_word_frequency_ d w =
      if d = document_id ∧ w ∈ words then
        some ((find2? s.doc_id_to_word_frequency_ document_id w).getD 0 +
          (words.count w : ℚ) * (1 / (size : ℚ)))
      else find2? s.doc_id_to_word_frequency_ d w := by
  induction words generalizing s with
  | nil => simp [AddDocument_loop]
  | cons word rest ih =>
    simp only [List.all_cons, Bool.and_eq_true] at hvalid
    unfold AddDocument_loop
    simp only [hvalid.1, Bool.not_true, Bool.false_eq_true, if_false]
    rw [ih _ hvalid.2]
    simp only [find2?_addFrequency]
    by_cases hd : d = document_id
    · subst hd
      by_cases hw : w = word
      · subst hw
        by_cases hr : w ∈ rest
        · simp [hr]; ring
        · simp [hr, List.count_eq_zero_of_not_mem hr]
      · have hw2 : ¬ word = w := fun h => hw h.symm
        by_cases hr : w ∈ rest
        · simp [hr, hw, hw2, List.count_cons]
        · simp [hr, hw, hw2]
    · simp [hd]

theorem AddDocument_loop_forward_keys (size : Nat) (document_id : Int) (words : List String)
    (s : SearchServer) (d : Int)
    (h : d ∈ keys (AddDocument_loop size document_id words s).2.doc_id_to_word_frequency_) :
    d = document_id ∨ d ∈ keys s.doc_id_to_word_frequency_ := by
  induction words generalizing s with
  | nil => right; simpa [AddDocument_loop] using h
  | cons word rest ih =>
    unfold AddDocument_loop at h
    by_cases hv : IsValidWord word = true
    · simp only [hv, Bool.not_true, Bool.false_eq_true, if_false] at h
      rcases ih _ h with h1 | h1
      · exact Or.inl h1
      · unfold addFrequency at h1
        simp only [] at h1
        exact (mem_keys_set _ _ _ _).mp h1
    · right; simpa [hv] using h

/-- The outcome of `AddDocument`, case by case. -/
theorem AddDocument_cases (SplitIntoWords : String → List String) (s : SearchServer)
    (document_id : Int) (document : String) (status : DocumentStatus) (ratings : List Int) :
    (document_id < 0 ∨ count s.document_data_ document_id = 1) ∧
        AddDocument SplitIntoWords s document_id document status ratings =
          (.error Error.invalid_argument, s) ∨
    (¬ (document_id < 0 ∨ count s.document_data_ document_id = 1) ∧
      (SplitIntoWordsNoStop SplitIntoWords s document).all IsValidWord = false ∧
        AddDocument SplitIntoWords s document_id document status ratings =
          (.error Error.invalid_argument,
            (AddDocument_loop (SplitIntoWordsNoStop SplitIntoWords s document).length document_id
              (SplitIntoWordsNoStop SplitIntoWords s document) s).2)) ∨
    (¬ (document_id < 0 ∨ count s.document_data_ document_id = 1) ∧
      (SplitIntoWordsNoStop SplitIntoWords s document).all IsValidWord = true ∧
      ratings = [] ∧
        AddDocument SplitIntoWords s document_id document status ratings =
          (.error Error.division_by_zero,
            (AddDocument_loop (SplitIntoWordsNoStop SplitIntoWords s document).length document_id
              (SplitIntoWordsNoStop SplitIntoWords s document) s).2)) ∨
    (¬ (document_id < 0 ∨ count s.document_data_ document_id = 1) ∧
      (SplitIntoWordsNoStop SplitIntoWords s document).all IsValidWord = true ∧
      ∃ rating, ComputeAverageRating ratings = some rating ∧ ratings ≠ [] ∧
        AddDocument SplitIntoWords s document_id document status ratings =
          (.ok (),
            { (AddDocument_loop (SplitIntoWordsNoStop SplitIntoWords s document).length
                document_id (SplitIntoWordsNoStop SplitIntoWords s document) s).2 with
              document_data_ := StdMap.set s.document_data_ document_id ⟨rating, status⟩,
              added_documents_ := StdSet.insert s.added_documents_ document_id })) := by
  by_cases hid : document_id < 0 ∨ count s.document_data_ document_id = 1
  · left
    exact ⟨hid, by simp [AddDocument, hid]⟩
  · right
    have hres := AddDocument_loop_result (SplitIntoWordsNoStop SplitIntoWords s document).length
      document_id (SplitIntoWordsNoStop SplitIntoWords s document) s
    have hf := AddDocument_loop_fields (SplitIntoWordsNoStop SplitIntoWords s document).length
      document_id (SplitIntoWordsNoStop SplitIntoWords s document) s
    generalize hL : AddDocument_loop (SplitIntoWordsNoStop SplitIntoWords s document).length
      document_id (SplitIntoWordsNoStop SplitIntoWords s document) s = L at hres hf
    obtain ⟨r, s₁⟩ := L
    simp only at hres hf
    cases hv : (SplitIntoWordsNoStop SplitIntoWords s document).all IsValidWord with
    | false =>
      left
      refine ⟨hid, rfl, ?_⟩
      rw [hv] at hres
      simp only [Bool.false_eq_true, if_false] at hres
      subst hres
      simp [AddDocument, hid, hL]
    | true =>
      right
      rw [hv] at hres
      simp only [if_true] at hres
      subst hres
      cases ratings with
      | nil =>
        left
        refine ⟨hid, rfl, rfl, ?_⟩
        simp [AddDocument, hid, hL, ComputeAverageRating]
      | cons r rs =>
        right
        refine ⟨hid, rfl, ?_⟩
        refine ⟨_, rfl, by simp, ?_⟩
        simp [AddDocument, hid, hL, ComputeAverageRating, hf.1, hf.2.1]

end SearchServer

namespace SearchServer

open StdMap

theorem AddDocument_consistent (SplitIntoWords : String → List String) (s : SearchServer)
    (document_id : Int) (document : String) (status : DocumentStatus) (ratings : List Int)
    (h : Consistent s) :
    Consistent (AddDocument SplitIntoWords s document_id document status ratings).2 := by
  have hloop := AddDocument_loop_indexConsistent
    (SplitIntoWordsNoStop SplitIntoWords s document).length document_id
    (SplitIntoWordsNoStop SplitIntoWords s document) s h.index
  have hf := AddDocument_loop_fields (SplitIntoWordsNoStop SplitIntoWords s document).length
    document_id (SplitIntoWordsNoStop SplitIntoWords s document) s
  rcases AddDocument_cases SplitIntoWords s document_id document status ratings with
    ⟨_, he⟩ | ⟨_, _, he⟩ | ⟨_, _, _, he⟩ | ⟨_, _, rating, _, _, he⟩
  · rw [he]; exact h
  · rw [he]
    exact ⟨hloop, fun d => by rw [hf.1, hf.2.1]; exact h.known d⟩
  · rw [he]
    exact ⟨hloop, fun d => by rw [hf.1, hf.2.1]; exact h.known d⟩
  · rw [he]
    refine ⟨⟨hloop.sync, hloop.forward_rows, hloop.inverted_rows⟩, fun d => ?_⟩
    simp only [mem_keys_set, StdSet.mem_insert, h.known d]

theorem AddDocument_consistentOk (SplitIntoWords : String → List String) (s : SearchServer)
    (document_id : Int) (document : String) (status : DocumentStatus) (ratings : List Int)
    (h : ConsistentOk s)
    (hok : (AddDocument SplitIntoWords s document_id document status ratings).1 = .ok ()) :
    ConsistentOk (AddDocument SplitIntoWords s document_id document status ratings).2 := by
  refine ⟨AddDocument_consistent SplitIntoWords s document_id document status ratings
    h.consistent, ?_⟩
  rcases AddDocument_cases SplitIntoWords s document_id document status ratings with
    ⟨_, he⟩ | ⟨_, _, he⟩ | ⟨_, _, _, he⟩ | ⟨_, _, rating, _, _, he⟩
  · rw [he] at hok; cases hok
  · rw [he] at hok; cases hok
  · rw [he] at hok; cases hok
  · rw [he]
    intro d hd
    simp only [mem_keys_set]
    rcases AddDocument_loop_forward_keys _ _ _ _ d hd with h1 | h1
    · exact Or.inl h1
    · exact Or.inr (h.forward_known d h1)

/-! ### `RemoveDocument` -/

theorem find?_eq_none_of_erase_nil {κ ν : Type} [DecidableEq κ] [StdLess κ] (row : StdMap κ ν)
    (k k' : κ) (h : erase row k = []) (hk : k' ≠ k) : find? row k' = none := by
  have := find?_erase row k k'
  rw [h] at this
  simpa [find?, hk] using this.symm

theorem RemoveDocument_loop_spec (document_id : Int) (words : List String)
    (index : StdMap String (StdMap Int ℚ)) (hnodup : words.Nodup)
    (hpresent : ∀ w ∈ words, find? index w ≠ none) :
    (RemoveDocument_loop document_id words index).1 = .ok () ∧
    ∀ (w : String) (d : Int),
      find2? (RemoveDocument_loop document_id words index).2 w d =
        if w ∈ words ∧ d = document_id then none else find2? index w d := by
  induction words generalizing index with
  | nil => simp [RemoveDocument_loop]
  | cons word rest ih =>
    have hword := hpresent word (List.mem_cons_self _ _)
    rw [List.nodup_cons] at hnodup
    cases hrow : find? index word with
    | none => exact absurd hrow hword
    | some postings =>
      unfold RemoveDocument_loop
      simp only [hrow]
      have key : ∀ index₁ : StdMap String (StdMap Int ℚ),
          (∀ w, w ≠ word → find? index₁ w = find? index w) →
          (∀ d, find2? index₁ word d = if d = document_id then none else find? postings d) →
          (RemoveDocument_loop document_id rest index₁).1 = .ok () ∧
          ∀ (w : String) (d : Int),
            find2? (RemoveDocument_loop document_id rest index₁).2 w d =
              if w ∈ word :: rest ∧ d = document_id then none else find2? index w d := by
        intro index₁ hother hthis
        have hp : ∀ w ∈ rest, find? index₁ w ≠ none := by
          intro w hw
          have hne : w ≠ word := fun h => hnodup.1 (h ▸ hw)
          rw [hother w hne]
          exact hpresent w (List.mem_cons_of_mem _ hw)
        obtain ⟨h1, h2⟩ := ih index₁ hnodup.2 hp
        refine ⟨h1, fun w d => ?_⟩
        rw [h2 w d]
        by_cases hw : w = word
        · subst hw
          have hnr : w ∉ rest := hnodup.1
          simp only [hnr, false_and, if_false, List.mem_cons, true_or, true_and]
          rw [hthis d]
          by_cases hd : d = document_id
          · simp [hd]
          · simp [hd, find2?, hrow]
        · have h3 : find2? index₁ w d = find2? index w d := by
            unfold find2?; rw [hother w hw]
          simp [hw, h3]
      by_cases hempty : (erase postings document_id).isEmpty = true
      · simp only [hempty, if_true]
        apply key
        · intro w hw
          rw [find?_erase]; simp [hw]
        · intro d
          rw [find2?_erase_row]
          simp only [if_true]
          by_cases hd : d = document_id
          · simp [hd]
          · have hnil : erase postings document_id = [] := List.isEmpty_iff.mp hempty
            simp [hd, find?_eq_none_of_erase_nil postings document_id d hnil hd]
      · simp only [hempty, Bool.false_eq_true, if_false]
        apply key
        · intro w hw
          rw [find?_replace _ _ _ _ hword]; simp [hw]
        · intro d
          unfold find2?
          rw [find?_replace _ _ _ _ hword]
          simp only [if_true]
          rw [find?_erase]

/-- The outcome of `RemoveDocument` in a consistent state, case by case. -/
theorem RemoveDocument_cases (s : SearchServer) (document_id : Int) (h : Consistent s) :
    (find? s.doc_id_to_word_frequency_ document_id = none ∧
      RemoveDocument s document_id = (.error Error.out_of_range, s)) ∨
    (∃ entry, find? s.doc_id_to_word_frequency_ document_id = some entry ∧
      RemoveDocument s document_id =
        (.ok (),
          { s with
            word_to_document_frequency_ :=
              (RemoveDocument_loop document_id (keys entry) s.word_to_document_frequency_).2,
            document_data_ := erase s.document_data_ document_id,
            added_documents_ := StdSet.erase s.added_documents_ document_id,
            doc_id_to_word_frequency_ := erase s.doc_id_to_word_frequency_ document_id }) ∧
      ∀ (w : String) (d : Int),
        find2? (RemoveDocument_loop document_id (keys entry) s.word_to_document_frequency_).2
            w d =
          if d = document_id then none else find2? s.word_to_document_frequency_ w d) := by
  cases hentry : find? s.doc_id_to_word_frequency_ document_id with
  | none =>
    left
    exact ⟨rfl, by simp [RemoveDocument, atKey, hentry]⟩
  | some entry =>
    right
    refine ⟨entry, rfl, ?_⟩
    have hpresent : ∀ w ∈ keys entry, find? s.word_to_document_frequency_ w ≠ none := by
      intro w hw hnone
      have h1 := h.index.sync w document_id
      have h2 : (find? entry w).isSome = true := (find?_isSome_iff_mem_keys entry w).mpr hw
      simp only [find2?, hnone, hentry] at h1
      rw [← h1] at h2
      simp at h2
    obtain ⟨h1, h2⟩ := RemoveDocument_loop_spec document_id (keys entry)
      s.word_to_document_frequency_ (h.index.forward_rows _ _ hentry) hpresent
    constructor
    · generalize hL : RemoveDocument_loop document_id (keys entry)
        s.word_to_document_frequency_ = L at h1
      obtain ⟨r, index⟩ := L
      simp only at h1
      subst h1
      simp [RemoveDocument, atKey, hentry, hL]
    · intro w d
      rw [h2 w d]
      by_cases hd : d = document_id
      · subst hd
        by_cases hw : w ∈ keys entry
        · simp [hw]
        · have h3 := h.index.sync w d
          have h4 : find? entry w = none := (find?_eq_none_iff entry w).mpr hw
          simp only [find2?, hentry, h4] at h3
          simp [hw, find2?, h3]
      · simp [hd]

end SearchServer

namespace SearchServer

open StdMap

theorem RemoveDocument_loop_rows (document_id : Int) (words : List String)
    (index : StdMap String (StdMap Int ℚ))
    (h : ∀ w row, find? index w = some row → (keys row).Nodup) :
    ∀ w row, find? (RemoveDocument_loop document_id words index).2 w = some row →
      (keys row).Nodup := by
  induction words generalizing index with
  | nil => simpa [RemoveDocument_loop] using h
  | cons word rest ih =>
    unfold RemoveDocument_loop
    cases hrow : find? index word with
    | none => simpa using h
    | some postings =>
      simp only []
      by_cases hempty : (erase postings document_id).isEmpty = true
      · simp only [hempty, if_true]
        apply ih
        intro w row hw
        rw [find?_erase] at hw
        by_cases h1 : w = word
        · simp [h1] at hw
        · simp only [h1, if_false] at hw
          exact h w row hw
      · simp only [hempty, Bool.false_eq_true, if_false]
        apply ih
        intro w row hw
        rw [find?_replace _ _ _ _ (by simp [hrow])] at hw
        by_cases h1 : w = word
        · simp only [h1, if_true, Option.some.injEq] at hw
          rw [← hw]
          exact nodup_keys_erase (h word postings hrow) document_id
        · simp only [h1, if_false] at hw
          exact h w row hw

theorem RemoveDocument_consistent (s : SearchServer) (document_id : Int) (h : Consistent s) :
    Consistent (RemoveDocument s document_id).2 := by
  rcases RemoveDocument_cases s document_id h with ⟨_, he⟩ | ⟨entry, hentry, he, hloop⟩
  · rw [he]; exact h
  · rw [he]
    refine ⟨⟨?_, ?_, ?_⟩, ?_⟩
    · intro w d
      simp only [hloop w d, find2?_erase_row]
      by_cases hd : d = document_id
      · simp [hd]
      · simp only [hd, if_false]
        exact h.index.sync w d
    · intro d row hrow
      simp only [find?_erase] at hrow
      by_cases hd : d = document_id
      · simp [hd] at hrow
      · simp only [hd, if_false] at hrow
        exact h.index.forward_rows d row hrow
    · exact RemoveDocument_loop_rows document_id (keys entry) _ h.index.inverted_rows
    · intro d
      simp only [mem_keys_erase, StdSet.mem_erase, h.known d]

theorem RemoveDocument_consistentOk (s : SearchServer) (document_id : Int)
    (h : ConsistentOk s) : ConsistentOk (RemoveDocument s document_id).2 := by
  refine ⟨RemoveDocument_consistent s document_id h.consistent, ?_⟩
  rcases RemoveDocument_cases s document_id h.consistent with ⟨_, he⟩ | ⟨entry, hentry, he, _⟩
  · rw [he]; exact h.forward_known
  · rw [he]
    intro d hd
    simp only [mem_keys_erase] at hd ⊢
    exact ⟨hd.1, h.forward_known d hd.2⟩

/-! ### Reachable states -/

theorem New_consistentOk (stop_words : List String) (s : SearchServer)
    (h : New stop_words = .ok s) : ConsistentOk s := by
  unfold New at h
  simp only [] at h
  split at h
  · cases h
    refine ⟨⟨⟨?_, ?_, ?_⟩, ?_⟩, ?_⟩
    · intro w d; simp [find2?, find?]
    · intro d row hrow; simp [find?] at hrow
    · intro w row hrow; simp [find?] at hrow
    · intro d; simp [keys]
    · intro d hd; simp [keys] at hd
  · cases h

end SearchServer

theorem Reachable.consistent {SplitIntoWords : String → List String} {s : SearchServer}
    (h : Reachable SplitIntoWords s) : Consistent s := by
  induction h with
  | construct stop_words s hs => exact (SearchServer.New_consistentOk stop_words s hs).consistent
  | call s c _ ih =>
    cases c with
    | AddDocument document_id document status ratings =>
      exact SearchServer.AddDocument_consistent SplitIntoWords s document_id document status ratings ih
    | RemoveDocument document_id => exact SearchServer.RemoveDocument_consistent s document_id ih

theorem ReachableOk.consistentOk {SplitIntoWords : String → List String} {s : SearchServer}
    (h : ReachableOk SplitIntoWords s) : ConsistentOk s := by
  induction h with
  | construct stop_words s hs => exact SearchServer.New_consistentOk stop_words s hs
  | call s c _ hok ih =>
    cases c with
    | AddDocument document_id document status ratings =>
      exact SearchServer.AddDocument_consistentOk SplitIntoWords s document_id document status ratings ih hok
    | RemoveDocument document_id => exact SearchServer.RemoveDocument_consistentOk s document_id ih

theorem ReachableOk.reachable {SplitIntoWords : String → List String} {s : SearchServer}
    (h : ReachableOk SplitIntoWords s) : Reachable SplitIntoWords s := by
  induction h with
  | construct stop_words s hs => exact Reachable.construct stop_words s hs
  | call s c _ _ ih => exact Reachable.call s c ih


/-! ## The claims about `AddDocument` and the two indices -/

namespace SearchServer

open StdMap

theorem count_eq_one_iff {κ ν : Type} [DecidableEq κ] [StdLess κ] (m : StdMap κ ν) (k : κ) :
    count m k = 1 ↔ k ∈ keys m := by
  rw [← find?_isSome_iff_mem_keys]
  unfold count
  cases find? m k <;> simp

theorem IsValidWord_eq_false_iff (text : String) :
    IsValidWord text = false ↔ ∃ c ∈ text.data, c.toNat < 32 := by
  unfold IsValidWord
  rw [← Bool.not_eq_true, List.all_eq_true]
  simp

theorem mem_SplitIntoWordsNoStop (SplitIntoWords : String → List String) (s : SearchServer)
    (text word : String) :
    word ∈ SplitIntoWordsNoStop SplitIntoWords s text ↔
      word ∈ SplitIntoWords text ∧ word ∉ s.stop_words_ := by
  unfold SplitIntoWordsNoStop IsStopWord StdSet.count
  rw [List.mem_filter]
  by_cases h : word ∈ s.stop_words_ <;> simp [h]

theorem all_IsValidWord_eq_false_iff (words : List String) :
    words.all IsValidWord = false ↔ ∃ word ∈ words, ∃ c ∈ word.data, c.toNat < 32 := by
  rw [← Bool.not_eq_true, List.all_eq_true]
  push_neg
  constructor
  · rintro ⟨w, hw, hv⟩
    exact ⟨w, hw, (IsValidWord_eq_false_iff w).mp (by simpa using hv)⟩
  · rintro ⟨w, hw, hc⟩
    exact ⟨w, hw, by simpa using (IsValidWord_eq_false_iff w).mpr hc⟩

/-- C1, evaluated at the failing call `AddDocument(1, "a \x01", ACTUAL, {1})` on a new
server: the call throws `invalid_argument` at the second word, and the first word
is by then recorded in the inverted and in the forward index. -/
theorem AddDocument_failure_leaves_residue :
    New [] = .ok emptyServer ∧
    AddDocument SplitIntoWordsSpec emptyServer 1 "a \x01" DocumentStatus.ACTUAL [1] =
      (.error Error.invalid_argument,
        { emptyServer with
          word_to_document_frequency_ := [("a", [(1, 1 / 2)])],
          doc_id_to_word_frequency_ := [(1, [("a", 1 / 2)])] }) := by
  decide!

/-- C2: in every state reachable by `AddDocument` and `RemoveDocument` calls, throwing
calls included, the inverted index holds the frequency `freq` for `(term, document_id)`
if and only if the forward index holds the same frequency for `(document_id, term)`. -/
theorem forward_inverted_synchronised (SplitIntoWords : String → List String)
    (s : SearchServer) (hs : Reachable SplitIntoWords s) (term : String) (document_id : Int)
    (freq : ℚ) :
    find2? s.word_to_document_frequency_ term document_id = some freq ↔
      find2? s.doc_id_to_word_frequency_ document_id term = some freq := by
  rw [hs.consistent.index.sync term document_id]

theorem forward_inverted_synchronised_witness :
    Reachable SplitIntoWordsSpec residueServer₂ ∧
    (find2? residueServer₂.word_to_document_frequency_ "a" 1 = some (3 / 2) ↔
      find2? residueServer₂.doc_id_to_word_frequency_ 1 "a" = some (3 / 2)) :=
  ⟨Reachable.call _ (Call.AddDocument 1 "a" DocumentStatus.ACTUAL [1])
      (Reachable.call _ (Call.AddDocument 1 "a \x01" DocumentStatus.ACTUAL [1])
        (Reachable.construct [] emptyServer rfl)),
    forward_inverted_synchronised SplitIntoWordsSpec residueServer₂
      (Reachable.call _ (Call.AddDocument 1 "a" DocumentStatus.ACTUAL [1])
        (Reachable.call _ (Call.AddDocument 1 "a \x01" DocumentStatus.ACTUAL [1])
          (Reachable.construct [] emptyServer rfl))) "a" 1 (3 / 2)⟩

/-- C3: on a reachable server and with a non-empty ratings list, `AddDocument` throws
`invalid_argument` exactly when the id is negative, or is a known id, or some word of
the tokenized text that is not a stop word has a character with code below `0x20`;
in every other case the call returns normally. -/
theorem AddDocument_throws_iff (SplitIntoWords : String → List String) (s : SearchServer)
    (hs : Reachable SplitIntoWords s) (document_id : Int) (document : String)
    (status : DocumentStatus) (ratings : List Int) (hratings : ratings ≠ []) :
    ((AddDocument SplitIntoWords s document_id document status ratings).1 =
        .error Error.invalid_argument ↔
      (document_id < 0 ∨ document_id ∈ s.added_documents_ ∨
        ∃ word ∈ SplitIntoWords document, word ∉ s.stop_words_ ∧
          ∃ c ∈ word.data, c.toNat < 32)) ∧
    (¬ (document_id < 0 ∨ document_id ∈ s.added_documents_ ∨
        ∃ word ∈ SplitIntoWords document, word ∉ s.stop_words_ ∧
          ∃ c ∈ word.data, c.toNat < 32) →
      (AddDocument SplitIntoWords s document_id document status ratings).1 = .ok ()) := by
  have hknown : count s.document_data_ document_id = 1 ↔ document_id ∈ s.added_documents_ := by
    rw [count_eq_one_iff]; exact hs.consistent.known document_id
  have hwords : (SplitIntoWordsNoStop SplitIntoWords s document).all IsValidWord = false ↔
      ∃ word ∈ SplitIntoWords document, word ∉ s.stop_words_ ∧
        ∃ c ∈ word.data, c.toNat < 32 := by
    rw [all_IsValidWord_eq_false_iff]
    constructor
    · rintro ⟨w, hw, hc⟩
      rw [mem_SplitIntoWordsNoStop] at hw
      exact ⟨w, hw.1, hw.2, hc⟩
    · rintro ⟨w, hw, hstop, hc⟩
      exact ⟨w, (mem_SplitIntoWordsNoStop _ _ _ _).mpr ⟨hw, hstop⟩, hc⟩
  rcases AddDocument_cases SplitIntoWords s document_id document status ratings with
    ⟨hid, he⟩ | ⟨hid, hv, he⟩ | ⟨_, _, hr, _⟩ | ⟨hid, hv, rating, _, _, he⟩
  · have hcond : document_id < 0 ∨ document_id ∈ s.added_documents_ ∨
        ∃ word ∈ SplitIntoWords document, word ∉ s.stop_words_ ∧
          ∃ c ∈ word.data, c.toNat < 32 := by
      rcases hid with h | h
      · exact Or.inl h
      · exact Or.inr (Or.inl (hknown.mp h))
    rw [he]
    exact ⟨⟨fun _ => hcond, fun _ => rfl⟩, fun hn => absurd hcond hn⟩
  · have hcond : document_id < 0 ∨ document_id ∈ s.added_documents_ ∨
        ∃ word ∈ SplitIntoWords document, word ∉ s.stop_words_ ∧
          ∃ c ∈ word.data, c.toNat < 32 := Or.inr (Or.inr (hwords.mp hv))
    rw [he]
    exact ⟨⟨fun _ => hcond, fun _ => rfl⟩, fun hn => absurd hcond hn⟩
  · exact absurd hr hratings
  · have hcond : ¬ (document_id < 0 ∨ document_id ∈ s.added_documents_ ∨
        ∃ word ∈ SplitIntoWords document, word ∉ s.stop_words_ ∧
          ∃ c ∈ word.data, c.toNat < 32) := by
      rintro (h | h | h)
      · exact hid (Or.inl h)
      · exact hid (Or.inr (hknown.mpr h))
      · rw [hwords.mpr h] at hv; cases hv
    rw [he]
    refine ⟨⟨fun h => ?_, fun h => absurd h hcond⟩, fun _ => rfl⟩
    cases h

theorem AddDocument_throws_iff_witness :
    Reachable SplitIntoWordsSpec catServer ∧ ([7] : List Int) ≠ [] ∧
    ((AddDocument SplitIntoWordsSpec catServer 42 "dog" DocumentStatus.BANNED [7]).1 =
        .error Error.invalid_argument ↔
      ((42 : Int) < 0 ∨ (42 : Int) ∈ catServer.added_documents_ ∨
        ∃ word ∈ SplitIntoWordsSpec "dog", word ∉ catServer.stop_words_ ∧
          ∃ c ∈ word.data, c.toNat < 32)) :=
  ⟨Reachable.call _ (Call.AddDocument 42 "cat in the city" DocumentStatus.ACTUAL [1, 2, 3])
      (Reachable.construct [] emptyServer rfl),
    by decide,
    (AddDocument_throws_iff SplitIntoWordsSpec catServer
      (Reachable.call _ (Call.AddDocument 42 "cat in the city" DocumentStatus.ACTUAL [1, 2, 3])
        (Reachable.construct [] emptyServer rfl))
      42 "dog" DocumentStatus.BANNED [7] (by decide)).1⟩

end SearchServer

namespace SearchServer

open StdMap

theorem find?_GetWordFrequencies (s : SearchServer) (document_id : Int) (word : String) :
    find? (GetWordFrequencies s document_id) word =
      find2? s.doc_id_to_word_frequency_ document_id word := by
  unfold GetWordFrequencies count getD find2?
  cases find? s.doc_id_to_word_frequency_ document_id <;> simp [find?]

theorem GetWordFrequencies_nodup (s : SearchServer) (h : Consistent s) (document_id : Int) :
    (keys (GetWordFrequencies s document_id)).Nodup := by
  unfold GetWordFrequencies count getD
  cases hrow : find? s.doc_id_to_word_frequency_ document_id with
  | none => simp [keys]
  | some row => simpa using h.index.forward_rows document_id row hrow

/-- C4: after a successful `AddDocument(document_id, document, ...)` on a server reached
by successful calls only, `GetWordFrequencies(document_id)` has each non-stop word of
the text exactly once as a key and nothing else, and it maps every such word to the
number of its occurrences among the non-stop words divided by the number of non-stop
words; the inverted index holds the same value for the word and the document. -/
theorem AddDocument_term_frequencies (SplitIntoWords : String → List String)
    (s : SearchServer) (hs : ReachableOk SplitIntoWords s) (document_id : Int)
    (document : String) (status : DocumentStatus) (ratings : List Int)
    (hok : (AddDocument SplitIntoWords s document_id document status ratings).1 = .ok ()) :
    (keys (GetWordFrequencies
      (AddDocument SplitIntoWords s document_id document status ratings).2 document_id)).Nodup ∧
    (∀ word : String,
      word ∈ keys (GetWordFrequencies
          (AddDocument SplitIntoWords s document_id document status ratings).2 document_id) ↔
        word ∈ SplitIntoWordsNoStop SplitIntoWords s document) ∧
    (∀ word ∈ SplitIntoWordsNoStop SplitIntoWords s document,
      find? (GetWordFrequencies
          (AddDocument SplitIntoWords s document_id document status ratings).2 document_id)
          word =
        some (((SplitIntoWordsNoStop SplitIntoWords s document).count word : ℚ) /
          ((SplitIntoWordsNoStop SplitIntoWords s document).length : ℚ)) ∧
      find2? (AddDocument SplitIntoWords s document_id document status
          ratings).2.word_to_document_frequency_ word document_id =
        some (((SplitIntoWordsNoStop SplitIntoWords s document).count word : ℚ) /
          ((SplitIntoWordsNoStop SplitIntoWords s document).length : ℚ))) := by
  have hcons : ConsistentOk (AddDocument SplitIntoWords s document_id document status
      ratings).2 :=
    AddDocument_consistentOk SplitIntoWords s document_id document status ratings
      hs.consistentOk hok
  have hfwd : ∀ word : String,
      find2? (AddDocument SplitIntoWords s document_id document status
          ratings).2.doc_id_to_word_frequency_ document_id word =
        if word ∈ SplitIntoWordsNoStop SplitIntoWords s document then
          some (((SplitIntoWordsNoStop SplitIntoWords s document).count word : ℚ) /
            ((SplitIntoWordsNoStop SplitIntoWords s document).length : ℚ))
        else none := by
    intro word
    rcases AddDocument_cases SplitIntoWords s document_id document status ratings with
      ⟨_, he⟩ | ⟨_, _, he⟩ | ⟨_, _, _, he⟩ | ⟨hid, hv, rating, _, _, he⟩
    · rw [he] at hok; cases hok
    · rw [he] at hok; cases hok
    · rw [he] at hok; cases hok
    · rw [he]
      simp only []
      rw [AddDocument_loop_forward _ _ _ _ hv]
      have hnew : find? s.doc_id_to_word_frequency_ document_id = none := by
        rw [find?_eq_none_iff]
        intro hmem
        exact hid (Or.inr ((count_eq_one_iff _ _).mpr (hs.consistentOk.forward_known _ hmem)))
      have hnone : find2? s.doc_id_to_word_frequency_ document_id word = none := by
        simp [find2?, hnew]
      rw [hnone]
      by_cases hw : word ∈ SplitIntoWordsNoStop SplitIntoWords s document
      · simp [hw, div_eq_mul_inv]
      · simp [hw]
  refine ⟨GetWordFrequencies_nodup _ hcons.consistent _, fun word => ?_, fun word hw => ?_⟩
  · rw [← find?_isSome_iff_mem_keys, find?_GetWordFrequencies, hfwd word]
    by_cases hw : word ∈ SplitIntoWordsNoStop SplitIntoWords s document <;> simp [hw]
  · constructor
    · rw [find?_GetWordFrequencies, hfwd word]; simp [hw]
    · rw [hcons.consistent.index.sync, hfwd word]; simp [hw]

theorem AddDocument_term_frequencies_witness :
    ReachableOk SplitIntoWordsSpec catServer ∧
    (AddDocument SplitIntoWordsSpec catServer 1 "orange cat near the library cat"
      DocumentStatus.ACTUAL [4, 5, 6]).1 = .ok () ∧
    find? (GetWordFrequencies twoCatServer 1) "cat" =
      some (((SplitIntoWordsNoStop SplitIntoWordsSpec catServer
          "orange cat near the library cat").count "cat" : ℚ) /
        ((SplitIntoWordsNoStop SplitIntoWordsSpec catServer
          "orange cat near the library cat").length : ℚ)) :=
  ⟨ReachableOk.call _ (Call.AddDocument 42 "cat in the city" DocumentStatus.ACTUAL [1, 2, 3])
      (ReachableOk.construct [] emptyServer rfl) (by decide!),
    by decide!,
    ((AddDocument_term_frequencies SplitIntoWordsSpec catServer
      (ReachableOk.call _ (Call.AddDocument 42 "cat in the city" DocumentStatus.ACTUAL [1, 2, 3])
        (ReachableOk.construct [] emptyServer rfl) (by decide!))
      1 "orange cat near the library cat" DocumentStatus.ACTUAL [4, 5, 6] (by decide!)).2.2
        "cat" (by decide!)).1⟩

/-- C5, evaluated at the failing sequence of calls on a new server:
`AddDocument(1, "a \x01", ACTUAL, {1})` throws, `AddDocument(1, "a", ACTUAL, {1})`
then succeeds, document 1 is known and has the single non-stop word "a", and the
values of `GetWordFrequencies(1)` add up to 3/2. -/
theorem word_frequencies_sum_after_failed_call :
    Reachable SplitIntoWordsSpec residueServer₂ ∧
    (AddDocument SplitIntoWordsSpec emptyServer 1 "a \x01" DocumentStatus.ACTUAL [1]).1 =
      .error Error.invalid_argument ∧
    (AddDocument SplitIntoWordsSpec residueServer 1 "a" DocumentStatus.ACTUAL [1]).1 = .ok () ∧
    residueServer₂.added_documents_ = [1] ∧
    SplitIntoWordsNoStop SplitIntoWordsSpec residueServer "a" = ["a"] ∧
    GetWordFrequencies residueServer₂ 1 = [("a", 3 / 2)] ∧
    ((GetWordFrequencies residueServer₂ 1).map Prod.snd).sum = 3 / 2 :=
  ⟨Reachable.call _ (Call.AddDocument 1 "a" DocumentStatus.ACTUAL [1])
      (Reachable.call _ (Call.AddDocument 1 "a \x01" DocumentStatus.ACTUAL [1])
        (Reachable.construct [] emptyServer rfl)),
    by decide!, by decide!, by decide!, by decide!, by decide!, by decide!⟩

end SearchServer

/-! ## Facts about the sort -/

theorem unguardedLinearInsert_perm {α : Type} (comp : α → α → Bool) (val : α) (l : List α) :
    (unguardedLinearInsert comp val l).Perm (val :: l) := by
  induction l with
  | nil => simp [unguardedLinearInsert]
  | cons y ys ih =>
    unfold unguardedLinearInsert
    by_cases h : comp val y = true
    · simp only [h, if_true]
      exact (List.Perm.cons y ih).trans (List.Perm.swap val y ys)
    · simp [h]

theorem insertionStep_perm {α : Type} (comp : α → α → Bool) (sorted : List α) (val : α) :
    (insertionStep comp sorted val).Perm (val :: sorted) := by
  unfold insertionStep
  cases sorted with
  | nil => simp
  | cons first rest =>
    simp only []
    by_cases h : comp val first = true
    · simp [h]
    · simp only [h, Bool.false_eq_true, if_false]
      exact (List.reverse_perm _).trans
        ((unguardedLinearInsert_perm comp val _).trans
          (List.Perm.cons val (List.reverse_perm _)))

theorem foldl_insertionStep_perm {α : Type} (comp : α → α → Bool) (range acc : List α) :
    (range.foldl (insertionStep comp) acc).Perm (range ++ acc) := by
  induction range generalizing acc with
  | nil => simp
  | cons x xs ih =>
    simp only [List.foldl_cons, List.cons_append]
    exact (ih _).trans
      ((List.Perm.append_left xs (insertionStep_perm comp acc x)).trans
        List.perm_middle)

theorem unguardedInsertionStep_perm {α : Type} (comp : α → α → Bool) (sorted : List α)
    (val : α) : (unguardedInsertionStep comp sorted val).Perm (val :: sorted) := by
  unfold unguardedInsertionStep
  exact (List.reverse_perm _).trans
    ((unguardedLinearInsert_perm comp val _).trans (List.Perm.cons val (List.reverse_perm _)))

theorem foldl_unguardedInsertionStep_perm {α : Type} (comp : α → α → Bool)
    (range acc : List α) :
    (range.foldl (unguardedInsertionStep comp) acc).Perm (range ++ acc) := by
  induction range generalizing acc with
  | nil => simp
  | cons x xs ih =>
    simp only [List.foldl_cons, List.cons_append]
    exact (ih _).trans
      ((List.Perm.append_left xs (unguardedInsertionStep_perm comp acc x)).trans
        List.perm_middle)

theorem finalInsertionSort_perm {α : Type} (comp : α → α → Bool) (range : List α) :
    (finalInsertionSort comp range).Perm range := by
  unfold finalInsertionSort
  split
  · refine (foldl_unguardedInsertionStep_perm comp _ _).trans ?_
    refine (List.Perm.append_left _ (foldl_insertionStep_perm comp _ [])).trans ?_
    rw [List.append_nil]
    exact List.perm_append_comm.trans (by rw [List.take_append_drop])
  · simpa using foldl_insertionStep_perm comp range []

/-- Writing to a cell whose value is kept aside permutes the elements. -/
theorem cons_set_perm {α : Type} (l : List α) (s : Nat) (x v : α) (hs : l[s]? = some x) :
    (x :: l.set s v).Perm (v :: l) := by
  induction l generalizing s with
  | nil => simp at hs
  | cons a t ih =>
    cases s with
    | zero =>
      simp only [List.getElem?_cons_zero, Option.some.injEq] at hs
      subst hs
      simp only [List.set_cons_zero]
      exact List.Perm.swap _ _ _
    | succ s =>
      simp only [List.getElem?_cons_succ] at hs
      simp only [List.set_cons_succ]
      exact (List.Perm.swap _ _ _).trans
        (((ih s hs).cons a).trans (List.Perm.swap _ _ _))

/-- The step of a loop that moves a hole: the cell `h` gets the value of the cell `s`,
which becomes the hole. -/
theorem set_set_perm {α : Type} (l : List α) (h s : Nat) (x v : α) (hs : l[s]? = some x)
    (hh : h < l.length) : ((l.set h x).set s v).Perm (l.set h v) := by
  induction l generalizing h s with
  | nil => simp at hs
  | cons a t ih =>
    cases h with
    | zero =>
      cases s with
      | zero =>
        simp
      | succ s =>
        simp only [List.getElem?_cons_succ] at hs
        simp only [List.set_cons_zero, List.set_cons_succ]
        exact cons_set_perm t s x v hs
    | succ h =>
      have hh' : h < t.length := by simpa using hh
      cases s with
      | zero =>
        simp only [List.getElem?_cons_zero, Option.some.injEq] at hs
        subst hs
        simp only [List.set_cons_zero, List.set_cons_succ]
        have key := cons_set_perm (t.set h v) h v a
          (by simp [List.getElem?_set, hh'])
        rw [List.set_set] at key
        exact key
      | succ s =>
        simp only [List.getElem?_cons_succ] at hs
        simp only [List.set_cons_succ]
        exact (ih h s hs hh').cons a

theorem set_getElem?_self {α : Type} (l : List α) (i : Nat) (x : α) (h : l[i]? = some x) :
    l.set i x = l := by
  induction l generalizing i with
  | nil => rfl
  | cons a t ih =>
    cases i with
    | zero =>
      simp only [List.getElem?_cons_zero, Option.some.injEq] at h
      subst h
      rfl
    | succ i =>
      simp only [List.getElem?_cons_succ] at h
      simp only [List.set_cons_succ, ih i h]

theorem lt_length_of_getElem? {α : Type} (l : List α) (i : Nat) (x : α)
    (h : l[i]? = some x) : i < l.length := by
  by_contra hn
  rw [List.getElem?_eq_none (by omega)] at h
  cases h

theorem iterSwap_perm {α : Type} (range : List α) (a b : Nat) :
    (iterSwap range a b).Perm range := by
  unfold iterSwap
  split
  · rename_i x y hx hy
    have h := set_set_perm range a b y x hy (lt_length_of_getElem? _ _ _ hx)
    rw [set_getElem?_self range a x hx] at h
    exact h
  · exact List.Perm.refl _

theorem moveMedianToFirst_perm {α : Type} (comp : α → α → Bool) (range : List α)
    (result a b c : Nat) : (moveMedianToFirst comp range result a b c).Perm range := by
  unfold moveMedianToFirst
  split_ifs <;> exact iterSwap_perm _ _ _

theorem unguardedPartition_perm {α : Type} (comp : α → α → Bool) (pivot steps : Nat)
    (range : List α) (first last : Nat) :
    (unguardedPartition comp pivot steps range first last).1.Perm range := by
  induction steps generalizing range first last with
  | zero => exact List.Perm.refl _
  | succ steps ih =>
    unfold unguardedPartition
    simp only
    split
    · exact (ih _ _ _).trans (iterSwap_perm _ _ _)
    · exact List.Perm.refl _

theorem unguardedPartitionPivot_perm {α : Type} (comp : α → α → Bool) (range : List α) :
    (unguardedPartitionPivot comp range).1.Perm range := by
  unfold unguardedPartitionPivot
  exact (unguardedPartition_perm comp _ _ _ _ _).trans (moveMedianToFirst_perm comp _ _ _ _ _)

theorem pushHeap_perm {α : Type} (comp : α → α → Bool) (topIndex : Nat) (value : α)
    (steps : Nat) (range : List α) (holeIndex : Nat) (hhole : holeIndex < range.length) :
    (pushHeap comp topIndex value steps range holeIndex).Perm (range.set holeIndex value) := by
  induction steps generalizing range holeIndex with
  | zero => exact List.Perm.refl _
  | succ steps ih =>
    unfold pushHeap
    simp only
    split
    · rename_i p hp
      split
      · have hparent := lt_length_of_getElem? _ _ _ hp
        exact (ih (range.set holeIndex p) _ (by simpa using hparent)).trans
          (set_set_perm range holeIndex _ p value hp hhole)
      · exact List.Perm.refl _
    · exact List.Perm.refl _

theorem adjustHeapLoop_perm {α : Type} (comp : α → α → Bool) (len : Nat) (value : α)
    (steps : Nat) (range : List α) (holeIndex : Nat) (hhole : holeIndex < range.length) :
    (adjustHeapLoop comp len steps range holeIndex).2 <
        (adjustHeapLoop comp len steps range holeIndex).1.length ∧
      ((adjustHeapLoop comp len steps range holeIndex).1.set
        (adjustHeapLoop comp len steps range holeIndex).2 value).Perm
        (range.set holeIndex value) := by
  induction steps generalizing range holeIndex with
  | zero => exact ⟨hhole, List.Perm.refl _⟩
  | succ steps ih =>
    unfold adjustHeapLoop
    simp only
    split
    · split
      · rename_i child hchild
        have hs := lt_length_of_getElem? _ _ _ hchild
        obtain ⟨h1, h2⟩ := ih (range.set holeIndex child) _ (by simpa using hs)
        exact ⟨h1, h2.trans (set_set_perm range holeIndex _ child value hchild hhole)⟩
      · exact ⟨hhole, List.Perm.refl _⟩
    · exact ⟨hhole, List.Perm.refl _⟩

theorem adjustHeapLast_perm {α : Type} (len : Nat) (value : α) (range : List α)
    (holeIndex : Nat) (hhole : holeIndex < range.length) :
    (adjustHeapLast len range holeIndex).2 < (adjustHeapLast len range holeIndex).1.length ∧
      ((adjustHeapLast len range holeIndex).1.set (adjustHeapLast len range holeIndex).2
        value).Perm (range.set holeIndex value) := by
  unfold adjustHeapLast
  split
  · split
    · rename_i child hchild
      have hs := lt_length_of_getElem? _ _ _ hchild
      exact ⟨by simpa using hs, set_set_perm _ _ _ child value hchild hhole⟩
    · exact ⟨hhole, List.Perm.refl _⟩
  · exact ⟨hhole, List.Perm.refl _⟩

theorem adjustHeap_perm {α : Type} (comp : α → α → Bool) (range : List α)
    (holeIndex len : Nat) (value : α) (hhole : holeIndex < range.length) :
    (adjustHeap comp range holeIndex len value).Perm (range.set holeIndex value) := by
  obtain ⟨h1, h2⟩ := adjustHeapLoop_perm comp len value len range holeIndex hhole
  obtain ⟨h3, h4⟩ := adjustHeapLast_perm len value _ _ h1
  unfold adjustHeap
  exact (pushHeap_perm comp _ value _ _ _ h3).trans (h4.trans h2)

theorem makeHeapLoop_perm {α : Type} (comp : α → α → Bool) (len parent : Nat)
    (range : List α) : (makeHeapLoop comp len parent range).Perm range := by
  induction parent generalizing range with
  | zero =>
    unfold makeHeapLoop
    split
    · rename_i value hvalue
      have h := adjustHeap_perm comp range 0 len value (lt_length_of_getElem? _ _ _ hvalue)
      rw [set_getElem?_self range 0 value hvalue] at h
      exact h
    · exact List.Perm.refl _
  | succ parent ih =>
    unfold makeHeapLoop
    split
    · rename_i value hvalue
      have h := adjustHeap_perm comp range (parent + 1) len value
        (lt_length_of_getElem? _ _ _ hvalue)
      rw [set_getElem?_self range (parent + 1) value hvalue] at h
      exact (ih _).trans h
    · exact List.Perm.refl _

theorem makeHeap_perm {α : Type} (comp : α → α → Bool) (range : List α) :
    (makeHeap comp range).Perm range := by
  unfold makeHeap
  split
  · exact List.Perm.refl _
  · exact makeHeapLoop_perm comp _ _ _

theorem popHeap_perm {α : Type} (comp : α → α → Bool) (range : List α) (last result : Nat) :
    (popHeap comp range last result).Perm range := by
  unfold popHeap
  split
  · rename_i value top hvalue htop
    have hresult := lt_length_of_getElem? _ _ _ hvalue
    have h0 := lt_length_of_getElem? _ _ _ htop
    have h := adjustHeap_perm comp (range.set result top) 0 last value (by simpa using h0)
    have h2 := set_set_perm range result 0 top value htop hresult
    rw [set_getElem?_self range result value hvalue] at h2
    exact h.trans h2
  · exact List.Perm.refl _

theorem sortHeap_perm {α : Type} (comp : α → α → Bool) (last : Nat) (range : List α) :
    (sortHeap comp last range).Perm range := by
  induction last generalizing range with
  | zero => exact List.Perm.refl _
  | succ last ih =>
    unfold sortHeap
    split
    · exact (ih _).trans (popHeap_perm comp _ _ _)
    · exact List.Perm.refl _

theorem heapSort_perm {α : Type} (comp : α → α → Bool) (range : List α) :
    (heapSort comp range).Perm range := by
  unfold heapSort
  exact (sortHeap_perm comp _ _).trans (makeHeap_perm comp range)

theorem introsortLoop_perm {α : Type} (comp : α → α → Bool) (depth_limit : Nat)
    (range : List α) : (introsortLoop comp depth_limit range).Perm range := by
  induction depth_limit generalizing range with
  | zero =>
    unfold introsortLoop
    split
    · exact heapSort_perm comp range
    · exact List.Perm.refl _
  | succ depth_limit ih =>
    unfold introsortLoop
    split
    · simp only
      refine ((ih _).append (ih _)).trans ?_
      rw [List.take_append_drop]
      exact unguardedPartitionPivot_perm comp range
    · exact List.Perm.refl _

/-- The sort permutes the range. -/
theorem stdSort_perm {α : Type} (comp : α → α → Bool) (range : List α) :
    (stdSort comp range).Perm range := by
  unfold stdSort
  exact (finalInsertionSort_perm comp _).trans (introsortLoop_perm comp _ range)

/-- A range of at most 16 elements is sorted by `std::__insertion_sort` alone. -/
theorem stdSort_of_length_le {α : Type} (comp : α → α → Bool) (range : List α)
    (h : range.length ≤ 16) : stdSort comp range = range.foldl (insertionStep comp) [] := by
  have hloop : ∀ depth_limit, introsortLoop comp depth_limit range = range := by
    intro depth_limit
    cases depth_limit <;>
      · unfold introsortLoop
        rw [if_neg (by omega)]
  unfold stdSort finalInsertionSort
  rw [hloop, if_neg (by omega)]

theorem unguardedLinearInsert_chain {α : Type} (comp : α → α → Bool)
    (hasymm : ∀ a b, comp a b = true → comp b a = false) (val : α) (l : List α)
    (h : List.Chain' (fun a b => comp a b = false) l) :
    List.Chain' (fun a b => comp a b = false) (unguardedLinearInsert comp val l) := by
  induction l with
  | nil => simp [unguardedLinearInsert]
  | cons y ys ih =>
    unfold unguardedLinearInsert
    by_cases hc : comp val y = true
    · simp only [hc, if_true]
      rw [List.chain'_cons'] at h ⊢
      refine ⟨?_, ih h.2⟩
      intro z hz
      cases ys with
      | nil =>
        simp [unguardedLinearInsert] at hz
        rw [← hz]; exact hasymm _ _ hc
      | cons y' ys' =>
        unfold unguardedLinearInsert at hz
        by_cases hc' : comp val y' = true
        · simp [hc'] at hz
          rw [← hz]; exact h.1 y' (by simp)
        · simp [hc'] at hz
          rw [← hz]; exact hasymm _ _ hc
    · simp only [hc, Bool.false_eq_true, if_false]
      exact List.Chain'.cons (by simpa using hc) h

theorem unguardedInsertionStep_chain {α : Type} (comp : α → α → Bool)
    (hasymm : ∀ a b, comp a b = true → comp b a = false) (sorted : List α) (val : α)
    (h : List.Chain' (fun a b => comp b a = false) sorted) :
    List.Chain' (fun a b => comp b a = false) (unguardedInsertionStep comp sorted val) := by
  unfold unguardedInsertionStep
  rw [List.chain'_reverse]
  apply unguardedLinearInsert_chain comp hasymm
  exact List.chain'_reverse.mpr (show List.Chain' (flip (fun a b => comp a b = false))
    sorted from h)

theorem insertionStep_chain {α : Type} (comp : α → α → Bool)
    (hasymm : ∀ a b, comp a b = true → comp b a = false) (sorted : List α) (val : α)
    (h : List.Chain' (fun a b => comp b a = false) sorted) :
    List.Chain' (fun a b => comp b a = false) (insertionStep comp sorted val) := by
  unfold insertionStep
  cases sorted with
  | nil => simp
  | cons first rest =>
    simp only []
    by_cases hc : comp val first = true
    · simp only [hc, if_true]
      exact List.Chain'.cons (hasymm _ _ hc) h
    · simp only [hc, Bool.false_eq_true, if_false]
      exact unguardedInsertionStep_chain comp hasymm (first :: rest) val h

theorem foldl_insertionStep_chain {α : Type} (comp : α → α → Bool)
    (hasymm : ∀ a b, comp a b = true → comp b a = false) (range acc : List α)
    (h : List.Chain' (fun a b => comp b a = false) acc) :
    List.Chain' (fun a b => comp b a = false) (range.foldl (insertionStep comp) acc) := by
  induction range generalizing acc with
  | nil => simpa using h
  | cons x xs ih =>
    simp only [List.foldl_cons]
    exact ih _ (insertionStep_chain comp hasymm acc x h)

theorem foldl_unguardedInsertionStep_chain {α : Type} (comp : α → α → Bool)
    (hasymm : ∀ a b, comp a b = true → comp b a = false) (range acc : List α)
    (h : List.Chain' (fun a b => comp b a = false) acc) :
    List.Chain' (fun a b => comp b a = false)
      (range.foldl (unguardedInsertionStep comp) acc) := by
  induction range generalizing acc with
  | nil => simpa using h
  | cons x xs ih =>
    simp only [List.foldl_cons]
    exact ih _ (unguardedInsertionStep_chain comp hasymm acc x h)

/-- After `std::__final_insertion_sort` no element compares less than the element just
before it, whatever the order of the range was. -/
theorem finalInsertionSort_chain {α : Type} (comp : α → α → Bool)
    (hasymm : ∀ a b, comp a b = true → comp b a = false) (range : List α) :
    List.Chain' (fun a b => comp b a = false) (finalInsertionSort comp range) := by
  unfold finalInsertionSort
  split
  · exact foldl_unguardedInsertionStep_chain comp hasymm _ _
      (foldl_insertionStep_chain comp hasymm _ [] List.chain'_nil)
  · exact foldl_insertionStep_chain comp hasymm range [] List.chain'_nil

/-- After the sort no element compares less than the element just before it. -/
theorem stdSort_chain {α : Type} (comp : α → α → Bool)
    (hasymm : ∀ a b, comp a b = true → comp b a = false) (range : List α) :
    List.Chain' (fun a b => comp b a = false) (stdSort comp range) := by
  unfold stdSort
  exact finalInsertionSort_chain comp hasymm _

/-! ### The bounds of the loops

The loops of the sort are embedded with a bound on the number of their iterations.  The
bound each caller passes is never reached: every greater bound gives the same result. -/

theorem partitionScanUp_ge {α : Type} (comp : α → α → Bool) (range : List α)
    (pivot count first : Nat) : first ≤ partitionScanUp comp range pivot count first := by
  induction count generalizing first with
  | zero => exact Nat.le_refl _
  | succ count ih =>
    unfold partitionScanUp
    split
    · exact Nat.le_trans (Nat.le_succ _) (ih _)
    · exact Nat.le_refl _

theorem partitionScanDown_le {α : Type} (comp : α → α → Bool) (range : List α)
    (pivot last : Nat) : partitionScanDown comp range pivot last ≤ last := by
  induction last with
  | zero => exact Nat.le_refl _
  | succ last ih =>
    unfold partitionScanDown
    split
    · exact Nat.le_trans ih (Nat.le_succ _)
    · exact Nat.le_refl _

/-- The outer loop of `std::__unguarded_partition` ends within `last - first`
iterations. -/
theorem unguardedPartition_steps {α : Type} (comp : α → α → Bool) (pivot steps : Nat)
    (range : List α) (first last : Nat) (h : last - first ≤ steps) :
    unguardedPartition comp pivot (steps + 1) range first last =
      unguardedPartition comp pivot steps range first last := by
  induction steps generalizing range first last with
  | zero =>
    have h1 := partitionScanUp_ge comp range pivot (range.length - first) first
    have h2 := partitionScanDown_le comp range pivot (last - 1)
    unfold unguardedPartition
    simp only
    rw [if_neg (by omega)]
  | succ steps ih =>
    have h1 := partitionScanUp_ge comp range pivot (range.length - first) first
    have h2 := partitionScanDown_le comp range pivot (last - 1)
    rw [unguardedPartition]
    conv => rhs; rw [unguardedPartition]
    split
    · exact ih _ _ _ (by omega)
    · rfl

/-- The loop of `std::__push_heap` ends within `holeIndex` iterations. -/
theorem pushHeap_steps {α : Type} (comp : α → α → Bool) (topIndex : Nat) (value : α)
    (steps : Nat) (range : List α) (holeIndex : Nat) (h : holeIndex ≤ steps) :
    pushHeap comp topIndex value (steps + 1) range holeIndex =
      pushHeap comp topIndex value steps range holeIndex := by
  induction steps generalizing range holeIndex with
  | zero =>
    have h0 : holeIndex = 0 := by omega
    subst h0
    unfold pushHeap
    simp only
    split
    · rw [if_neg (by omega)]
    · rfl
  | succ steps ih =>
    rw [pushHeap]
    conv => rhs; rw [pushHeap]
    split
    · split
      · rename_i hc
        exact ih _ _ (by omega)
      · rfl
    · rfl

/-- The first loop of `std::__adjust_heap` ends within `(len - 1) / 2 - holeIndex`
iterations. -/
theorem adjustHeapLoop_steps {α : Type} (comp : α → α → Bool) (len steps : Nat)
    (range : List α) (holeIndex : Nat) (h : (len - 1) / 2 - holeIndex ≤ steps) :
    adjustHeapLoop comp len (steps + 1) range holeIndex =
      adjustHeapLoop comp len steps range holeIndex := by
  induction steps generalizing range holeIndex with
  | zero =>
    unfold adjustHeapLoop
    rw [if_neg (by omega)]
  | succ steps ih =>
    rw [adjustHeapLoop]
    conv => rhs; rw [adjustHeapLoop]
    split
    · simp only
      split
      · apply ih
        split <;> omega
      · rfl
    · rfl

theorem lgLoop_steps (steps n : Nat) (h : n ≤ steps) :
    lgLoop (steps + 1) n = lgLoop steps n := by
  induction steps generalizing n with
  | zero =>
    have h0 : n = 0 := by omega
    subst h0
    rfl
  | succ steps ih =>
    rw [lgLoop]
    conv => rhs; rw [lgLoop]
    split
    · rfl
    · rw [ih _ (by omega)]

theorem lgLoop_spec (steps n : Nat) (h : n ≤ steps) (hn : 0 < n) :
    2 ^ lgLoop steps n ≤ n ∧ n < 2 ^ (lgLoop steps n + 1) := by
  induction steps generalizing n with
  | zero => omega
  | succ steps ih =>
    unfold lgLoop
    split
    · simp only [Nat.pow_zero, Nat.zero_add, Nat.pow_one]
      omega
    · obtain ⟨h1, h2⟩ := ih (n / 2) (by omega) (by omega)
      rw [Nat.pow_succ, Nat.pow_succ]
      rw [Nat.pow_succ] at h2
      omega

/-- `lg n` is the position of the highest set bit of `n`: `2 ^ lg n ≤ n < 2 ^ (lg n + 1)`. -/
theorem lg_spec (n : Nat) (hn : 0 < n) : 2 ^ lg n ≤ n ∧ n < 2 ^ (lg n + 1) :=
  lgLoop_spec n n (Nat.le_refl n) hn

/-! ### The loops without a test of the bounds stay inside the range

For a comparator that is asymmetric, as the one of `FindTopDocuments` is, the loops of
`std::sort` that do not test the bounds end inside the range: the embedding, in which
these loops stop at the bounds, does not depart from the library there. -/

theorem compAt_eq {α : Type} (comp : α → α → Bool) (range : List α) (i j : Nat) (x y : α)
    (hx : range[i]? = some x) (hy : range[j]? = some y) :
    compAt comp range i j = comp x y := by
  unfold compAt
  rw [hx, hy]

theorem getElem?_iterSwap {α : Type} (range : List α) (a b k : Nat) (ha : a < range.length)
    (hb : b < range.length) :
    (iterSwap range a b)[k]? =
      if k = b then range[a]? else if k = a then range[b]? else range[k]? := by
  unfold iterSwap
  rw [List.getElem?_eq_getElem ha, List.getElem?_eq_getElem hb]
  simp only [List.getElem?_set, List.length_set]
  by_cases h1 : k = b
  · subst h1
    simp [hb, List.getElem?_eq_getElem ha]
  · by_cases h2 : k = a
    · subst h2
      simp [h1, Ne.symm h1, ha, List.getElem?_eq_getElem hb]
    · simp [h1, h2, Ne.symm h1, Ne.symm h2]

theorem length_iterSwap {α : Type} (range : List α) (a b : Nat) :
    (iterSwap range a b).length = range.length :=
  (iterSwap_perm range a b).length_eq

theorem partitionScanUp_spec {α : Type} (comp : α → α → Bool) (range : List α)
    (pivot count first : Nat) :
    partitionScanUp comp range pivot count first ≤ first + count ∧
      (partitionScanUp comp range pivot count first < first + count →
        compAt comp range (partitionScanUp comp range pivot count first) pivot = false) := by
  induction count generalizing first with
  | zero =>
    unfold partitionScanUp
    exact ⟨Nat.le_refl _, fun h => absurd h (Nat.lt_irrefl _)⟩
  | succ count ih =>
    unfold partitionScanUp
    split
    · obtain ⟨h1, h2⟩ := ih (first + 1)
      exact ⟨by omega, fun h => h2 (by omega)⟩
    · rename_i hc
      exact ⟨by omega, fun _ => by simpa using hc⟩

theorem partitionScanDown_spec {α : Type} (comp : α → α → Bool) (range : List α)
    (pivot last : Nat) :
    ∀ k, partitionScanDown comp range pivot last < k → k ≤ last →
      compAt comp range pivot k = true := by
  induction last with
  | zero =>
    intro k h1 h2
    omega
  | succ last ih =>
    unfold partitionScanDown
    split
    · rename_i hc
      intro k h1 h2
      by_cases hk : k = last + 1
      · rw [hk]; exact hc
      · exact ih k h1 (by omega)
    · intro k h1 h2
      omega

/-- After `std::__unguarded_partition` no element from the cut on compares less than the
pivot, which is in the part before the cut. -/
theorem unguardedPartition_spec {α : Type} (comp : α → α → Bool)
    (hasymm : ∀ a b, comp a b = true → comp b a = false) (steps : Nat) (range : List α)
    (first last : Nat) (hsteps : last - first ≤ steps) (hfirst : 1 ≤ first)
    (hlast : last ≤ range.length)
    (hinv : ∀ k, last ≤ k → k < range.length → compAt comp range k 0 = false) :
    1 ≤ (unguardedPartition comp 0 steps range first last).2 ∧
      (unguardedPartition comp 0 steps range first last).1[0]? = range[0]? ∧
      ∀ k, (unguardedPartition comp 0 steps range first last).2 ≤ k →
        k < (unguardedPartition comp 0 steps range first last).1.length →
        compAt comp (unguardedPartition comp 0 steps range first last).1 k 0 = false := by
  induction steps generalizing range first last with
  | zero =>
    have h1 := partitionScanUp_ge comp range 0 (range.length - first) first
    unfold unguardedPartition
    refine ⟨by simp only; omega, rfl, fun k hk1 hk2 => hinv k (by simp only at hk1; omega) hk2⟩
  | succ steps ih =>
    have h1 := partitionScanUp_ge comp range 0 (range.length - first) first
    have h2 := partitionScanDown_le comp range 0 (last - 1)
    have h3 := partitionScanUp_spec comp range 0 (range.length - first) first
    have h4 := partitionScanDown_spec comp range 0 (last - 1)
    have hdown : ∀ k, partitionScanDown comp range 0 (last - 1) < k → k < last →
        compAt comp range k 0 = false := by
      intro k hk1 hk2
      have hc := h4 k hk1 (by omega)
      have hk : k < range.length := by omega
      have h0 : 0 < range.length := by omega
      rw [compAt_eq comp range 0 k _ _ (List.getElem?_eq_getElem h0)
        (List.getElem?_eq_getElem hk)] at hc
      rw [compAt_eq comp range k 0 _ _ (List.getElem?_eq_getElem hk)
        (List.getElem?_eq_getElem h0)]
      exact hasymm _ _ hc
    unfold unguardedPartition
    simp only
    split
    · rename_i hlt
      have ha : partitionScanUp comp range 0 (range.length - first) first < range.length := by
        omega
      have hb : partitionScanDown comp range 0 (last - 1) < range.length := by omega
      have hget := fun k => getElem?_iterSwap range _ _ k ha hb
      obtain ⟨r1, r2, r3⟩ := ih
        (iterSwap range (partitionScanUp comp range 0 (range.length - first) first)
          (partitionScanDown comp range 0 (last - 1)))
        (partitionScanUp comp range 0 (range.length - first) first + 1)
        (partitionScanDown comp range 0 (last - 1)) (by omega) (by omega)
        (by rw [length_iterSwap]; omega)
        (by
          intro k hk1 hk2
          rw [length_iterSwap] at hk2
          have h0 : 0 < range.length := by omega
          have hz : (iterSwap range (partitionScanUp comp range 0 (range.length - first) first)
              (partitionScanDown comp range 0 (last - 1)))[0]? = range[0]? := by
            rw [hget 0, if_neg (by omega), if_neg (by omega)]
          by_cases hk : k = partitionScanDown comp range 0 (last - 1)
          · have hkk := hget k
            rw [if_pos hk] at hkk
            unfold compAt
            rw [hkk, hz]
            have hstop := h3.2 (by omega)
            unfold compAt at hstop
            exact hstop
          · have hkk := hget k
            rw [if_neg hk, if_neg (by omega)] at hkk
            unfold compAt
            rw [hkk, hz]
            by_cases hkl : k < last
            · have := hdown k (by omega) hkl
              unfold compAt at this
              exact this
            · have := hinv k (by omega) hk2
              unfold compAt at this
              exact this)
      refine ⟨r1, ?_, r3⟩
      rw [r2, hget 0, if_neg (by omega), if_neg (by omega)]
    · rename_i hge
      refine ⟨by omega, rfl, ?_⟩
      intro k hk1 hk2
      by_cases hkl : last ≤ k
      · exact hinv k hkl hk2
      · by_cases hkd : partitionScanDown comp range 0 (last - 1) < k
        · exact hdown k hkd (by omega)
        · have hk : k = partitionScanUp comp range 0 (range.length - first) first := by omega
          rw [hk]
          exact h3.2 (by omega)

theorem unguardedPartitionPivot_spec {α : Type} (comp : α → α → Bool)
    (hasymm : ∀ a b, comp a b = true → comp b a = false) (range : List α)
    (hlen : 0 < range.length) :
    1 ≤ (unguardedPartitionPivot comp range).2 ∧
      ∃ pivot, (unguardedPartitionPivot comp range).1[0]? = some pivot ∧
        ∀ x ∈ (unguardedPartitionPivot comp range).1.drop (unguardedPartitionPivot comp range).2,
          comp x pivot = false := by
  have hlen₁ : (moveMedianToFirst comp range 0 1 (range.length / 2) (range.length - 1)).length =
      range.length := (moveMedianToFirst_perm comp range _ _ _ _).length_eq
  obtain ⟨h1, h2, h3⟩ := unguardedPartition_spec comp hasymm (range.length - 1)
    (moveMedianToFirst comp range 0 1 (range.length / 2) (range.length - 1)) 1 range.length
    (by omega) (Nat.le_refl 1) (by omega) (fun k hk1 hk2 => by omega)
  have hlen₂ : (unguardedPartitionPivot comp range).1.length = range.length :=
    (unguardedPartitionPivot_perm comp range).length_eq
  unfold unguardedPartitionPivot at hlen₂ ⊢
  simp only at hlen₂ ⊢
  refine ⟨h1, _, List.getElem?_eq_getElem (by omega), ?_⟩
  intro x hx
  obtain ⟨k, hk, hxk⟩ := List.getElem_of_mem hx
  rw [List.length_drop] at hk
  have hk₂ := h3 (_ + k) (Nat.le_add_right _ _) (by omega)
  rw [compAt_eq comp _ _ 0 x _ (by
      rw [← hxk, List.getElem_drop, List.getElem?_eq_getElem])
    (List.getElem?_eq_getElem (by omega))] at hk₂
  exact hk₂

theorem InSubtree.ge {root node : Nat} (h : InSubtree root node) : root ≤ node := by
  induction h with
  | root => exact Nat.le_refl _
  | left node _ ih => omega
  | right node _ ih => omega

theorem InSubtree.parent {root node : Nat} (h : InSubtree root node) (hne : node ≠ root) :
    InSubtree root ((node - 1) / 2) := by
  cases h with
  | root => exact absurd rfl hne
  | left node h =>
    have : (2 * node + 1 - 1) / 2 = node := by omega
    rw [this]
    exact h
  | right node h =>
    have : (2 * node + 2 - 1) / 2 = node := by omega
    rw [this]
    exact h

theorem not_inSubtree_sibling (root : Nat) (hroot : root = 1 ∨ root = 2) :
    ¬ InSubtree root (3 - root) := by
  intro h
  rcases hroot with h1 | h2
  · subst h1
    generalize hx : 3 - 1 = x at h
    cases h with
    | root => omega
    | left node h => omega
    | right node h =>
      have := h.ge
      omega
  · subst h2
    have := h.ge
    omega

theorem pushHeap_zero {α : Type} (comp : α → α → Bool) (value : α) (steps : Nat)
    (range : List α) : pushHeap comp 0 value steps range 0 = range.set 0 value := by
  cases steps with
  | zero => rfl
  | succ steps =>
    unfold pushHeap
    simp only
    split
    · rw [if_neg (by omega)]
    · rfl

/-- `std::__push_heap` from a hole below the child `root` of the top: the positions outside
the path are left alone, and either the top is left alone or the value has become the top
and the old top, which compares less than the value, is at `root`. -/
theorem pushHeap_top {α : Type} (comp : α → α → Bool) (value : α) (root : Nat)
    (hroot : root = 1 ∨ root = 2) (steps : Nat) (range : List α) (holeIndex : Nat)
    (hsub : InSubtree root holeIndex) (hhole : holeIndex < range.length) :
    (∀ q, q ≠ 0 → ¬ InSubtree root q →
        (pushHeap comp 0 value steps range holeIndex)[q]? = range[q]?) ∧
      ((pushHeap comp 0 value steps range holeIndex)[0]? = range[0]? ∨
        ∃ top, range[0]? = some top ∧
          (pushHeap comp 0 value steps range holeIndex)[0]? = some value ∧
          (pushHeap comp 0 value steps range holeIndex)[root]? = some top ∧
          comp top value = true) := by
  induction steps generalizing range holeIndex with
  | zero =>
    have hge := hsub.ge
    unfold pushHeap
    refine ⟨fun q hq0 hq => ?_, Or.inl ?_⟩
    · rw [List.getElem?_set_ne (by intro h; rw [h] at hsub; exact hq hsub)]
    · rw [List.getElem?_set_ne (by omega)]
  | succ steps ih =>
    have hge := hsub.ge
    have hstay : (∀ q, q ≠ 0 → ¬ InSubtree root q →
        (range.set holeIndex value)[q]? = range[q]?) ∧
        ((range.set holeIndex value)[0]? = range[0]? ∨
          ∃ top, range[0]? = some top ∧ (range.set holeIndex value)[0]? = some value ∧
            (range.set holeIndex value)[root]? = some top ∧ comp top value = true) := by
      refine ⟨fun q hq0 hq => ?_, Or.inl ?_⟩
      · rw [List.getElem?_set_ne (by intro h; rw [h] at hsub; exact hq hsub)]
      · rw [List.getElem?_set_ne (by omega)]
    unfold pushHeap
    simp only
    split
    · rename_i p hp
      split
      · rename_i hmove
        by_cases hr : holeIndex = root
        · have hparent : (holeIndex - 1) / 2 = 0 := by omega
          rw [hparent] at hp ⊢
          rw [pushHeap_zero]
          have h0 : 0 < range.length := lt_length_of_getElem? _ _ _ hp
          refine ⟨fun q hq0 hq => ?_, Or.inr ⟨p, hp, ?_, ?_, hmove.2⟩⟩
          · rw [List.getElem?_set_ne (Ne.symm hq0),
              List.getElem?_set_ne (by intro h; rw [h] at hsub; exact hq hsub)]
          · rw [List.getElem?_set_self (by simpa using h0)]
          · rw [List.getElem?_set_ne (by omega), ← hr, List.getElem?_set_self hhole]
        · have hsub₁ := hsub.parent hr
          have hp₁ := lt_length_of_getElem? _ _ _ hp
          obtain ⟨h1, h2⟩ := ih (range.set holeIndex p) _ hsub₁ (by simpa using hp₁)
          have hzero : (range.set holeIndex p)[0]? = range[0]? := by
            rw [List.getElem?_set_ne (by omega)]
          refine ⟨fun q hq0 hq => ?_, ?_⟩
          · rw [h1 q hq0 hq,
              List.getElem?_set_ne (by intro h; rw [h] at hsub; exact hq hsub)]
          · rcases h2 with h2 | ⟨top, t1, t2, t3, t4⟩
            · exact Or.inl (h2.trans hzero)
            · exact Or.inr ⟨top, hzero ▸ t1, t2, t3, t4⟩
      · exact hstay
    · exact hstay

theorem pushHeap_above {α : Type} (comp : α → α → Bool) (topIndex : Nat) (value : α)
    (steps : Nat) (range : List α) (holeIndex : Nat) (q : Nat) (hq : holeIndex < q) :
    (pushHeap comp topIndex value steps range holeIndex)[q]? = range[q]? := by
  induction steps generalizing range holeIndex with
  | zero =>
    unfold pushHeap
    rw [List.getElem?_set_ne (by omega)]
  | succ steps ih =>
    unfold pushHeap
    simp only
    split
    · split
      · rw [ih _ _ (by omega), List.getElem?_set_ne (by omega)]
      · rw [List.getElem?_set_ne (by omega)]
    · rw [List.getElem?_set_ne (by omega)]

/-- The first loop of `std::__adjust_heap` from a hole below `root` changes no position
outside the positions below `root` and ends with a hole below `root`. -/
theorem adjustHeapLoop_subtree {α : Type} (comp : α → α → Bool) (len root steps : Nat)
    (range : List α) (holeIndex : Nat) (hsub : InSubtree root holeIndex) :
    InSubtree root (adjustHeapLoop comp len steps range holeIndex).2 ∧
      ∀ q, ¬ InSubtree root q →
        (adjustHeapLoop comp len steps range holeIndex).1[q]? = range[q]? := by
  induction steps generalizing range holeIndex with
  | zero => exact ⟨hsub, fun _ _ => rfl⟩
  | succ steps ih =>
    unfold adjustHeapLoop
    split
    · simp only
      split
      · rename_i child hchild
        have hnext : InSubtree root
            (if compAt comp range (2 * (holeIndex + 1)) (2 * (holeIndex + 1) - 1) = true then
              2 * (holeIndex + 1) - 1 else 2 * (holeIndex + 1)) := by
          split
          · have : 2 * (holeIndex + 1) - 1 = 2 * holeIndex + 1 := by omega
            rw [this]
            exact InSubtree.left _ hsub
          · exact InSubtree.right _ hsub
        obtain ⟨h1, h2⟩ := ih (range.set holeIndex child) _ hnext
        refine ⟨h1, fun q hq => ?_⟩
        rw [h2 q hq, List.getElem?_set_ne (by intro h; rw [h] at hsub; exact hq hsub)]
      · exact ⟨hsub, fun _ _ => rfl⟩
    · exact ⟨hsub, fun _ _ => rfl⟩

/-- The first loop of `std::__adjust_heap` stays inside the heap. -/
theorem adjustHeapLoop_bounds {α : Type} (comp : α → α → Bool) (len steps : Nat)
    (range : List α) (holeIndex : Nat) (hhole : holeIndex < len) :
    (adjustHeapLoop comp len steps range holeIndex).2 < len ∧
      ∀ q, len ≤ q → (adjustHeapLoop comp len steps range holeIndex).1[q]? = range[q]? := by
  induction steps generalizing range holeIndex with
  | zero => exact ⟨hhole, fun _ _ => rfl⟩
  | succ steps ih =>
    unfold adjustHeapLoop
    split
    · simp only
      split
      · rename_i hlt child hchild
        obtain ⟨h1, h2⟩ := ih (range.set holeIndex child)
          (if compAt comp range (2 * (holeIndex + 1)) (2 * (holeIndex + 1) - 1) = true then
            2 * (holeIndex + 1) - 1 else 2 * (holeIndex + 1)) (by split <;> omega)
        refine ⟨h1, fun q hq => ?_⟩
        rw [h2 q hq, List.getElem?_set_ne (by omega)]
      · exact ⟨hhole, fun _ _ => rfl⟩
    · exact ⟨hhole, fun _ _ => rfl⟩

theorem adjustHeapLast_subtree {α : Type} (len root : Nat) (range : List α)
    (holeIndex : Nat) (hsub : InSubtree root holeIndex) :
    InSubtree root (adjustHeapLast len range holeIndex).2 ∧
      ∀ q, ¬ InSubtree root q → (adjustHeapLast len range holeIndex).1[q]? = range[q]? := by
  unfold adjustHeapLast
  split
  · split
    · refine ⟨?_, fun q hq => ?_⟩
      · have : 2 * (holeIndex + 1) - 1 = 2 * holeIndex + 1 := by omega
        simp only [this]
        exact InSubtree.left _ hsub
      · simp only
        rw [List.getElem?_set_ne (by intro h; rw [h] at hsub; exact hq hsub)]
    · exact ⟨hsub, fun _ _ => rfl⟩
  · exact ⟨hsub, fun _ _ => rfl⟩

theorem adjustHeapLast_bounds {α : Type} (len : Nat) (range : List α) (holeIndex : Nat)
    (hhole : holeIndex < len) :
    (adjustHeapLast len range holeIndex).2 < len ∧
      ∀ q, len ≤ q → (adjustHeapLast len range holeIndex).1[q]? = range[q]? := by
  unfold adjustHeapLast
  split
  · split
    · rename_i hc child hchild
      refine ⟨by simp only; omega, fun q hq => ?_⟩
      simp only
      rw [List.getElem?_set_ne (by omega)]
    · exact ⟨hhole, fun _ _ => rfl⟩
  · exact ⟨hhole, fun _ _ => rfl⟩

/-- `std::__adjust_heap` changes no position from `len` on. -/
theorem adjustHeap_above {α : Type} (comp : α → α → Bool) (range : List α)
    (holeIndex len : Nat) (value : α) (hhole : holeIndex < len) (q : Nat) (hq : len ≤ q) :
    (adjustHeap comp range holeIndex len value)[q]? = range[q]? := by
  obtain ⟨h1, h2⟩ := adjustHeapLoop_bounds comp len len range holeIndex hhole
  obtain ⟨h3, h4⟩ := adjustHeapLast_bounds len
    (adjustHeapLoop comp len len range holeIndex).1 _ h1
  unfold adjustHeap
  simp only
  rw [pushHeap_above comp _ value _ _ _ q (by omega), h4 q hq, h2 q hq]

/-- After `std::__adjust_heap` from the top of a heap of at least two elements, the top
does not compare less than some other element of the heap. -/
theorem adjustHeap_top_witness {α : Type} (comp : α → α → Bool)
    (hasymm : ∀ a b, comp a b = true → comp b a = false) (range : List α) (len : Nat)
    (value : α) (hlen2 : 2 ≤ len) (hlen : len ≤ range.length) :
    ∃ k top other, 1 ≤ k ∧ k < len ∧
      (adjustHeap comp range 0 len value)[0]? = some top ∧
      (adjustHeap comp range 0 len value)[k]? = some other ∧ comp top other = false := by
  have hl0 : 0 < range.length := by omega
  have hl1 : 1 < range.length := by omega
  by_cases h2 : len = 2
  · subst h2
    have hloop : adjustHeapLoop comp 2 2 range 0 = (range, 0) := by
      unfold adjustHeapLoop
      rw [if_neg (by decide)]
    have hlast : adjustHeapLast 2 range 0 = (range.set 0 range[1], 1) := by
      unfold adjustHeapLast
      rw [if_pos (by decide)]
      simp only [Nat.zero_add, Nat.mul_one, Nat.add_one_sub_one,
        List.getElem?_eq_getElem hl1]
    unfold adjustHeap
    simp only [hloop, hlast]
    unfold pushHeap
    simp only [Nat.sub_self, Nat.zero_div, List.getElem?_set_self hl0]
    by_cases hc : comp range[1] value = true
    · rw [if_pos ⟨by omega, hc⟩, pushHeap_zero]
      refine ⟨1, value, range[1], Nat.le_refl 1, by omega, ?_, ?_, hasymm _ _ hc⟩
      · rw [List.getElem?_set_self (by simpa using hl0)]
      · rw [List.getElem?_set_ne (by omega), List.getElem?_set_self (by simpa using hl1)]
    · rw [if_neg (fun h => hc h.2)]
      refine ⟨1, range[1], value, Nat.le_refl 1, by omega, ?_, ?_, by simpa using hc⟩
      · rw [List.getElem?_set_ne (by omega), List.getElem?_set_self hl0]
      · rw [List.getElem?_set_self (by simpa using hl1)]
  · have hl2 : 2 < range.length := by omega
    obtain ⟨root, hroot, child, sibling, hchild, hsibling, hcomp, hloop⟩ :
        ∃ root, (root = 1 ∨ root = 2) ∧ ∃ child sibling, range[root]? = some child ∧
          range[3 - root]? = some sibling ∧ comp child sibling = false ∧
          adjustHeapLoop comp len len range 0 =
            adjustHeapLoop comp len (len - 1) (range.set 0 child) root := by
      obtain ⟨m, rfl⟩ : ∃ m, len = m + 1 := ⟨len - 1, by omega⟩
      have hcmp : compAt comp range 2 1 = comp range[2] range[1] :=
        compAt_eq comp range 2 1 _ _ (List.getElem?_eq_getElem hl2)
          (List.getElem?_eq_getElem hl1)
      by_cases hc : comp range[2] range[1] = true
      · refine ⟨1, Or.inl rfl, range[1], range[2], List.getElem?_eq_getElem hl1,
          List.getElem?_eq_getElem hl2, hasymm _ _ hc, ?_⟩
        rw [adjustHeapLoop, if_pos (by omega)]
        simp only [Nat.zero_add, Nat.mul_one, Nat.add_one_sub_one, hcmp, hc, if_true,
          List.getElem?_eq_getElem hl1]
      · refine ⟨2, Or.inr rfl, range[2], range[1], List.getElem?_eq_getElem hl2,
          List.getElem?_eq_getElem hl1, by simpa using hc, ?_⟩
        rw [adjustHeapLoop, if_pos (by omega)]
        simp only [Nat.zero_add, Nat.mul_one, Nat.add_one_sub_one, hcmp, hc,
          Bool.false_eq_true, if_false, List.getElem?_eq_getElem hl2]
    have hrootlt : root < (range.set 0 child).length := by
      rw [List.length_set]
      rcases hroot with h | h <;> omega
    obtain ⟨s1, s2⟩ := adjustHeapLoop_subtree comp len root (len - 1) (range.set 0 child) root
      InSubtree.root
    obtain ⟨p1, _⟩ := adjustHeapLoop_perm comp len value (len - 1) (range.set 0 child) root
      hrootlt
    obtain ⟨s3, s4⟩ := adjustHeapLast_subtree len root
      (adjustHeapLoop comp len (len - 1) (range.set 0 child) root).1 _ s1
    obtain ⟨p2, _⟩ := adjustHeapLast_perm len value
      (adjustHeapLoop comp len (len - 1) (range.set 0 child) root).1 _ p1
    obtain ⟨s5, s6⟩ := pushHeap_top comp value root hroot
      (adjustHeapLast len (adjustHeapLoop comp len (len - 1) (range.set 0 child) root).1
        (adjustHeapLoop comp len (len - 1) (range.set 0 child) root).2).2 _ _ s3 p2
    have hnot0 : ¬ InSubtree root 0 := fun h => by
      have := h.ge
      rcases hroot with h | h <;> omega
    have hnots := not_inSubtree_sibling root hroot
    have hzero : (adjustHeapLast len
        (adjustHeapLoop comp len (len - 1) (range.set 0 child) root).1
        (adjustHeapLoop comp len (len - 1) (range.set 0 child) root).2).1[0]? =
        some child := by
      rw [s4 0 hnot0, s2 0 hnot0, List.getElem?_set_self hl0]
    have hsib : (adjustHeap comp range 0 len value)[3 - root]? = some sibling := by
      unfold adjustHeap
      simp only [hloop]
      rw [s5 (3 - root) (by rcases hroot with h | h <;> omega) hnots, s4 _ hnots,
        s2 _ hnots, List.getElem?_set_ne (by rcases hroot with h | h <;> omega), hsibling]
    have htop : (adjustHeap comp range 0 len value)[0]? = some child ∨
        ((adjustHeap comp range 0 len value)[0]? = some value ∧
          (adjustHeap comp range 0 len value)[root]? = some child ∧
          comp child value = true) := by
      unfold adjustHeap
      simp only [hloop]
      rcases s6 with h | ⟨top, t1, t2, t3, t4⟩
      · exact Or.inl (h.trans hzero)
      · rw [hzero] at t1
        cases t1
        exact Or.inr ⟨t2, t3, t4⟩
    rcases htop with h | ⟨t2, t3, t4⟩
    · exact ⟨3 - root, child, sibling, by rcases hroot with h | h <;> omega,
        by rcases hroot with h | h <;> omega, h, hsib, hcomp⟩
    · exact ⟨root, value, child, by rcases hroot with h | h <;> omega,
        by rcases hroot with h | h <;> omega, t2, t3, hasymm _ _ t4⟩

theorem take_perm_of_getElem?_eq {α : Type} (l₁ l₂ : List α) (n : Nat) (hperm : l₁.Perm l₂)
    (heq : ∀ q, n ≤ q → l₁[q]? = l₂[q]?) : (l₁.take n).Perm (l₂.take n) := by
  have hdrop : l₁.drop n = l₂.drop n := by
    apply List.ext_getElem?
    intro j
    rw [List.getElem?_drop, List.getElem?_drop]
    exact heq _ (Nat.le_add_right _ _)
  have h : (l₁.take n ++ l₁.drop n).Perm (l₂.take n ++ l₂.drop n) := by
    rw [List.take_append_drop, List.take_append_drop]
    exact hperm
  rw [hdrop] at h
  exact (List.perm_append_right_iff _).mp h

theorem makeHeapLoop_top_witness {α : Type} (comp : α → α → Bool)
    (hasymm : ∀ a b, comp a b = true → comp b a = false) (len parent : Nat) (range : List α)
    (hlen2 : 2 ≤ len) (hlen : len ≤ range.length) (hparent : parent < len) :
    ∃ k top other, 1 ≤ k ∧ k < len ∧ (makeHeapLoop comp len parent range)[0]? = some top ∧
      (makeHeapLoop comp len parent range)[k]? = some other ∧ comp top other = false := by
  induction parent generalizing range with
  | zero =>
    unfold makeHeapLoop
    rw [List.getElem?_eq_getElem (show 0 < range.length by omega)]
    exact adjustHeap_top_witness comp hasymm range len _ hlen2 hlen
  | succ parent ih =>
    unfold makeHeapLoop
    rw [List.getElem?_eq_getElem (show parent + 1 < range.length by omega)]
    refine ih _ ?_ (by omega)
    have hperm := adjustHeap_perm comp range (parent + 1) len range[parent + 1] (by omega)
    rw [hperm.length_eq, List.length_set]
    exact hlen

/-- After `std::__sort_heap` on a heap whose top does not compare less than some other
element, every element but the first has an element before it that it does not compare
less than. -/
theorem sortHeap_guarded {α : Type} (comp : α → α → Bool)
    (hasymm : ∀ a b, comp a b = true → comp b a = false) (last : Nat) (range : List α)
    (hlast : last ≤ range.length)
    (hheap : 2 ≤ last → ∃ k top other, 1 ≤ k ∧ k < last ∧ range[0]? = some top ∧
      range[k]? = some other ∧ comp top other = false)
    (hdone : ∀ i x, last ≤ i → 1 ≤ i → range[i]? = some x →
      ∃ y ∈ range.take i, comp x y = false) :
    ∀ i x, 1 ≤ i → (sortHeap comp last range)[i]? = some x →
      ∃ y ∈ (sortHeap comp last range).take i, comp x y = false := by
  induction last generalizing range with
  | zero =>
    intro i x hi hx
    exact hdone i x (Nat.zero_le _) hi hx
  | succ last ih =>
    unfold sortHeap
    split
    · rename_i hgt
      have hl0 : 0 < range.length := by omega
      have hll : last < range.length := by omega
      have hpop : popHeap comp range last last =
          adjustHeap comp (range.set last range[0]) 0 last range[last] := by
        unfold popHeap
        rw [List.getElem?_eq_getElem hll, List.getElem?_eq_getElem hl0]
      have hperm := popHeap_perm comp range last last
      have habove : ∀ q, last < q → (popHeap comp range last last)[q]? = range[q]? := by
        intro q hq
        rw [hpop, adjustHeap_above comp _ 0 last _ (by omega) q (by omega),
          List.getElem?_set_ne (by omega)]
      have hat : (popHeap comp range last last)[last]? = some range[0] := by
        rw [hpop, adjustHeap_above comp _ 0 last _ (by omega) last (Nat.le_refl _),
          List.getElem?_set_self hll]
      have htake : ((popHeap comp range last last).take last).Perm
          ((range.set 0 range[last]).take last) := by
        have h1 : (adjustHeap comp (range.set last range[0]) 0 last range[last]).Perm
            ((range.set last range[0]).set 0 range[last]) :=
          adjustHeap_perm comp _ 0 last _ (by simpa using hl0)
        have h2 := take_perm_of_getElem?_eq _ _ last h1 (fun q hq => by
          rw [adjustHeap_above comp _ 0 last _ (by omega) q hq]
          exact (List.getElem?_set_ne (by omega)).symm)
        rw [hpop]
        refine h2.trans ?_
        have h3 : ((range.set last range[0]).set 0 range[last]).take last =
            (range.set 0 range[last]).take last := by
          apply List.ext_getElem?
          intro j
          simp only [List.getElem?_take, List.getElem?_set, List.length_set]
          by_cases hj : j < last
          · simp only [hj, if_true]
            have : ¬ last = j := by omega
            simp [this]
          · simp [hj]
        rw [h3]
      apply ih (popHeap comp range last last)
      · rw [hperm.length_eq]
        omega
      · intro h2
        rw [hpop]
        exact adjustHeap_top_witness comp hasymm _ last _ h2 (by simpa using hll.le)
      · intro i x hi1 hi2 hx
        by_cases hi : i = last
        · subst hi
          rw [hat] at hx
          cases hx
          obtain ⟨k, top, other, hk1, hk2, htop, hother, hcomp⟩ := hheap (by omega)
          rw [List.getElem?_eq_getElem hl0] at htop
          cases htop
          refine ⟨other, htake.symm.subset ?_, hcomp⟩
          by_cases hk : k = i
          · rw [hk, List.getElem?_eq_getElem hll] at hother
            cases hother
            exact List.mem_iff_getElem?.mpr ⟨0, by
              rw [List.getElem?_take, if_pos (by omega), List.getElem?_set_self hl0]⟩
          · exact List.mem_iff_getElem?.mpr ⟨k, by
              rw [List.getElem?_take, if_pos (by omega), List.getElem?_set_ne (by omega),
                hother]⟩
        · have hx' : range[i]? = some x := by rw [← habove i (by omega)]; exact hx
          obtain ⟨y, hy, hcomp⟩ := hdone i x (by omega) hi2 hx'
          refine ⟨y, ?_, hcomp⟩
          exact (take_perm_of_getElem?_eq _ _ i hperm
            (fun q hq => habove q (by omega))).symm.subset hy
    · intro i x hi hx
      exact hdone i x (by omega) hi hx

/-- After the heap sort of a range every element but the first has an element before it
that it does not compare less than. -/
theorem heapSort_guarded {α : Type} (comp : α → α → Bool)
    (hasymm : ∀ a b, comp a b = true → comp b a = false) (range : List α) :
    ∀ i x, 1 ≤ i → (heapSort comp range)[i]? = some x →
      ∃ y ∈ (heapSort comp range).take i, comp x y = false := by
  unfold heapSort
  have hlen : (makeHeap comp range).length = range.length := (makeHeap_perm comp range).length_eq
  apply sortHeap_guarded comp hasymm
  · rw [hlen]
  · intro h2
    unfold makeHeap
    rw [if_neg (by omega)]
    exact makeHeapLoop_top_witness comp hasymm _ _ range h2 (Nat.le_refl _) (by omega)
  · intro i x hi _ hx
    rw [List.getElem?_eq_none (by omega)] at hx
    cases hx

/-- After `std::__introsort_loop` every element from the position 16 on has an element
before it that it does not compare less than: the loop of `std::__unguarded_linear_insert`
in `std::__final_insertion_sort` ends inside the range. -/
theorem introsortLoop_guarded {α : Type} (comp : α → α → Bool)
    (hasymm : ∀ a b, comp a b = true → comp b a = false) (depth_limit : Nat)
    (range : List α) :
    ∀ i x, 16 ≤ i → (introsortLoop comp depth_limit range)[i]? = some x →
      ∃ y ∈ (introsortLoop comp depth_limit range).take i, comp x y = false := by
  induction depth_limit generalizing range with
  | zero =>
    unfold introsortLoop
    split
    · intro i x hi hx
      exact heapSort_guarded comp hasymm range i x (by omega) hx
    · intro i x hi hx
      rw [List.getElem?_eq_none (by omega)] at hx
      cases hx
  | succ depth_limit ih =>
    unfold introsortLoop
    split
    · rename_i hlen
      simp only
      obtain ⟨hcut, pivot, hpivot, hright⟩ :=
        unguardedPartitionPivot_spec comp hasymm range (by omega)
      generalize unguardedPartitionPivot comp range = cut at hcut hpivot hright
      have hleft := introsortLoop_perm comp depth_limit (cut.1.take cut.2)
      have hrightp := introsortLoop_perm comp depth_limit (cut.1.drop cut.2)
      intro i x hi hx
      by_cases hil : i < (introsortLoop comp depth_limit (cut.1.take cut.2)).length
      · rw [List.getElem?_append_left hil] at hx
        obtain ⟨y, hy, hcomp⟩ := ih _ i x hi hx
        refine ⟨y, ?_, hcomp⟩
        rw [List.take_append_of_le_length (by omega)]
        exact hy
      · rw [List.getElem?_append_right (by omega)] at hx
        have hxmem : x ∈ cut.1.drop cut.2 :=
          hrightp.subset (List.mem_iff_getElem?.mpr ⟨_, hx⟩)
        refine ⟨pivot, ?_, hright x hxmem⟩
        have hpmem : pivot ∈ introsortLoop comp depth_limit (cut.1.take cut.2) := by
          apply hleft.symm.subset
          exact List.mem_iff_getElem?.mpr ⟨0, by
            rw [List.getElem?_take, if_pos (by omega), hpivot]⟩
        rw [List.take_append_eq_append_take, List.take_of_length_le (by omega)]
        exact List.mem_append_left _ hpmem
    · intro i x hi hx
      rw [List.getElem?_eq_none (by omega)] at hx
      cases hx

theorem unguardedLinearInsertChecked_eq {α : Type} (comp : α → α → Bool) (val : α)
    (l : List α) (h : ∃ y ∈ l, comp val y = false) :
    unguardedLinearInsertChecked comp val l = some (unguardedLinearInsert comp val l) := by
  induction l with
  | nil =>
    obtain ⟨y, hy, _⟩ := h
    cases hy
  | cons y ys ih =>
    unfold unguardedLinearInsertChecked unguardedLinearInsert
    by_cases hc : comp val y = true
    · rw [if_pos hc, if_pos hc]
      obtain ⟨z, hz, hcz⟩ := h
      rcases List.mem_cons.mp hz with hzy | hzys
      · rw [hzy, hc] at hcz
        cases hcz
      · rw [ih ⟨z, hzys, hcz⟩]
        rfl
    · rw [if_neg hc, if_neg hc]

theorem foldl_unguardedInsertionStepChecked_eq {α : Type} (comp : α → α → Bool)
    (rest sorted done : List α) (hperm : sorted.Perm done)
    (h : ∀ i x, rest[i]? = some x → ∃ y ∈ done ++ rest.take i, comp x y = false) :
    rest.foldl (unguardedInsertionStepChecked comp) (some sorted) =
      some (rest.foldl (unguardedInsertionStep comp) sorted) := by
  induction rest generalizing sorted done with
  | nil => rfl
  | cons x xs ih =>
    simp only [List.foldl_cons]
    have hx : ∃ y ∈ sorted.reverse, comp x y = false := by
      obtain ⟨y, hy, hc⟩ := h 0 x (List.getElem?_cons_zero)
      simp only [List.take_zero, List.append_nil] at hy
      exact ⟨y, List.mem_reverse.mpr (hperm.symm.subset hy), hc⟩
    have hstep : unguardedInsertionStepChecked comp (some sorted) x =
        some (unguardedInsertionStep comp sorted x) := by
      unfold unguardedInsertionStepChecked unguardedInsertionStep
      simp only
      rw [unguardedLinearInsertChecked_eq comp x _ hx]
      rfl
    rw [hstep]
    refine ih _ (done ++ [x]) ?_ ?_
    · exact (unguardedInsertionStep_perm comp sorted x).trans
        ((hperm.cons x).trans (List.perm_append_singleton x done).symm)
    · intro i z hz
      obtain ⟨y, hy, hc⟩ := h (i + 1) z (by simpa using hz)
      refine ⟨y, ?_, hc⟩
      simpa [List.append_assoc] using hy

/-- In `std::__final_insertion_sort` after `std::__introsort_loop` the loop of
`std::__unguarded_linear_insert` ends inside the range. -/
theorem finalInsertionSortChecked_eq {α : Type} (comp : α → α → Bool) (range : List α)
    (h : ∀ i x, 16 ≤ i → range[i]? = some x → ∃ y ∈ range.take i, comp x y = false) :
    finalInsertionSortChecked comp range = some (finalInsertionSort comp range) := by
  unfold finalInsertionSortChecked finalInsertionSort
  split
  · rename_i hlen
    refine foldl_unguardedInsertionStepChecked_eq comp _ _ (range.take 16) ?_ ?_
    · simpa using foldl_insertionStep_perm comp (range.take 16) []
    · intro i x hx
      rw [List.getElem?_drop] at hx
      obtain ⟨y, hy, hc⟩ := h (16 + i) x (Nat.le_add_right _ _) hx
      refine ⟨y, ?_, hc⟩
      have : range.take (16 + i) = range.take 16 ++ (range.drop 16).take i := by
        rw [List.take_add]
      rw [← this]
      exact hy
  · rfl

theorem partitionScanUpChecked_eq {α : Type} (comp : α → α → Bool) (range : List α)
    (pivot count first : Nat)
    (h : ∃ k, first ≤ k ∧ k < first + count ∧ compAt comp range k pivot = false) :
    partitionScanUpChecked comp range pivot count first =
      some (partitionScanUp comp range pivot count first) := by
  induction count generalizing first with
  | zero =>
    obtain ⟨k, h1, h2, _⟩ := h
    omega
  | succ count ih =>
    unfold partitionScanUpChecked partitionScanUp
    by_cases hc : compAt comp range first pivot = true
    · rw [if_pos hc, if_pos hc]
      obtain ⟨k, h1, h2, h3⟩ := h
      have hk : k ≠ first := by
        intro hk
        rw [hk, hc] at h3
        cases h3
      exact ih _ ⟨k, by omega, by omega, h3⟩
    · rw [if_neg hc, if_neg hc]

theorem partitionScanDownChecked_eq {α : Type} (comp : α → α → Bool) (range : List α)
    (pivot last : Nat) (h : compAt comp range pivot 0 = false) :
    partitionScanDownChecked comp range pivot last =
      some (partitionScanDown comp range pivot last) := by
  induction last with
  | zero =>
    unfold partitionScanDownChecked partitionScanDown
    rw [h]
    rfl
  | succ last ih =>
    unfold partitionScanDownChecked partitionScanDown
    split
    · exact ih
    · rfl

theorem compAt_iterSwap_zero {α : Type} (comp : α → α → Bool) (range : List α) (m k : Nat)
    (hm : m < range.length) (hk : k < range.length) (hk0 : k ≠ 0) (hkm : k ≠ m) :
    compAt comp (iterSwap range 0 m) k 0 = compAt comp range k m := by
  have h0 : 0 < range.length := by omega
  unfold compAt
  rw [getElem?_iterSwap range 0 m k h0 hm, getElem?_iterSwap range 0 m 0 h0 hm,
    if_neg hkm, if_neg hk0]
  by_cases hm0 : 0 = m
  · rw [if_pos hm0]
    subst hm0
    rfl
  · rw [if_neg hm0, if_pos rfl]

/-- After `std::__move_median_to_first` one of the three elements is behind the first
position and does not compare less than the median, which is at the first position: the
first scan of `std::__unguarded_partition` ends at it or before. -/
theorem moveMedianToFirst_sentinel {α : Type} (comp : α → α → Bool)
    (hasymm : ∀ a b, comp a b = true → comp b a = false) (range : List α)
    (hlen : 4 ≤ range.length) :
    ∃ k, 1 ≤ k ∧ k < range.length ∧
      compAt comp (moveMedianToFirst comp range 0 1 (range.length / 2) (range.length - 1)) k 0 =
        false := by
  have h1 : 1 < range.length := by omega
  have hmid : range.length / 2 < range.length := by omega
  have hend : range.length - 1 < range.length := by omega
  have hflip : ∀ i j, i < range.length → j < range.length →
      compAt comp range i j = true → compAt comp range j i = false := by
    intro i j hi hj hc
    rw [compAt_eq comp range i j _ _ (List.getElem?_eq_getElem hi)
      (List.getElem?_eq_getElem hj)] at hc
    rw [compAt_eq comp range j i _ _ (List.getElem?_eq_getElem hj)
      (List.getElem?_eq_getElem hi)]
    exact hasymm _ _ hc
  unfold moveMedianToFirst
  split_ifs with hab hbc hac hac hbc
  · exact ⟨range.length - 1, by omega, hend, by
      rw [compAt_iterSwap_zero comp range _ _ hmid hend (by omega) (by omega)]
      exact hflip _ _ hmid hend hbc⟩
  · exact ⟨range.length / 2, by omega, hmid, by
      rw [compAt_iterSwap_zero comp range _ _ hend hmid (by omega) (by omega)]
      simpa using hbc⟩
  · exact ⟨range.length / 2, by omega, hmid, by
      rw [compAt_iterSwap_zero comp range _ _ h1 hmid (by omega) (by omega)]
      exact hflip _ _ h1 hmid hab⟩
  · exact ⟨range.length - 1, by omega, hend, by
      rw [compAt_iterSwap_zero comp range _ _ h1 hend (by omega) (by omega)]
      exact hflip _ _ h1 hend hac⟩
  · exact ⟨1, Nat.le_refl 1, h1, by
      rw [compAt_iterSwap_zero comp range _ _ hend h1 (by omega) (by omega)]
      simpa using hac⟩
  · exact ⟨1, Nat.le_refl 1, h1, by
      rw [compAt_iterSwap_zero comp range _ _ hmid h1 (by omega) (by omega)]
      simpa using hab⟩

/-- The scans of `std::__unguarded_partition` end inside the range when an element from
`first` on does not compare less than the pivot. -/
theorem unguardedPartitionChecked_eq {α : Type} (comp : α → α → Bool)
    (hasymm : ∀ a b, comp a b = true → comp b a = false) (steps : Nat) (range : List α)
    (first last : Nat) (hfirst : 1 ≤ first) (hlast : last ≤ range.length)
    (hsentinel : ∃ k, first ≤ k ∧ k < range.length ∧ compAt comp range k 0 = false) :
    unguardedPartitionChecked comp 0 steps range first last =
      some (unguardedPartition comp 0 steps range first last) := by
  induction steps generalizing range first last with
  | zero =>
    obtain ⟨k, hk1, hk2, hk3⟩ := hsentinel
    unfold unguardedPartitionChecked unguardedPartition
    rw [partitionScanUpChecked_eq comp range 0 _ first ⟨k, hk1, by omega, hk3⟩]
  | succ steps ih =>
    have hpos : 0 < range.length := by
      obtain ⟨k, _, hk2, _⟩ := hsentinel
      omega
    have hirr : compAt comp range 0 0 = false := by
      rw [compAt_eq comp range 0 0 _ _ (List.getElem?_eq_getElem hpos)
        (List.getElem?_eq_getElem hpos)]
      cases hc : comp range[0] range[0]
      · rfl
      · rw [hasymm _ _ hc] at hc
        cases hc
    have hup : partitionScanUpChecked comp range 0 (range.length - first) first =
        some (partitionScanUp comp range 0 (range.length - first) first) := by
      obtain ⟨k, hk1, hk2, hk3⟩ := hsentinel
      exact partitionScanUpChecked_eq comp range 0 _ first ⟨k, hk1, by omega, hk3⟩
    have h1 := partitionScanUp_ge comp range 0 (range.length - first) first
    have h2 := partitionScanDown_le comp range 0 (last - 1)
    have h3 := partitionScanUp_spec comp range 0 (range.length - first) first
    unfold unguardedPartitionChecked unguardedPartition
    rw [hup, partitionScanDownChecked_eq comp range 0 _ hirr]
    simp only
    split
    · rename_i hlt
      have ha : partitionScanUp comp range 0 (range.length - first) first < range.length := by
        omega
      have hb : partitionScanDown comp range 0 (last - 1) < range.length := by omega
      apply ih
      · omega
      · rw [length_iterSwap]
        omega
      · refine ⟨partitionScanDown comp range 0 (last - 1), by omega,
          by rw [length_iterSwap]; exact hb, ?_⟩
        have hstop := h3.2 (by omega)
        unfold compAt at hstop ⊢
        rw [getElem?_iterSwap range _ _ _ ha hb, getElem?_iterSwap range _ _ _ ha hb,
          if_pos rfl, if_neg (by omega), if_neg (by omega)]
        exact hstop
    · rfl

theorem unguardedPartitionPivotChecked_eq {α : Type} (comp : α → α → Bool)
    (hasymm : ∀ a b, comp a b = true → comp b a = false) (range : List α)
    (hlen : 4 ≤ range.length) :
    unguardedPartitionPivotChecked comp range = some (unguardedPartitionPivot comp range) := by
  have hlen₁ : (moveMedianToFirst comp range 0 1 (range.length / 2) (range.length - 1)).length =
      range.length := (moveMedianToFirst_perm comp range _ _ _ _).length_eq
  obtain ⟨k, hk1, hk2, hk3⟩ := moveMedianToFirst_sentinel comp hasymm range hlen
  unfold unguardedPartitionPivotChecked unguardedPartitionPivot
  exact unguardedPartitionChecked_eq comp hasymm _ _ 1 _ (Nat.le_refl 1) (by omega)
    ⟨k, hk1, by omega, hk3⟩

theorem introsortLoopChecked_eq {α : Type} (comp : α → α → Bool)
    (hasymm : ∀ a b, comp a b = true → comp b a = false) (depth_limit : Nat)
    (range : List α) :
    introsortLoopChecked comp depth_limit range =
      some (introsortLoop comp depth_limit range) := by
  induction depth_limit generalizing range with
  | zero =>
    unfold introsortLoopChecked introsortLoop
    split <;> rfl
  | succ depth_limit ih =>
    unfold introsortLoopChecked introsortLoop
    split
    · rw [unguardedPartitionPivotChecked_eq comp hasymm range (by omega)]
      simp only [ih]
    · rfl

/-- For an asymmetric comparator no loop of `std::sort` reads an element outside the range
it works on: the sort with the tests of the bounds gives what `stdSort` gives. -/
theorem stdSortChecked_eq {α : Type} (comp : α → α → Bool)
    (hasymm : ∀ a b, comp a b = true → comp b a = false) (range : List α) :
    stdSortChecked comp range = some (stdSort comp range) := by
  unfold stdSortChecked stdSort
  rw [introsortLoopChecked_eq comp hasymm]
  exact finalInsertionSortChecked_eq comp _ (introsortLoop_guarded comp hasymm _ range)

namespace SearchServer

theorem compareDocuments_asymm (a b : Document) (h : compareDocuments a b = true) :
    compareDocuments b a = false := by
  unfold compareDocuments at h ⊢
  rw [abs_sub_comm b.relevance a.relevance]
  by_cases ht : |a.relevance - b.relevance| < MAX_RELEVANCE_DIFFERENCE
  · simp only [ht, if_true, decide_eq_true_eq, decide_eq_false_iff_not] at h ⊢
    omega
  · simp only [ht, if_false, decide_eq_true_eq, decide_eq_false_iff_not] at h ⊢
    exact not_lt.mpr (le_of_lt h)

end SearchServer

/-! ## Facts about query parsing and `FindAllDocuments` -/

namespace SearchServer

open StdMap

theorem ParseQuery_loop_nodup (s : SearchServer) (words : List String)
    (query result : ProcessedQuery) (h : ParseQuery_loop s words query = .ok result)
    (hplus : query.plus_words.Nodup) (hminus : query.minus_words.Nodup) :
    result.plus_words.Nodup ∧ result.minus_words.Nodup := by
  induction words generalizing query with
  | nil =>
    simp only [ParseQuery_loop, Except.ok.injEq] at h
    rw [← h]; exact ⟨hplus, hminus⟩
  | cons word rest ih =>
    unfold ParseQuery_loop at h
    cases hw : ProcessQueryWord s word with
    | error e => simp [hw] at h
    | ok word_struct =>
      simp only [hw] at h
      by_cases hstop : word_struct.is_stop_word = true
      · simp only [hstop, if_true] at h
        exact ih query h hplus hminus
      · simp only [hstop, Bool.false_eq_true, if_false] at h
        by_cases hm : word_struct.is_minus_word = true
        · simp only [hm, if_true] at h
          exact ih _ h hplus (StdSet.nodup_insert hminus _)
        · simp only [hm, Bool.false_eq_true, if_false] at h
          exact ih _ h (StdSet.nodup_insert hplus _) hminus

theorem ParseQuery_nodup (SplitIntoWords : String → List String) (s : SearchServer)
    (text : String) (query : ProcessedQuery) (h : ParseQuery SplitIntoWords s text = .ok query) :
    query.plus_words.Nodup ∧ query.minus_words.Nodup :=
  ParseQuery_loop_nodup s _ _ _ h List.nodup_nil List.nodup_nil

theorem find?_foldl_erase (postings : List (Int × ℚ)) (matched : StdMap Int ℚ) (d : Int) :
    find? (postings.foldl (fun acc entry => erase acc entry.1) matched) d =
      if d ∈ keys postings then none else find? matched d := by
  induction postings generalizing matched with
  | nil => simp [keys]
  | cons e rest ih =>
    simp only [List.foldl_cons]
    rw [ih, find?_erase]
    by_cases h1 : d ∈ keys rest
    · simp [h1, keys] at *
      simp [h1]
    · by_cases h2 : d = e.1
      · simp [keys, h2]
      · have h3 : d ∉ keys (e :: rest) := by
          simp only [keys, List.map_cons, List.mem_cons, not_or]
          exact ⟨h2, h1⟩
        simp [h1, h2, h3]

theorem find?_FindAllDocuments_minus (s : SearchServer) (minus_words : List String)
    (matched : StdMap Int ℚ) (d : Int) :
    find? (FindAllDocuments_minus s minus_words matched) d =
      if ∃ w ∈ minus_words, find2? s.word_to_document_frequency_ w d ≠ none then none
      else find? matched d := by
  induction minus_words generalizing matched with
  | nil => simp [FindAllDocuments_minus]
  | cons w rest ih =>
    unfold FindAllDocuments_minus
    cases hrow : find? s.word_to_document_frequency_ w with
    | none =>
      simp only []
      rw [ih]
      have : find2? s.word_to_document_frequency_ w d = none := by simp [find2?, hrow]
      simp [this]
    | some postings =>
      simp only []
      rw [ih, find?_foldl_erase]
      have h2 : find2? s.word_to_document_frequency_ w d = find? postings d := by
        simp [find2?, hrow]
      by_cases h1 : ∃ w ∈ rest, find2? s.word_to_document_frequency_ w d ≠ none
      · have h3 : ∃ w' ∈ w :: rest, find2? s.word_to_document_frequency_ w' d ≠ none := by
          obtain ⟨w', hw', hne⟩ := h1
          exact ⟨w', List.mem_cons_of_mem _ hw', hne⟩
        simp only [h1, h3, if_true]
      · by_cases h4 : d ∈ keys postings
        · have h5 : find? postings d ≠ none := by
            rw [Ne, find?_eq_none_iff]; exact fun h => h h4
          have h3 : ∃ w' ∈ w :: rest, find2? s.word_to_document_frequency_ w' d ≠ none :=
            ⟨w, List.mem_cons_self _ _, by rw [h2]; exact h5⟩
          simp only [h1, h3, h4, if_true, if_false]
        · have h5 : find? postings d = none := (find?_eq_none_iff _ _).mpr h4
          have h3 : ¬ ∃ w' ∈ w :: rest, find2? s.word_to_document_frequency_ w' d ≠ none := by
            rintro ⟨w', hw', hne⟩
            rcases List.mem_cons.mp hw' with h | h
            · rw [h, h2] at hne; exact hne h5
            · exact h1 ⟨w', h, hne⟩
          simp only [h1, h3, h4, if_false]

theorem nodup_foldl_erase (postings : List (Int × ℚ)) (matched : StdMap Int ℚ)
    (h : (keys matched).Nodup) :
    (keys (postings.foldl (fun acc entry => erase acc entry.1) matched)).Nodup := by
  induction postings generalizing matched with
  | nil => simpa using h
  | cons e rest ih =>
    simp only [List.foldl_cons]
    exact ih _ (nodup_keys_erase h _)

theorem nodup_FindAllDocuments_minus (s : SearchServer) (minus_words : List String)
    (matched : StdMap Int ℚ) (h : (keys matched).Nodup) :
    (keys (FindAllDocuments_minus s minus_words matched)).Nodup := by
  induction minus_words generalizing matched with
  | nil => simpa [FindAllDocuments_minus] using h
  | cons w rest ih =>
    unfold FindAllDocuments_minus
    cases hrow : find? s.word_to_document_frequency_ w with
    | none => exact ih _ h
    | some postings => exact ih _ (nodup_foldl_erase postings matched h)

theorem passes_iff (s : SearchServer) (pred : Int → DocumentStatus → Int → Bool) (d : Int) :
    passes s pred d = true ↔
      ∃ data, find? s.document_data_ d = some data ∧ pred d data.status data.rating = true := by
  unfold passes
  cases find? s.document_data_ d <;> simp

theorem FindAllDocuments_postings_keys (s : SearchServer)
    (pred : Int → DocumentStatus → Int → Bool) (IDF : ℚ) (postings : List (Int × ℚ))
    (matched result : StdMap Int ℚ)
    (h : FindAllDocuments_postings s pred IDF postings matched = .ok result) (d : Int)
    (hd : d ∈ keys result) : d ∈ keys matched ∨ passes s pred d = true := by
  induction postings generalizing matched with
  | nil =>
    simp only [FindAllDocuments_postings, Except.ok.injEq] at h
    rw [← h] at hd; exact Or.inl hd
  | cons e rest ih =>
    obtain ⟨d₀, f₀⟩ := e
    unfold FindAllDocuments_postings at h
    unfold atKey at h
    cases hdata : find? s.document_data_ d₀ with
    | none => simp [hdata] at h
    | some data =>
      simp only [hdata] at h
      by_cases hp : pred d₀ data.status data.rating = true
      · simp only [hp, if_true] at h
        rcases ih _ h with h1 | h1
        · rcases (mem_keys_set _ _ _ _).mp h1 with h2 | h2
          · right
            rw [h2, passes_iff]
            exact ⟨data, hdata, hp⟩
          · exact Or.inl h2
        · exact Or.inr h1
      · simp only [hp, Bool.false_eq_true, if_false] at h
        exact ih _ h

theorem FindAllDocuments_plus_keys (ln : ℚ → ℚ) (s : SearchServer)
    (pred : Int → DocumentStatus → Int → Bool) (plus_words : List String)
    (matched result : StdMap Int ℚ)
    (h : FindAllDocuments_plus ln s pred plus_words matched = .ok result) (d : Int)
    (hd : d ∈ keys result) : d ∈ keys matched ∨ passes s pred d = true := by
  induction plus_words generalizing matched with
  | nil =>
    simp only [FindAllDocuments_plus, Except.ok.injEq] at h
    rw [← h] at hd; exact Or.inl hd
  | cons w rest ih =>
    unfold FindAllDocuments_plus at h
    cases hrow : find? s.word_to_document_frequency_ w with
    | none =>
      simp only [hrow] at h
      exact ih _ h
    | some postings =>
      simp only [hrow] at h
      cases hinner : FindAllDocuments_postings s pred (CalculateIDF ln s w) postings matched with
      | error e => simp [hinner] at h
      | ok matched₁ =>
        simp only [hinner] at h
        rcases ih _ h with h1 | h1
        · exact FindAllDocuments_postings_keys s pred _ postings matched matched₁ hinner d h1
        · exact Or.inr h1

theorem FindAllDocuments_vector_spec (s : SearchServer) (matched : List (Int × ℚ))
    (documents : List Document) (h : FindAllDocuments_vector s matched = .ok documents) :
    documents.map (fun doc => (doc.id, doc.relevance)) = matched ∧
    ∀ doc ∈ documents, ∃ data, find? s.document_data_ doc.id = some data ∧
      doc.rating = data.rating := by
  induction matched generalizing documents with
  | nil =>
    simp only [FindAllDocuments_vector, Except.ok.injEq] at h
    rw [← h]; simp
  | cons e rest ih =>
    obtain ⟨d₀, r₀⟩ := e
    unfold FindAllDocuments_vector at h
    unfold atKey at h
    cases hdata : find? s.document_data_ d₀ with
    | none => simp [hdata] at h
    | some data =>
      simp only [hdata] at h
      cases hrest : FindAllDocuments_vector s rest with
      | error e => simp [hrest] at h
      | ok docs =>
        simp only [hrest, Except.ok.injEq] at h
        obtain ⟨h1, h2⟩ := ih docs hrest
        rw [← h]
        refine ⟨by simp [h1], ?_⟩
        intro doc hdoc
        rcases List.mem_cons.mp hdoc with h3 | h3
        · rw [h3]; exact ⟨data, hdata, rfl⟩
        · exact h2 doc h3

theorem FindAllDocuments_vector_ok (s : SearchServer) (matched : List (Int × ℚ))
    (h : ∀ d ∈ keys matched, d ∈ keys s.document_data_) :
    ∃ documents, FindAllDocuments_vector s matched = .ok documents := by
  induction matched with
  | nil => exact ⟨[], rfl⟩
  | cons e rest ih =>
    obtain ⟨d₀, r₀⟩ := e
    have h0 : d₀ ∈ keys s.document_data_ := h d₀ (by simp [keys])
    obtain ⟨docs, hdocs⟩ := ih (fun d hd => h d (by
      simp only [keys, List.map_cons, List.mem_cons] at hd ⊢; exact Or.inr hd))
    unfold FindAllDocuments_vector atKey
    cases hdata : find? s.document_data_ d₀ with
    | none => exact absurd hdata (by rw [find?_eq_none_iff]; exact fun hn => hn h0)
    | some data => exact ⟨⟨d₀, r₀, data.rating⟩ :: docs, by simp [hdocs]⟩

end SearchServer

namespace SearchServer

open StdMap

theorem FindAllDocuments_postings_spec (s : SearchServer)
    (pred : Int → DocumentStatus → Int → Bool) (IDF : ℚ) (postings : List (Int × ℚ))
    (matched : StdMap Int ℚ) (hnodup : (keys postings).Nodup)
    (hknown : ∀ d ∈ keys postings, d ∈ keys s.document_data_) :
    ∃ result, FindAllDocuments_postings s pred IDF postings matched = .ok result ∧
      (∀ d, find? result d =
        if passes s pred d = true ∧ find? postings d ≠ none then
          some ((find? matched d).getD 0 + IDF * (find? postings d).getD 0)
        else find? matched d) ∧
      ((keys matched).Nodup → (keys result).Nodup) := by
  induction postings generalizing matched with
  | nil => exact ⟨matched, rfl, by simp [find?], id⟩
  | cons e rest ih =>
    obtain ⟨d₀, f₀⟩ := e
    simp only [keys, List.map_cons, List.nodup_cons] at hnodup
    have h0 : d₀ ∈ keys s.document_data_ := hknown d₀ (by simp [keys])
    have hrest : ∀ d ∈ keys rest, d ∈ keys s.document_data_ := fun d hd =>
      hknown d (by simp only [keys, List.map_cons, List.mem_cons] at hd ⊢; exact Or.inr hd)
    have hd₀ : find? rest d₀ = none := (find?_eq_none_iff rest d₀).mpr hnodup.1
    cases hdata : find? s.document_data_ d₀ with
    | none => exact absurd hdata (by rw [find?_eq_none_iff]; exact fun hn => hn h0)
    | some data =>
      unfold FindAllDocuments_postings atKey
      simp only [hdata]
      have hpass : passes s pred d₀ = pred d₀ data.status data.rating := by
        simp [passes, hdata]
      by_cases hp : pred d₀ data.status data.rating = true
      · simp only [hp, if_true]
        obtain ⟨result, hres, hfind, hnd⟩ := ih
          (StdMap.set matched d₀ (getD matched d₀ 0 + IDF * f₀)) hnodup.2 hrest
        refine ⟨result, hres, fun d => ?_, fun hm => hnd (nodup_keys_set hm _ _)⟩
        rw [hfind d, find?_set, getD_eq]
        by_cases hd : d = d₀
        · subst hd
          simp [hd₀, find?, hpass, hp]
        · have hd2 : ¬ d₀ = d := fun h => hd h.symm
          simp [hd, hd2, find?]
      · simp only [hp, Bool.false_eq_true, if_false]
        obtain ⟨result, hres, hfind, hnd⟩ := ih matched hnodup.2 hrest
        refine ⟨result, hres, fun d => ?_, hnd⟩
        rw [hfind d]
        by_cases hd : d = d₀
        · subst hd
          simp [hd₀, hpass, hp]
        · have hd2 : ¬ d₀ = d := fun h => hd h.symm
          simp [hd2, find?]

theorem postings_known (s : SearchServer) (h : ConsistentOk s) (w : String)
    (postings : StdMap Int ℚ) (hrow : find? s.word_to_document_frequency_ w = some postings)
    (d : Int) (hd : d ∈ keys postings) : d ∈ keys s.document_data_ := by
  apply h.forward_known
  rw [← find?_isSome_iff_mem_keys] at hd ⊢
  have hsync := h.consistent.index.sync w d
  simp only [find2?, hrow] at hsync
  rw [hsync] at hd
  cases hf : find? s.doc_id_to_word_frequency_ d with
  | none => simp [hf] at hd
  | some row => simp

theorem CalculateIDF_of_present (ln : ℚ → ℚ) (s : SearchServer) (w : String) (d : Int)
    (h : find2? s.word_to_document_frequency_ w d ≠ none) :
    CalculateIDF ln s w =
      ln ((s.document_data_.length : ℚ) /
        ((getD s.word_to_document_frequency_ w []).length : ℚ)) := by
  unfold CalculateIDF getD
  cases hrow : find? s.word_to_document_frequency_ w with
  | none => simp [find2?, hrow] at h
  | some row => rfl

theorem FindAllDocuments_plus_spec (ln : ℚ → ℚ) (s : SearchServer)
    (pred : Int → DocumentStatus → Int → Bool) (h : ConsistentOk s) (plus_words : List String)
    (matched : StdMap Int ℚ) :
    ∃ result, FindAllDocuments_plus ln s pred plus_words matched = .ok result ∧
      (∀ d, find? result d =
        if passes s pred d = true ∧
            plus_words.filter
              (fun w => decide (find2? s.word_to_document_frequency_ w d ≠ none)) ≠ [] then
          some ((find? matched d).getD 0 +
            ((plus_words.filter
                (fun w => decide (find2? s.word_to_document_frequency_ w d ≠ none))).map
              (fun w => CalculateIDF ln s w *
                (find2? s.word_to_document_frequency_ w d).getD 0)).sum)
        else find? matched d) ∧
      ((keys matched).Nodup → (keys result).Nodup) := by
  induction plus_words generalizing matched with
  | nil => exact ⟨matched, rfl, by simp, id⟩
  | cons w rest ih =>
    unfold FindAllDocuments_plus
    cases hrow : find? s.word_to_document_frequency_ w with
    | none =>
      simp only []
      obtain ⟨result, hres, hfind, hnd⟩ := ih matched
      refine ⟨result, hres, fun d => ?_, hnd⟩
      have hw : find2? s.word_to_document_frequency_ w d = none := by simp [find2?, hrow]
      rw [hfind d]
      simp [List.filter_cons, hw]
    | some postings =>
      simp only []
      obtain ⟨matched₁, hres₁, hfind₁, hnd₁⟩ := FindAllDocuments_postings_spec s pred
        (CalculateIDF ln s w) postings matched
        (h.consistent.index.inverted_rows w postings hrow)
        (postings_known s h w postings hrow)
      obtain ⟨result, hres, hfind, hnd⟩ := ih matched₁
      rw [hres₁]
      simp only []
      refine ⟨result, hres, fun d => ?_, fun hm => hnd (hnd₁ hm)⟩
      have hw : find2? s.word_to_document_frequency_ w d = find? postings d := by
        simp [find2?, hrow]
      rw [hfind d, hfind₁ d]
      simp only [List.filter_cons, hw]
      generalize rest.filter
        (fun w => decide (find2? s.word_to_document_frequency_ w d ≠ none)) = hits
      by_cases hp : passes s pred d = true
      · cases hpost : find? postings d with
        | none => simp [hp]
        | some f =>
          cases hits with
          | nil => simp [hp, hw, hpost]
          | cons w' hits' => simp [hp, hw, hpost, add_assoc]
      · simp [hp]

/-- On a server reached without a throw `FindAllDocuments` returns, and every
returned document carries the sum of the contributions of the plus-words that
occur in it. -/
theorem FindAllDocuments_spec (ln : ℚ → ℚ) (s : SearchServer)
    (pred : Int → DocumentStatus → Int → Bool) (h : ConsistentOk s) (query : ProcessedQuery) :
    ∃ documents, FindAllDocuments ln s query pred = .ok documents ∧
      ∀ doc ∈ documents,
        doc.relevance =
          ((query.plus_words.filter
              (fun w => decide (find2? s.word_to_document_frequency_ w doc.id ≠ none))).map
            (fun w => ln ((s.document_data_.length : ℚ) /
                ((getD s.word_to_document_frequency_ w []).length : ℚ)) *
              (find2? s.word_to_document_frequency_ w doc.id).getD 0)).sum := by
  obtain ⟨matched, hplus, hfind, hnd⟩ :=
    FindAllDocuments_plus_spec ln s pred h query.plus_words []
  have hnodup : (keys (FindAllDocuments_minus s query.minus_words matched)).Nodup :=
    nodup_FindAllDocuments_minus s _ _ (hnd (by simp [keys]))
  have hknown : ∀ d ∈ keys (FindAllDocuments_minus s query.minus_words matched),
      d ∈ keys s.document_data_ := by
    intro d hd
    rw [← find?_isSome_iff_mem_keys, find?_FindAllDocuments_minus] at hd
    split at hd
    · simp at hd
    · rw [find?_isSome_iff_mem_keys] at hd
      rcases FindAllDocuments_plus_keys ln s pred _ _ _ hplus d hd with h1 | h1
      · simp [keys] at h1
      · obtain ⟨data, hdata, _⟩ := (passes_iff s pred d).mp h1
        rw [← find?_isSome_iff_mem_keys, hdata]; rfl
  obtain ⟨documents, hdocs⟩ := FindAllDocuments_vector_ok s _ hknown
  refine ⟨documents, by simp [FindAllDocuments, hplus, hdocs], fun doc hdoc => ?_⟩
  obtain ⟨hmap, _⟩ := FindAllDocuments_vector_spec s _ _ hdocs
  have hmem : (doc.id, doc.relevance) ∈ FindAllDocuments_minus s query.minus_words matched := by
    rw [← hmap]
    exact List.mem_map.mpr ⟨doc, hdoc, rfl⟩
  have hf := find?_of_mem hnodup hmem
  rw [find?_FindAllDocuments_minus] at hf
  split at hf
  · cases hf
  · rw [hfind doc.id] at hf
    split at hf
    · simp only [find?, Option.getD_none, zero_add, Option.some.injEq] at hf
      rw [← hf]
      congr 1
      apply List.map_congr_left
      intro w hw
      rw [List.mem_filter] at hw
      rw [CalculateIDF_of_present ln s w doc.id (by simpa using hw.2)]
    · simp [find?] at hf

end SearchServer

/-! ## The claims about `FindTopDocuments` -/

namespace SearchServer

open StdMap

/-- What `FindAllDocuments` returns in any state: every document passed the filter on
its stored record, carries the stored rating, and has no minus-word. -/
theorem FindAllDocuments_sound (ln : ℚ → ℚ) (s : SearchServer)
    (pred : Int → DocumentStatus → Int → Bool) (query : ProcessedQuery)
    (documents : List Document) (h : FindAllDocuments ln s query pred = .ok documents) :
    ∀ doc ∈ documents,
      (∃ data, find? s.document_data_ doc.id = some data ∧
        pred doc.id data.status data.rating = true ∧ doc.rating = data.rating) ∧
      ∀ w ∈ query.minus_words, find2? s.word_to_document_frequency_ w doc.id = none := by
  intro doc hdoc
  unfold FindAllDocuments at h
  cases hplus : FindAllDocuments_plus ln s pred query.plus_words [] with
  | error e => simp [hplus] at h
  | ok matched =>
    simp only [hplus] at h
    obtain ⟨hmap, hrating⟩ := FindAllDocuments_vector_spec s _ _ h
    have hkey : doc.id ∈ keys (FindAllDocuments_minus s query.minus_words matched) := by
      unfold keys
      rw [← hmap]
      simp only [List.map_map, List.mem_map]
      exact ⟨doc, hdoc, rfl⟩
    rw [← find?_isSome_iff_mem_keys, find?_FindAllDocuments_minus] at hkey
    split at hkey
    · simp at hkey
    · rename_i hnot
      rw [find?_isSome_iff_mem_keys] at hkey
      constructor
      · rcases FindAllDocuments_plus_keys ln s pred _ _ _ hplus doc.id hkey with h1 | h1
        · simp [keys] at h1
        · obtain ⟨data, hdata, hp⟩ := (passes_iff s pred doc.id).mp h1
          obtain ⟨data', hdata', hr⟩ := hrating doc hdoc
          rw [hdata] at hdata'
          cases hdata'
          exact ⟨data, hdata, hp, hr⟩
      · intro w hw
        by_contra hne
        exact hnot ⟨w, hw, hne⟩

theorem FindTopDocuments_eq_ok_iff (SplitIntoWords : String → List String) (ln : ℚ → ℚ)
    (s : SearchServer) (raw_query : String) (pred : Int → DocumentStatus → Int → Bool)
    (result : List Document) :
    FindTopDocuments SplitIntoWords ln s raw_query pred = .ok result ↔
      ∃ query documents, ParseQuery SplitIntoWords s raw_query = .ok query ∧
        FindAllDocuments ln s query pred = .ok documents ∧
        result = (stdSort compareDocuments documents).take (min 5 documents.length) := by
  have hlen : ∀ documents : List Document,
      (stdSort compareDocuments documents).length = documents.length :=
    fun documents => (stdSort_perm compareDocuments documents).length_eq
  constructor
  · intro h
    unfold FindTopDocuments at h
    cases hq : ParseQuery SplitIntoWords s raw_query with
    | error e => simp [hq] at h
    | ok query =>
      simp only [hq] at h
      cases hall : FindAllDocuments ln s query pred with
      | error e => simp [hall] at h
      | ok documents =>
        simp only [hall, MAX_RESULT_DOCUMENT_COUNT] at h
        refine ⟨query, documents, rfl, hall, ?_⟩
        have hl := hlen documents
        split at h
        · rename_i hgt
          have hmin : min 5 documents.length = 5 := by omega
          rw [hmin]
          cases h; rfl
        · rename_i hgt
          have hmin : min 5 documents.length = documents.length := by omega
          rw [hmin, ← hl, List.take_length]
          cases h; rfl
  · rintro ⟨query, documents, hq, hall, hres⟩
    unfold FindTopDocuments
    simp only [hq, hall, MAX_RESULT_DOCUMENT_COUNT]
    have hl := hlen documents
    split
    · rename_i hgt
      have hmin : min 5 documents.length = 5 := by omega
      rw [hres, hmin]
    · rename_i hgt
      have hmin : min 5 documents.length = documents.length := by omega
      rw [hres, hmin, ← hl, List.take_length]

theorem mem_of_mem_FindTopDocuments {documents result : List Document}
    (h : result = (stdSort compareDocuments documents).take (min 5 documents.length))
    {doc : Document} (hdoc : doc ∈ result) : doc ∈ documents := by
  rw [h] at hdoc
  exact (stdSort_perm compareDocuments documents).mem_iff.mp (List.mem_of_mem_take hdoc)

/-- C7: in the list returned by `FindTopDocuments`, for every two consecutive results
`a` and `b`: if their relevances differ by less than `1e-6` then the rating of `a` is at
least the rating of `b`, and otherwise the relevance of `a` is greater. -/
theorem FindTopDocuments_ordered (SplitIntoWords : String → List String) (ln : ℚ → ℚ)
    (s : SearchServer) (raw_query : String) (pred : Int → DocumentStatus → Int → Bool)
    (result : List Document)
    (h : FindTopDocuments SplitIntoWords ln s raw_query pred = .ok result) :
    List.Chain'
      (fun a b : Document =>
        if |a.relevance - b.relevance| < 1 / 1000000 then a.rating ≥ b.rating
        else a.relevance > b.relevance)
      result := by
  obtain ⟨query, documents, _, _, hres⟩ :=
    (FindTopDocuments_eq_ok_iff SplitIntoWords ln s raw_query pred result).mp h
  rw [hres]
  apply List.Chain'.take
  refine (stdSort_chain compareDocuments compareDocuments_asymm documents).imp ?_
  intro a b hab
  unfold compareDocuments MAX_RELEVANCE_DIFFERENCE at hab
  rw [abs_sub_comm b.relevance a.relevance] at hab
  by_cases ht : |a.relevance - b.relevance| < 1 / 1000000
  · simp only [ht, if_true, decide_eq_false_iff_not, not_lt] at hab ⊢
    exact hab
  · simp only [ht, if_false, decide_eq_false_iff_not, not_lt] at hab ⊢
    rcases lt_or_eq_of_le hab with h1 | h1
    · exact h1
    · exfalso
      apply ht
      rw [h1, sub_self, abs_zero]
      norm_num

/-- C8: the list returned by `FindTopDocuments` has at most 5 elements, and it consists
of the first `min 5 k` elements of the sorted list of all `k` matching documents. -/
theorem FindTopDocuments_truncated (SplitIntoWords : String → List String) (ln : ℚ → ℚ)
    (s : SearchServer) (raw_query : String) (pred : Int → DocumentStatus → Int → Bool)
    (result : List Document)
    (h : FindTopDocuments SplitIntoWords ln s raw_query pred = .ok result) :
    result.length ≤ 5 ∧
    ∃ query documents, ParseQuery SplitIntoWords s raw_query = .ok query ∧
      FindAllDocuments ln s query pred = .ok documents ∧
      result = (stdSort compareDocuments documents).take (min 5 documents.length) := by
  obtain ⟨query, documents, hq, hall, hres⟩ :=
    (FindTopDocuments_eq_ok_iff SplitIntoWords ln s raw_query pred result).mp h
  refine ⟨?_, query, documents, hq, hall, hres⟩
  rw [hres, List.length_take]
  omega

/-- C9: on a server reached by successful calls only and for a query that parses,
`FindTopDocuments` returns, and no returned document has a minus-word of the query,
neither in its `GetWordFrequencies` map nor in the posting list of the word; this
holds for every filter and also when the word is a plus-word as well. -/
theorem FindTopDocuments_excludes_minus_words (SplitIntoWords : String → List String)
    (ln : ℚ → ℚ) (s : SearchServer) (hs : ReachableOk SplitIntoWords s) (raw_query : String)
    (pred : Int → DocumentStatus → Int → Bool) (query : ProcessedQuery)
    (hquery : ParseQuery SplitIntoWords s raw_query = .ok query) :
    ∃ result, FindTopDocuments SplitIntoWords ln s raw_query pred = .ok result ∧
      ∀ doc ∈ result, ∀ w ∈ query.minus_words,
        find? (GetWordFrequencies s doc.id) w = none ∧
        find2? s.word_to_document_frequency_ w doc.id = none := by
  obtain ⟨documents, hall, _⟩ := FindAllDocuments_spec ln s pred hs.consistentOk query
  refine ⟨_, (FindTopDocuments_eq_ok_iff SplitIntoWords ln s raw_query pred _).mpr
    ⟨query, documents, hquery, hall, rfl⟩, fun doc hdoc w hw => ?_⟩
  have hnone := (FindAllDocuments_sound ln s pred query documents hall doc
    (mem_of_mem_FindTopDocuments rfl hdoc)).2 w hw
  refine ⟨?_, hnone⟩
  rw [find?_GetWordFrequencies, ← hs.consistentOk.consistent.index.sync]
  exact hnone

/-- C10: every document returned by `FindTopDocuments(raw_query, pred)` has a
rating/status record, `pred` answers `true` on its id and the stored status and rating,
and the document carries the stored rating; every document returned by
`FindTopDocuments(raw_query, doc_status)` has the stored status `doc_status`. -/
theorem FindTopDocuments_predicate (SplitIntoWords : String → List String) (ln : ℚ → ℚ)
    (s : SearchServer) (raw_query : String) :
    (∀ (pred : Int → DocumentStatus → Int → Bool) (result : List Document),
      FindTopDocuments SplitIntoWords ln s raw_query pred = .ok result →
      ∀ doc ∈ result, ∃ data, find? s.document_data_ doc.id = some data ∧
        pred doc.id data.status data.rating = true ∧ doc.rating = data.rating) ∧
    (∀ (doc_status : DocumentStatus) (result : List Document),
      FindTopDocumentsByStatus SplitIntoWords ln s raw_query doc_status = .ok result →
      ∀ doc ∈ result, ∃ data, find? s.document_data_ doc.id = some data ∧
        data.status = doc_status) := by
  have key : ∀ (pred : Int → DocumentStatus → Int → Bool) (result : List Document),
      FindTopDocuments SplitIntoWords ln s raw_query pred = .ok result →
      ∀ doc ∈ result, ∃ data, find? s.document_data_ doc.id = some data ∧
        pred doc.id data.status data.rating = true ∧ doc.rating = data.rating := by
    intro pred result h doc hdoc
    obtain ⟨query, documents, _, hall, hres⟩ :=
      (FindTopDocuments_eq_ok_iff SplitIntoWords ln s raw_query pred result).mp h
    exact (FindAllDocuments_sound ln s pred query documents hall doc
      (mem_of_mem_FindTopDocuments hres hdoc)).1
  refine ⟨key, fun doc_status result h doc hdoc => ?_⟩
  obtain ⟨data, hdata, hp, _⟩ := key _ result h doc hdoc
  exact ⟨data, hdata, by simpa using hp⟩

end SearchServer

/-! ## The claims evaluated on the servers of the unit tests -/

theorem reachableOk_catServer : ReachableOk SplitIntoWordsSpec catServer :=
  ReachableOk.call _ (Call.AddDocument 42 "cat in the city" DocumentStatus.ACTUAL [1, 2, 3])
    (ReachableOk.construct [] emptyServer rfl) (by decide!)

theorem reachableOk_twoCatServer : ReachableOk SplitIntoWordsSpec twoCatServer :=
  ReachableOk.call _
    (Call.AddDocument 1 "orange cat near the library cat" DocumentStatus.ACTUAL [4, 5, 6])
    reachableOk_catServer (by decide!)

theorem reachableOk_sameDocumentsServer_succ (count : Nat)
    (h : ReachableOk SplitIntoWordsSpec (sameDocumentsServer count))
    (hok : ((Call.AddDocument (count + 1 : Nat) "a" DocumentStatus.ACTUAL [1]).run
      SplitIntoWordsSpec (sameDocumentsServer count)).1 = .ok ()) :
    ReachableOk SplitIntoWordsSpec (sameDocumentsServer (count + 1)) :=
  ReachableOk.call _ (Call.AddDocument (count + 1 : Nat) "a" DocumentStatus.ACTUAL [1]) h hok

/-- The server of 17 equal documents is reached by 17 calls of `AddDocument` that
return. -/
theorem reachableOk_seventeenServer :
    ReachableOk SplitIntoWordsSpec (sameDocumentsServer 17) := by
  iterate 17 refine reachableOk_sameDocumentsServer_succ _ ?_ (by decide!)
  exact ReachableOk.construct [] emptyServer rfl

namespace SearchServer

open StdMap

theorem FindTopDocuments_ordered_witness :
    FindTopDocuments SplitIntoWordsSpec lnSample twoCatServer "cat" (fun _ _ _ => true) =
      .ok [⟨1, 0, 5⟩, ⟨42, 0, 2⟩] ∧
    List.Chain'
      (fun a b : Document =>
        if |a.relevance - b.relevance| < 1 / 1000000 then a.rating ≥ b.rating
        else a.relevance > b.relevance)
      [⟨1, 0, 5⟩, ⟨42, 0, 2⟩] :=
  ⟨by decide!,
    FindTopDocuments_ordered SplitIntoWordsSpec lnSample twoCatServer "cat"
      (fun _ _ _ => true) [⟨1, 0, 5⟩, ⟨42, 0, 2⟩] (by decide!)⟩

theorem FindTopDocuments_truncated_witness :
    ReachableOk SplitIntoWordsSpec (sameDocumentsServer 17) ∧
    FindAllDocuments lnSample (sameDocumentsServer 17) ⟨["a"], []⟩ (fun _ _ _ => true) =
      .ok ((List.range 17).map fun i => ⟨(i + 1 : Nat), 0, 1⟩) ∧
    FindTopDocuments SplitIntoWordsSpec lnSample (sameDocumentsServer 17) "a"
        (fun _ _ _ => true) =
      .ok [⟨9, 0, 1⟩, ⟨17, 0, 1⟩, ⟨16, 0, 1⟩, ⟨15, 0, 1⟩, ⟨14, 0, 1⟩] ∧
    ([⟨9, 0, 1⟩, ⟨17, 0, 1⟩, ⟨16, 0, 1⟩, ⟨15, 0, 1⟩, ⟨14, 0, 1⟩] : List Document).length ≤ 5 ∧
    ∃ query documents,
      ParseQuery SplitIntoWordsSpec (sameDocumentsServer 17) "a" = .ok query ∧
      FindAllDocuments lnSample (sameDocumentsServer 17) query (fun _ _ _ => true) =
        .ok documents ∧
      ([⟨9, 0, 1⟩, ⟨17, 0, 1⟩, ⟨16, 0, 1⟩, ⟨15, 0, 1⟩, ⟨14, 0, 1⟩] : List Document) =
        (stdSort compareDocuments documents).take (min 5 documents.length) :=
  ⟨reachableOk_seventeenServer, by decide!, by decide!,
    FindTopDocuments_truncated SplitIntoWordsSpec lnSample (sameDocumentsServer 17) "a"
      (fun _ _ _ => true) [⟨9, 0, 1⟩, ⟨17, 0, 1⟩, ⟨16, 0, 1⟩, ⟨15, 0, 1⟩, ⟨14, 0, 1⟩]
      (by decide!)⟩

theorem FindTopDocuments_excludes_minus_words_witness :
    ReachableOk SplitIntoWordsSpec twoCatServer ∧
    ParseQuery SplitIntoWordsSpec twoCatServer "cat -city" = .ok ⟨["cat"], ["city"]⟩ ∧
    ∃ result,
      FindTopDocuments SplitIntoWordsSpec lnSample twoCatServer "cat -city"
        (fun _ _ _ => true) = .ok result ∧
      ∀ doc ∈ result, ∀ w ∈ ["city"],
        find? (GetWordFrequencies twoCatServer doc.id) w = none ∧
        find2? twoCatServer.word_to_document_frequency_ w doc.id = none :=
  ⟨reachableOk_twoCatServer, by decide!,
    FindTopDocuments_excludes_minus_words SplitIntoWordsSpec lnSample twoCatServer
      reachableOk_twoCatServer "cat -city" (fun _ _ _ => true) ⟨["cat"], ["city"]⟩
      (by decide!)⟩

theorem FindTopDocuments_predicate_witness :
    FindTopDocuments SplitIntoWordsSpec lnSample twoCatServer "city cat" evenId =
      .ok [⟨42, 1 / 4, 2⟩] ∧
    ∃ data, find? twoCatServer.document_data_ 42 = some data ∧
      evenId 42 data.status data.rating = true ∧ (2 : Int) = data.rating :=
  ⟨by decide!,
    (FindTopDocuments_predicate SplitIntoWordsSpec lnSample twoCatServer "city cat").1 evenId
      [⟨42, 1 / 4, 2⟩] (by decide!) ⟨42, 1 / 4, 2⟩ (List.mem_singleton.mpr rfl)⟩

end SearchServer

/-! ## Facts about query words -/

namespace SearchServer

open StdMap

theorem ProcessQueryWord_eq (s : SearchServer) (token : String) :
    ProcessQueryWord s token =
      if (token.data.head? = some '-' ∧ (stripMinus token).data = []) ∨
          IsValidWord (stripMinus token) = false ∨
          (stripMinus token).data.head? = some '-' ∨
          (stripMinus token).data.getLast? = some '-' then
        .error Error.invalid_argument
      else
        .ok ⟨stripMinus token, decide (token.data.head? = some '-'),
          IsStopWord s (stripMinus token)⟩ := by
  unfold ProcessQueryWord stripMinus
  by_cases hm : token.data.head? = some '-'
  · simp only [hm, decide_True, if_true, Bool.true_and, true_and, Bool.and_eq_true,
      Bool.or_eq_true, decide_eq_true_eq, Bool.not_eq_true', Bool.not_eq_true]
    split_ifs <;> simp_all
  · simp only [hm, decide_False, Bool.false_and, Bool.false_eq_true, if_false, false_and,
      false_or, Bool.or_eq_true, decide_eq_true_eq, Bool.not_eq_true', Bool.not_eq_true]
    split_ifs <;> simp_all

theorem data_ne_nil_of_ne_empty (token : String) (h : token ≠ "") : token.data ≠ [] := by
  intro hd
  apply h
  cases token
  simp only at hd
  rw [hd]

theorem stripMinus_of_not_minus (token : String) (h : token.data.head? ≠ some '-') :
    stripMinus token = token := by
  simp [stripMinus, h]

theorem malformed_iff (token : String) (hne : token ≠ "") :
    MalformedToken token ↔
      ((token.data.head? = some '-' ∧ (stripMinus token).data = []) ∨
        IsValidWord (stripMinus token) = false ∨
        (stripMinus token).data.head? = some '-' ∨
        (stripMinus token).data.getLast? = some '-') := by
  unfold MalformedToken
  rw [IsValidWord_eq_false_iff]
  constructor
  · rintro (h | h | h | h)
    · left
      refine ⟨?_, h⟩
      by_contra hm
      rw [stripMinus_of_not_minus token hm] at h
      exact data_ne_nil_of_ne_empty token hne h
    · exact Or.inr (Or.inr (Or.inl h))
    · exact Or.inr (Or.inr (Or.inr h))
    · exact Or.inr (Or.inl h)
  · rintro (h | h | h | h)
    · exact Or.inl h.2
    · exact Or.inr (Or.inr (Or.inr h))
    · exact Or.inr (Or.inl h)
    · exact Or.inr (Or.inr (Or.inl h))

theorem ProcessQueryWord_malformed (s : SearchServer) (token : String) (hne : token ≠ "")
    (h : MalformedToken token) : ProcessQueryWord s token = .error Error.invalid_argument := by
  rw [ProcessQueryWord_eq, if_pos ((malformed_iff token hne).mp h)]

theorem ProcessQueryWord_wellformed (s : SearchServer) (token : String) (hne : token ≠ "")
    (h : ¬ MalformedToken token) :
    ProcessQueryWord s token =
      .ok ⟨stripMinus token, decide (token.data.head? = some '-'),
        IsStopWord s (stripMinus token)⟩ := by
  rw [ProcessQueryWord_eq, if_neg (fun hc => h ((malformed_iff token hne).mpr hc))]

theorem ProcessQueryWord_ok (s : SearchServer) (token : String) (word_struct : QueryWord)
    (h : ProcessQueryWord s token = .ok word_struct) :
    word_struct = ⟨stripMinus token, decide (token.data.head? = some '-'),
        IsStopWord s (stripMinus token)⟩ ∧
      (stripMinus token).data.head? ≠ some '-' ∧
      (token.data.head? = some '-' → (stripMinus token).data ≠ []) := by
  rw [ProcessQueryWord_eq] at h
  split at h
  · cases h
  · rename_i hc
    simp only [Except.ok.injEq] at h
    push_neg at hc
    exact ⟨h.symm, hc.2.2.1, hc.1⟩

theorem ParseQuery_loop_ok_or_invalid (s : SearchServer) (words : List String)
    (query : ProcessedQuery) :
    (∃ result, ParseQuery_loop s words query = .ok result) ∨
      ParseQuery_loop s words query = .error Error.invalid_argument := by
  induction words generalizing query with
  | nil => exact Or.inl ⟨query, rfl⟩
  | cons word rest ih =>
    unfold ParseQuery_loop
    rw [ProcessQueryWord_eq]
    by_cases hc : (word.data.head? = some '-' ∧ (stripMinus word).data = []) ∨
          IsValidWord (stripMinus word) = false ∨
          (stripMinus word).data.head? = some '-' ∨
          (stripMinus word).data.getLast? = some '-'
    · rw [if_pos hc]
      exact Or.inr rfl
    · rw [if_neg hc]
      simp only []
      split
      · exact ih _
      · split
        · exact ih _
        · exact ih _

theorem ParseQuery_loop_error_iff (s : SearchServer) (words : List String)
    (query : ProcessedQuery) (hne : ∀ t ∈ words, t ≠ "") :
    ParseQuery_loop s words query = .error Error.invalid_argument ↔
      ∃ t ∈ words, MalformedToken t := by
  induction words generalizing query with
  | nil => simp [ParseQuery_loop]
  | cons word rest ih =>
    have hword : word ≠ "" := hne word (List.mem_cons_self _ _)
    have hrest : ∀ t ∈ rest, t ≠ "" := fun t ht => hne t (List.mem_cons_of_mem _ ht)
    unfold ParseQuery_loop
    by_cases hm : MalformedToken word
    · rw [ProcessQueryWord_malformed s word hword hm]
      simp only [true_iff]
      exact ⟨word, List.mem_cons_self _ _, hm⟩
    · rw [ProcessQueryWord_wellformed s word hword hm]
      simp only [List.mem_cons, exists_eq_or_imp, hm, false_or]
      split
      · exact ih _ hrest
      · split
        · exact ih _ hrest
        · exact ih _ hrest

theorem ParseQuery_loop_mem (s : SearchServer) (words : List String)
    (query result : ProcessedQuery) (h : ParseQuery_loop s words query = .ok result)
    (w : String) :
    (w ∈ result.plus_words ↔ w ∈ query.plus_words ∨
      ∃ t ∈ words, t.data.head? ≠ some '-' ∧ stripMinus t = w ∧ IsStopWord s w = false) ∧
    (w ∈ result.minus_words ↔ w ∈ query.minus_words ∨
      ∃ t ∈ words, t.data.head? = some '-' ∧ stripMinus t = w ∧ IsStopWord s w = false) := by
  induction words generalizing query with
  | nil =>
    simp only [ParseQuery_loop, Except.ok.injEq] at h
    rw [← h]; simp
  | cons word rest ih =>
    unfold ParseQuery_loop at h
    cases hw : ProcessQueryWord s word with
    | error e => simp [hw] at h
    | ok word_struct =>
      simp only [hw] at h
      obtain ⟨hstruct, _, _⟩ := ProcessQueryWord_ok s word word_struct hw
      subst hstruct
      simp only [List.mem_cons, exists_eq_or_imp]
      by_cases hstop : IsStopWord s (stripMinus word) = true
      · simp only [hstop, if_true] at h
        obtain ⟨h1, h2⟩ := ih query h
        rw [h1, h2]
        constructor
        · constructor
          · rintro (hq | ht)
            · exact Or.inl hq
            · exact Or.inr (Or.inr ht)
          · rintro (hq | ⟨_, hsw, hns⟩ | ht)
            · exact Or.inl hq
            · rw [← hsw, hstop] at hns; cases hns
            · exact Or.inr ht
        · constructor
          · rintro (hq | ht)
            · exact Or.inl hq
            · exact Or.inr (Or.inr ht)
          · rintro (hq | ⟨_, hsw, hns⟩ | ht)
            · exact Or.inl hq
            · rw [← hsw, hstop] at hns; cases hns
            · exact Or.inr ht
      · simp only [hstop, Bool.false_eq_true, if_false] at h
        have hstop' : IsStopWord s (stripMinus word) = false := by simpa using hstop
        by_cases hm : word.data.head? = some '-'
        · simp only [hm, decide_True, if_true] at h
          obtain ⟨h1, h2⟩ := ih _ h
          rw [h1, h2]
          simp only [StdSet.mem_insert]
          constructor
          · constructor
            · rintro (hq | ht)
              · exact Or.inl hq
              · exact Or.inr (Or.inr ht)
            · rintro (hq | ⟨hnm, _, _⟩ | ht)
              · exact Or.inl hq
              · exact absurd hm hnm
              · exact Or.inr ht
          · constructor
            · rintro ((hq | hq) | ht)
              · exact Or.inr (Or.inl ⟨hm, hq.symm, by rw [hq]; exact hstop'⟩)
              · exact Or.inl hq
              · exact Or.inr (Or.inr ht)
            · rintro (hq | ⟨_, hsw, _⟩ | ht)
              · exact Or.inl (Or.inr hq)
              · exact Or.inl (Or.inl hsw.symm)
              · exact Or.inr ht
        · simp only [hm, decide_False, Bool.false_eq_true, if_false] at h
          obtain ⟨h1, h2⟩ := ih _ h
          rw [h1, h2]
          simp only [StdSet.mem_insert]
          constructor
          · constructor
            · rintro ((hq | hq) | ht)
              · exact Or.inr (Or.inl ⟨hm, hq.symm, by rw [hq]; exact hstop'⟩)
              · exact Or.inl hq
              · exact Or.inr (Or.inr ht)
            · rintro (hq | ⟨_, hsw, _⟩ | ht)
              · exact Or.inl (Or.inr hq)
              · exact Or.inl (Or.inl hsw.symm)
              · exact Or.inr ht
          · constructor
            · rintro (hq | ht)
              · exact Or.inl hq
              · exact Or.inr (Or.inr ht)
            · rintro (hq | ⟨hnm, _, _⟩ | ht)
              · exact Or.inl hq
              · exact absurd hnm hm
              · exact Or.inr ht

theorem ParseQuery_loop_wellformed (s : SearchServer) (words : List String)
    (query result : ProcessedQuery) (h : ParseQuery_loop s words query = .ok result) :
    ∀ t ∈ words, (stripMinus t).data.head? ≠ some '-' ∧
      (t.data.head? = some '-' → (stripMinus t).data ≠ []) := by
  induction words generalizing query with
  | nil => simp
  | cons word rest ih =>
    unfold ParseQuery_loop at h
    cases hw : ProcessQueryWord s word with
    | error e => simp [hw] at h
    | ok word_struct =>
      simp only [hw] at h
      obtain ⟨_, h1, h2⟩ := ProcessQueryWord_ok s word word_struct hw
      have hrest : ∀ t ∈ rest, (stripMinus t).data.head? ≠ some '-' ∧
          (t.data.head? = some '-' → (stripMinus t).data ≠ []) := by
        split at h
        · exact ih _ h
        · split at h
          · exact ih _ h
          · exact ih _ h
      intro t ht
      rcases List.mem_cons.mp ht with h3 | h3
      · rw [h3]; exact ⟨h1, h2⟩
      · exact hrest t h3

end SearchServer

/-! ## The order of the keys and `MatchDocument` -/

theorem lexLess_trans (a b c : List Char) (hab : lexLess a b = true) (hbc : lexLess b c = true) :
    lexLess a c = true := by
  induction a generalizing b c with
  | nil =>
    cases b with
    | nil => simp [lexLess] at hab
    | cons y ys =>
      cases c with
      | nil => simp [lexLess] at hbc
      | cons z zs => simp [lexLess]
  | cons x xs ih =>
    cases b with
    | nil => simp [lexLess] at hab
    | cons y ys =>
      cases c with
      | nil => simp [lexLess] at hbc
      | cons z zs =>
        unfold lexLess at hab hbc ⊢
        by_cases hxy : x.toNat < y.toNat
        · by_cases hyz : y.toNat < z.toNat
          · have : x.toNat < z.toNat := by omega
            simp [this]
          · by_cases hzy : z.toNat < y.toNat
            · simp [hyz, hzy] at hbc
            · have : x.toNat < z.toNat := by omega
              simp [this]
        · by_cases hyx : y.toNat < x.toNat
          · simp [hxy, hyx] at hab
          · simp only [hxy, hyx, if_false] at hab
            by_cases hyz : y.toNat < z.toNat
            · have : x.toNat < z.toNat := by omega
              simp [this]
            · by_cases hzy : z.toNat < y.toNat
              · simp [hyz, hzy] at hbc
              · simp only [hyz, hzy, if_false] at hbc
                have h1 : ¬ x.toNat < z.toNat := by omega
                have h2 : ¬ z.toNat < x.toNat := by omega
                simp only [h1, h2, if_false]
                exact ih ys zs hab hbc

theorem char_eq_of_toNat_eq (a b : Char) (h : a.toNat = b.toNat) : a = b := by
  apply Char.ext
  apply UInt32.ext
  exact h

theorem lexLess_total (a b : List Char) (hne : a ≠ b) (hab : lexLess a b = false) :
    lexLess b a = true := by
  induction a generalizing b with
  | nil =>
    cases b with
    | nil => exact absurd rfl hne
    | cons y ys => simp [lexLess] at hab
  | cons x xs ih =>
    cases b with
    | nil => simp [lexLess]
    | cons y ys =>
      unfold lexLess at hab ⊢
      by_cases hxy : x.toNat < y.toNat
      · simp [hxy] at hab
      · by_cases hyx : y.toNat < x.toNat
        · simp [hyx]
        · simp only [hxy, hyx, if_false] at hab ⊢
          have hxy' : x = y := char_eq_of_toNat_eq x y (by omega)
          subst hxy'
          exact ih ys (fun h => hne (by rw [h])) hab

theorem string_ne_data {a b : String} (h : a ≠ b) : a.data ≠ b.data := by
  intro hd
  apply h
  cases a; cases b
  simp only at hd
  rw [hd]

/-- Inserting into a `std::set<std::string>` keeps the elements in strictly
ascending order. -/
theorem sorted_insert_string (l : StdSet String)
    (h : l.Pairwise (fun a b => lexLess a.data b.data = true)) (k : String) :
    (StdSet.insert l k).Pairwise (fun a b => lexLess a.data b.data = true) := by
  unfold StdSet.insert
  by_cases hk : k ∈ l
  · simpa [hk] using h
  · simp only [hk, if_false]
    induction l with
    | nil => simp [StdSet.insertNew]
    | cons k' rest ih =>
      rw [List.pairwise_cons] at h
      have hk' : k ≠ k' := fun he => hk (by rw [he]; exact List.mem_cons_self _ _)
      have hrest : k ∉ rest := fun hm => hk (List.mem_cons_of_mem _ hm)
      unfold StdSet.insertNew
      by_cases hl : StdLess.less k k' = true
      · simp only [hl, if_true]
        have hl' : lexLess k.data k'.data = true := hl
        rw [List.pairwise_cons]
        refine ⟨?_, List.pairwise_cons.mpr h⟩
        intro x hx
        rcases List.mem_cons.mp hx with h1 | h1
        · rw [h1]; exact hl'
        · exact lexLess_trans _ _ _ hl' (h.1 x h1)
      · simp only [hl, Bool.false_eq_true, if_false]
        have hl' : lexLess k.data k'.data = false := by
          have : ¬ lexLess k.data k'.data = true := hl
          simpa using this
        rw [List.pairwise_cons]
        refine ⟨?_, ih h.2 hrest⟩
        intro x hx
        rcases List.mem_cons.mp ((StdSet.insertNew_perm k rest).mem_iff.mp hx) with h1 | h1
        · rw [h1]; exact lexLess_total _ _ (string_ne_data hk') hl'
        · exact h.1 x h1

namespace SearchServer

open StdMap

theorem ParseQuery_loop_sorted (s : SearchServer) (words : List String)
    (query result : ProcessedQuery) (h : ParseQuery_loop s words query = .ok result)
    (hplus : query.plus_words.Pairwise (fun a b => lexLess a.data b.data = true))
    (hminus : query.minus_words.Pairwise (fun a b => lexLess a.data b.data = true)) :
    result.plus_words.Pairwise (fun a b => lexLess a.data b.data = true) ∧
    result.minus_words.Pairwise (fun a b => lexLess a.data b.data = true) := by
  induction words generalizing query with
  | nil =>
    simp only [ParseQuery_loop, Except.ok.injEq] at h
    rw [← h]; exact ⟨hplus, hminus⟩
  | cons word rest ih =>
    unfold ParseQuery_loop at h
    cases hw : ProcessQueryWord s word with
    | error e => simp [hw] at h
    | ok word_struct =>
      simp only [hw] at h
      by_cases hstop : word_struct.is_stop_word = true
      · simp only [hstop, if_true] at h
        exact ih query h hplus hminus
      · simp only [hstop, Bool.false_eq_true, if_false] at h
        by_cases hm : word_struct.is_minus_word = true
        · simp only [hm, if_true] at h
          exact ih _ h hplus (sorted_insert_string _ hminus _)
        · simp only [hm, Bool.false_eq_true, if_false] at h
          exact ih _ h (sorted_insert_string _ hplus _) hminus

theorem count_ne_zero_iff {κ ν : Type} [DecidableEq κ] [StdLess κ] (m : StdMap κ ν) (k : κ) :
    count m k ≠ 0 ↔ find? m k ≠ none := by
  unfold count
  cases find? m k <;> simp

theorem MatchDocument_minus_iff (s : SearchServer) (document_id : Int)
    (minus_words : List String) :
    MatchDocument_minus s document_id minus_words = true ↔
      ∃ w ∈ minus_words, find2? s.word_to_document_frequency_ w document_id ≠ none := by
  induction minus_words with
  | nil => simp [MatchDocument_minus]
  | cons w rest ih =>
    unfold MatchDocument_minus
    simp only [List.mem_cons, exists_eq_or_imp]
    cases hrow : find? s.word_to_document_frequency_ w with
    | none =>
      simp only []
      rw [ih]
      simp [find2?, hrow]
    | some postings =>
      simp only []
      have h2 : find2? s.word_to_document_frequency_ w document_id = find? postings document_id := by
        simp [find2?, hrow]
      rw [h2]
      by_cases hc : count postings document_id ≠ 0
      · rw [if_pos hc]
        simp only [true_iff]
        exact Or.inl ((count_ne_zero_iff _ _).mp hc)
      · rw [if_neg hc]
        rw [ih]
        have : ¬ find? postings document_id ≠ none := fun h => hc ((count_ne_zero_iff _ _).mpr h)
        simp only [this, false_or]

theorem MatchDocument_plus_eq (s : SearchServer) (document_id : Int) (plus_words : List String)
    (acc : List String) :
    MatchDocument_plus s document_id plus_words acc =
      acc ++ plus_words.filter
        (fun w => decide (find2? s.word_to_document_frequency_ w document_id ≠ none)) := by
  induction plus_words generalizing acc with
  | nil => simp [MatchDocument_plus]
  | cons w rest ih =>
    unfold MatchDocument_plus
    cases hrow : find? s.word_to_document_frequency_ w with
    | none =>
      simp only []
      rw [ih]
      have : find2? s.word_to_document_frequency_ w document_id = none := by simp [find2?, hrow]
      simp [List.filter_cons, this]
    | some postings =>
      simp only []
      have h2 : find2? s.word_to_document_frequency_ w document_id = find? postings document_id := by
        simp [find2?, hrow]
      by_cases hc : count postings document_id ≠ 0
      · have h3 : find? postings document_id ≠ none := (count_ne_zero_iff _ _).mp hc
        rw [if_pos hc]
        rw [ih]
        simp [List.filter_cons, h2, h3]
      · have h3 : find? postings document_id = none := by
          by_contra hn
          exact hc ((count_ne_zero_iff _ _).mpr hn)
        rw [if_neg hc]
        rw [ih]
        simp [List.filter_cons, h2, h3]

end SearchServer

/-! ## The claims about the overloads and about query parsing -/

namespace SearchServer

open StdMap

theorem IsStopWord_eq_false_iff (s : SearchServer) (w : String) :
    IsStopWord s w = false ↔ w ∉ s.stop_words_ := by
  unfold IsStopWord StdSet.count
  by_cases h : w ∈ s.stop_words_ <;> simp [h]

theorem minus_token_eq (t : String) (h : t.data.head? = some '-') : t = "-" ++ stripMinus t := by
  cases t with
  | mk data =>
    cases data with
    | nil => simp at h
    | cons c cs =>
      simp only [List.head?_cons, Option.some.injEq] at h
      subst h
      simp [stripMinus]
      rfl

theorem stripMinus_minus_append (w : String) : stripMinus ("-" ++ w) = w := by
  cases w with
  | mk data =>
    have h : ("-" ++ ({ data := data } : String)) = { data := '-' :: data } := rfl
    rw [h]
    simp [stripMinus]

theorem head?_minus_append (w : String) : ("-" ++ w).data.head? = some '-' := by
  cases w with
  | mk data => rfl

theorem foldl_erase_nil (postings : List (Int × ℚ)) :
    postings.foldl (fun acc entry => erase acc entry.1) ([] : StdMap Int ℚ) = [] := by
  induction postings with
  | nil => rfl
  | cons e es ihp => simpa [List.foldl_cons, erase] using ihp

theorem FindAllDocuments_minus_nil (s : SearchServer) (minus_words : List String) :
    FindAllDocuments_minus s minus_words [] = [] := by
  induction minus_words with
  | nil => rfl
  | cons w rest ih =>
    unfold FindAllDocuments_minus
    cases hrow : find? s.word_to_document_frequency_ w with
    | none => exact ih
    | some postings =>
      simp only []
      rw [foldl_erase_nil postings]
      exact ih

theorem FindTopDocuments_of_no_plus_words (SplitIntoWords : String → List String)
    (ln : ℚ → ℚ) (s : SearchServer) (raw_query : String)
    (pred : Int → DocumentStatus → Int → Bool) (query : ProcessedQuery)
    (hq : ParseQuery SplitIntoWords s raw_query = .ok query) (hplus : query.plus_words = []) :
    FindTopDocuments SplitIntoWords ln s raw_query pred = .ok [] := by
  rw [FindTopDocuments_eq_ok_iff]
  refine ⟨query, [], hq, ?_, by simp [stdSort]⟩
  unfold FindAllDocuments
  rw [hplus]
  simp [FindAllDocuments_plus, FindAllDocuments_minus_nil, FindAllDocuments_vector]

theorem splitChars_nonempty (cs cur : List Char) : ∀ t ∈ splitChars cs cur, t ≠ "" := by
  induction cs generalizing cur with
  | nil =>
    intro t ht
    unfold splitChars at ht
    by_cases hc : cur = []
    · simp [hc] at ht
    · simp only [hc, if_false, List.mem_singleton] at ht
      rw [ht]
      intro h
      have hd : (String.mk cur.reverse).data = ("" : String).data := by rw [h]
      simp at hd
      exact hc hd
  | cons c rest ih =>
    intro t ht
    unfold splitChars at ht
    by_cases hw : c.isWhitespace = true
    · simp only [hw, if_true] at ht
      by_cases hc : cur = []
      · simp only [hc, if_true] at ht
        exact ih [] t ht
      · simp only [hc, if_false, List.mem_cons] at ht
        rcases ht with h1 | h1
        · rw [h1]
          intro h
          have hd : (String.mk cur.reverse).data = ("" : String).data := by rw [h]
          simp at hd
          exact hc hd
        · exact ih [] t h1
    · simp only [hw, Bool.false_eq_true, if_false] at ht
      exact ih (c :: cur) t ht

/-- The tokenizer of the specification never yields an empty token. -/
theorem SplitIntoWordsSpec_nonempty (text : String) : ∀ t ∈ SplitIntoWordsSpec text, t ≠ "" :=
  splitChars_nonempty text.data []

/-- C11: `FindTopDocuments(raw_query, doc_status)` returns what
`FindTopDocuments(raw_query, pred)` returns, list or exception, for every filter `pred`
that answers `status == doc_status`, and `FindTopDocuments(raw_query)` returns what
`FindTopDocuments(raw_query, DocumentStatus::ACTUAL)` returns. -/
theorem FindTopDocuments_overloads (SplitIntoWords : String → List String) (ln : ℚ → ℚ)
    (s : SearchServer) (raw_query : String) (doc_status : DocumentStatus)
    (pred : Int → DocumentStatus → Int → Bool)
    (hpred : ∀ document_id status rating,
      pred document_id status rating = decide (status = doc_status)) :
    FindTopDocumentsByStatus SplitIntoWords ln s raw_query doc_status =
      FindTopDocuments SplitIntoWords ln s raw_query pred ∧
    FindTopDocumentsActual SplitIntoWords ln s raw_query =
      FindTopDocumentsByStatus SplitIntoWords ln s raw_query DocumentStatus.ACTUAL := by
  have hfun : pred = fun _ status _ => decide (status = doc_status) := by
    funext document_id status rating
    exact hpred document_id status rating
  rw [hfun]
  exact ⟨rfl, rfl⟩

theorem FindTopDocuments_overloads_witness :
    (∀ (document_id : Int) (status : DocumentStatus) (rating : Int),
      (fun (_ : Int) (st : DocumentStatus) (_ : Int) => decide (st = DocumentStatus.BANNED))
        document_id status rating = decide (status = DocumentStatus.BANNED)) ∧
    FindTopDocumentsByStatus SplitIntoWordsSpec lnSample twoCatServer "cat"
        DocumentStatus.BANNED =
      FindTopDocuments SplitIntoWordsSpec lnSample twoCatServer "cat"
        (fun _ st _ => decide (st = DocumentStatus.BANNED)) :=
  ⟨fun _ _ _ => rfl,
    (FindTopDocuments_overloads SplitIntoWordsSpec lnSample twoCatServer "cat"
      DocumentStatus.BANNED (fun _ st _ => decide (st = DocumentStatus.BANNED))
      (fun _ _ _ => rfl)).1⟩

/-- C12: for a query whose tokens are non-empty, `ParseQuery` throws `invalid_argument`
exactly when some token is malformed, that is, after removing one leading `-` it is
empty, starts with `-`, ends with `-` or has a character with code below `0x20`; stop
words are checked like any other token.  Otherwise `ParseQuery` returns, and when it
throws, `FindTopDocuments` and `MatchDocument` throw the same exception. -/
theorem ParseQuery_throws_iff (SplitIntoWords : String → List String) (s : SearchServer)
    (text : String) (hne : ∀ t ∈ SplitIntoWords text, t ≠ "") :
    (ParseQuery SplitIntoWords s text = .error Error.invalid_argument ↔
      ∃ t ∈ SplitIntoWords text, MalformedToken t) ∧
    ((¬ ∃ t ∈ SplitIntoWords text, MalformedToken t) →
      ∃ query, ParseQuery SplitIntoWords s text = .ok query) ∧
    ((∃ t ∈ SplitIntoWords text, MalformedToken t) →
      (∀ (ln : ℚ → ℚ) (pred : Int → DocumentStatus → Int → Bool),
        FindTopDocuments SplitIntoWords ln s text pred = .error Error.invalid_argument) ∧
      (∀ document_id : Int,
        MatchDocument SplitIntoWords s text document_id = .error Error.invalid_argument)) := by
  have hiff : ParseQuery SplitIntoWords s text = .error Error.invalid_argument ↔
      ∃ t ∈ SplitIntoWords text, MalformedToken t :=
    ParseQuery_loop_error_iff s (SplitIntoWords text) ⟨[], []⟩ hne
  refine ⟨hiff, fun hno => ?_, fun hbad => ?_⟩
  · rcases ParseQuery_loop_ok_or_invalid s (SplitIntoWords text) ⟨[], []⟩ with h | h
    · exact h
    · exact absurd (hiff.mp h) hno
  · have herr := hiff.mpr hbad
    constructor
    · intro ln pred
      simp [FindTopDocuments, herr]
    · intro document_id
      simp [MatchDocument, herr]

theorem ParseQuery_throws_iff_witness :
    (∀ t ∈ SplitIntoWordsSpec "cat --city", t ≠ "") ∧
    (ParseQuery SplitIntoWordsSpec twoCatServer "cat --city" = .error Error.invalid_argument ↔
      ∃ t ∈ SplitIntoWordsSpec "cat --city", MalformedToken t) :=
  ⟨SplitIntoWordsSpec_nonempty "cat --city",
    (ParseQuery_throws_iff SplitIntoWordsSpec twoCatServer "cat --city"
      (SplitIntoWordsSpec_nonempty "cat --city")).1⟩

/-- C13, refuted: the query "cat -cat" parses, and the word "cat" is a member of the
plus-word set and of the minus-word set. -/
theorem ParseQuery_sets_overlap :
    ParseQuery SplitIntoWordsSpec emptyServer "cat -cat" = .ok ⟨["cat"], ["cat"]⟩ ∧
    "cat" ∈ (⟨["cat"], ["cat"]⟩ : ProcessedQuery).plus_words ∧
    "cat" ∈ (⟨["cat"], ["cat"]⟩ : ProcessedQuery).minus_words :=
  ⟨by decide, by decide, by decide⟩

/-- C13, amended: for a query that parses, a word is a member of both the plus-word set
and the minus-word set exactly when the word itself and the word with a leading `-`
are both tokens of the query and the word is not a stop word; for every other word, and
so for every query without such a pair of tokens, the two sets are disjoint. -/
theorem ParseQuery_in_both_sets_iff (SplitIntoWords : String → List String) (s : SearchServer)
    (text : String) (query : ProcessedQuery)
    (h : ParseQuery SplitIntoWords s text = .ok query) (w : String) :
    (w ∈ query.plus_words ∧ w ∈ query.minus_words) ↔
      (w ∈ SplitIntoWords text ∧ ("-" ++ w) ∈ SplitIntoWords text ∧ w ∉ s.stop_words_) := by
  obtain ⟨hplus, hminus⟩ := ParseQuery_loop_mem s (SplitIntoWords text) ⟨[], []⟩ query h w
  have hwf := ParseQuery_loop_wellformed s (SplitIntoWords text) ⟨[], []⟩ query h
  rw [hplus, hminus]
  simp only [List.not_mem_nil, false_or]
  constructor
  · rintro ⟨⟨t, ht, hnm, hsw, hns⟩, ⟨t', ht', hm', hsw', _⟩⟩
    rw [stripMinus_of_not_minus t hnm] at hsw
    refine ⟨by rw [← hsw]; exact ht, ?_, (IsStopWord_eq_false_iff s w).mp hns⟩
    rw [← hsw', ← minus_token_eq t' hm']
    exact ht'
  · rintro ⟨hw, hmw, hns⟩
    have hns' := (IsStopWord_eq_false_iff s w).mpr hns
    have h1 := (hwf _ hmw).1
    rw [stripMinus_minus_append] at h1
    exact ⟨⟨w, hw, h1, stripMinus_of_not_minus w h1, hns'⟩,
      ⟨"-" ++ w, hmw, head?_minus_append w, stripMinus_minus_append w, hns'⟩⟩

theorem ParseQuery_in_both_sets_iff_witness :
    ParseQuery SplitIntoWordsSpec emptyServer "cat -cat" = .ok ⟨["cat"], ["cat"]⟩ ∧
    ((("cat" : String) ∈ ["cat"] ∧ ("cat" : String) ∈ ["cat"]) ↔
      ("cat" ∈ SplitIntoWordsSpec "cat -cat" ∧ ("-" ++ "cat") ∈ SplitIntoWordsSpec "cat -cat" ∧
        "cat" ∉ emptyServer.stop_words_)) :=
  ⟨by decide,
    ParseQuery_in_both_sets_iff SplitIntoWordsSpec emptyServer "cat -cat" ⟨["cat"], ["cat"]⟩
      (by decide) "cat"⟩

/-- C14, refuted: the constructor accepts the stop word "a-", the only token of the
query "a-" is that stop word, and `FindTopDocuments` throws `invalid_argument` on it,
while it returns the empty list on the empty query. -/
theorem FindTopDocuments_stop_word_query_throws :
    New ["a-"] = .ok dashStopServer ∧
    SplitIntoWordsSpec "a-" = ["a-"] ∧
    "a-" ∈ dashStopServer.stop_words_ ∧
    FindTopDocuments SplitIntoWordsSpec lnSample dashStopServer "a-" (fun _ _ _ => true) =
      .error Error.invalid_argument ∧
    FindTopDocuments SplitIntoWordsSpec lnSample dashStopServer "" (fun _ _ _ => true) =
      .ok [] :=
  ⟨by decide, by decide, by decide, by decide!, by decide!⟩

/-- C14, amended: in every server state, for every query that parses and all of whose
tokens are stop words, as written or after removing one leading `-`,
`FindTopDocuments` returns the empty list, as it does on the empty query. -/
theorem FindTopDocuments_stop_words_only (SplitIntoWords : String → List String)
    (ln : ℚ → ℚ) (s : SearchServer) (raw_query : String)
    (pred : Int → DocumentStatus → Int → Bool) (query : ProcessedQuery)
    (hparse : ParseQuery SplitIntoWords s raw_query = .ok query)
    (hstop : ∀ t ∈ SplitIntoWords raw_query,
      t ∈ s.stop_words_ ∨ stripMinus t ∈ s.stop_words_)
    (hempty : SplitIntoWords "" = []) :
    FindTopDocuments SplitIntoWords ln s raw_query pred = .ok [] ∧
    FindTopDocuments SplitIntoWords ln s "" pred = .ok [] := by
  constructor
  · apply FindTopDocuments_of_no_plus_words SplitIntoWords ln s raw_query pred query hparse
    rw [List.eq_nil_iff_forall_not_mem]
    intro w hw
    obtain ⟨hplus, _⟩ := ParseQuery_loop_mem s (SplitIntoWords raw_query) ⟨[], []⟩ query hparse w
    rw [hplus] at hw
    simp only [List.not_mem_nil, false_or] at hw
    obtain ⟨t, ht, hnm, hsw, hns⟩ := hw
    rw [IsStopWord_eq_false_iff] at hns
    rw [stripMinus_of_not_minus t hnm] at hsw
    rcases hstop t ht with h1 | h1
    · rw [hsw] at h1; exact hns h1
    · rw [stripMinus_of_not_minus t hnm, hsw] at h1; exact hns h1
  · apply FindTopDocuments_of_no_plus_words SplitIntoWords ln s "" pred ⟨[], []⟩ _ rfl
    unfold ParseQuery
    rw [hempty]
    rfl

theorem FindTopDocuments_stop_words_only_witness :
    ParseQuery SplitIntoWordsSpec inTheServer "in -the" = .ok ⟨[], []⟩ ∧
    (∀ t ∈ SplitIntoWordsSpec "in -the",
      t ∈ inTheServer.stop_words_ ∨ stripMinus t ∈ inTheServer.stop_words_) ∧
    SplitIntoWordsSpec "" = [] ∧
    FindTopDocuments SplitIntoWordsSpec lnSample inTheServer "in -the" (fun _ _ _ => true) =
      .ok [] :=
  ⟨by decide!, by decide!, by decide,
    (FindTopDocuments_stop_words_only SplitIntoWordsSpec lnSample inTheServer "in -the"
      (fun _ _ _ => true) ⟨[], []⟩ (by decide!) (by decide!) (by decide)).1⟩

end SearchServer

/-! ## The claims about `MatchDocument` -/

namespace SearchServer

open StdMap

theorem find2?_inverted_eq_GetWordFrequencies (s : SearchServer) (h : Consistent s)
    (w : String) (document_id : Int) :
    find2? s.word_to_document_frequency_ w document_id =
      find? (GetWordFrequencies s document_id) w := by
  rw [find?_GetWordFrequencies, h.index.sync]

theorem known_has_record (s : SearchServer) (h : Consistent s) (document_id : Int)
    (hknown : document_id ∈ s.added_documents_) :
    ∃ data, find? s.document_data_ document_id = some data := by
  have hk := (h.known document_id).mpr hknown
  rw [← find?_isSome_iff_mem_keys] at hk
  exact Option.isSome_iff_exists.mp hk

/-- C15: on a server reached by successful calls only, for a query that parses and a
known document without any minus-word of the query, `MatchDocument` returns the
plus-words that occur in the document, in the order of the plus-word set, together
with the stored status; that list is strictly ascending in the lexicographic order,
has no word twice, and no plus-word is a stop word. -/
theorem MatchDocument_plus_words (SplitIntoWords : String → List String) (s : SearchServer)
    (hs : ReachableOk SplitIntoWords s) (raw_query : String) (query : ProcessedQuery)
    (hquery : ParseQuery SplitIntoWords s raw_query = .ok query) (document_id : Int)
    (hknown : document_id ∈ s.added_documents_)
    (hminus : ∀ w ∈ query.minus_words, find? (GetWordFrequencies s document_id) w = none) :
    ∃ data, find? s.document_data_ document_id = some data ∧
      MatchDocument SplitIntoWords s raw_query document_id =
        .ok (query.plus_words.filter
            (fun w => decide (find? (GetWordFrequencies s document_id) w ≠ none)),
          data.status) ∧
      (query.plus_words.filter
          (fun w => decide (find? (GetWordFrequencies s document_id) w ≠ none))).Pairwise
        (fun a b => lexLess a.data b.data = true) ∧
      (query.plus_words.filter
          (fun w => decide (find? (GetWordFrequencies s document_id) w ≠ none))).Nodup ∧
      ∀ w ∈ query.plus_words, w ∉ s.stop_words_ := by
  have hcons := hs.consistentOk.consistent
  obtain ⟨data, hdata⟩ := known_has_record s hcons document_id hknown
  refine ⟨data, hdata, ?_, ?_, ?_, ?_⟩
  · have hveto : MatchDocument_minus s document_id query.minus_words = false := by
      rw [← Bool.not_eq_true, MatchDocument_minus_iff]
      rintro ⟨w, hw, hne⟩
      rw [find2?_inverted_eq_GetWordFrequencies s hcons] at hne
      exact hne (hminus w hw)
    unfold MatchDocument
    simp only [hquery, hveto, Bool.false_eq_true, if_false, atKey, hdata]
    rw [MatchDocument_plus_eq]
    simp only [List.nil_append]
    congr 2
    apply List.filter_congr
    intro w _
    rw [find2?_inverted_eq_GetWordFrequencies s hcons]
  · exact List.Pairwise.filter _
      (ParseQuery_loop_sorted s _ _ _ hquery List.Pairwise.nil List.Pairwise.nil).1
  · exact (ParseQuery_nodup SplitIntoWords s raw_query query hquery).1.filter _
  · intro w hw
    obtain ⟨hplus, _⟩ := ParseQuery_loop_mem s (SplitIntoWords raw_query) ⟨[], []⟩ query hquery w
    rw [hplus] at hw
    simp only [List.not_mem_nil, false_or] at hw
    obtain ⟨_, _, _, _, hns⟩ := hw
    exact (IsStopWord_eq_false_iff s w).mp hns

theorem MatchDocument_plus_words_witness :
    ReachableOk SplitIntoWordsSpec twoCatServer ∧
    ParseQuery SplitIntoWordsSpec twoCatServer "city cat the dog" =
      .ok ⟨["cat", "city", "dog", "the"], []⟩ ∧
    (42 : Int) ∈ twoCatServer.added_documents_ ∧
    (∀ w ∈ ([] : List String), find? (GetWordFrequencies twoCatServer 42) w = none) ∧
    ∃ data, find? twoCatServer.document_data_ 42 = some data ∧
      MatchDocument SplitIntoWordsSpec twoCatServer "city cat the dog" 42 =
        .ok (["cat", "city", "dog", "the"].filter
            (fun w => decide (find? (GetWordFrequencies twoCatServer 42) w ≠ none)),
          data.status) ∧
      (["cat", "city", "dog", "the"].filter
          (fun w => decide (find? (GetWordFrequencies twoCatServer 42) w ≠ none))).Pairwise
        (fun a b => lexLess a.data b.data = true) ∧
      (["cat", "city", "dog", "the"].filter
          (fun w => decide (find? (GetWordFrequencies twoCatServer 42) w ≠ none))).Nodup ∧
      ∀ w ∈ ["cat", "city", "dog", "the"], w ∉ twoCatServer.stop_words_ :=
  ⟨reachableOk_twoCatServer, by decide!, by decide!, fun _ hw => absurd hw (List.not_mem_nil _),
    MatchDocument_plus_words SplitIntoWordsSpec twoCatServer reachableOk_twoCatServer
      "city cat the dog" ⟨["cat", "city", "dog", "the"], []⟩ (by decide!) 42 (by decide!)
      (fun _ hw => absurd hw (List.not_mem_nil _))⟩

/-- C16: on a server reached by successful calls only, for a query that parses and a
known document that has at least one minus-word of the query, `MatchDocument` returns
the empty list of words together with the stored status of the document. -/
theorem MatchDocument_minus_veto (SplitIntoWords : String → List String) (s : SearchServer)
    (hs : ReachableOk SplitIntoWords s) (raw_query : String) (query : ProcessedQuery)
    (hquery : ParseQuery SplitIntoWords s raw_query = .ok query) (document_id : Int)
    (hknown : document_id ∈ s.added_documents_)
    (hminus : ∃ w ∈ query.minus_words, find? (GetWordFrequencies s document_id) w ≠ none) :
    ∃ data, find? s.document_data_ document_id = some data ∧
      MatchDocument SplitIntoWords s raw_query document_id = .ok ([], data.status) := by
  have hcons := hs.consistentOk.consistent
  obtain ⟨data, hdata⟩ := known_has_record s hcons document_id hknown
  refine ⟨data, hdata, ?_⟩
  have hveto : MatchDocument_minus s document_id query.minus_words = true := by
    rw [MatchDocument_minus_iff]
    obtain ⟨w, hw, hne⟩ := hminus
    exact ⟨w, hw, by rw [find2?_inverted_eq_GetWordFrequencies s hcons]; exact hne⟩
  unfold MatchDocument
  simp only [hquery, hveto, if_true, atKey, hdata]

theorem MatchDocument_minus_veto_witness :
    ReachableOk SplitIntoWordsSpec twoCatServer ∧
    ParseQuery SplitIntoWordsSpec twoCatServer "cat the -city" =
      .ok ⟨["cat", "the"], ["city"]⟩ ∧
    (42 : Int) ∈ twoCatServer.added_documents_ ∧
    (∃ w ∈ ["city"], find? (GetWordFrequencies twoCatServer 42) w ≠ none) ∧
    ∃ data, find? twoCatServer.document_data_ 42 = some data ∧
      MatchDocument SplitIntoWordsSpec twoCatServer "cat the -city" 42 =
        .ok ([], data.status) :=
  ⟨reachableOk_twoCatServer, by decide!, by decide!, ⟨"city", by decide, by decide!⟩,
    MatchDocument_minus_veto SplitIntoWordsSpec twoCatServer reachableOk_twoCatServer
      "cat the -city" ⟨["cat", "the"], ["city"]⟩ (by decide!) 42 (by decide!)
      ⟨"city", by decide, by decide!⟩⟩

/-- C17: on every reachable server, for a query that parses and an id that is not a
known document, `MatchDocument` throws `out_of_range`. -/
theorem MatchDocument_unknown_id (SplitIntoWords : String → List String) (s : SearchServer)
    (hs : Reachable SplitIntoWords s) (raw_query : String) (query : ProcessedQuery)
    (hquery : ParseQuery SplitIntoWords s raw_query = .ok query) (document_id : Int)
    (hunknown : document_id ∉ s.added_documents_) :
    MatchDocument SplitIntoWords s raw_query document_id = .error Error.out_of_range := by
  have hnone : find? s.document_data_ document_id = none := by
    rw [find?_eq_none_iff]
    exact fun h => hunknown ((hs.consistent.known document_id).mp h)
  unfold MatchDocument
  simp only [hquery, atKey, hnone]
  split <;> rfl

theorem MatchDocument_unknown_id_witness :
    Reachable SplitIntoWordsSpec residueServer ∧
    ParseQuery SplitIntoWordsSpec residueServer "a -a" = .ok ⟨["a"], ["a"]⟩ ∧
    (1 : Int) ∉ residueServer.added_documents_ ∧
    MatchDocument SplitIntoWordsSpec residueServer "a -a" 1 = .error Error.out_of_range :=
  ⟨Reachable.call _ (Call.AddDocument 1 "a \x01" DocumentStatus.ACTUAL [1])
      (Reachable.construct [] emptyServer rfl),
    by decide!, by decide!,
    MatchDocument_unknown_id SplitIntoWordsSpec residueServer
      (Reachable.call _ (Call.AddDocument 1 "a \x01" DocumentStatus.ACTUAL [1])
        (Reachable.construct [] emptyServer rfl))
      "a -a" ⟨["a"], ["a"]⟩ (by decide!) 1 (by decide!)⟩

end SearchServer

/-! ## The claims about `RemoveDocument` -/

namespace SearchServer

open StdMap

theorem AddDocument_loop_inverted_keys (size : Nat) (document_id : Int) (words : List String)
    (s : SearchServer) (h : (keys s.word_to_document_frequency_).Nodup) :
    (keys (AddDocument_loop size document_id words s).2.word_to_document_frequency_).Nodup := by
  induction words generalizing s with
  | nil => simpa [AddDocument_loop] using h
  | cons word rest ih =>
    unfold AddDocument_loop
    by_cases hv : IsValidWord word = true
    · simp only [hv, Bool.not_true, Bool.false_eq_true, if_false]
      apply ih
      unfold addFrequency
      exact nodup_keys_set h _ _
    · simpa [hv] using h

theorem AddDocument_inverted_keys (SplitIntoWords : String → List String) (s : SearchServer)
    (document_id : Int) (document : String) (status : DocumentStatus) (ratings : List Int)
    (h : (keys s.word_to_document_frequency_).Nodup) :
    (keys (AddDocument SplitIntoWords s document_id document status
      ratings).2.word_to_document_frequency_).Nodup := by
  have hloop := AddDocument_loop_inverted_keys
    (SplitIntoWordsNoStop SplitIntoWords s document).length document_id
    (SplitIntoWordsNoStop SplitIntoWords s document) s h
  rcases AddDocument_cases SplitIntoWords s document_id document status ratings with
    ⟨_, he⟩ | ⟨_, _, he⟩ | ⟨_, _, _, he⟩ | ⟨_, _, rating, _, _, he⟩
  · rw [he]; exact h
  · rw [he]; exact hloop
  · rw [he]; exact hloop
  · rw [he]; exact hloop

theorem RemoveDocument_loop_keys (document_id : Int) (words : List String)
    (index : StdMap String (StdMap Int ℚ)) (h : (keys index).Nodup) :
    (keys (RemoveDocument_loop document_id words index).2).Nodup := by
  induction words generalizing index with
  | nil => simpa [RemoveDocument_loop] using h
  | cons word rest ih =>
    unfold RemoveDocument_loop
    cases hrow : find? index word with
    | none => simpa using h
    | some postings =>
      simp only []
      split
      · exact ih _ (nodup_keys_erase h _)
      · exact ih _ (by rw [keys_replace]; exact h)

theorem RemoveDocument_inverted_keys (s : SearchServer) (document_id : Int)
    (h : (keys s.word_to_document_frequency_).Nodup) :
    (keys (RemoveDocument s document_id).2.word_to_document_frequency_).Nodup := by
  unfold RemoveDocument atKey
  cases hentry : find? s.doc_id_to_word_frequency_ document_id with
  | none => simpa using h
  | some entry =>
    simp only []
    have hloop := RemoveDocument_loop_keys document_id (keys entry)
      s.word_to_document_frequency_ h
    generalize RemoveDocument_loop document_id (keys entry) s.word_to_document_frequency_ = L
      at hloop
    obtain ⟨r, index⟩ := L
    cases r with
    | error e => exact hloop
    | ok u => exact hloop

end SearchServer

theorem Reachable.inverted_keys_nodup {SplitIntoWords : String → List String}
    {s : SearchServer} (h : Reachable SplitIntoWords s) :
    (StdMap.keys s.word_to_document_frequency_).Nodup := by
  induction h with
  | construct stop_words s hs =>
    unfold SearchServer.New at hs
    simp only [] at hs
    split at hs
    · cases hs; simp [StdMap.keys]
    · cases hs
  | call s c _ ih =>
    cases c with
    | AddDocument document_id document status ratings =>
      exact SearchServer.AddDocument_inverted_keys SplitIntoWords s document_id document status
        ratings ih
    | RemoveDocument document_id => exact SearchServer.RemoveDocument_inverted_keys s document_id ih

namespace SearchServer

open StdMap

/-- C18: on a server reached by successful calls only, after `RemoveDocument(document_id)`
has returned normally the id is not in the known-id set, has no rating/status record,
`GetWordFrequencies(document_id)` is empty, and no posting list of the inverted index
has an entry for the id. -/
theorem RemoveDocument_no_trace (SplitIntoWords : String → List String) (s : SearchServer)
    (hs : ReachableOk SplitIntoWords s) (document_id : Int)
    (hok : (RemoveDocument s document_id).1 = .ok ()) :
    document_id ∉ (RemoveDocument s document_id).2.added_documents_ ∧
    document_id ∉ keys (RemoveDocument s document_id).2.document_data_ ∧
    GetWordFrequencies (RemoveDocument s document_id).2 document_id = [] ∧
    ∀ entry ∈ (RemoveDocument s document_id).2.word_to_document_frequency_,
      document_id ∉ keys entry.2 := by
  have hnodup : (keys (RemoveDocument s document_id).2.word_to_document_frequency_).Nodup :=
    (Reachable.call s (Call.RemoveDocument document_id) hs.reachable).inverted_keys_nodup
  rcases RemoveDocument_cases s document_id hs.consistentOk.consistent with
    ⟨_, he⟩ | ⟨entry, _, he, hloop⟩
  · rw [he] at hok; cases hok
  · rw [he] at hnodup ⊢
    simp only at hnodup ⊢
    refine ⟨?_, ?_, ?_, ?_⟩
    · rw [StdSet.mem_erase]; exact fun h => h.1 rfl
    · rw [mem_keys_erase]; exact fun h => h.1 rfl
    · have hnone : find? (erase s.doc_id_to_word_frequency_ document_id) document_id = none := by
        rw [find?_erase]; simp
      simp [GetWordFrequencies, count, hnone]
    · intro e he2
      have hfind := find?_of_mem hnodup (show (e.1, e.2) ∈ _ from he2)
      have h2 := hloop e.1 document_id
      simp only [find2?, hfind, if_true] at h2
      exact (find?_eq_none_iff _ _).mp h2

theorem RemoveDocument_no_trace_witness :
    ReachableOk SplitIntoWordsSpec twoCatServer ∧
    (RemoveDocument twoCatServer 42).1 = .ok () ∧
    (42 : Int) ∉ (RemoveDocument twoCatServer 42).2.added_documents_ ∧
    (42 : Int) ∉ keys (RemoveDocument twoCatServer 42).2.document_data_ ∧
    GetWordFrequencies (RemoveDocument twoCatServer 42).2 42 = [] ∧
    ∀ entry ∈ (RemoveDocument twoCatServer 42).2.word_to_document_frequency_,
      (42 : Int) ∉ keys entry.2 :=
  ⟨reachableOk_twoCatServer, by decide!,
    RemoveDocument_no_trace SplitIntoWordsSpec twoCatServer reachableOk_twoCatServer 42
      (by decide!)⟩

/-- C19, refuted: on a new server `RemoveDocument(7)` does not return normally, it
throws `out_of_range`. -/
theorem unknown_id_removal_throws :
    New [] = .ok emptyServer ∧
    (7 : Int) ∉ emptyServer.added_documents_ ∧
    (RemoveDocument emptyServer 7).1 = .error Error.out_of_range ∧
    (RemoveDocument emptyServer 7).1 ≠ .ok () :=
  ⟨by decide, by decide, by decide, by decide⟩

/-- C19, amended: on a server reached by successful calls only, `RemoveDocument` of an
id that is not known throws `out_of_range` and leaves the server as it was. -/
theorem RemoveDocument_unknown_id (SplitIntoWords : String → List String) (s : SearchServer)
    (hs : ReachableOk SplitIntoWords s) (document_id : Int)
    (hunknown : document_id ∉ s.added_documents_) :
    RemoveDocument s document_id = (.error Error.out_of_range, s) := by
  have hnone : find? s.doc_id_to_word_frequency_ document_id = none := by
    rw [find?_eq_none_iff]
    intro hmem
    exact hunknown ((hs.consistentOk.consistent.known document_id).mp
      (hs.consistentOk.forward_known document_id hmem))
  simp [RemoveDocument, atKey, hnone]

theorem RemoveDocument_unknown_id_witness :
    ReachableOk SplitIntoWordsSpec removedServer ∧
    (42 : Int) ∉ removedServer.added_documents_ ∧
    RemoveDocument removedServer 42 = (.error Error.out_of_range, removedServer) :=
  ⟨ReachableOk.call _ (Call.RemoveDocument 42) reachableOk_catServer (by decide!),
    by decide!,
    RemoveDocument_unknown_id SplitIntoWordsSpec removedServer
      (ReachableOk.call _ (Call.RemoveDocument 42) reachableOk_catServer (by decide!)) 42
      (by decide!)⟩

/-- C20, evaluated at the failing calls on a new server: `AddDocument(1, "", ACTUAL, {1})`
succeeds and makes id 1 known, and `RemoveDocument(1)` then throws `out_of_range`; the
rating/status record and the known id stay, and `GetDocumentCount` is still 1. -/
theorem RemoveDocument_empty_document_throws :
    New [] = .ok emptyServer ∧
    (AddDocument SplitIntoWordsSpec emptyServer 1 "" DocumentStatus.ACTUAL [1]).1 = .ok () ∧
    emptyDocServer.added_documents_ = [1] ∧
    GetDocumentCount emptyDocServer = 1 ∧
    RemoveDocument emptyDocServer 1 = (.error Error.out_of_range, emptyDocServer) ∧
    (RemoveDocument emptyDocServer 1).2.added_documents_ = [1] ∧
    GetDocumentCount (RemoveDocument emptyDocServer 1).2 = 1 :=
  ⟨by decide, by decide!, by decide!, by decide!, by decide!, by decide!, by decide!⟩

end SearchServer

/-! ## Ordered containers: facts -/

theorem lexLess_irrefl (a : List Char) : lexLess a a = false := by
  induction a with
  | nil => rfl
  | cons x xs ih => simp [lexLess, ih]

theorem stdLessOrder_int : StdLessOrder Int where
  irrefl := fun a => by simp [StdLess.less]
  trans := fun a b c hab hbc => by
    simp only [StdLess.less, decide_eq_true_eq] at hab hbc ⊢
    omega
  total := fun a b hne hab => by
    simp only [StdLess.less, decide_eq_true_eq, decide_eq_false_iff_not] at hab ⊢
    omega

theorem stdLessOrder_string : StdLessOrder String where
  irrefl := fun a => lexLess_irrefl a.data
  trans := fun a b c hab hbc => lexLess_trans a.data b.data c.data hab hbc
  total := fun a b hne hab => lexLess_total a.data b.data (string_ne_data hne) hab

theorem StdLessOrder.ne_of_less {κ : Type} [StdLess κ] (ho : StdLessOrder κ) {a b : κ}
    (h : StdLess.less a b = true) : a ≠ b := by
  intro he
  rw [he, ho.irrefl] at h
  cases h

theorem StdLessOrder.nodup_of_pairwise {κ : Type} [StdLess κ] (ho : StdLessOrder κ)
    {l : List κ} (h : l.Pairwise (fun a b => StdLess.less a b = true)) : l.Nodup :=
  h.imp (fun hab => ho.ne_of_less hab)

/-- Two strictly ascending lists with the same elements are the same list. -/
theorem StdLessOrder.eq_of_sorted {κ : Type} [StdLess κ] (ho : StdLessOrder κ)
    {l₁ l₂ : List κ} (h₁ : l₁.Pairwise (fun a b => StdLess.less a b = true))
    (h₂ : l₂.Pairwise (fun a b => StdLess.less a b = true))
    (hmem : ∀ x, x ∈ l₁ ↔ x ∈ l₂) : l₁ = l₂ := by
  haveI : IsAntisymm κ (fun a b => StdLess.less a b = true) :=
    ⟨fun a b hab hba => by
      have := ho.trans a b a hab hba
      rw [ho.irrefl] at this
      cases this⟩
  exact List.eq_of_perm_of_sorted
    ((List.perm_ext_iff_of_nodup (ho.nodup_of_pairwise h₁) (ho.nodup_of_pairwise h₂)).mpr hmem)
    h₁ h₂

namespace StdSet

variable {κ : Type} [DecidableEq κ] [StdLess κ]

theorem sorted_insertNew (ho : StdLessOrder κ) (s : StdSet κ) (hs : Sorted s) (k : κ)
    (hk : k ∉ s) : Sorted (insertNew k s) := by
  unfold Sorted at hs ⊢
  induction s with
  | nil => simp [insertNew]
  | cons k' rest ih =>
    rw [List.pairwise_cons] at hs
    have hk' : k ≠ k' := fun he => hk (by rw [he]; exact List.mem_cons_self _ _)
    have hrest : k ∉ rest := fun hm => hk (List.mem_cons_of_mem _ hm)
    unfold insertNew
    by_cases hl : StdLess.less k k' = true
    · simp only [hl, if_true]
      rw [List.pairwise_cons]
      refine ⟨?_, List.pairwise_cons.mpr hs⟩
      intro x hx
      rcases List.mem_cons.mp hx with h1 | h1
      · rw [h1]; exact hl
      · exact ho.trans _ _ _ hl (hs.1 x h1)
    · simp only [hl, Bool.false_eq_true, if_false]
      have hl' : StdLess.less k k' = false := by simpa using hl
      rw [List.pairwise_cons]
      refine ⟨?_, ih hs.2 hrest⟩
      intro x hx
      rcases List.mem_cons.mp ((insertNew_perm k rest).mem_iff.mp hx) with h1 | h1
      · rw [h1]; exact ho.total _ _ hk' hl'
      · exact hs.1 x h1

theorem sorted_insert (ho : StdLessOrder κ) (s : StdSet κ) (hs : Sorted s) (k : κ) :
    Sorted (insert s k) := by
  unfold insert
  by_cases hk : k ∈ s
  · simpa [hk] using hs
  · simp only [hk, if_false]
    exact sorted_insertNew ho s hs k hk

theorem sorted_erase (s : StdSet κ) (hs : Sorted s) (k : κ) : Sorted (erase s k) :=
  List.Pairwise.filter _ hs

end StdSet

namespace StdMap

variable {κ ν : Type} [DecidableEq κ] [StdLess κ]

theorem entries_insertNew_perm (k : κ) (v : ν) (m : StdMap κ ν) :
    (insertNew k v m).Perm ((k, v) :: m) := by
  induction m with
  | nil => simp [insertNew]
  | cons e rest ih =>
    obtain ⟨k₀, v₀⟩ := e
    by_cases hl : StdLess.less k k₀ = true
    · simp [insertNew, hl]
    · simp only [insertNew, hl]
      exact ((List.Perm.cons (k₀, v₀) ih).trans (List.Perm.swap (k, v) (k₀, v₀) _))

theorem sorted_insertNew_entry (ho : StdLessOrder κ) (m : StdMap κ ν) (hm : Sorted m) (k : κ) (v : ν)
    (hk : k ∉ keys m) : Sorted (insertNew k v m) := by
  unfold Sorted at hm ⊢
  induction m with
  | nil => simp [insertNew]
  | cons e rest ih =>
    obtain ⟨k', v'⟩ := e
    simp only [List.map_cons, List.pairwise_cons] at hm
    have hk' : k ≠ k' := fun he => hk (by simp [keys, he])
    have hrest : k ∉ keys rest := fun hmem => hk (by
      simp only [keys, List.map_cons, List.mem_cons]; exact Or.inr hmem)
    unfold insertNew
    by_cases hl : StdLess.less k k' = true
    · simp only [hl, if_true, List.map_cons, List.pairwise_cons]
      refine ⟨?_, hm⟩
      intro x hx
      rcases List.mem_cons.mp hx with h1 | h1
      · rw [h1]; exact hl
      · exact ho.trans _ _ _ hl (hm.1 x h1)
    · simp only [hl, Bool.false_eq_true, if_false, List.map_cons, List.pairwise_cons]
      have hl' : StdLess.less k k' = false := by simpa using hl
      refine ⟨?_, ih hm.2 hrest⟩
      intro x hx
      rcases List.mem_cons.mp ((keys_insertNew_perm k v rest).mem_iff.mp hx) with h1 | h1
      · rw [h1]; exact ho.total _ _ hk' hl'
      · exact hm.1 x h1

theorem sorted_set (ho : StdLessOrder κ) (m : StdMap κ ν) (hm : Sorted m) (k : κ) (v : ν) :
    Sorted (set m k v) := by
  unfold set
  cases h : find? m k with
  | none => exact sorted_insertNew_entry ho m hm k v ((find?_eq_none_iff m k).mp h)
  | some v₀ =>
    unfold Sorted
    have := keys_replace k v m
    unfold keys at this
    simp only []
    rw [this]
    exact hm

theorem sorted_erase_key (m : StdMap κ ν) (hm : Sorted m) (k : κ) : Sorted (erase m k) := by
  unfold Sorted at hm ⊢
  exact hm.sublist ((List.filter_sublist m).map _)

theorem sorted_replace (m : StdMap κ ν) (hm : Sorted m) (k : κ) (v : ν) :
    Sorted (replace k v m) := by
  unfold Sorted
  have := keys_replace k v m
  unfold keys at this
  rw [this]
  exact hm

theorem mem_replace_cases (k : κ) (v : ν) (m : StdMap κ ν) (e : κ × ν)
    (h : e ∈ replace k v m) : e = (k, v) ∨ e ∈ m := by
  induction m with
  | nil => simp [replace] at h
  | cons e₀ rest ih =>
    obtain ⟨k₀, v₀⟩ := e₀
    unfold replace at h
    by_cases h0 : k₀ = k
    · simp only [h0, if_true, List.mem_cons] at h
      rcases h with h1 | h1
      · exact Or.inl h1
      · exact Or.inr (List.mem_cons_of_mem _ h1)
    · simp only [h0, if_false, List.mem_cons] at h
      rcases h with h1 | h1
      · exact Or.inr (by rw [h1]; exact List.mem_cons_self _ _)
      · rcases ih h1 with h2 | h2
        · exact Or.inl h2
        · exact Or.inr (List.mem_cons_of_mem _ h2)

theorem mem_set_cases (m : StdMap κ ν) (k : κ) (v : ν) (e : κ × ν) (h : e ∈ set m k v) :
    e = (k, v) ∨ e ∈ m := by
  unfold set at h
  cases hf : find? m k with
  | none =>
    simp only [hf] at h
    exact List.mem_cons.mp ((entries_insertNew_perm k v m).mem_iff.mp h)
  | some v₀ =>
    simp only [hf] at h
    exact mem_replace_cases k v m e h

theorem mem_of_mem_erase (m : StdMap κ ν) (k : κ) (e : κ × ν) (h : e ∈ erase m k) : e ∈ m :=
  List.mem_of_mem_filter h

theorem set_ne_nil (m : StdMap κ ν) (k : κ) (v : ν) : set m k v ≠ [] := by
  intro h
  have := find?_set m k v k
  rw [h] at this
  simp [find?] at this

theorem nodup_keys_of_sorted (ho : StdLessOrder κ) (m : StdMap κ ν) (hm : Sorted m) :
    (keys m).Nodup :=
  ho.nodup_of_pairwise hm

/-- Two maps with strictly ascending keys and the same lookups are the same list. -/
theorem eq_of_sorted_find (ho : StdLessOrder κ) (m₁ m₂ : StdMap κ ν) (h₁ : Sorted m₁)
    (h₂ : Sorted m₂) (hfind : ∀ k, find? m₁ k = find? m₂ k) : m₁ = m₂ := by
  have hn₁ := nodup_keys_of_sorted ho m₁ h₁
  have hn₂ := nodup_keys_of_sorted ho m₂ h₂
  have hmem : ∀ e, e ∈ m₁ ↔ e ∈ m₂ := by
    intro e
    obtain ⟨k, v⟩ := e
    constructor
    · intro h
      exact mem_of_find? (by rw [← hfind k]; exact find?_of_mem hn₁ h)
    · intro h
      exact mem_of_find? (by rw [hfind k]; exact find?_of_mem hn₂ h)
  haveI : IsAntisymm (κ × ν) (fun e f => StdLess.less e.1 f.1 = true) :=
    ⟨fun a b hab hba => by
      have := ho.trans a.1 b.1 a.1 hab hba
      rw [ho.irrefl] at this
      cases this⟩
  have hs₁ : m₁.Pairwise (fun e f => StdLess.less e.1 f.1 = true) :=
    (List.pairwise_map (f := Prod.fst)).mp h₁
  have hs₂ : m₂.Pairwise (fun e f => StdLess.less e.1 f.1 = true) :=
    (List.pairwise_map (f := Prod.fst)).mp h₂
  exact List.eq_of_perm_of_sorted
    ((List.perm_ext_iff_of_nodup (List.Nodup.of_map _ hn₁) (List.Nodup.of_map _ hn₂)).mpr hmem)
    hs₁ hs₂

end StdMap

/-! ## The canonical form of the containers is an invariant -/

namespace SearchServer

open StdMap

theorem getD_row_canonical {κ₁ κ₂ : Type} [DecidableEq κ₁] [StdLess κ₁] [DecidableEq κ₂]
    [StdLess κ₂] (index : StdMap κ₁ (StdMap κ₂ ℚ))
    (hrows : ∀ e ∈ index, StdMap.Sorted e.2 ∧ e.2 ≠ []) (outer : κ₁) :
    StdMap.Sorted (getD index outer []) := by
  unfold getD
  cases hf : find? index outer with
  | none => simp [StdMap.Sorted]
  | some row => exact (hrows (outer, row) (mem_of_find? hf)).1

theorem addFrequency_canonical {κ₁ κ₂ : Type} [DecidableEq κ₁] [StdLess κ₁] [DecidableEq κ₂]
    [StdLess κ₂] (ho₁ : StdLessOrder κ₁) (ho₂ : StdLessOrder κ₂)
    (index : StdMap κ₁ (StdMap κ₂ ℚ)) (outer : κ₁) (inner : κ₂) (x : ℚ)
    (hsorted : StdMap.Sorted index) (hrows : ∀ e ∈ index, StdMap.Sorted e.2 ∧ e.2 ≠ []) :
    StdMap.Sorted (addFrequency index outer inner x) ∧
    ∀ e ∈ addFrequency index outer inner x, StdMap.Sorted e.2 ∧ e.2 ≠ [] := by
  unfold addFrequency
  refine ⟨sorted_set ho₁ _ hsorted _ _, fun e he => ?_⟩
  rcases mem_set_cases _ _ _ e he with h1 | h1
  · rw [h1]
    exact ⟨sorted_set ho₂ _ (getD_row_canonical index hrows outer) _ _, set_ne_nil _ _ _⟩
  · exact hrows e h1

theorem AddDocument_loop_canonical (size : Nat) (document_id : Int) (words : List String)
    (s : SearchServer) (h : Canonical s) :
    Canonical (AddDocument_loop size document_id words s).2 := by
  induction words generalizing s with
  | nil => simpa [AddDocument_loop] using h
  | cons word rest ih =>
    unfold AddDocument_loop
    by_cases hv : IsValidWord word = true
    · simp only [hv, Bool.not_true, Bool.false_eq_true, if_false]
      apply ih
      obtain ⟨h1, h2⟩ := addFrequency_canonical stdLessOrder_string stdLessOrder_int
        s.word_to_document_frequency_ word document_id (1 / (size : ℚ))
        h.inverted_sorted h.inverted_rows
      obtain ⟨h3, h4⟩ := addFrequency_canonical stdLessOrder_int stdLessOrder_string
        s.doc_id_to_word_frequency_ document_id word (1 / (size : ℚ))
        h.forward_sorted h.forward_rows
      exact ⟨h1, h2, h3, h4, h.data_sorted, h.ids_sorted⟩
    · simpa [hv] using h

theorem AddDocument_canonical (SplitIntoWords : String → List String) (s : SearchServer)
    (document_id : Int) (document : String) (status : DocumentStatus) (ratings : List Int)
    (h : Canonical s) :
    Canonical (AddDocument SplitIntoWords s document_id document status ratings).2 := by
  have hloop := AddDocument_loop_canonical
    (SplitIntoWordsNoStop SplitIntoWords s document).length document_id
    (SplitIntoWordsNoStop SplitIntoWords s document) s h
  rcases AddDocument_cases SplitIntoWords s document_id document status ratings with
    ⟨_, he⟩ | ⟨_, _, he⟩ | ⟨_, _, _, he⟩ | ⟨_, _, rating, _, _, he⟩
  · rw [he]; exact h
  · rw [he]; exact hloop
  · rw [he]; exact hloop
  · rw [he]
    exact ⟨hloop.inverted_sorted, hloop.inverted_rows, hloop.forward_sorted, hloop.forward_rows,
      sorted_set stdLessOrder_int _ h.data_sorted _ _,
      StdSet.sorted_insert stdLessOrder_int _ h.ids_sorted _⟩

theorem RemoveDocument_loop_canonical (document_id : Int) (words : List String)
    (index : StdMap String (StdMap Int ℚ)) (hsorted : StdMap.Sorted index)
    (hrows : ∀ e ∈ index, StdMap.Sorted e.2 ∧ e.2 ≠ []) :
    StdMap.Sorted (RemoveDocument_loop document_id words index).2 ∧
    ∀ e ∈ (RemoveDocument_loop document_id words index).2, StdMap.Sorted e.2 ∧ e.2 ≠ [] := by
  induction words generalizing index with
  | nil => exact ⟨hsorted, hrows⟩
  | cons word rest ih =>
    unfold RemoveDocument_loop
    cases hrow : find? index word with
    | none => exact ⟨hsorted, hrows⟩
    | some postings =>
      simp only []
      by_cases hempty : (erase postings document_id).isEmpty = true
      · simp only [hempty, if_true]
        exact ih _ (sorted_erase_key index hsorted word)
          (fun e he => hrows e (mem_of_mem_erase index word e he))
      · simp only [hempty, Bool.false_eq_true, if_false]
        apply ih _ (sorted_replace index hsorted word _)
        intro e he
        rcases mem_replace_cases _ _ _ e he with h1 | h1
        · rw [h1]
          refine ⟨sorted_erase_key postings (hrows (word, postings) (mem_of_find? hrow)).1 _, ?_⟩
          intro hnil
          apply hempty
          simp only at hnil
          rw [hnil]
          rfl
        · exact hrows e h1

theorem RemoveDocument_canonical (s : SearchServer) (document_id : Int) (h : Canonical s) :
    Canonical (RemoveDocument s document_id).2 := by
  unfold RemoveDocument atKey
  cases hentry : find? s.doc_id_to_word_frequency_ document_id with
  | none => simpa using h
  | some entry =>
    simp only []
    obtain ⟨h1, h2⟩ := RemoveDocument_loop_canonical document_id (keys entry)
      s.word_to_document_frequency_ h.inverted_sorted h.inverted_rows
    generalize RemoveDocument_loop document_id (keys entry) s.word_to_document_frequency_ = L
      at h1 h2
    obtain ⟨r, index⟩ := L
    cases r with
    | error e =>
      exact ⟨h1, h2, h.forward_sorted, h.forward_rows, h.data_sorted, h.ids_sorted⟩
    | ok u =>
      exact ⟨h1, h2, sorted_erase_key _ h.forward_sorted _,
        fun e he => h.forward_rows e (mem_of_mem_erase _ _ e he),
        sorted_erase_key _ h.data_sorted _, StdSet.sorted_erase _ h.ids_sorted _⟩

theorem New_canonical (stop_words : List String) (s : SearchServer)
    (h : New stop_words = .ok s) : Canonical s := by
  unfold New at h
  simp only [] at h
  split at h
  · cases h
    refine ⟨?_, ?_, ?_, ?_, ?_, ?_⟩ <;> simp [StdMap.Sorted, StdSet.Sorted]
  · cases h

end SearchServer

theorem Reachable.canonical {SplitIntoWords : String → List String} {s : SearchServer}
    (h : Reachable SplitIntoWords s) : Canonical s := by
  induction h with
  | construct stop_words s hs => exact SearchServer.New_canonical stop_words s hs
  | call s c _ ih =>
    cases c with
    | AddDocument document_id document status ratings =>
      exact SearchServer.AddDocument_canonical SplitIntoWords s document_id document status
        ratings ih
    | RemoveDocument document_id => exact SearchServer.RemoveDocument_canonical s document_id ih

/-! ## The round trip of `AddDocument` and `RemoveDocument` -/

namespace StdMap

variable {κ ν : Type} [DecidableEq κ] [StdLess κ]

theorem exists_find?_of_ne_nil (m : StdMap κ ν) (h : m ≠ []) : ∃ k v, find? m k = some v := by
  cases m with
  | nil => exact absurd rfl h
  | cons e rest => exact ⟨e.1, e.2, by simp [find?]⟩

/-- Two maps of maps in canonical form with the same entries are the same list. -/
theorem index_eq_of_canonical {κ₂ : Type} [DecidableEq κ₂] [StdLess κ₂] (ho₁ : StdLessOrder κ)
    (ho₂ : StdLessOrder κ₂) (i₁ i₂ : StdMap κ (StdMap κ₂ ν)) (hs₁ : Sorted i₁)
    (hr₁ : ∀ e ∈ i₁, Sorted e.2 ∧ e.2 ≠ []) (hs₂ : Sorted i₂)
    (hr₂ : ∀ e ∈ i₂, Sorted e.2 ∧ e.2 ≠ [])
    (h : ∀ a b, find2? i₁ a b = find2? i₂ a b) : i₁ = i₂ := by
  have key : ∀ (j₁ j₂ : StdMap κ (StdMap κ₂ ν)),
      (∀ e ∈ j₁, Sorted e.2 ∧ e.2 ≠ []) → (∀ e ∈ j₂, Sorted e.2 ∧ e.2 ≠ []) →
      (∀ a b, find2? j₁ a b = find2? j₂ a b) →
      ∀ a r₁, find? j₁ a = some r₁ → find? j₂ a = some r₁ := by
    intro j₁ j₂ hj₁ hj₂ hj a r₁ ha
    obtain ⟨hsr₁, hne₁⟩ := hj₁ (a, r₁) (mem_of_find? ha)
    obtain ⟨b, v, hb⟩ := exists_find?_of_ne_nil r₁ hne₁
    have h2 := hj a b
    simp only [find2?, ha, hb] at h2
    cases ha₂ : find? j₂ a with
    | none => simp [ha₂] at h2
    | some r₂ =>
      obtain ⟨hsr₂, _⟩ := hj₂ (a, r₂) (mem_of_find? ha₂)
      have : r₂ = r₁ := by
        apply eq_of_sorted_find ho₂ r₂ r₁ hsr₂ hsr₁
        intro b'
        have h3 := hj a b'
        simp only [find2?, ha, ha₂] at h3
        exact h3.symm
      rw [this]
  apply eq_of_sorted_find ho₁ i₁ i₂ hs₁ hs₂
  intro a
  cases ha₁ : find? i₁ a with
  | some r₁ => exact (key i₁ i₂ hr₁ hr₂ h a r₁ ha₁).symm
  | none =>
    cases ha₂ : find? i₂ a with
    | none => rfl
    | some r₂ =>
      have := key i₂ i₁ hr₂ hr₁ (fun a b => (h a b).symm) a r₂ ha₂
      rw [ha₁] at this
      cases this

end StdMap

theorem SearchServer.eq_of_fields (a b : SearchServer)
    (h₁ : a.word_to_document_frequency_ = b.word_to_document_frequency_)
    (h₂ : a.stop_words_ = b.stop_words_) (h₃ : a.document_data_ = b.document_data_)
    (h₄ : a.added_documents_ = b.added_documents_)
    (h₅ : a.doc_id_to_word_frequency_ = b.doc_id_to_word_frequency_) : a = b := by
  cases a; cases b
  simp only [SearchServer.mk.injEq]
  exact ⟨h₁, h₂, h₃, h₄, h₅⟩

namespace SearchServer

open StdMap

theorem unknown_has_no_entries (s : SearchServer) (h : ConsistentOk s) (document_id : Int)
    (hunknown : document_id ∉ s.added_documents_) :
    find? s.doc_id_to_word_frequency_ document_id = none ∧
    find? s.document_data_ document_id = none ∧
    (∀ w, find2? s.doc_id_to_word_frequency_ document_id w = none) ∧
    ∀ w, find2? s.word_to_document_frequency_ w document_id = none := by
  have h1 : find? s.doc_id_to_word_frequency_ document_id = none := by
    rw [find?_eq_none_iff]
    intro hmem
    exact hunknown ((h.consistent.known document_id).mp (h.forward_known document_id hmem))
  have h2 : find? s.document_data_ document_id = none := by
    rw [find?_eq_none_iff]
    exact fun hmem => hunknown ((h.consistent.known document_id).mp hmem)
  have h3 : ∀ w, find2? s.doc_id_to_word_frequency_ document_id w = none := by
    intro w; simp [find2?, h1]
  exact ⟨h1, h2, h3, fun w => by rw [h.consistent.index.sync]; exact h3 w⟩

/-- A valid call of `AddDocument`: what it returns and what the indices hold then. -/
theorem AddDocument_valid (SplitIntoWords : String → List String) (s : SearchServer)
    (hs : ConsistentOk s) (document_id : Int) (document : String) (status : DocumentStatus)
    (ratings : List Int) (hid : 0 ≤ document_id) (hunknown : document_id ∉ s.added_documents_)
    (hvalid : ∀ w ∈ SplitIntoWords document, w ∉ s.stop_words_ → IsValidWord w = true)
    (hratings : ratings ≠ []) :
    ∃ rating, ComputeAverageRating ratings = some rating ∧
      AddDocument SplitIntoWords s document_id document status ratings =
        (.ok (),
          { (AddDocument_loop (SplitIntoWordsNoStop SplitIntoWords s document).length
              document_id (SplitIntoWordsNoStop SplitIntoWords s document) s).2 with
            document_data_ := StdMap.set s.document_data_ document_id ⟨rating, status⟩,
            added_documents_ := StdSet.insert s.added_documents_ document_id }) ∧
      ∀ (d : Int) (w : String),
        find2? (AddDocument_loop (SplitIntoWordsNoStop SplitIntoWords s document).length
            document_id (SplitIntoWordsNoStop SplitIntoWords s document)
            s).2.doc_id_to_word_frequency_ d w =
          if d = document_id ∧ w ∈ SplitIntoWordsNoStop SplitIntoWords s document then
            some (((SplitIntoWordsNoStop SplitIntoWords s document).count w : ℚ) /
              ((SplitIntoWordsNoStop SplitIntoWords s document).length : ℚ))
          else find2? s.doc_id_to_word_frequency_ d w := by
  have hallvalid : (SplitIntoWordsNoStop SplitIntoWords s document).all IsValidWord = true := by
    rw [List.all_eq_true]
    intro w hw
    rw [mem_SplitIntoWordsNoStop] at hw
    exact hvalid w hw.1 hw.2
  obtain ⟨_, hnodata, hnofwd, _⟩ := unknown_has_no_entries s hs document_id hunknown
  rcases AddDocument_cases SplitIntoWords s document_id document status ratings with
    ⟨hbad, _⟩ | ⟨_, hv, _⟩ | ⟨_, _, hr, _⟩ | ⟨_, hv, rating, hrating, _, he⟩
  · rcases hbad with h | h
    · omega
    · rw [count_eq_one_iff, ← find?_isSome_iff_mem_keys, hnodata] at h
      cases h
  · rw [hallvalid] at hv; cases hv
  · exact absurd hr hratings
  · refine ⟨rating, hrating, he, fun d w => ?_⟩
    rw [AddDocument_loop_forward _ _ _ _ hv]
    by_cases hc : d = document_id ∧ w ∈ SplitIntoWordsNoStop SplitIntoWords s document
    · rw [if_pos hc, if_pos hc, hnofwd w]
      simp [div_eq_mul_inv]
    · rw [if_neg hc, if_neg hc]

end SearchServer

namespace SearchServer

open StdMap

/-- C21: on a server reached by successful calls only, for a non-negative id that is not
known, a text whose non-stop words are valid and of which there is at least one, and a
non-empty ratings list: `AddDocument` succeeds, `RemoveDocument` of the same id then
returns normally and leaves the server equal to the original one in every container,
and adding the document again gives the same outcome as adding it to the original
server. -/
theorem AddDocument_RemoveDocument_roundtrip (SplitIntoWords : String → List String)
    (s : SearchServer) (hs : ReachableOk SplitIntoWords s) (document_id : Int)
    (document : String) (status : DocumentStatus) (ratings : List Int)
    (hid : 0 ≤ document_id) (hunknown : document_id ∉ s.added_documents_)
    (hvalid : ∀ w ∈ SplitIntoWords document, w ∉ s.stop_words_ → IsValidWord w = true)
    (hwords : ∃ w ∈ SplitIntoWords document, w ∉ s.stop_words_)
    (hratings : ratings ≠ []) :
    (AddDocument SplitIntoWords s document_id document status ratings).1 = .ok () ∧
    RemoveDocument (AddDocument SplitIntoWords s document_id document status ratings).2
      document_id = (.ok (), s) ∧
    AddDocument SplitIntoWords
      (RemoveDocument (AddDocument SplitIntoWords s document_id document status ratings).2
        document_id).2 document_id document status ratings =
      AddDocument SplitIntoWords s document_id document status ratings := by
  obtain ⟨rating, _, hadd, hfwd⟩ := AddDocument_valid SplitIntoWords s hs.consistentOk
    document_id document status ratings hid hunknown hvalid hratings
  have hok : (AddDocument SplitIntoWords s document_id document status ratings).1 = .ok () := by
    rw [hadd]
  have hreach : ReachableOk SplitIntoWords
      (AddDocument SplitIntoWords s document_id document status ratings).2 :=
    ReachableOk.call s (Call.AddDocument document_id document status ratings) hs hok
  have hcons₁ := hreach.consistentOk
  have hcanon₂ : Canonical (RemoveDocument
      (AddDocument SplitIntoWords s document_id document status ratings).2 document_id).2 :=
    RemoveDocument_canonical _ _ hreach.reachable.canonical
  have hcanon := hs.reachable.canonical
  obtain ⟨_, hnodata, hnofwd, hnoinv⟩ :=
    unknown_has_no_entries s hs.consistentOk document_id hunknown
  have hsync₁ := hcons₁.consistent.index.sync
  have hfields := AddDocument_loop_fields
    (SplitIntoWordsNoStop SplitIntoWords s document).length document_id
    (SplitIntoWordsNoStop SplitIntoWords s document) s
  have hremove : RemoveDocument
      (AddDocument SplitIntoWords s document_id document status ratings).2 document_id =
        (.ok (), s) := by
    rcases RemoveDocument_cases _ document_id hcons₁.consistent with
      ⟨hnone, _⟩ | ⟨entry, _, he, hloop⟩
    · exfalso
      obtain ⟨w, hw, hstop⟩ := hwords
      have hmem : w ∈ SplitIntoWordsNoStop SplitIntoWords s document :=
        (mem_SplitIntoWordsNoStop _ _ _ _).mpr ⟨hw, hstop⟩
      have h2 := hfwd document_id w
      rw [if_pos ⟨rfl, hmem⟩] at h2
      rw [hadd] at hnone
      simp only at hnone
      simp [find2?, hnone] at h2
    · rw [he] at hcanon₂ ⊢
      simp only at hcanon₂
      rw [hadd] at hcanon₂ hloop hsync₁ ⊢
      simp only at hcanon₂ hloop hsync₁ ⊢
      congr 1
      apply SearchServer.eq_of_fields
      · apply index_eq_of_canonical stdLessOrder_string stdLessOrder_int _ _
          hcanon₂.inverted_sorted hcanon₂.inverted_rows hcanon.inverted_sorted
          hcanon.inverted_rows
        intro w d
        simp only []
        rw [hloop w d]
        by_cases hd : d = document_id
        · rw [if_pos hd, hd, hnoinv w]
        · rw [if_neg hd, hsync₁ w d, hfwd d w, if_neg (fun hc => hd hc.1)]
          exact (hs.consistentOk.consistent.index.sync w d).symm
      · exact hfields.2.2
      · apply eq_of_sorted_find stdLessOrder_int _ _ hcanon₂.data_sorted hcanon.data_sorted
        intro k
        simp only []
        rw [find?_erase, find?_set]
        by_cases hk : k = document_id
        · rw [if_pos hk, hk, hnodata]
        · rw [if_neg hk, if_neg hk]
      · apply stdLessOrder_int.eq_of_sorted hcanon₂.ids_sorted hcanon.ids_sorted
        intro x
        simp only []
        rw [StdSet.mem_erase, StdSet.mem_insert]
        constructor
        · rintro ⟨hne, h1 | h1⟩
          · exact absurd h1 hne
          · exact h1
        · intro h1
          exact ⟨fun he => hunknown (he ▸ h1), Or.inr h1⟩
      · apply index_eq_of_canonical stdLessOrder_int stdLessOrder_string _ _
          hcanon₂.forward_sorted hcanon₂.forward_rows hcanon.forward_sorted
          hcanon.forward_rows
        intro d w
        simp only []
        rw [find2?_erase_row]
        by_cases hd : d = document_id
        · rw [if_pos hd, hd, hnofwd w]
        · rw [if_neg hd, hfwd d w, if_neg (fun hc => hd hc.1)]
  refine ⟨hok, hremove, ?_⟩
  rw [hremove]

theorem AddDocument_RemoveDocument_roundtrip_witness :
    ReachableOk SplitIntoWordsSpec catServer ∧ (0 : Int) ≤ 1 ∧
    (1 : Int) ∉ catServer.added_documents_ ∧
    (∀ w ∈ SplitIntoWordsSpec "orange cat near the library cat",
      w ∉ catServer.stop_words_ → IsValidWord w = true) ∧
    (∃ w ∈ SplitIntoWordsSpec "orange cat near the library cat", w ∉ catServer.stop_words_) ∧
    ([4, 5, 6] : List Int) ≠ [] ∧
    RemoveDocument (AddDocument SplitIntoWordsSpec catServer 1
      "orange cat near the library cat" DocumentStatus.ACTUAL [4, 5, 6]).2 1 =
        (.ok (), catServer) :=
  ⟨reachableOk_catServer, by decide, by decide!, by decide!, ⟨"cat", by decide, by decide!⟩,
    by decide,
    (AddDocument_RemoveDocument_roundtrip SplitIntoWordsSpec catServer reachableOk_catServer 1
      "orange cat near the library cat" DocumentStatus.ACTUAL [4, 5, 6] (by decide)
      (by decide!) (by decide!) ⟨"cat", by decide, by decide!⟩ (by decide)).2.1⟩

end SearchServer

/-! ## The claims about `GetWordFrequencies`, the known ids, ratings and construction -/

namespace SearchServer

open StdMap

/-- C22: in every server state `GetWordFrequencies(document_id)` returns the empty
mapping when the id has no forward-index entry and the forward-index entry itself
otherwise; on a server reached by successful calls an id that is not known has no
forward-index entry. -/
theorem GetWordFrequencies_spec (SplitIntoWords : String → List String) (s : SearchServer)
    (document_id : Int) :
    (find? s.doc_id_to_word_frequency_ document_id = none →
      GetWordFrequencies s document_id = []) ∧
    (∀ entry, find? s.doc_id_to_word_frequency_ document_id = some entry →
      GetWordFrequencies s document_id = entry) ∧
    (ReachableOk SplitIntoWords s → document_id ∉ s.added_documents_ →
      GetWordFrequencies s document_id = []) := by
  have h1 : find? s.doc_id_to_word_frequency_ document_id = none →
      GetWordFrequencies s document_id = [] := by
    intro h
    simp [GetWordFrequencies, count, h]
  refine ⟨h1, ?_, ?_⟩
  · intro entry h
    simp [GetWordFrequencies, count, getD, h]
  · intro hs hunknown
    exact h1 (unknown_has_no_entries s hs.consistentOk document_id hunknown).1

theorem GetWordFrequencies_spec_witness :
    find? catServer.doc_id_to_word_frequency_ 1 = none ∧
    GetWordFrequencies catServer 1 = [] ∧
    find? catServer.doc_id_to_word_frequency_ 42 =
      some [("cat", 1 / 4), ("city", 1 / 4), ("in", 1 / 4), ("the", 1 / 4)] ∧
    GetWordFrequencies catServer 42 =
      [("cat", 1 / 4), ("city", 1 / 4), ("in", 1 / 4), ("the", 1 / 4)] :=
  ⟨by decide!,
    (GetWordFrequencies_spec SplitIntoWordsSpec catServer 1).1 (by decide!),
    by decide!,
    (GetWordFrequencies_spec SplitIntoWordsSpec catServer 42).2.1 _ (by decide!)⟩

theorem keys_data_eq_added (s : SearchServer) (hcons : Consistent s) (hcanon : Canonical s) :
    keys s.document_data_ = s.added_documents_ :=
  stdLessOrder_int.eq_of_sorted hcanon.data_sorted hcanon.ids_sorted hcons.known

theorem GetDocumentCount_eq_length (s : SearchServer) (hcons : Consistent s)
    (hcanon : Canonical s) : GetDocumentCount s = s.added_documents_.length := by
  rw [← keys_data_eq_added s hcons hcanon]
  simp [GetDocumentCount, keys]

/-- C23: in every reachable state the known ids are traversed in strictly ascending
order and `GetDocumentCount` is their number.  A new server has no known id; a
successful `AddDocument` adds exactly its id, which was not known, and raises the count
by one; a successful `RemoveDocument` removes exactly its id; a call that throws leaves
the known ids as they were. -/
theorem known_ids_traversal (SplitIntoWords : String → List String) (s : SearchServer)
    (hs : Reachable SplitIntoWords s) :
    s.added_documents_.Pairwise (fun a b => a < b) ∧
    GetDocumentCount s = s.added_documents_.length ∧
    (∀ stop_words s₀, New stop_words = .ok s₀ →
      s₀.added_documents_ = [] ∧ GetDocumentCount s₀ = 0) ∧
    (∀ document_id document status ratings,
      (AddDocument SplitIntoWords s document_id document status ratings).1 = .ok () →
      document_id ∉ s.added_documents_ ∧
      (∀ d, d ∈ (AddDocument SplitIntoWords s document_id document status
          ratings).2.added_documents_ ↔ d = document_id ∨ d ∈ s.added_documents_) ∧
      GetDocumentCount (AddDocument SplitIntoWords s document_id document status ratings).2 =
        GetDocumentCount s + 1) ∧
    (∀ document_id,
      (RemoveDocument s document_id).1 = .ok () →
      ∀ d, d ∈ (RemoveDocument s document_id).2.added_documents_ ↔
        d ≠ document_id ∧ d ∈ s.added_documents_) ∧
    (∀ c : Call, (c.run SplitIntoWords s).1 ≠ .ok () →
      (c.run SplitIntoWords s).2.added_documents_ = s.added_documents_ ∧
      GetDocumentCount (c.run SplitIntoWords s).2 = GetDocumentCount s) := by
  have hcons := hs.consistent
  have hcanon := hs.canonical
  refine ⟨?_, GetDocumentCount_eq_length s hcons hcanon, ?_, ?_, ?_, ?_⟩
  · exact hcanon.ids_sorted.imp (fun hab => by simpa [StdLess.less] using hab)
  · intro stop_words s₀ h
    unfold New at h
    simp only [] at h
    split at h
    · cases h; exact ⟨rfl, rfl⟩
    · cases h
  · intro document_id document status ratings hok
    have hreach : Reachable SplitIntoWords
        (AddDocument SplitIntoWords s document_id document status ratings).2 :=
      Reachable.call s (Call.AddDocument document_id document status ratings) hs
    have hcount := GetDocumentCount_eq_length _ hreach.consistent hreach.canonical
    rw [hcount, GetDocumentCount_eq_length s hcons hcanon]
    rcases AddDocument_cases SplitIntoWords s document_id document status ratings with
      ⟨_, he⟩ | ⟨_, _, he⟩ | ⟨_, _, _, he⟩ | ⟨hid, _, rating, _, _, he⟩
    · rw [he] at hok; cases hok
    · rw [he] at hok; cases hok
    · rw [he] at hok; cases hok
    · have hnew : document_id ∉ s.added_documents_ := by
        intro hmem
        exact hid (Or.inr ((count_eq_one_iff _ _).mpr ((hcons.known document_id).mpr hmem)))
      rw [he]
      simp only []
      refine ⟨hnew, fun d => StdSet.mem_insert _ _ _, ?_⟩
      simp only [StdSet.insert, hnew, if_false]
      rw [(StdSet.insertNew_perm document_id s.added_documents_).length_eq]
      rfl
  · intro document_id hok
    rcases RemoveDocument_cases s document_id hcons with ⟨_, he⟩ | ⟨entry, _, he, _⟩
    · rw [he] at hok; cases hok
    · rw [he]
      intro d
      exact StdSet.mem_erase _ _ _
  · intro c hfail
    cases c with
    | AddDocument document_id document status ratings =>
      have hf := AddDocument_loop_fields
        (SplitIntoWordsNoStop SplitIntoWords s document).length document_id
        (SplitIntoWordsNoStop SplitIntoWords s document) s
      simp only [Call.run] at hfail ⊢
      rcases AddDocument_cases SplitIntoWords s document_id document status ratings with
        ⟨_, he⟩ | ⟨_, _, he⟩ | ⟨_, _, _, he⟩ | ⟨_, _, rating, _, _, he⟩
      · rw [he]; exact ⟨rfl, rfl⟩
      · rw [he]; exact ⟨hf.2.1, by simp [GetDocumentCount, hf.1]⟩
      · rw [he]; exact ⟨hf.2.1, by simp [GetDocumentCount, hf.1]⟩
      · rw [he] at hfail; exact absurd rfl hfail
    | RemoveDocument document_id =>
      simp only [Call.run] at hfail ⊢
      rcases RemoveDocument_cases s document_id hcons with ⟨_, he⟩ | ⟨entry, _, he, _⟩
      · rw [he]; exact ⟨rfl, rfl⟩
      · rw [he] at hfail; exact absurd rfl hfail

theorem known_ids_traversal_witness :
    Reachable SplitIntoWordsSpec twoCatServer ∧
    twoCatServer.added_documents_ = [1, 42] ∧
    twoCatServer.added_documents_.Pairwise (fun a b => a < b) ∧
    GetDocumentCount twoCatServer = twoCatServer.added_documents_.length :=
  ⟨reachableOk_twoCatServer.reachable, by decide!,
    (known_ids_traversal SplitIntoWordsSpec twoCatServer reachableOk_twoCatServer.reachable).1,
    (known_ids_traversal SplitIntoWordsSpec twoCatServer
      reachableOk_twoCatServer.reachable).2.1⟩

theorem wrapInt32_add (a b : Int) : wrapInt32 (wrapInt32 a + b) = wrapInt32 (a + b) := by
  unfold wrapInt32
  omega

theorem wrapInt32_of_fits (a : Int) (h : -2147483648 ≤ a ∧ a ≤ 2147483647) :
    wrapInt32 a = a := by
  unfold wrapInt32
  omega

theorem foldl_wrapInt32 (ratings : List Int) (init : Int) :
    ratings.foldl (fun acc r => wrapInt32 (acc + r)) (wrapInt32 init) =
      wrapInt32 (init + ratings.sum) := by
  induction ratings generalizing init with
  | nil => simp
  | cons r rest ih =>
    simp only [List.foldl_cons, List.sum_cons]
    rw [wrapInt32_add, ih]
    congr 1
    ring

theorem ComputeAverageRating_of_fits (ratings : List Int) (hratings : ratings ≠ [])
    (hsum : -2147483648 ≤ ratings.sum ∧ ratings.sum ≤ 2147483647) :
    ComputeAverageRating ratings = some (Int.tdiv ratings.sum (ratings.length : Int)) := by
  unfold ComputeAverageRating
  have hlen : ¬ ratings.length = 0 := by
    intro h; exact hratings (List.length_eq_zero.mp h)
  have hfold := foldl_wrapInt32 ratings 0
  rw [show wrapInt32 0 = 0 from by decide, zero_add, wrapInt32_of_fits _ hsum] at hfold
  simp only [hlen, if_false, hfold]

/-- C24: for a non-empty ratings list whose sum fits in a 32-bit signed `int`,
`ComputeAverageRating` is the sum divided by the number of ratings with the quotient
truncated toward zero; a successful `AddDocument` stores that rating, and every result
of `FindTopDocuments` for the document reports it. -/
theorem rating_is_truncated_mean (SplitIntoWords : String → List String) (s : SearchServer)
    (document_id : Int) (document : String) (status : DocumentStatus) (ratings : List Int)
    (hratings : ratings ≠ [])
    (hsum : -2147483648 ≤ ratings.sum ∧ ratings.sum ≤ 2147483647)
    (hok : (AddDocument SplitIntoWords s document_id document status ratings).1 = .ok ()) :
    ComputeAverageRating ratings = some (Int.tdiv ratings.sum (ratings.length : Int)) ∧
    find? (AddDocument SplitIntoWords s document_id document status ratings).2.document_data_
        document_id = some ⟨Int.tdiv ratings.sum (ratings.length : Int), status⟩ ∧
    ∀ (ln : ℚ → ℚ) (raw_query : String) (pred : Int → DocumentStatus → Int → Bool)
      (result : List Document),
      FindTopDocuments SplitIntoWords ln
        (AddDocument SplitIntoWords s document_id document status ratings).2 raw_query pred =
          .ok result →
      ∀ doc ∈ result, doc.id = document_id →
        doc.rating = Int.tdiv ratings.sum (ratings.length : Int) := by
  have hmean := ComputeAverageRating_of_fits ratings hratings hsum
  have hstored : find? (AddDocument SplitIntoWords s document_id document status
      ratings).2.document_data_ document_id =
        some ⟨Int.tdiv ratings.sum (ratings.length : Int), status⟩ := by
    rcases AddDocument_cases SplitIntoWords s document_id document status ratings with
      ⟨_, he⟩ | ⟨_, _, he⟩ | ⟨_, _, _, he⟩ | ⟨_, _, rating, hrating, _, he⟩
    · rw [he] at hok; cases hok
    · rw [he] at hok; cases hok
    · rw [he] at hok; cases hok
    · rw [hmean] at hrating
      cases hrating
      rw [he]
      simp only []
      rw [find?_set]
      simp
  refine ⟨hmean, hstored, ?_⟩
  intro ln raw_query pred result hres doc hdoc hid
  obtain ⟨query, documents, _, hall, hr⟩ :=
    (FindTopDocuments_eq_ok_iff SplitIntoWords ln _ raw_query pred result).mp hres
  obtain ⟨⟨data, hdata, _, hrating⟩, _⟩ := FindAllDocuments_sound ln _ pred query documents hall
    doc (mem_of_mem_FindTopDocuments hr hdoc)
  rw [hid, hstored] at hdata
  cases hdata
  exact hrating

theorem rating_is_truncated_mean_witness :
    ([-7, 2] : List Int) ≠ [] ∧
    ((-2147483648 : Int) ≤ ([-7, 2] : List Int).sum ∧
      ([-7, 2] : List Int).sum ≤ 2147483647) ∧
    (AddDocument SplitIntoWordsSpec emptyServer 3 "cat" DocumentStatus.ACTUAL [-7, 2]).1 =
      .ok () ∧
    Int.tdiv ([-7, 2] : List Int).sum (([-7, 2] : List Int).length : Int) = -2 ∧
    find? negativeRatingServer.document_data_ 3 =
      some ⟨Int.tdiv ([-7, 2] : List Int).sum (([-7, 2] : List Int).length : Int),
        DocumentStatus.ACTUAL⟩ :=
  ⟨by decide, by decide, by decide!, by decide,
    (rating_is_truncated_mean SplitIntoWordsSpec emptyServer 3 "cat" DocumentStatus.ACTUAL
      [-7, 2] (by decide) (by decide) (by decide!)).2.1⟩

theorem MakeUniqueNonEmptyStrings_foldl (strings : List String) (acc : StdSet String)
    (hacc : acc.Nodup) :
    (strings.foldl (fun acc str => if str = "" then acc else StdSet.insert acc str) acc).Nodup ∧
    ∀ w, w ∈ strings.foldl (fun acc str => if str = "" then acc else StdSet.insert acc str) acc ↔
      w ∈ acc ∨ (w ∈ strings ∧ w ≠ "") := by
  induction strings generalizing acc with
  | nil => exact ⟨hacc, fun w => by simp⟩
  | cons str rest ih =>
    simp only [List.foldl_cons]
    by_cases hstr : str = ""
    · simp only [hstr, if_true]
      obtain ⟨h1, h2⟩ := ih acc hacc
      refine ⟨h1, fun w => ?_⟩
      rw [h2 w]
      constructor
      · rintro (h | ⟨h, hne⟩)
        · exact Or.inl h
        · exact Or.inr ⟨List.mem_cons_of_mem _ h, hne⟩
      · rintro (h | ⟨h, hne⟩)
        · exact Or.inl h
        · rcases List.mem_cons.mp h with h3 | h3
          · exact absurd h3 hne
          · exact Or.inr ⟨h3, hne⟩
    · simp only [hstr, if_false]
      obtain ⟨h1, h2⟩ := ih (StdSet.insert acc str) (StdSet.nodup_insert hacc str)
      refine ⟨h1, fun w => ?_⟩
      rw [h2 w, StdSet.mem_insert]
      constructor
      · rintro ((h | h) | ⟨h, hne⟩)
        · exact Or.inr ⟨by rw [h]; exact List.mem_cons_self _ _, by rw [h]; exact hstr⟩
        · exact Or.inl h
        · exact Or.inr ⟨List.mem_cons_of_mem _ h, hne⟩
      · rintro (h | ⟨h, hne⟩)
        · exact Or.inl (Or.inr h)
        · rcases List.mem_cons.mp h with h3 | h3
          · exact Or.inl (Or.inl h3)
          · exact Or.inr ⟨h3, hne⟩

/-- C25: the constructor throws `invalid_argument` exactly when some stop word of the
collection has a character with code below `0x20`, and succeeds otherwise; the
stop-word set of the constructed server holds each non-empty string of the collection
once and nothing else. -/
theorem New_throws_iff (stop_words : List String) :
    (New stop_words = .error Error.invalid_argument ↔
      ∃ w ∈ stop_words, ∃ c ∈ w.data, c.toNat < 32) ∧
    ((¬ ∃ w ∈ stop_words, ∃ c ∈ w.data, c.toNat < 32) → ∃ s, New stop_words = .ok s) ∧
    ∀ s, New stop_words = .ok s →
      s.stop_words_.Nodup ∧ ∀ w, w ∈ s.stop_words_ ↔ w ∈ stop_words ∧ w ≠ "" := by
  obtain ⟨hnodup, hmem⟩ := MakeUniqueNonEmptyStrings_foldl stop_words [] List.nodup_nil
  have hiff : (MakeUniqueNonEmptyStrings stop_words).all IsValidWord = false ↔
      ∃ w ∈ stop_words, ∃ c ∈ w.data, c.toNat < 32 := by
    rw [all_IsValidWord_eq_false_iff]
    constructor
    · rintro ⟨w, hw, hc⟩
      have := (hmem w).mp hw
      simp only [List.not_mem_nil, false_or] at this
      exact ⟨w, this.1, hc⟩
    · rintro ⟨w, hw, c, hc, hlt⟩
      refine ⟨w, (hmem w).mpr (Or.inr ⟨hw, ?_⟩), c, hc, hlt⟩
      intro he
      rw [he] at hc
      simp at hc
  cases hall : (MakeUniqueNonEmptyStrings stop_words).all IsValidWord with
  | true =>
    have hno : ¬ ∃ w ∈ stop_words, ∃ c ∈ w.data, c.toNat < 32 := by
      intro h
      rw [hiff.mpr h] at hall
      cases hall
    have hnew : New stop_words =
        .ok { word_to_document_frequency_ := [],
              stop_words_ := MakeUniqueNonEmptyStrings stop_words,
              document_data_ := [], added_documents_ := [],
              doc_id_to_word_frequency_ := [] } := by
      simp [New, hall]
    rw [hnew]
    refine ⟨⟨fun h => (by cases h), fun h => absurd h hno⟩, fun _ => ⟨_, rfl⟩, ?_⟩
    intro s hs
    cases hs
    refine ⟨hnodup, fun w => ?_⟩
    have := hmem w
    simp only [List.not_mem_nil, false_or] at this
    exact this
  | false =>
    have hnew : New stop_words = .error Error.invalid_argument := by
      simp [New, hall]
    rw [hnew]
    refine ⟨⟨fun _ => hiff.mp hall, fun _ => rfl⟩, fun h => absurd (hiff.mp hall) h, ?_⟩
    intro s hs
    cases hs

/-- C30, evaluated at the failing call `AddDocument(1, "cat", ACTUAL, {})` on a new
server: no exception of the server is thrown, the word is written to both indices and
`ComputeAverageRating` then divides by `ratings.size() == 0`. -/
theorem AddDocument_empty_ratings_divides_by_zero :
    New [] = .ok emptyServer ∧
    ComputeAverageRating [] = none ∧
    AddDocument SplitIntoWordsSpec emptyServer 1 "cat" DocumentStatus.ACTUAL [] =
      (.error Error.division_by_zero,
        { emptyServer with
          word_to_document_frequency_ := [("cat", [(1, 1)])],
          doc_id_to_word_frequency_ := [(1, [("cat", 1)])] }) ∧
    noRatingsServer ≠ emptyServer :=
  ⟨by decide, by decide, by decide!, by decide!⟩

end SearchServer

/-! ## Completeness of the search and the stop words -/

namespace SearchServer

open StdMap

/-- On a server reached without a throw `FindAllDocuments` returns each document once
that passes the filter, has a plus-word and has no minus-word, and nothing else. -/
theorem FindAllDocuments_complete (ln : ℚ → ℚ) (s : SearchServer)
    (pred : Int → DocumentStatus → Int → Bool) (h : ConsistentOk s) (query : ProcessedQuery) :
    ∃ documents, FindAllDocuments ln s query pred = .ok documents ∧
      (documents.map Document.id).Nodup ∧
      ∀ d, d ∈ documents.map Document.id ↔
        (passes s pred d = true ∧
          (∃ w ∈ query.plus_words, find2? s.word_to_document_frequency_ w d ≠ none) ∧
          ∀ w ∈ query.minus_words, find2? s.word_to_document_frequency_ w d = none) := by
  obtain ⟨matched, hplus, hfind, hnd⟩ :=
    FindAllDocuments_plus_spec ln s pred h query.plus_words []
  have hnodup : (keys (FindAllDocuments_minus s query.minus_words matched)).Nodup :=
    nodup_FindAllDocuments_minus s _ _ (hnd (by simp [keys]))
  have hchar : ∀ d, d ∈ keys (FindAllDocuments_minus s query.minus_words matched) ↔
      (passes s pred d = true ∧
        (∃ w ∈ query.plus_words, find2? s.word_to_document_frequency_ w d ≠ none) ∧
        ∀ w ∈ query.minus_words, find2? s.word_to_document_frequency_ w d = none) := by
    intro d
    rw [← find?_isSome_iff_mem_keys, find?_FindAllDocuments_minus, hfind d]
    have hhits : query.plus_words.filter
        (fun w => decide (find2? s.word_to_document_frequency_ w d ≠ none)) ≠ [] ↔
        ∃ w ∈ query.plus_words, find2? s.word_to_document_frequency_ w d ≠ none := by
      rw [Ne, List.filter_eq_nil_iff]
      push_neg
      constructor
      · rintro ⟨w, hw, hne⟩
        exact ⟨w, hw, by simpa using hne⟩
      · rintro ⟨w, hw, hne⟩
        exact ⟨w, hw, by simpa using hne⟩
    by_cases hex : ∃ w ∈ query.minus_words, find2? s.word_to_document_frequency_ w d ≠ none
    · rw [if_pos hex]
      simp only [Option.isSome_none, Bool.false_eq_true, false_iff, not_and]
      intro _ _ hall
      obtain ⟨w, hw, hne⟩ := hex
      exact hne (hall w hw)
    · rw [if_neg hex]
      have hall : ∀ w ∈ query.minus_words, find2? s.word_to_document_frequency_ w d = none := by
        intro w hw
        by_contra hne
        exact hex ⟨w, hw, hne⟩
      by_cases hc : passes s pred d = true ∧ query.plus_words.filter
          (fun w => decide (find2? s.word_to_document_frequency_ w d ≠ none)) ≠ []
      · rw [if_pos hc]
        simp only [Option.isSome_some, true_iff]
        exact ⟨hc.1, hhits.mp hc.2, hall⟩
      · rw [if_neg hc]
        simp only [find?, Option.isSome_none, Bool.false_eq_true, false_iff]
        rintro ⟨h1, h2, _⟩
        exact hc ⟨h1, hhits.mpr h2⟩
  have hknown : ∀ d ∈ keys (FindAllDocuments_minus s query.minus_words matched),
      d ∈ keys s.document_data_ := by
    intro d hd
    obtain ⟨data, hdata, _⟩ := (passes_iff s pred d).mp ((hchar d).mp hd).1
    rw [← find?_isSome_iff_mem_keys, hdata]; rfl
  obtain ⟨documents, hdocs⟩ := FindAllDocuments_vector_ok s _ hknown
  obtain ⟨hmap, _⟩ := FindAllDocuments_vector_spec s _ _ hdocs
  have hids : documents.map Document.id =
      keys (FindAllDocuments_minus s query.minus_words matched) := by
    unfold keys
    rw [← hmap, List.map_map]
    rfl
  refine ⟨documents, by simp [FindAllDocuments, hplus, hdocs], ?_, ?_⟩
  · rw [hids]; exact hnodup
  · intro d
    rw [hids]
    exact hchar d

theorem mem_matchingIds (s : SearchServer) (h : ConsistentOk s) (query : ProcessedQuery)
    (pred : Int → DocumentStatus → Int → Bool) (d : Int) :
    d ∈ matchingIds s query pred ↔
      (passes s pred d = true ∧
        (∃ w ∈ query.plus_words, find2? s.word_to_document_frequency_ w d ≠ none) ∧
        ∀ w ∈ query.minus_words, find2? s.word_to_document_frequency_ w d = none) := by
  unfold matchingIds
  simp only [List.mem_filter, Bool.and_eq_true, List.any_eq_true, List.all_eq_true,
    decide_eq_true_eq]
  constructor
  · rintro ⟨_, ⟨h1, h2⟩, h3⟩
    exact ⟨h1, h2, h3⟩
  · rintro ⟨h1, h2, h3⟩
    refine ⟨?_, ⟨h1, h2⟩, h3⟩
    obtain ⟨data, hdata, _⟩ := (passes_iff s pred d).mp h1
    apply (h.consistent.known d).mp
    rw [← find?_isSome_iff_mem_keys, hdata]; rfl

theorem AddDocument_loop_untouched (size : Nat) (document_id : Int) (words : List String)
    (s : SearchServer) (w : String) (hw : w ∉ words) (d : Int) :
    find2? (AddDocument_loop size document_id words s).2.doc_id_to_word_frequency_ d w =
      find2? s.doc_id_to_word_frequency_ d w := by
  induction words generalizing s with
  | nil => simp [AddDocument_loop]
  | cons word rest ih =>
    have hne : w ≠ word := fun he => hw (by rw [he]; exact List.mem_cons_self _ _)
    have hrest : w ∉ rest := fun hm => hw (List.mem_cons_of_mem _ hm)
    unfold AddDocument_loop
    by_cases hv : IsValidWord word = true
    · simp only [hv, Bool.not_true, Bool.false_eq_true, if_false]
      rw [ih _ hrest]
      simp only []
      rw [find2?_addFrequency, if_neg (fun hc => hne hc.2)]
    · simp [hv]

theorem AddDocument_stop_words (SplitIntoWords : String → List String) (s : SearchServer)
    (document_id : Int) (document : String) (status : DocumentStatus) (ratings : List Int) :
    (AddDocument SplitIntoWords s document_id document status ratings).2.stop_words_ =
      s.stop_words_ := by
  have hf := AddDocument_loop_fields (SplitIntoWordsNoStop SplitIntoWords s document).length
    document_id (SplitIntoWordsNoStop SplitIntoWords s document) s
  rcases AddDocument_cases SplitIntoWords s document_id document status ratings with
    ⟨_, he⟩ | ⟨_, _, he⟩ | ⟨_, _, _, he⟩ | ⟨_, _, rating, _, _, he⟩
  · rw [he]
  · rw [he]; exact hf.2.2
  · rw [he]; exact hf.2.2
  · rw [he]; exact hf.2.2

theorem AddDocument_forward_untouched (SplitIntoWords : String → List String)
    (s : SearchServer) (document_id : Int) (document : String) (status : DocumentStatus)
    (ratings : List Int) (w : String) (hw : w ∈ s.stop_words_) (d : Int) :
    find2? (AddDocument SplitIntoWords s document_id document status
        ratings).2.doc_id_to_word_frequency_ d w =
      find2? s.doc_id_to_word_frequency_ d w := by
  have hnot : w ∉ SplitIntoWordsNoStop SplitIntoWords s document := by
    rw [mem_SplitIntoWordsNoStop]
    exact fun hc => hc.2 hw
  have hloop := AddDocument_loop_untouched
    (SplitIntoWordsNoStop SplitIntoWords s document).length document_id
    (SplitIntoWordsNoStop SplitIntoWords s document) s w hnot d
  rcases AddDocument_cases SplitIntoWords s document_id document status ratings with
    ⟨_, he⟩ | ⟨_, _, he⟩ | ⟨_, _, _, he⟩ | ⟨_, _, rating, _, _, he⟩
  · rw [he]
  · rw [he]; exact hloop
  · rw [he]; exact hloop
  · rw [he]; exact hloop

end SearchServer

theorem Reachable.stop_words_not_indexed {SplitIntoWords : String → List String}
    {s : SearchServer} (h : Reachable SplitIntoWords s) :
    ∀ w ∈ s.stop_words_, ∀ d : Int,
      StdMap.find2? s.doc_id_to_word_frequency_ d w = none := by
  induction h with
  | construct stop_words s hs =>
    intro w _ d
    unfold SearchServer.New at hs
    simp only [] at hs
    split at hs
    · cases hs; simp [StdMap.find2?, StdMap.find?]
    · cases hs
  | call s c hreach ih =>
    cases c with
    | AddDocument document_id document status ratings =>
      intro w hw d
      simp only [Call.run] at hw ⊢
      rw [SearchServer.AddDocument_stop_words] at hw
      rw [SearchServer.AddDocument_forward_untouched SplitIntoWords s document_id document
        status ratings w hw d]
      exact ih w hw d
    | RemoveDocument document_id =>
      intro w hw d
      simp only [Call.run] at hw ⊢
      rcases SearchServer.RemoveDocument_cases s document_id hreach.consistent with
        ⟨_, he⟩ | ⟨entry, _, he, _⟩
      · rw [he] at hw ⊢
        exact ih w hw d
      · rw [he] at hw ⊢
        simp only at hw ⊢
        rw [StdMap.find2?_erase_row]
        split
        · rfl
        · exact ih w hw d

namespace SearchServer

open StdMap

theorem FindTopDocuments_complete (SplitIntoWords : String → List String) (ln : ℚ → ℚ)
    (s : SearchServer) (hcons : ConsistentOk s) (hcanon : Canonical s) (raw_query : String)
    (pred : Int → DocumentStatus → Int → Bool) (query : ProcessedQuery)
    (hquery : ParseQuery SplitIntoWords s raw_query = .ok query) :
    (matchingIds s query pred).Nodup ∧
    ∃ result, FindTopDocuments SplitIntoWords ln s raw_query pred = .ok result ∧
      ((matchingIds s query pred).length ≤ 5 →
        (result.map Document.id).Perm (matchingIds s query pred)) := by
  have hnodup : (matchingIds s query pred).Nodup :=
    (stdLessOrder_int.nodup_of_pairwise hcanon.ids_sorted).filter _
  obtain ⟨documents, hall, hnd, hmem⟩ := FindAllDocuments_complete ln s pred hcons query
  have hperm : (documents.map Document.id).Perm (matchingIds s query pred) := by
    rw [List.perm_ext_iff_of_nodup hnd hnodup]
    intro d
    rw [hmem d, mem_matchingIds s hcons query pred d]
  refine ⟨hnodup, _, (FindTopDocuments_eq_ok_iff SplitIntoWords ln s raw_query pred _).mpr
    ⟨query, documents, hquery, hall, rfl⟩, fun hlen => ?_⟩
  have hlen' : documents.length ≤ 5 := by
    have := hperm.length_eq
    rw [List.length_map] at this
    omega
  have hsortlen : (stdSort compareDocuments documents).length = documents.length :=
    (stdSort_perm compareDocuments documents).length_eq
  rw [Nat.min_eq_right hlen', ← hsortlen, List.take_length]
  exact ((stdSort_perm compareDocuments documents).map Document.id).trans hperm

/-- C26, refuted: the constructor accepts the stop word "a-"; after the document
"cat a-" has been added, `FindTopDocuments` on the query "a-", whose only token is that
stop word, does not return the empty list, it throws `invalid_argument`. -/
theorem stop_word_query_not_empty_list :
    New ["a-"] = .ok dashStopServer ∧
    Reachable SplitIntoWordsSpec dashDocServer ∧
    "a-" ∈ dashDocServer.stop_words_ ∧
    SplitIntoWordsSpec "a-" = ["a-"] ∧
    dashDocServer.word_to_document_frequency_ = [("cat", [(1, 1)])] ∧
    FindTopDocuments SplitIntoWordsSpec lnSample dashDocServer "a-" (fun _ _ _ => true) =
      .error Error.invalid_argument ∧
    FindTopDocuments SplitIntoWordsSpec lnSample dashDocServer "a-" (fun _ _ _ => true) ≠
      .ok [] :=
  ⟨by decide,
    Reachable.call _ (Call.AddDocument 1 "cat a-" DocumentStatus.ACTUAL [1])
      (Reachable.construct ["a-"] dashStopServer (by decide)),
    by decide!, by decide, by decide!, by decide!, by decide!⟩

/-- C26, amended: in every reachable state no stop word is a key of the inverted index
or of any `GetWordFrequencies` map, and `FindTopDocuments` returns the empty list on
every query that parses and has a stop word as its only token.  On a server reached by
successful calls a document is matched by the one-word query of each of its words that
the filter lets pass, and it is returned when at most 5 documents match. -/
theorem stop_words_never_indexed (SplitIntoWords : String → List String) (s : SearchServer)
    (hs : Reachable SplitIntoWords s) (w : String) (hw : w ∈ s.stop_words_) :
    w ∉ keys s.word_to_document_frequency_ ∧
    (∀ d : Int, w ∉ keys (GetWordFrequencies s d)) ∧
    (∀ (ln : ℚ → ℚ) (raw_query : String) (pred : Int → DocumentStatus → Int → Bool)
      (query : ProcessedQuery),
      SplitIntoWords raw_query = [w] → ParseQuery SplitIntoWords s raw_query = .ok query →
      FindTopDocuments SplitIntoWords ln s raw_query pred = .ok []) ∧
    (ReachableOk SplitIntoWords s →
      ∀ (ln : ℚ → ℚ) (raw_query : String) (pred : Int → DocumentStatus → Int → Bool)
        (v : String) (d : Int),
        ParseQuery SplitIntoWords s raw_query = .ok ⟨[v], []⟩ →
        find? (GetWordFrequencies s d) v ≠ none → passes s pred d = true →
        d ∈ matchingIds s ⟨[v], []⟩ pred ∧
        ∃ result, FindTopDocuments SplitIntoWords ln s raw_query pred = .ok result ∧
          ((matchingIds s ⟨[v], []⟩ pred).length ≤ 5 → d ∈ result.map Document.id)) := by
  have hfwd := hs.stop_words_not_indexed w hw
  have hcons := hs.consistent
  have hcanon := hs.canonical
  refine ⟨?_, ?_, ?_, ?_⟩
  · rw [← find?_eq_none_iff]
    cases hrow : find? s.word_to_document_frequency_ w with
    | none => rfl
    | some row =>
      exfalso
      obtain ⟨_, hne⟩ := hcanon.inverted_rows (w, row) (mem_of_find? hrow)
      obtain ⟨d, v, hd⟩ := exists_find?_of_ne_nil row hne
      have h2 := hcons.index.sync w d
      rw [hfwd d] at h2
      simp [find2?, hrow, hd] at h2
  · intro d
    rw [← find?_eq_none_iff, find?_GetWordFrequencies]
    exact hfwd d
  · intro ln raw_query pred query hsplit hquery
    apply FindTopDocuments_of_no_plus_words SplitIntoWords ln s raw_query pred query hquery
    rw [List.eq_nil_iff_forall_not_mem]
    intro w' hw'
    obtain ⟨hplus, _⟩ := ParseQuery_loop_mem s (SplitIntoWords raw_query) ⟨[], []⟩ query
      hquery w'
    rw [hplus, hsplit] at hw'
    simp only [List.not_mem_nil, false_or, List.mem_singleton, exists_eq_left] at hw'
    obtain ⟨hnm, hsw, hns⟩ := hw'
    rw [stripMinus_of_not_minus w hnm] at hsw
    rw [← hsw, IsStopWord_eq_false_iff] at hns
    exact hns hw
  · intro hok ln raw_query pred v d hquery hword hpass
    have hmem : d ∈ matchingIds s ⟨[v], []⟩ pred := by
      rw [mem_matchingIds s hok.consistentOk]
      refine ⟨hpass, ⟨v, List.mem_singleton.mpr rfl, ?_⟩, fun _ hm => absurd hm (List.not_mem_nil _)⟩
      rw [find2?_inverted_eq_GetWordFrequencies s hcons]
      exact hword
    obtain ⟨_, result, hres, hperm⟩ := FindTopDocuments_complete SplitIntoWords ln s
      hok.consistentOk hcanon raw_query pred ⟨[v], []⟩ hquery
    exact ⟨hmem, result, hres, fun hlen => (hperm hlen).mem_iff.mpr hmem⟩

theorem stop_words_never_indexed_witness :
    Reachable SplitIntoWordsSpec inTheServer ∧ "in" ∈ inTheServer.stop_words_ ∧
    "in" ∉ keys inTheServer.word_to_document_frequency_ ∧
    (∀ d : Int, "in" ∉ keys (GetWordFrequencies inTheServer d)) :=
  ⟨Reachable.call _ (Call.AddDocument 42 "cat in the city" DocumentStatus.ACTUAL [1, 2, 3])
      (Reachable.construct ["in", "the"] _ (by decide)),
    by decide!,
    (stop_words_never_indexed SplitIntoWordsSpec inTheServer
      (Reachable.call _ (Call.AddDocument 42 "cat in the city" DocumentStatus.ACTUAL [1, 2, 3])
        (Reachable.construct ["in", "the"] _ (by decide))) "in" (by decide!)).1,
    (stop_words_never_indexed SplitIntoWordsSpec inTheServer
      (Reachable.call _ (Call.AddDocument 42 "cat in the city" DocumentStatus.ACTUAL [1, 2, 3])
        (Reachable.construct ["in", "the"] _ (by decide))) "in" (by decide!)).2.1⟩

/-- C29: on a server reached by successful calls only and for a query that parses, let Q
be the known documents that pass the filter, have a plus-word and have no minus-word.
Q lists no id twice, `FindTopDocuments` returns, when Q has at most 5 ids the returned
ids are those of Q, each once, whatever the relevances, and when no plus-word is in the
inverted index the result is empty. -/
theorem FindTopDocuments_complete_small (SplitIntoWords : String → List String) (ln : ℚ → ℚ)
    (s : SearchServer) (hs : ReachableOk SplitIntoWords s) (raw_query : String)
    (pred : Int → DocumentStatus → Int → Bool) (query : ProcessedQuery)
    (hquery : ParseQuery SplitIntoWords s raw_query = .ok query) :
    (matchingIds s query pred).Nodup ∧
    (∀ d, d ∈ matchingIds s query pred ↔
      d ∈ s.added_documents_ ∧ passes s pred d = true ∧
      (∃ w ∈ query.plus_words, find? (GetWordFrequencies s d) w ≠ none) ∧
      ∀ w ∈ query.minus_words, find? (GetWordFrequencies s d) w = none) ∧
    ∃ result, FindTopDocuments SplitIntoWords ln s raw_query pred = .ok result ∧
      ((matchingIds s query pred).length ≤ 5 →
        (result.map Document.id).Perm (matchingIds s query pred)) ∧
      ((∀ w ∈ query.plus_words, find? s.word_to_document_frequency_ w = none) →
        result = []) := by
  have hcons := hs.consistentOk
  obtain ⟨hnodup, result, hres, hperm⟩ := FindTopDocuments_complete SplitIntoWords ln s hcons
    hs.reachable.canonical raw_query pred query hquery
  refine ⟨hnodup, fun d => ?_, result, hres, hperm, fun hnone => ?_⟩
  · rw [mem_matchingIds s hcons query pred d]
    simp only [find2?_inverted_eq_GetWordFrequencies s hcons.consistent]
    constructor
    · rintro ⟨h1, h2, h3⟩
      refine ⟨?_, h1, h2, h3⟩
      obtain ⟨data, hdata, _⟩ := (passes_iff s pred d).mp h1
      apply (hcons.consistent.known d).mp
      rw [← find?_isSome_iff_mem_keys, hdata]; rfl
    · rintro ⟨_, h1, h2, h3⟩
      exact ⟨h1, h2, h3⟩
  · have hempty : matchingIds s query pred = [] := by
      rw [List.eq_nil_iff_forall_not_mem]
      intro d hd
      obtain ⟨_, ⟨w, hw, hne⟩, _⟩ := (mem_matchingIds s hcons query pred d).mp hd
      simp [find2?, hnone w hw] at hne
    have := hperm (by rw [hempty]; simp)
    rw [hempty] at this
    exact List.map_eq_nil_iff.mp this.eq_nil

theorem FindTopDocuments_complete_small_witness :
    ReachableOk SplitIntoWordsSpec twoCatServer ∧
    ParseQuery SplitIntoWordsSpec twoCatServer "cat -city" = .ok ⟨["cat"], ["city"]⟩ ∧
    matchingIds twoCatServer ⟨["cat"], ["city"]⟩ (fun _ _ _ => true) = [1] ∧
    (matchingIds twoCatServer ⟨["cat"], ["city"]⟩ (fun _ _ _ => true)).Nodup :=
  ⟨reachableOk_twoCatServer, by decide!, by decide!,
    (FindTopDocuments_complete_small SplitIntoWordsSpec lnSample twoCatServer
      reachableOk_twoCatServer "cat -city" (fun _ _ _ => true) ⟨["cat"], ["city"]⟩
      (by decide!)).1⟩

end SearchServer

namespace StdMap

variable {κ ν : Type} [DecidableEq κ] [StdLess κ]

theorem replace_replace (k : κ) (v v' : ν) (m : StdMap κ ν) :
    replace k v' (replace k v m) = replace k v' m := by
  induction m with
  | nil => rfl
  | cons e rest ih =>
    obtain ⟨k₀, v₀⟩ := e
    by_cases h0 : k₀ = k
    · simp [replace, h0]
    · simp [replace, h0, ih]

theorem replace_insertNew (k : κ) (v v' : ν) (m : StdMap κ ν) (h : find? m k = none) :
    replace k v' (insertNew k v m) = insertNew k v' m := by
  induction m with
  | nil => simp [insertNew, replace]
  | cons e rest ih =>
    obtain ⟨k₀, v₀⟩ := e
    have h0 : k₀ ≠ k := by
      intro hk
      simp [find?, hk] at h
    have hrest : find? rest k = none := by
      simpa [find?, h0] using h
    by_cases hl : StdLess.less k k₀ = true
    · simp [insertNew, replace, hl]
    · simp [insertNew, replace, hl, h0, ih hrest]

theorem set_of_found (m : StdMap κ ν) (k : κ) (v v₀ : ν) (h : find? m k = some v₀) :
    set m k v = replace k v m := by
  simp [set, h]

theorem set_set (m : StdMap κ ν) (k : κ) (v v' : ν) : set (set m k v) k v' = set m k v' := by
  have hfound : find? (set m k v) k = some v := by simp [find?_set]
  rw [set_of_found (set m k v) k v' v hfound]
  unfold set
  cases h : find? m k with
  | none => exact replace_insertNew k v v' m h
  | some v₀ => exact replace_replace k v v' m

theorem getD_set_self (m : StdMap κ ν) (k : κ) (v d : ν) : getD (set m k v) k d = v := by
  simp [getD, find?_set]

end StdMap

theorem SearchServer.addFrequency_addFrequency {κ₁ κ₂ : Type} [DecidableEq κ₁] [StdLess κ₁] [DecidableEq κ₂]
    [StdLess κ₂] (index : StdMap κ₁ (StdMap κ₂ ℚ)) (outer : κ₁) (inner : κ₂) (x y : ℚ) :
    SearchServer.addFrequency (SearchServer.addFrequency index outer inner x) outer inner y =
      StdMap.set index outer
        (StdMap.set (StdMap.getD index outer []) inner
          (StdMap.getD (StdMap.getD index outer []) inner 0 + x + y)) := by
  unfold SearchServer.addFrequency
  simp only [StdMap.getD_set_self, StdMap.set_set]

theorem splitChars_repeatWord (n : Nat) (cur : List Char) (hcur : cur ≠ []) :
    splitChars (repeatWord n) cur = String.mk cur.reverse :: List.replicate n "y" := by
  induction n generalizing cur with
  | zero => simp [repeatWord, splitChars, hcur]
  | succ n ih =>
    have hy : splitChars (repeatWord n) ['y'] = "y" :: List.replicate n "y" :=
      ih ['y'] (by simp)
    have hblank : (' ' : Char).isWhitespace = true := by decide
    have hletter : ('y' : Char).isWhitespace = false := by decide
    simp only [repeatWord, splitChars, hblank, hletter, if_true, hcur, if_false, hy,
      List.replicate_succ]
    simp

theorem SplitIntoWordsSpec_longText (n : Nat) :
    SplitIntoWordsSpec (longText n) = "x" :: List.replicate n "y" := by
  have hletter : ('x' : Char).isWhitespace = false := by decide
  unfold SplitIntoWordsSpec longText
  simp only [splitChars, hletter]
  exact splitChars_repeatWord n ['x'] (by simp)

namespace SearchServer

open StdMap

/-- The loop of `AddDocument` over repetitions of one word adds up the frequency. -/
theorem AddDocument_loop_replicate (size : Nat) (document_id : Int) (word : String)
    (hvalid : IsValidWord word = true) (k : Nat) (s : SearchServer) (x y : ℚ) :
    AddDocument_loop size document_id (List.replicate k word)
        { s with
          word_to_document_frequency_ :=
            StdMap.set s.word_to_document_frequency_ word
              (StdMap.set (StdMap.getD s.word_to_document_frequency_ word []) document_id x),
          doc_id_to_word_frequency_ :=
            StdMap.set s.doc_id_to_word_frequency_ document_id
              (StdMap.set (StdMap.getD s.doc_id_to_word_frequency_ document_id []) word y) } =
      (.ok (),
        { s with
          word_to_document_frequency_ :=
            StdMap.set s.word_to_document_frequency_ word
              (StdMap.set (StdMap.getD s.word_to_document_frequency_ word []) document_id
                (x + (k : ℚ) * (1 / (size : ℚ)))),
          doc_id_to_word_frequency_ :=
            StdMap.set s.doc_id_to_word_frequency_ document_id
              (StdMap.set (StdMap.getD s.doc_id_to_word_frequency_ document_id []) word
                (y + (k : ℚ) * (1 / (size : ℚ)))) }) := by
  induction k generalizing x y with
  | zero => simp [AddDocument_loop]
  | succ k ih =>
    have hstep := ih (x + 1 / (size : ℚ)) (y + 1 / (size : ℚ))
    simp only [List.replicate_succ, AddDocument_loop, hvalid, Bool.not_true, Bool.false_eq_true,
      if_false]
    simp only [addFrequency, StdMap.getD_set_self, StdMap.set_set]
    rw [hstep]
    have harith : ∀ z : ℚ, z + 1 / (size : ℚ) + (k : ℚ) * (1 / (size : ℚ)) =
        z + ((k + 1 : Nat) : ℚ) * (1 / (size : ℚ)) := by
      intro z; push_cast; ring
    rw [harith x, harith y]

/-- A valid call of `AddDocument` on the text "x y ... y" with `n + 1` copies of "y",
on a server without stop words: the loop over the words in closed form. -/
theorem AddDocument_longText (s : SearchServer) (document_id : Int) (n : Nat)
    (status : DocumentStatus) (ratings : List Int) (rating : Int) (hid : 0 ≤ document_id)
    (hcount : StdMap.count s.document_data_ document_id ≠ 1) (hstop : s.stop_words_ = [])
    (hrating : ComputeAverageRating ratings = some rating) :
    AddDocument SplitIntoWordsSpec s document_id (longText (n + 1)) status ratings =
      (.ok (),
        { word_to_document_frequency_ :=
            StdMap.set (addFrequency s.word_to_document_frequency_ "x" document_id (1 / ((n + 2 : Nat) : ℚ))) "y"
              (StdMap.set (StdMap.getD (addFrequency s.word_to_document_frequency_ "x" document_id (1 / ((n + 2 : Nat) : ℚ))) "y" []) document_id
                (StdMap.getD (StdMap.getD (addFrequency s.word_to_document_frequency_ "x" document_id (1 / ((n + 2 : Nat) : ℚ))) "y" []) document_id 0 + (1 / ((n + 2 : Nat) : ℚ)) + (n : ℚ) * (1 / ((n + 2 : Nat) : ℚ)))),
          stop_words_ := s.stop_words_,
          document_data_ := StdMap.set s.document_data_ document_id ⟨rating, status⟩,
          added_documents_ := StdSet.insert s.added_documents_ document_id,
          doc_id_to_word_frequency_ :=
            StdMap.set (addFrequency s.doc_id_to_word_frequency_ document_id "x" (1 / ((n + 2 : Nat) : ℚ))) document_id
              (StdMap.set (StdMap.getD (addFrequency s.doc_id_to_word_frequency_ document_id "x" (1 / ((n + 2 : Nat) : ℚ))) document_id []) "y"
                (StdMap.getD (StdMap.getD (addFrequency s.doc_id_to_word_frequency_ document_id "x" (1 / ((n + 2 : Nat) : ℚ))) document_id []) "y" 0 + (1 / ((n + 2 : Nat) : ℚ)) + (n : ℚ) * (1 / ((n + 2 : Nat) : ℚ)))) }) := by
  have hcond : ¬ (document_id < 0 ∨ StdMap.count s.document_data_ document_id = 1) := by
    rintro (h | h)
    · omega
    · exact hcount h
  have hwords : SplitIntoWordsNoStop SplitIntoWordsSpec s (longText (n + 1)) =
      "x" :: List.replicate (n + 1) "y" := by
    unfold SplitIntoWordsNoStop
    rw [SplitIntoWordsSpec_longText, List.filter_eq_self]
    intro w _
    simp [IsStopWord, StdSet.count, hstop]
  have hx : IsValidWord "x" = true := by decide
  have hy : IsValidWord "y" = true := by decide
  have hloop : AddDocument_loop (n + 2) document_id ("x" :: List.replicate (n + 1) "y") s =
      (.ok (),
        { s with
          word_to_document_frequency_ :=
            StdMap.set (addFrequency s.word_to_document_frequency_ "x" document_id (1 / ((n + 2 : Nat) : ℚ))) "y"
              (StdMap.set (StdMap.getD (addFrequency s.word_to_document_frequency_ "x" document_id (1 / ((n + 2 : Nat) : ℚ))) "y" []) document_id
                (StdMap.getD (StdMap.getD (addFrequency s.word_to_document_frequency_ "x" document_id (1 / ((n + 2 : Nat) : ℚ))) "y" []) document_id 0 + (1 / ((n + 2 : Nat) : ℚ)) + (n : ℚ) * (1 / ((n + 2 : Nat) : ℚ)))),
          doc_id_to_word_frequency_ :=
            StdMap.set (addFrequency s.doc_id_to_word_frequency_ document_id "x" (1 / ((n + 2 : Nat) : ℚ))) document_id
              (StdMap.set (StdMap.getD (addFrequency s.doc_id_to_word_frequency_ document_id "x" (1 / ((n + 2 : Nat) : ℚ))) document_id []) "y"
                (StdMap.getD (StdMap.getD (addFrequency s.doc_id_to_word_frequency_ document_id "x" (1 / ((n + 2 : Nat) : ℚ))) document_id []) "y" 0 + (1 / ((n + 2 : Nat) : ℚ)) + (n : ℚ) * (1 / ((n + 2 : Nat) : ℚ)))) }) := by
    simp only [List.replicate_succ, AddDocument_loop, hx, hy, Bool.not_true, Bool.false_eq_true,
      if_false]
    exact AddDocument_loop_replicate (n + 2) document_id "y" hy n
      { s with
        word_to_document_frequency_ := (addFrequency s.word_to_document_frequency_ "x" document_id (1 / ((n + 2 : Nat) : ℚ))),
        doc_id_to_word_frequency_ := (addFrequency s.doc_id_to_word_frequency_ document_id "x" (1 / ((n + 2 : Nat) : ℚ))) }
      (StdMap.getD (StdMap.getD (addFrequency s.word_to_document_frequency_ "x" document_id (1 / ((n + 2 : Nat) : ℚ))) "y" []) document_id 0 + (1 / ((n + 2 : Nat) : ℚ)))
      (StdMap.getD (StdMap.getD (addFrequency s.doc_id_to_word_frequency_ document_id "x" (1 / ((n + 2 : Nat) : ℚ))) document_id []) "y" 0 + (1 / ((n + 2 : Nat) : ℚ)))
  unfold AddDocument
  rw [if_neg hcond]
  simp only [hwords, List.length_cons, List.length_replicate, hloop, hrating]

/-- The three calls that build `tieServer`, with the state after each. -/
theorem tieServer_steps :
    AddDocument SplitIntoWordsSpec emptyServer 1 (longText 999) DocumentStatus.ACTUAL [1] =
      (.ok (),
        { word_to_document_frequency_ := [("x", [(1, 1 / 1000)]), ("y", [(1, 999 / 1000)])],
          stop_words_ := [],
          document_data_ := [(1, ⟨1, DocumentStatus.ACTUAL⟩)],
          added_documents_ := [1],
          doc_id_to_word_frequency_ := [(1, [("x", 1 / 1000), ("y", 999 / 1000)])] }) ∧
    AddDocument SplitIntoWordsSpec
        { word_to_document_frequency_ := [("x", [(1, 1 / 1000)]), ("y", [(1, 999 / 1000)])],
          stop_words_ := [],
          document_data_ := [(1, ⟨1, DocumentStatus.ACTUAL⟩)],
          added_documents_ := [1],
          doc_id_to_word_frequency_ := [(1, [("x", 1 / 1000), ("y", 999 / 1000)])] }
        2 (longText 1000) DocumentStatus.ACTUAL [9] =
      (.ok (),
        { word_to_document_frequency_ := [("x", [(1, 1 / 1000), (2, 1 / 1001)]), ("y", [(1, 999 / 1000), (2, 1000 / 1001)])],
          stop_words_ := [],
          document_data_ := [(1, ⟨1, DocumentStatus.ACTUAL⟩), (2, ⟨9, DocumentStatus.ACTUAL⟩)],
          added_documents_ := [1, 2],
          doc_id_to_word_frequency_ := [(1, [("x", 1 / 1000), ("y", 999 / 1000)]), (2, [("x", 1 / 1001), ("y", 1000 / 1001)])] }) ∧
    AddDocument SplitIntoWordsSpec
        { word_to_document_frequency_ := [("x", [(1, 1 / 1000), (2, 1 / 1001)]), ("y", [(1, 999 / 1000), (2, 1000 / 1001)])],
          stop_words_ := [],
          document_data_ := [(1, ⟨1, DocumentStatus.ACTUAL⟩), (2, ⟨9, DocumentStatus.ACTUAL⟩)],
          added_documents_ := [1, 2],
          doc_id_to_word_frequency_ := [(1, [("x", 1 / 1000), ("y", 999 / 1000)]), (2, [("x", 1 / 1001), ("y", 1000 / 1001)])] }
        3 "z" DocumentStatus.ACTUAL [1] =
      (.ok (),
        { word_to_document_frequency_ := [("x", [(1, 1 / 1000), (2, 1 / 1001)]), ("y", [(1, 999 / 1000), (2, 1000 / 1001)]),
            ("z", [(3, 1)])],
          stop_words_ := [],
          document_data_ := [(1, ⟨1, DocumentStatus.ACTUAL⟩), (2, ⟨9, DocumentStatus.ACTUAL⟩),
            (3, ⟨1, DocumentStatus.ACTUAL⟩)],
          added_documents_ := [1, 2, 3],
          doc_id_to_word_frequency_ := [(1, [("x", 1 / 1000), ("y", 999 / 1000)]), (2, [("x", 1 / 1001), ("y", 1000 / 1001)]),
            (3, [("z", 1)])] }) := by
  refine ⟨?_, ?_, by decide!⟩
  · rw [AddDocument_longText emptyServer 1 998 DocumentStatus.ACTUAL [1] 1 (by decide)
      (by decide) rfl (by decide)]
    decide!
  · rw [AddDocument_longText _ 2 999 DocumentStatus.ACTUAL [9] 9 (by decide)
      (by decide) rfl (by decide)]
    decide!

theorem tieServer_eq :
    tieServer =
        { word_to_document_frequency_ := [("x", [(1, 1 / 1000), (2, 1 / 1001)]), ("y", [(1, 999 / 1000), (2, 1000 / 1001)]),
            ("z", [(3, 1)])],
          stop_words_ := [],
          document_data_ := [(1, ⟨1, DocumentStatus.ACTUAL⟩), (2, ⟨9, DocumentStatus.ACTUAL⟩),
            (3, ⟨1, DocumentStatus.ACTUAL⟩)],
          added_documents_ := [1, 2, 3],
          doc_id_to_word_frequency_ := [(1, [("x", 1 / 1000), ("y", 999 / 1000)]), (2, [("x", 1 / 1001), ("y", 1000 / 1001)]),
            (3, [("z", 1)])] } := by
  unfold tieServer
  rw [tieServer_steps.1]
  simp only
  rw [tieServer_steps.2.1]
  simp only
  rw [tieServer_steps.2.2]

theorem reachableOk_tieServer : ReachableOk SplitIntoWordsSpec tieServer := by
  have h0 : ReachableOk SplitIntoWordsSpec emptyServer :=
    ReachableOk.construct [] emptyServer (by decide)
  have h1 := ReachableOk.call emptyServer
    (Call.AddDocument 1 (longText 999) DocumentStatus.ACTUAL [1]) h0
    (by simp only [Call.run]; rw [tieServer_steps.1])
  simp only [Call.run] at h1
  rw [tieServer_steps.1] at h1
  have h2 := ReachableOk.call _
    (Call.AddDocument 2 (longText 1000) DocumentStatus.ACTUAL [9]) h1
    (by simp only [Call.run]; rw [tieServer_steps.2.1])
  simp only [Call.run] at h2
  rw [tieServer_steps.2.1] at h2
  have h3 := ReachableOk.call _
    (Call.AddDocument 3 "z" DocumentStatus.ACTUAL [1]) h2
    (by simp only [Call.run]; rw [tieServer_steps.2.2])
  simp only [Call.run] at h3
  rw [tieServer_steps.2.2] at h3
  rw [tieServer_eq]
  exact h3

end SearchServer

namespace SearchServer

open StdMap

theorem tieServer_query :
    ParseQuery SplitIntoWordsSpec tieServer "x" = .ok ⟨["x"], []⟩ := by
  rw [tieServer_eq]
  decide!

theorem tieServer_matched (ln : ℚ → ℚ) :
    FindAllDocuments ln tieServer ⟨["x"], []⟩ (fun _ _ _ => true) =
      .ok [⟨1, 0 + ln (3 / 2) * (1 / 1000), 1⟩, ⟨2, 0 + ln (3 / 2) * (1 / 1001), 9⟩] := by
  rw [tieServer_eq]
  simp [FindAllDocuments, FindAllDocuments_plus, find?, CalculateIDF, FindAllDocuments_postings,
    atKey, StdMap.set, getD, insertNew, replace, FindAllDocuments_minus, FindAllDocuments_vector,
    StdLess.less]

theorem tieServer_result (ln : ℚ → ℚ) (hpos : 0 < ln (3 / 2)) (hlt : ln (3 / 2) < 1) :
    FindTopDocuments SplitIntoWordsSpec ln tieServer "x" (fun _ _ _ => true) =
      .ok [⟨2, 0 + ln (3 / 2) * (1 / 1001), 9⟩, ⟨1, 0 + ln (3 / 2) * (1 / 1000), 1⟩] := by
  rw [FindTopDocuments_eq_ok_iff]
  refine ⟨_, _, tieServer_query, tieServer_matched ln, ?_⟩
  have hcmp : compareDocuments ⟨2, 0 + ln (3 / 2) * (1 / 1001), 9⟩
      ⟨1, 0 + ln (3 / 2) * (1 / 1000), 1⟩ = true := by
    have habs : |(0 + ln (3 / 2) * (1 / 1001)) - (0 + ln (3 / 2) * (1 / 1000))| <
        (1 : ℚ) / 1000000 := by
      rw [abs_lt]
      constructor <;> linarith
    unfold compareDocuments MAX_RELEVANCE_DIFFERENCE
    rw [if_pos habs]
    simp
  have hsort : stdSort compareDocuments
      [⟨1, 0 + ln (3 / 2) * (1 / 1000), 1⟩, ⟨2, 0 + ln (3 / 2) * (1 / 1001), 9⟩] =
      [⟨2, 0 + ln (3 / 2) * (1 / 1001), 9⟩, ⟨1, 0 + ln (3 / 2) * (1 / 1000), 1⟩] := by
    rw [stdSort_of_length_le _ _ (by simp)]
    simp only [List.foldl, insertionStep]
    rw [if_pos hcmp]
  rw [hsort]
  rfl

/-- C28, refuted: documents 1 and 2 hold the word "x" once among 1000 and 1001 words,
document 3 does not hold it, and document 2 has the greater rating.  For the query "x"
and every logarithm with `0 < ln (3 / 2) < 1`, the relevances `ln (3 / 2) / 1000` and
`ln (3 / 2) / 1001` differ by less than `1e-6`, so the rating decides and
`FindTopDocuments` returns document 2 first: the second result has a strictly greater
relevance than the first. -/
theorem relevance_order_not_descending :
    ReachableOk SplitIntoWordsSpec tieServer ∧
    SplitIntoWordsSpec (longText 999) = "x" :: List.replicate 999 "y" ∧
    SplitIntoWordsSpec (longText 1000) = "x" :: List.replicate 1000 "y" ∧
    FindTopDocuments SplitIntoWordsSpec lnSample tieServer "x" (fun _ _ _ => true) =
      .ok [⟨2, 1 / 2002, 9⟩, ⟨1, 1 / 2000, 1⟩] ∧
    (1 : ℚ) / 2002 < 1 / 2000 ∧
    ∀ ln : ℚ → ℚ, 0 < ln (3 / 2) → ln (3 / 2) < 1 →
      FindTopDocuments SplitIntoWordsSpec ln tieServer "x" (fun _ _ _ => true) =
        .ok [⟨2, 0 + ln (3 / 2) * (1 / 1001), 9⟩, ⟨1, 0 + ln (3 / 2) * (1 / 1000), 1⟩] ∧
      0 + ln (3 / 2) * (1 / 1001) < 0 + ln (3 / 2) * (1 / 1000) := by
  refine ⟨reachableOk_tieServer, SplitIntoWordsSpec_longText 999,
    SplitIntoWordsSpec_longText 1000, ?_, by decide!, fun ln hpos hlt => ?_⟩
  · rw [tieServer_result lnSample (by decide!) (by decide!)]
    decide!
  · exact ⟨tieServer_result ln hpos hlt, by linarith⟩

/-- C28, amended: in the list returned by `FindTopDocuments` a result exceeds the
relevance of the result before it by less than `1e-6`, and only when its rating is not
greater; when any two results have equal relevances or relevances at least `1e-6`
apart, no result has a greater relevance than a result placed before it. -/
theorem relevance_increase_bounded (SplitIntoWords : String → List String)
    (ln : ℚ → ℚ) (s : SearchServer) (raw_query : String)
    (pred : Int → DocumentStatus → Int → Bool) (result : List Document)
    (h : FindTopDocuments SplitIntoWords ln s raw_query pred = .ok result) :
    List.Chain'
      (fun a b : Document =>
        b.relevance < a.relevance + 1 / 1000000 ∧ (a.relevance < b.relevance → b.rating ≤ a.rating))
      result ∧
    ((∀ a ∈ result, ∀ b ∈ result,
        a.relevance = b.relevance ∨ 1 / 1000000 ≤ |a.relevance - b.relevance|) →
      List.Pairwise (fun a b : Document => b.relevance ≤ a.relevance) result) := by
  obtain ⟨query, documents, _, _, hres⟩ :=
    (FindTopDocuments_eq_ok_iff SplitIntoWords ln s raw_query pred result).mp h
  have hchain : List.Chain' (fun a b : Document => compareDocuments b a = false) result := by
    rw [hres]
    exact List.Chain'.take (stdSort_chain compareDocuments compareDocuments_asymm documents) _
  have hstep : ∀ a b : Document, compareDocuments b a = false →
      (if |a.relevance - b.relevance| < 1 / 1000000 then b.rating ≤ a.rating
        else b.relevance ≤ a.relevance) := by
    intro a b hab
    unfold compareDocuments MAX_RELEVANCE_DIFFERENCE at hab
    rw [abs_sub_comm b.relevance a.relevance] at hab
    by_cases ht : |a.relevance - b.relevance| < 1 / 1000000
    · simpa [ht] using hab
    · simpa [ht] using hab
  constructor
  · refine hchain.imp ?_
    intro a b hab
    have hs := hstep a b hab
    by_cases ht : |a.relevance - b.relevance| < 1 / 1000000
    · rw [if_pos ht] at hs
      rw [abs_lt] at ht
      exact ⟨by linarith [ht.1], fun _ => hs⟩
    · rw [if_neg ht] at hs
      exact ⟨by linarith, fun hlt => absurd hlt (not_lt.mpr hs)⟩
  · intro hsep
    have hmem : List.Chain' (fun a b : Document => b.relevance ≤ a.relevance ∧
        a ∈ result ∧ b ∈ result) result := by
      have hboth : List.Chain' (fun a b : Document => compareDocuments b a = false ∧
          a ∈ result ∧ b ∈ result) result := by
        rw [List.chain'_iff_get] at hchain ⊢
        intro i hi
        exact ⟨hchain i hi, List.get_mem _ _ _, List.get_mem _ _ _⟩
      refine hboth.imp ?_
      rintro a b ⟨hab, ha, hb⟩
      refine ⟨?_, ha, hb⟩
      have hs := hstep a b hab
      rcases hsep a ha b hb with heq | hfar
      · exact heq.symm.le
      · rw [if_neg (not_lt.mpr hfar)] at hs
        exact hs
    have hle : List.Chain' (fun a b : Document => b.relevance ≤ a.relevance) result :=
      hmem.imp (fun a b hab => hab.1)
    haveI : IsTrans Document (fun a b : Document => b.relevance ≤ a.relevance) :=
      ⟨fun _ _ _ hab hbc => le_trans hbc hab⟩
    exact List.chain'_iff_pairwise.mp hle

theorem relevance_increase_bounded_witness :
    FindTopDocuments SplitIntoWordsSpec lnSample twoCatServer "city cat" (fun _ _ _ => true) =
      .ok [⟨42, 1 / 4, 2⟩, ⟨1, 0, 5⟩] ∧
    List.Pairwise (fun a b : Document => b.relevance ≤ a.relevance)
      [⟨42, 1 / 4, 2⟩, ⟨1, 0, 5⟩] :=
  ⟨by decide!,
    (relevance_increase_bounded SplitIntoWordsSpec lnSample twoCatServer "city cat"
      (fun _ _ _ => true) [⟨42, 1 / 4, 2⟩, ⟨1, 0, 5⟩] (by decide!)).2 (by decide!)⟩

end SearchServer

/-! ## `RemoveDuplicates` -/

theorem mem_foldl_insert (row : List (String × ℚ)) (acc : StdSet String) (w : String) :
    w ∈ row.foldl (fun doc_words entry => StdSet.insert doc_words entry.1) acc ↔
      w ∈ acc ∨ w ∈ StdMap.keys row := by
  induction row generalizing acc with
  | nil => simp [StdMap.keys]
  | cons e rest ih =>
    simp only [List.foldl_cons, ih, StdSet.mem_insert, StdMap.keys, List.map_cons,
      List.mem_cons]
    tauto

theorem sorted_foldl_insert (row : List (String × ℚ)) (acc : StdSet String)
    (hacc : StdSet.Sorted acc) :
    StdSet.Sorted (row.foldl (fun doc_words entry => StdSet.insert doc_words entry.1) acc) := by
  induction row generalizing acc with
  | nil => exact hacc
  | cons e rest ih =>
    exact ih _ (StdSet.sorted_insert stdLessOrder_string acc hacc e.1)

theorem mem_RemoveDuplicates_words (s : SearchServer) (doc_id : Int) (w : String) :
    w ∈ RemoveDuplicates_words s doc_id ↔
      w ∈ StdMap.keys (SearchServer.GetWordFrequencies s doc_id) := by
  unfold RemoveDuplicates_words
  rw [mem_foldl_insert]
  simp

/-- Two documents get the same set `doc_words` exactly when their word-frequency maps
have the same keys. -/
theorem RemoveDuplicates_words_eq_iff (s : SearchServer) (d d' : Int) :
    RemoveDuplicates_words s d = RemoveDuplicates_words s d' ↔
      ∀ w, w ∈ StdMap.keys (SearchServer.GetWordFrequencies s d) ↔
        w ∈ StdMap.keys (SearchServer.GetWordFrequencies s d') := by
  constructor
  · intro h w
    rw [← mem_RemoveDuplicates_words, ← mem_RemoveDuplicates_words, h]
  · intro h
    apply stdLessOrder_string.eq_of_sorted
    · exact sorted_foldl_insert _ [] List.Pairwise.nil
    · exact sorted_foldl_insert _ [] List.Pairwise.nil
    · intro w
      rw [mem_RemoveDuplicates_words, mem_RemoveDuplicates_words]
      exact h w

theorem RemoveDuplicates_scan_sublist (s : SearchServer) (rest : List Int)
    (words_to_id : StdMap (StdSet String) Int) (ids_of_duplicates : List Int) :
    ∃ l, l.Sublist rest ∧
      (RemoveDuplicates_scan s rest words_to_id ids_of_duplicates).2 = ids_of_duplicates ++ l := by
  induction rest generalizing words_to_id ids_of_duplicates with
  | nil => exact ⟨[], List.Sublist.slnil, by simp [RemoveDuplicates_scan]⟩
  | cons d rest ih =>
    unfold RemoveDuplicates_scan
    by_cases hc : StdMap.count words_to_id (RemoveDuplicates_words s d) ≠ 0
    · rw [if_pos hc]
      obtain ⟨l, hl, he⟩ := ih words_to_id (ids_of_duplicates ++ [d])
      exact ⟨d :: l, hl.cons₂ d, by rw [he]; simp⟩
    · rw [if_neg hc]
      obtain ⟨l, hl, he⟩ := ih (StdMap.set words_to_id (RemoveDuplicates_words s d) d)
        ids_of_duplicates
      exact ⟨l, hl.cons d, he⟩

/-- The ids the first loop of `RemoveDuplicates` collects: those whose word set has been
seen at an earlier id. -/
theorem RemoveDuplicates_scan_mem (s : SearchServer) (rest : List Int)
    (hsorted : StdSet.Sorted rest) (seen : List Int)
    (words_to_id : StdMap (StdSet String) Int) (ids_of_duplicates : List Int)
    (hmap : ∀ ws, StdMap.find? words_to_id ws ≠ none ↔
      ∃ d' ∈ seen, RemoveDuplicates_words s d' = ws) (d : Int) :
    d ∈ (RemoveDuplicates_scan s rest words_to_id ids_of_duplicates).2 ↔
      d ∈ ids_of_duplicates ∨
        (d ∈ rest ∧ ∃ d', (d' ∈ seen ∨ (d' ∈ rest ∧ d' < d)) ∧
          RemoveDuplicates_words s d' = RemoveDuplicates_words s d) := by
  induction rest generalizing seen words_to_id ids_of_duplicates with
  | nil => simp [RemoveDuplicates_scan]
  | cons d₀ rest ih =>
    have hlt : ∀ x ∈ rest, d₀ < x := by
      intro x hx
      have := List.rel_of_pairwise_cons hsorted hx
      simpa [StdLess.less] using this
    have hrest : StdSet.Sorted rest := List.Pairwise.of_cons hsorted
    unfold RemoveDuplicates_scan
    by_cases hc : StdMap.count words_to_id (RemoveDuplicates_words s d₀) ≠ 0
    · rw [if_pos hc]
      rw [SearchServer.count_ne_zero_iff, hmap] at hc
      obtain ⟨twin, htwin, hwords⟩ := hc
      rw [ih hrest seen words_to_id (ids_of_duplicates ++ [d₀]) hmap]
      constructor
      · rintro (h | ⟨hd, d', hd', hsame⟩)
        · rcases List.mem_append.mp h with h | h
          · exact Or.inl h
          · have hd : d = d₀ := by simpa using h
            subst hd
            exact Or.inr ⟨List.mem_cons_self _ _, twin, Or.inl htwin, hwords⟩
        · refine Or.inr ⟨List.mem_cons_of_mem _ hd, d', ?_, hsame⟩
          rcases hd' with h | ⟨h1, h2⟩
          · exact Or.inl h
          · exact Or.inr ⟨List.mem_cons_of_mem _ h1, h2⟩
      · rintro (h | ⟨hd, d', hd', hsame⟩)
        · exact Or.inl (List.mem_append.mpr (Or.inl h))
        · rcases List.mem_cons.mp hd with hd | hd
          · exact Or.inl (List.mem_append.mpr (Or.inr (by simp [hd])))
          · refine Or.inr ⟨hd, ?_⟩
            rcases hd' with h | ⟨h1, h2⟩
            · exact ⟨d', Or.inl h, hsame⟩
            · rcases List.mem_cons.mp h1 with h1 | h1
              · subst h1
                exact ⟨twin, Or.inl htwin, hwords.trans hsame⟩
              · exact ⟨d', Or.inr ⟨h1, h2⟩, hsame⟩
    · rw [if_neg hc]
      rw [SearchServer.count_ne_zero_iff, hmap] at hc
      have hmap' : ∀ ws,
          StdMap.find? (StdMap.set words_to_id (RemoveDuplicates_words s d₀) d₀) ws ≠ none ↔
            ∃ d' ∈ d₀ :: seen, RemoveDuplicates_words s d' = ws := by
        intro ws
        rw [StdMap.find?_set]
        by_cases hws : ws = RemoveDuplicates_words s d₀
        · simp [hws]
        · have hws' : ¬ RemoveDuplicates_words s d₀ = ws := fun h => hws h.symm
          simp only [hws, if_false, hmap ws, List.mem_cons, exists_eq_or_imp, hws', false_or]
      rw [ih hrest (d₀ :: seen) _ ids_of_duplicates hmap']
      constructor
      · rintro (h | ⟨hd, d', hd', hsame⟩)
        · exact Or.inl h
        · refine Or.inr ⟨List.mem_cons_of_mem _ hd, d', ?_, hsame⟩
          rcases hd' with h | ⟨h1, h2⟩
          · rcases List.mem_cons.mp h with h | h
            · subst h
              exact Or.inr ⟨List.mem_cons_self _ _, hlt d hd⟩
            · exact Or.inl h
          · exact Or.inr ⟨List.mem_cons_of_mem _ h1, h2⟩
      · rintro (h | ⟨hd, d', hd', hsame⟩)
        · exact Or.inl h
        · rcases List.mem_cons.mp hd with hd | hd
          · subst hd
            exfalso
            rcases hd' with h | ⟨h1, h2⟩
            · exact hc ⟨d', h, hsame⟩
            · rcases List.mem_cons.mp h1 with h1 | h1
              · omega
              · have := hlt d' h1
                omega
          · refine Or.inr ⟨hd, d', ?_, hsame⟩
            rcases hd' with h | ⟨h1, h2⟩
            · exact Or.inl (List.mem_cons_of_mem _ h)
            · rcases List.mem_cons.mp h1 with h1 | h1
              · exact Or.inl (by rw [h1]; exact List.mem_cons_self _ _)
              · exact Or.inr ⟨h1, h2⟩

namespace SearchServer

open StdMap

theorem GetWordFrequencies_congr (s s' : SearchServer) (document_id : Int)
    (h : find? s'.doc_id_to_word_frequency_ document_id =
      find? s.doc_id_to_word_frequency_ document_id) :
    GetWordFrequencies s' document_id = GetWordFrequencies s document_id := by
  unfold GetWordFrequencies count getD
  rw [h]

theorem GetWordFrequencies_of_absent (s : SearchServer) (document_id : Int)
    (h : find? s.doc_id_to_word_frequency_ document_id = none) :
    GetWordFrequencies s document_id = [] := by
  unfold GetWordFrequencies count getD
  simp [h]

/-- A call of `RemoveDocument` on a document with a forward-index entry: it returns, and
the other documents keep what the server holds about them. -/
theorem RemoveDocument_known (s : SearchServer) (document_id : Int) (h : Consistent s)
    (hentry : find? s.doc_id_to_word_frequency_ document_id ≠ none) :
    ∃ s₁, RemoveDocument s document_id = (.ok (), s₁) ∧
      s₁.added_documents_ = StdSet.erase s.added_documents_ document_id ∧
      s₁.stop_words_ = s.stop_words_ ∧
      ∀ d, d ≠ document_id →
        find? s₁.doc_id_to_word_frequency_ d = find? s.doc_id_to_word_frequency_ d ∧
        find? s₁.document_data_ d = find? s.document_data_ d ∧
        ∀ w, find2? s₁.word_to_document_frequency_ w d =
          find2? s.word_to_document_frequency_ w d := by
  rcases RemoveDocument_cases s document_id h with ⟨hnone, _⟩ | ⟨entry, _, he, hloop⟩
  · exact absurd hnone hentry
  · refine ⟨_, he, rfl, rfl, fun d hd => ⟨?_, ?_, fun w => ?_⟩⟩
    · simp [find?_erase, hd]
    · simp [find?_erase, hd]
    · simp [hloop w d, hd]

end SearchServer

open StdMap in
/-- The second loop of `RemoveDuplicates` on distinct ids of documents with a
forward-index entry: every removal succeeds and the other documents are left as they
were. -/
theorem RemoveDuplicates_loop_spec (SplitIntoWords : String → List String) (ids : List Int)
    (s : SearchServer) (hs : ReachableOk SplitIntoWords s)
    (hentry : ∀ d ∈ ids, find? s.doc_id_to_word_frequency_ d ≠ none) (hnodup : ids.Nodup) :
    ∃ s', RemoveDuplicates_loop ids s = (.ok (), s') ∧ ReachableOk SplitIntoWords s' ∧
      s'.stop_words_ = s.stop_words_ ∧
      (∀ d, d ∈ s'.added_documents_ ↔ d ∈ s.added_documents_ ∧ d ∉ ids) ∧
      ∀ d, d ∉ ids →
        find? s'.doc_id_to_word_frequency_ d = find? s.doc_id_to_word_frequency_ d ∧
        find? s'.document_data_ d = find? s.document_data_ d ∧
        ∀ w, find2? s'.word_to_document_frequency_ w d =
          find2? s.word_to_document_frequency_ w d := by
  induction ids generalizing s with
  | nil =>
    exact ⟨s, rfl, hs, rfl, fun d => by simp, fun d _ => ⟨rfl, rfl, fun _ => rfl⟩⟩
  | cons d₀ rest ih =>
    obtain ⟨s₁, he, hadded, hstop, hframe⟩ := SearchServer.RemoveDocument_known s d₀
      hs.consistentOk.consistent (hentry d₀ (List.mem_cons_self _ _))
    have hs₁ : ReachableOk SplitIntoWords s₁ := by
      have := ReachableOk.call s (Call.RemoveDocument d₀) hs
        (by simp only [Call.run]; rw [he])
      simp only [Call.run] at this
      rw [he] at this
      exact this
    have hne : ∀ d ∈ rest, d ≠ d₀ := by
      intro d hd heq
      rw [heq] at hd
      exact (List.nodup_cons.mp hnodup).1 hd
    have hentry₁ : ∀ d ∈ rest, find? s₁.doc_id_to_word_frequency_ d ≠ none := by
      intro d hd
      rw [(hframe d (hne d hd)).1]
      exact hentry d (List.mem_cons_of_mem _ hd)
    obtain ⟨s', hloop, hs', hstop', hmem, hrest⟩ := ih s₁ hs₁ hentry₁
      (List.nodup_cons.mp hnodup).2
    refine ⟨s', ?_, hs', hstop'.trans hstop, fun d => ?_, fun d hd => ?_⟩
    · simp only [RemoveDuplicates_loop, he, hloop]
    · rw [hmem d, hadded, StdSet.mem_erase, List.mem_cons]
      tauto
    · have hd₀ : d ≠ d₀ := fun h => hd (by rw [h]; exact List.mem_cons_self _ _)
      have hdr : d ∉ rest := fun h => hd (List.mem_cons_of_mem _ h)
      obtain ⟨h1, h2, h3⟩ := hrest d hdr
      obtain ⟨g1, g2, g3⟩ := hframe d hd₀
      exact ⟨h1.trans g1, h2.trans g2, fun w => (h3 w).trans (g3 w)⟩

namespace SearchServer

open StdMap

/-- C27: on a server reached by successful calls only in which every known document
has at least one indexed word, `RemoveDuplicates` returns; the ids known afterwards are
the known ids that are the smallest among the documents with the same set of indexed
words; these documents keep their word frequencies, their record and their postings,
and nothing is left of the other documents. -/
theorem RemoveDuplicates_keeps_smallest (SplitIntoWords : String → List String)
    (s : SearchServer) (hs : ReachableOk SplitIntoWords s)
    (hwords : ∀ d ∈ s.added_documents_, GetWordFrequencies s d ≠ []) :
    ∃ s', RemoveDuplicates s = (.ok (), s') ∧
      (∀ d, d ∈ s'.added_documents_ ↔
        d ∈ s.added_documents_ ∧
          ∀ d' ∈ s.added_documents_,
            (∀ w, w ∈ keys (GetWordFrequencies s d') ↔ w ∈ keys (GetWordFrequencies s d)) →
              d ≤ d') ∧
      (∀ d ∈ s'.added_documents_,
        GetWordFrequencies s' d = GetWordFrequencies s d ∧
        find? s'.document_data_ d = find? s.document_data_ d ∧
        ∀ w, find2? s'.word_to_document_frequency_ w d =
          find2? s.word_to_document_frequency_ w d) ∧
      (∀ d, d ∉ s'.added_documents_ →
        GetWordFrequencies s' d = [] ∧ find? s'.document_data_ d = none ∧
        ∀ w, find2? s'.word_to_document_frequency_ w d = none) ∧
      s'.stop_words_ = s.stop_words_ := by
  have hsorted := hs.reachable.canonical.ids_sorted
  have hdup : ∀ d, d ∈ (RemoveDuplicates_scan s s.added_documents_ [] []).2 ↔
      d ∈ s.added_documents_ ∧ ∃ d' ∈ s.added_documents_, d' < d ∧
        RemoveDuplicates_words s d' = RemoveDuplicates_words s d := by
    intro d
    rw [RemoveDuplicates_scan_mem s s.added_documents_ hsorted [] [] []
      (fun ws => by simp [find?]) d]
    simp only [List.not_mem_nil, false_or]
    constructor
    · rintro ⟨hd, d', hd', hsame⟩
      exact ⟨hd, d', hd'.1, hd'.2, hsame⟩
    · rintro ⟨hd, d', h1, h2, hsame⟩
      exact ⟨hd, d', ⟨h1, h2⟩, hsame⟩
  have hnodup : (RemoveDuplicates_scan s s.added_documents_ [] []).2.reverse.Nodup := by
    obtain ⟨l, hl, he⟩ := RemoveDuplicates_scan_sublist s s.added_documents_ [] []
    rw [he, List.nil_append, List.nodup_reverse]
    exact (stdLessOrder_int.nodup_of_pairwise hsorted).sublist hl
  have hentry : ∀ d ∈ (RemoveDuplicates_scan s s.added_documents_ [] []).2.reverse,
      find? s.doc_id_to_word_frequency_ d ≠ none := by
    intro d hd hnone
    rw [List.mem_reverse, hdup] at hd
    exact hwords d hd.1 (GetWordFrequencies_of_absent s d hnone)
  obtain ⟨s', hloop, hs', hstop, hmem, hframe⟩ := RemoveDuplicates_loop_spec SplitIntoWords _ s
    hs hentry hnodup
  have hkept : ∀ d, d ∈ s'.added_documents_ →
      d ∉ (RemoveDuplicates_scan s s.added_documents_ [] []).2.reverse :=
    fun d hd => ((hmem d).mp hd).2
  refine ⟨s', hloop, fun d => ?_, fun d hd => ?_, fun d hd => ?_, hstop⟩
  · rw [hmem d, List.mem_reverse, hdup]
    constructor
    · rintro ⟨hd, hnot⟩
      refine ⟨hd, fun d' hd' hsame => ?_⟩
      by_contra hlt
      exact hnot ⟨hd, d', hd', by omega, (RemoveDuplicates_words_eq_iff s d' d).mpr hsame⟩
    · rintro ⟨hd, hmin⟩
      refine ⟨hd, ?_⟩
      rintro ⟨_, d', hd', hlt, hsame⟩
      have := hmin d' hd' ((RemoveDuplicates_words_eq_iff s d' d).mp hsame)
      omega
  · obtain ⟨h1, h2, h3⟩ := hframe d (hkept d hd)
    exact ⟨GetWordFrequencies_congr s s' d h1, h2, h3⟩
  · obtain ⟨h1, h2, _, h4⟩ := unknown_has_no_entries s' hs'.consistentOk d hd
    exact ⟨GetWordFrequencies_of_absent s' d h1, h2, h4⟩

end SearchServer

theorem reachableOk_duplicatesServer : ReachableOk SplitIntoWordsSpec duplicatesServer :=
  ReachableOk.call _ (Call.AddDocument 9 "nasty rat with curly hair" DocumentStatus.ACTUAL [1, 2])
  (ReachableOk.call _
    (Call.AddDocument 8 "pet with rat and rat and rat" DocumentStatus.ACTUAL [1, 2])
  (ReachableOk.call _
    (Call.AddDocument 7 "very nasty rat and not very funny pet" DocumentStatus.ACTUAL [1, 2])
  (ReachableOk.call _
    (Call.AddDocument 6 "funny pet and not very nasty rat" DocumentStatus.ACTUAL [1, 2])
  (ReachableOk.call _
    (Call.AddDocument 5 "funny funny pet and nasty nasty rat" DocumentStatus.ACTUAL [1, 2])
  (ReachableOk.call _
    (Call.AddDocument 4 "funny pet and curly hair" DocumentStatus.ACTUAL [1, 2])
  (ReachableOk.call _
    (Call.AddDocument 3 "funny pet with curly hair" DocumentStatus.ACTUAL [1, 2])
  (ReachableOk.call _
    (Call.AddDocument 2 "funny pet with curly hair" DocumentStatus.ACTUAL [1, 2])
  (ReachableOk.call _
    (Call.AddDocument 1 "funny pet and nasty rat" DocumentStatus.ACTUAL [7, 2, 7])
  (ReachableOk.construct ["and", "with"] _ (by decide))
  (by decide!)) (by decide!)) (by decide!)) (by decide!)) (by decide!)) (by decide!))
  (by decide!)) (by decide!)) (by decide!)

namespace SearchServer

open StdMap

theorem RemoveDuplicates_keeps_smallest_witness :
    ReachableOk SplitIntoWordsSpec duplicatesServer ∧
    GetDocumentCount duplicatesServer = 9 ∧
    (RemoveDuplicates duplicatesServer).1 = .ok () ∧
    (RemoveDuplicates duplicatesServer).2.added_documents_ = [1, 2, 6, 8, 9] ∧
    GetDocumentCount (RemoveDuplicates duplicatesServer).2 = 5 ∧
    ∃ s', RemoveDuplicates duplicatesServer = (.ok (), s') ∧
      s'.stop_words_ = duplicatesServer.stop_words_ :=
  ⟨reachableOk_duplicatesServer, by decide!, by decide!, by decide!, by decide!,
    (RemoveDuplicates_keeps_smallest SplitIntoWordsSpec duplicatesServer
      reachableOk_duplicatesServer (by decide!)).imp (fun _ h => ⟨h.1, h.2.2.2.2⟩)⟩

end SearchServer

/-! ## The frame of `RemoveDocument` and the lookups inside queries -/

namespace StdMap

variable {κ ν : Type} [DecidableEq κ] [StdLess κ]

theorem eq_nil_of_find?_none (m : StdMap κ ν) (h : ∀ k, find? m k = none) : m = [] := by
  by_contra hne
  obtain ⟨k, v, hk⟩ := exists_find?_of_ne_nil m hne
  rw [h k] at hk
  cases hk

end StdMap

namespace SearchServer

open StdMap

/-- The posting list of a word after a successful `RemoveDocument` in a canonical state:
the old one without the removed id, and no entry at all when nothing is left of it. -/
theorem postings_after_removal (s s' : SearchServer) (document_id : Int)
    (hcanon : Canonical s) (hcanon' : Canonical s')
    (hfind : ∀ w d, find2? s'.word_to_document_frequency_ w d =
      if d = document_id then none else find2? s.word_to_document_frequency_ w d)
    (w : String) :
    find? s'.word_to_document_frequency_ w =
      match find? s.word_to_document_frequency_ w with
      | none => none
      | some postings =>
        if erase postings document_id = [] then none else some (erase postings document_id) := by
  cases hold : find? s.word_to_document_frequency_ w with
  | none =>
    simp only []
    cases hnew : find? s'.word_to_document_frequency_ w with
    | none => rfl
    | some row =>
      exfalso
      obtain ⟨_, hne⟩ := hcanon'.inverted_rows (w, row) (mem_of_find? hnew)
      apply hne
      apply eq_nil_of_find?_none
      intro d
      have := hfind w d
      simp only [find2?, hnew, hold] at this
      rw [this]
      split <;> rfl
  | some postings =>
    simp only []
    have hsorted : Sorted (erase postings document_id) :=
      sorted_erase_key postings (hcanon.inverted_rows (w, postings) (mem_of_find? hold)).1 _
    cases hnew : find? s'.word_to_document_frequency_ w with
    | none =>
      have hnil : erase postings document_id = [] := by
        apply eq_nil_of_find?_none
        intro d
        have := hfind w d
        simp only [find2?, hnew, hold] at this
        rw [find?_erase]
        exact this.symm
      rw [if_pos hnil]
    | some row =>
      obtain ⟨hrow, hne⟩ := hcanon'.inverted_rows (w, row) (mem_of_find? hnew)
      have heq : row = erase postings document_id := by
        apply eq_of_sorted_find stdLessOrder_int row _ hrow hsorted
        intro d
        have := hfind w d
        simp only [find2?, hnew, hold] at this
        rw [find?_erase]
        exact this
      rw [← heq, if_neg hne]

/-- C35: on a server reached by successful calls only, `RemoveDocument` of an id with a
forward-index entry (such an id is known) returns; every other document keeps its
rating and status record and its `GetWordFrequencies` map; the posting list of every
word is the old one without the removed id, a word is a key of the inverted index
afterwards exactly when that list is not empty, and no posting list of the new index is
empty. -/
theorem RemoveDocument_frame (SplitIntoWords : String → List String) (s : SearchServer)
    (hs : ReachableOk SplitIntoWords s) (document_id : Int)
    (hentry : find? s.doc_id_to_word_frequency_ document_id ≠ none) :
    ∃ s', RemoveDocument s document_id = (.ok (), s') ∧
      (∀ j, j ≠ document_id →
        find? s'.document_data_ j = find? s.document_data_ j ∧
        GetWordFrequencies s' j = GetWordFrequencies s j) ∧
      (∀ w, find? s'.word_to_document_frequency_ w =
        match find? s.word_to_document_frequency_ w with
        | none => none
        | some postings =>
          if erase postings document_id = [] then none
          else some (erase postings document_id)) ∧
      (∀ w, w ∈ keys s'.word_to_document_frequency_ ↔
        ∃ postings, find? s.word_to_document_frequency_ w = some postings ∧
          erase postings document_id ≠ []) ∧
      ∀ w postings, find? s'.word_to_document_frequency_ w = some postings → postings ≠ [] := by
  have hcons := hs.consistentOk.consistent
  have hcanon := hs.reachable.canonical
  rcases RemoveDocument_cases s document_id hcons with ⟨hnone, _⟩ | ⟨entry, _, he, hloop⟩
  · exact absurd hnone hentry
  · have hcanon' := RemoveDocument_canonical s document_id hcanon
    rw [he] at hcanon'
    have hpost := postings_after_removal s _ document_id hcanon hcanon' hloop
    refine ⟨_, he, fun j hj => ⟨?_, ?_⟩, hpost, fun w => ?_, fun w postings hrow => ?_⟩
    · simp [find?_erase, hj]
    · apply GetWordFrequencies_congr
      simp [find?_erase, hj]
    · rw [← find?_isSome_iff_mem_keys, hpost w]
      cases hold : find? s.word_to_document_frequency_ w with
      | none => simp
      | some postings =>
        by_cases hnil : erase postings document_id = []
        · simp [hnil]
        · simp [hnil]
    · exact (hcanon'.inverted_rows (w, postings) (mem_of_find? hrow)).2

theorem RemoveDocument_frame_witness :
    ReachableOk SplitIntoWordsSpec twoCatServer ∧
    (42 : Int) ∈ twoCatServer.added_documents_ ∧
    find? twoCatServer.doc_id_to_word_frequency_ 42 ≠ none ∧
    find? twoCatServer.word_to_document_frequency_ "cat" = some [(1, 1 / 3), (42, 1 / 4)] ∧
    find? (RemoveDocument twoCatServer 42).2.word_to_document_frequency_ "cat" =
      some [(1, 1 / 3)] ∧
    find? (RemoveDocument twoCatServer 42).2.word_to_document_frequency_ "city" = none ∧
    ∃ s', RemoveDocument twoCatServer 42 = (.ok (), s') ∧
      ∀ j, j ≠ 42 →
        find? s'.document_data_ j = find? twoCatServer.document_data_ j ∧
        GetWordFrequencies s' j = GetWordFrequencies twoCatServer j :=
  ⟨reachableOk_twoCatServer, by decide!, by decide!, by decide!, by decide!, by decide!,
    (RemoveDocument_frame SplitIntoWordsSpec twoCatServer reachableOk_twoCatServer 42
      (by decide!)).imp (fun _ h => ⟨h.1, h.2.1⟩)⟩

/-- C36: on a server reached by successful calls only, every id of every posting list
has a rating and status record; `FindTopDocuments` returns for every query that parses
and every predicate, and `MatchDocument` returns for every query that parses and every
known id. -/
theorem lookups_cannot_fail (SplitIntoWords : String → List String) (s : SearchServer)
    (hs : ReachableOk SplitIntoWords s) :
    (∀ w postings d, find? s.word_to_document_frequency_ w = some postings →
      d ∈ keys postings → ∃ data, find? s.document_data_ d = some data) ∧
    (∀ (ln : ℚ → ℚ) (raw_query : String) (pred : Int → DocumentStatus → Int → Bool)
      (query : ProcessedQuery), ParseQuery SplitIntoWords s raw_query = .ok query →
      ∃ result, FindTopDocuments SplitIntoWords ln s raw_query pred = .ok result) ∧
    (∀ (raw_query : String) (document_id : Int) (query : ProcessedQuery),
      ParseQuery SplitIntoWords s raw_query = .ok query →
      document_id ∈ s.added_documents_ →
      ∃ words status,
        MatchDocument SplitIntoWords s raw_query document_id = .ok (words, status)) := by
  have hcons := hs.consistentOk
  refine ⟨fun w postings d hrow hd => ?_, fun ln raw_query pred query hquery => ?_,
    fun raw_query document_id query hquery hknown => ?_⟩
  · have := postings_known s hcons w postings hrow d hd
    rw [← find?_isSome_iff_mem_keys] at this
    exact Option.isSome_iff_exists.mp this
  · obtain ⟨_, result, hres, _⟩ := FindTopDocuments_complete SplitIntoWords ln s hcons
      hs.reachable.canonical raw_query pred query hquery
    exact ⟨result, hres⟩
  · obtain ⟨data, hdata⟩ := known_has_record s hcons.consistent document_id hknown
    unfold MatchDocument
    simp only [hquery, atKey, hdata]
    split
    · exact ⟨_, _, rfl⟩
    · exact ⟨_, _, rfl⟩

theorem lookups_cannot_fail_witness :
    ReachableOk SplitIntoWordsSpec twoCatServer ∧
    ParseQuery SplitIntoWordsSpec twoCatServer "cat -city" = .ok ⟨["cat"], ["city"]⟩ ∧
    (∃ result, FindTopDocuments SplitIntoWordsSpec lnSample twoCatServer "cat -city"
      (fun _ _ _ => true) = .ok result) ∧
    ∃ words status, MatchDocument SplitIntoWordsSpec twoCatServer "cat -city" 42 =
      .ok (words, status) :=
  ⟨reachableOk_twoCatServer, by decide!,
    (lookups_cannot_fail SplitIntoWordsSpec twoCatServer reachableOk_twoCatServer).2.1
      lnSample "cat -city" (fun _ _ _ => true) ⟨["cat"], ["city"]⟩ (by decide!),
    (lookups_cannot_fail SplitIntoWordsSpec twoCatServer reachableOk_twoCatServer).2.2
      "cat -city" 42 ⟨["cat"], ["city"]⟩ (by decide!) (by decide!)⟩

end SearchServer

/-! ## The sign of the relevance -/

namespace SearchServer

open StdMap

theorem AddDocument_loop_positive (size : Nat) (hsize : 0 < size) (document_id : Int)
    (words : List String) (s : SearchServer)
    (h : ∀ w d f, find2? s.word_to_document_frequency_ w d = some f → 0 < f) :
    ∀ w d f, find2? (AddDocument_loop size document_id words
      s).2.word_to_document_frequency_ w d = some f → 0 < f := by
  induction words generalizing s with
  | nil => exact h
  | cons word rest ih =>
    unfold AddDocument_loop
    by_cases hv : IsValidWord word = true
    · simp only [hv, Bool.not_true, Bool.false_eq_true, if_false]
      apply ih
      intro w d f hf
      simp only [find2?_addFrequency] at hf
      split at hf
      · have hx : (0 : ℚ) < 1 / (size : ℚ) := by positivity
        have hold : (0 : ℚ) ≤ (find2? s.word_to_document_frequency_ word document_id).getD 0 := by
          cases hfind : find2? s.word_to_document_frequency_ word document_id with
          | none => simp
          | some f₀ => exact le_of_lt (h _ _ _ hfind)
        cases hf
        linarith
      · exact h w d f hf
    · simp only [Bool.not_eq_true] at hv
      simpa [hv] using h

end SearchServer

open StdMap SearchServer in
/-- In every reachable state every stored term frequency is positive. -/
theorem Reachable.frequencies_positive {SplitIntoWords : String → List String}
    {s : SearchServer} (h : Reachable SplitIntoWords s) :
    ∀ w d f, find2? s.word_to_document_frequency_ w d = some f → 0 < f := by
  induction h with
  | construct stop_words s hs =>
    unfold New at hs
    simp only [] at hs
    split at hs
    · cases hs
      intro w d f hf
      simp [find2?, find?] at hf
    · cases hs
  | call s c hreach ih =>
    cases c with
    | AddDocument document_id document status ratings =>
      simp only [Call.run]
      have hloop : ∀ w d f,
          find2? (AddDocument_loop (SplitIntoWordsNoStop SplitIntoWords s document).length
            document_id (SplitIntoWordsNoStop SplitIntoWords s document)
            s).2.word_to_document_frequency_ w d = some f → 0 < f := by
        cases hwords : SplitIntoWordsNoStop SplitIntoWords s document with
        | nil => simpa [AddDocument_loop] using ih
        | cons word rest =>
          exact AddDocument_loop_positive _ (by simp) document_id _ s ih
      rcases AddDocument_cases SplitIntoWords s document_id document status ratings with
        ⟨_, he⟩ | ⟨_, _, he⟩ | ⟨_, _, _, he⟩ | ⟨_, _, rating, _, _, he⟩
      · rw [he]; exact ih
      · rw [he]; exact hloop
      · rw [he]; exact hloop
      · rw [he]; exact hloop
    | RemoveDocument document_id =>
      simp only [Call.run]
      rcases RemoveDocument_cases s document_id hreach.consistent with
        ⟨_, he⟩ | ⟨entry, _, he, hfind⟩
      · rw [he]; exact ih
      · rw [he]
        intro w d f hf
        simp only [hfind w d] at hf
        split at hf
        · cases hf
        · exact ih w d f hf

namespace SearchServer

open StdMap

theorem getD_nonneg (matched : StdMap Int ℚ) (h : ∀ e ∈ matched, (0 : ℚ) ≤ e.2) (d : Int) :
    (0 : ℚ) ≤ getD matched d 0 := by
  unfold getD
  cases hf : find? matched d with
  | none => simp
  | some v => exact h (d, v) (mem_of_find? hf)

theorem FindAllDocuments_postings_nonneg (s : SearchServer)
    (pred : Int → DocumentStatus → Int → Bool) (IDF : ℚ) (postings : List (Int × ℚ))
    (matched result : StdMap Int ℚ)
    (h : FindAllDocuments_postings s pred IDF postings matched = .ok result)
    (hIDF : 0 ≤ IDF) (hfreq : ∀ e ∈ postings, (0 : ℚ) < e.2)
    (hm : ∀ e ∈ matched, (0 : ℚ) ≤ e.2) : ∀ e ∈ result, (0 : ℚ) ≤ e.2 := by
  induction postings generalizing matched with
  | nil =>
    simp only [FindAllDocuments_postings] at h
    cases h
    exact hm
  | cons p rest ih =>
    obtain ⟨d, freq⟩ := p
    have hrest : ∀ e ∈ rest, (0 : ℚ) < e.2 := fun e he => hfreq e (List.mem_cons_of_mem _ he)
    have hfreq₀ : (0 : ℚ) < freq := hfreq (d, freq) (List.mem_cons_self _ _)
    unfold FindAllDocuments_postings at h
    cases hdata : atKey s.document_data_ d with
    | error e => simp [hdata] at h
    | ok data =>
      simp only [hdata] at h
      split at h
      · apply ih _ h hrest
        intro e he
        rcases mem_set_cases _ _ _ e he with heq | hmem
        · rw [heq]
          have := getD_nonneg matched hm d
          have : (0 : ℚ) ≤ IDF * freq := mul_nonneg hIDF (le_of_lt hfreq₀)
          simp only
          linarith [getD_nonneg matched hm d]
        · exact hm e hmem
      · exact ih _ h hrest hm

theorem FindAllDocuments_postings_all_known (s : SearchServer)
    (pred : Int → DocumentStatus → Int → Bool) (IDF : ℚ) (postings : List (Int × ℚ))
    (matched result : StdMap Int ℚ)
    (h : FindAllDocuments_postings s pred IDF postings matched = .ok result) :
    ∀ d ∈ keys postings, d ∈ keys s.document_data_ := by
  induction postings generalizing matched with
  | nil => simp [keys]
  | cons p rest ih =>
    obtain ⟨d₀, freq⟩ := p
    unfold FindAllDocuments_postings at h
    cases hdata : find? s.document_data_ d₀ with
    | none => simp [atKey, hdata] at h
    | some data =>
      have hd₀ : d₀ ∈ keys s.document_data_ := by
        rw [← find?_isSome_iff_mem_keys, hdata]; rfl
      simp only [atKey, hdata] at h
      intro d hd
      simp only [keys, List.map_cons, List.mem_cons] at hd
      rcases hd with hd | hd
      · rw [hd]; exact hd₀
      · split at h
        · exact ih _ h d hd
        · exact ih _ h d hd

/-- The inverse document frequency of a word all of whose postings have a record is not
negative, for a logarithm that is not negative from 1 on. -/
theorem CalculateIDF_nonneg (ln : ℚ → ℚ) (hln : ∀ x : ℚ, 1 ≤ x → 0 ≤ ln x) (s : SearchServer)
    (hcons : Consistent s) (hcanon : Canonical s) (w : String) (postings : StdMap Int ℚ)
    (hrow : find? s.word_to_document_frequency_ w = some postings)
    (hknown : ∀ d ∈ keys postings, d ∈ keys s.document_data_) :
    postings.length ≤ s.document_data_.length ∧ 0 ≤ CalculateIDF ln s w := by
  have hnodup : (keys postings).Nodup := hcons.index.inverted_rows w postings hrow
  have hne : postings ≠ [] := (hcanon.inverted_rows (w, postings) (mem_of_find? hrow)).2
  have hle : postings.length ≤ s.document_data_.length := by
    have := (hnodup.subperm hknown).length_le
    simpa [keys] using this
  refine ⟨hle, ?_⟩
  unfold CalculateIDF
  rw [hrow]
  simp only
  apply hln
  have hpos : (0 : ℚ) < (postings.length : ℚ) := by
    have : 0 < postings.length := List.length_pos.mpr hne
    exact_mod_cast this
  rw [one_le_div hpos]
  exact_mod_cast hle

theorem FindAllDocuments_plus_nonneg (ln : ℚ → ℚ) (hln : ∀ x : ℚ, 1 ≤ x → 0 ≤ ln x)
    (s : SearchServer) (hcons : Consistent s) (hcanon : Canonical s)
    (hpos : ∀ w d f, find2? s.word_to_document_frequency_ w d = some f → 0 < f)
    (pred : Int → DocumentStatus → Int → Bool) (plus_words : List String)
    (matched result : StdMap Int ℚ)
    (h : FindAllDocuments_plus ln s pred plus_words matched = .ok result)
    (hm : ∀ e ∈ matched, (0 : ℚ) ≤ e.2) : ∀ e ∈ result, (0 : ℚ) ≤ e.2 := by
  induction plus_words generalizing matched with
  | nil =>
    simp only [FindAllDocuments_plus] at h
    cases h
    exact hm
  | cons w rest ih =>
    unfold FindAllDocuments_plus at h
    cases hrow : find? s.word_to_document_frequency_ w with
    | none =>
      simp only [hrow] at h
      exact ih _ h hm
    | some postings =>
      simp only [hrow] at h
      cases hloop : FindAllDocuments_postings s pred (CalculateIDF ln s w) postings matched with
      | error e => simp [hloop] at h
      | ok matched₁ =>
        simp only [hloop] at h
        apply ih _ h
        have hknown := FindAllDocuments_postings_all_known s pred _ postings matched matched₁ hloop
        apply FindAllDocuments_postings_nonneg s pred _ postings matched matched₁ hloop
          (CalculateIDF_nonneg ln hln s hcons hcanon w postings hrow hknown).2 _ hm
        intro e he
        have hfind : find? postings e.1 = some e.2 :=
          find?_of_mem (hcons.index.inverted_rows w postings hrow) he
        apply hpos w e.1 e.2
        simp [find2?, hrow, hfind]

theorem FindAllDocuments_plus_all_known (ln : ℚ → ℚ) (s : SearchServer)
    (pred : Int → DocumentStatus → Int → Bool) (plus_words : List String)
    (matched result : StdMap Int ℚ)
    (h : FindAllDocuments_plus ln s pred plus_words matched = .ok result) :
    ∀ w ∈ plus_words, ∀ postings, find? s.word_to_document_frequency_ w = some postings →
      ∀ d ∈ keys postings, d ∈ keys s.document_data_ := by
  induction plus_words generalizing matched with
  | nil => simp
  | cons w₀ rest ih =>
    unfold FindAllDocuments_plus at h
    intro w hw postings hrow
    cases hrow₀ : find? s.word_to_document_frequency_ w₀ with
    | none =>
      simp only [hrow₀] at h
      rcases List.mem_cons.mp hw with hw | hw
      · rw [hw, hrow₀] at hrow
        cases hrow
      · exact ih _ h w hw postings hrow
    | some postings₀ =>
      simp only [hrow₀] at h
      cases hloop : FindAllDocuments_postings s pred (CalculateIDF ln s w₀) postings₀
          matched with
      | error e => simp [hloop] at h
      | ok matched₁ =>
        simp only [hloop] at h
        rcases List.mem_cons.mp hw with hw | hw
        · rw [hw, hrow₀] at hrow
          cases hrow
          exact FindAllDocuments_postings_all_known s pred _ _ matched matched₁ hloop
        · exact ih _ h w hw postings hrow

theorem FindAllDocuments_minus_sublist (s : SearchServer) (minus_words : List String)
    (matched : StdMap Int ℚ) :
    (FindAllDocuments_minus s minus_words matched).Sublist matched := by
  induction minus_words generalizing matched with
  | nil => exact List.Sublist.refl _
  | cons w rest ih =>
    unfold FindAllDocuments_minus
    cases hrow : find? s.word_to_document_frequency_ w with
    | none => exact ih matched
    | some postings =>
      simp only
      refine (ih _).trans ?_
      have : ∀ (l : List (Int × ℚ)) (m : StdMap Int ℚ),
          (l.foldl (fun acc entry => erase acc entry.1) m).Sublist m := by
        intro l
        induction l with
        | nil => exact fun m => List.Sublist.refl _
        | cons e l ihl =>
          intro m
          exact (ihl _).trans (List.filter_sublist m)
      exact this postings matched

theorem FindAllDocuments_nonneg (ln : ℚ → ℚ) (hln : ∀ x : ℚ, 1 ≤ x → 0 ≤ ln x)
    (s : SearchServer) (hcons : Consistent s) (hcanon : Canonical s)
    (hpos : ∀ w d f, find2? s.word_to_document_frequency_ w d = some f → 0 < f)
    (pred : Int → DocumentStatus → Int → Bool) (query : ProcessedQuery)
    (documents : List Document) (h : FindAllDocuments ln s query pred = .ok documents) :
    ∀ doc ∈ documents, 0 ≤ doc.relevance := by
  unfold FindAllDocuments at h
  cases hplus : FindAllDocuments_plus ln s pred query.plus_words [] with
  | error e => simp [hplus] at h
  | ok matched =>
    simp only [hplus] at h
    have hmatched := FindAllDocuments_plus_nonneg ln hln s hcons hcanon hpos pred
      query.plus_words [] matched hplus (fun e he => absurd he (List.not_mem_nil _))
    obtain ⟨hmap, _⟩ := FindAllDocuments_vector_spec s _ documents h
    intro doc hdoc
    have hmem : (doc.id, doc.relevance) ∈
        FindAllDocuments_minus s query.minus_words matched := by
      rw [← hmap]
      exact List.mem_map.mpr ⟨doc, hdoc, rfl⟩
    exact hmatched _ ((FindAllDocuments_minus_sublist s query.minus_words matched).subset hmem)

/-- C37, evaluated at the failing call: `AddDocument(1, "a \x01", ...)` on a new server
throws after the word "a" has been indexed, so in the state it leaves "a" is indexed for one
document although no document is stored, and the inverse document frequency of "a" is
negative; the query "a" returns no document there, it throws `out_of_range`. -/
theorem indexed_word_in_more_documents_than_stored :
    Reachable SplitIntoWordsSpec residueServer ∧
    find? residueServer.word_to_document_frequency_ "a" = some [(1, 1 / 2)] ∧
    GetDocumentCount residueServer = 0 ∧
    ¬ ([((1 : Int), (1 : ℚ) / 2)].length ≤ GetDocumentCount residueServer) ∧
    CalculateIDF lnSample residueServer "a" = -1 ∧
    FindTopDocuments SplitIntoWordsSpec lnSample residueServer "a" (fun _ _ _ => true) =
      .error Error.out_of_range :=
  ⟨Reachable.call _ (Call.AddDocument 1 "a \x01" DocumentStatus.ACTUAL [1])
      (Reachable.construct [] emptyServer (by decide)),
    by decide!, by decide!, by decide!, by decide!, by decide!⟩

/-- In every reachable state, for a logarithm that is not negative from 1 on, every
document returned by `FindTopDocuments` has a relevance that is not negative; every stored
term frequency is positive; and when the call returns, every plus-word of the query that
is indexed occurs in at most as many documents as are stored and has an inverse document
frequency that is not negative. -/
theorem relevance_nonneg (SplitIntoWords : String → List String) (ln : ℚ → ℚ)
    (hln : ∀ x : ℚ, 1 ≤ x → 0 ≤ ln x) (s : SearchServer) (hs : Reachable SplitIntoWords s)
    (raw_query : String) (pred : Int → DocumentStatus → Int → Bool) (result : List Document)
    (h : FindTopDocuments SplitIntoWords ln s raw_query pred = .ok result) :
    (∀ doc ∈ result, 0 ≤ doc.relevance) ∧
    (∀ w d f, find2? s.word_to_document_frequency_ w d = some f → 0 < f) ∧
    ∀ query, ParseQuery SplitIntoWords s raw_query = .ok query →
      ∀ w ∈ query.plus_words, ∀ postings,
        find? s.word_to_document_frequency_ w = some postings →
          postings.length ≤ GetDocumentCount s ∧ 0 ≤ CalculateIDF ln s w := by
  have hcons := hs.consistent
  have hcanon := hs.canonical
  have hpos := hs.frequencies_positive
  obtain ⟨query, documents, hquery, hall, hres⟩ :=
    (FindTopDocuments_eq_ok_iff SplitIntoWords ln s raw_query pred result).mp h
  refine ⟨fun doc hdoc => ?_, hpos, fun query' hquery' w hw postings hrow => ?_⟩
  · exact FindAllDocuments_nonneg ln hln s hcons hcanon hpos pred query documents hall doc
      (mem_of_mem_FindTopDocuments hres hdoc)
  · rw [hquery] at hquery'
    cases hquery'
    unfold FindAllDocuments at hall
    cases hplus : FindAllDocuments_plus ln s pred query.plus_words [] with
    | error e => simp [hplus] at hall
    | ok matched =>
      have hknown := FindAllDocuments_plus_all_known ln s pred query.plus_words [] matched
        hplus w hw postings hrow
      exact CalculateIDF_nonneg ln hln s hcons hcanon w postings hrow hknown

/-- The bound on the relevance, at the query "city cat" on the server of two documents. -/
theorem relevance_nonneg_witness :
    (∀ x : ℚ, 1 ≤ x → 0 ≤ lnSample x) ∧
    Reachable SplitIntoWordsSpec twoCatServer ∧
    FindTopDocuments SplitIntoWordsSpec lnSample twoCatServer "city cat" (fun _ _ _ => true) =
      .ok [⟨42, 1 / 4, 2⟩, ⟨1, 0, 5⟩] ∧
    ∀ doc ∈ ([⟨42, 1 / 4, 2⟩, ⟨1, 0, 5⟩] : List Document), 0 ≤ doc.relevance :=
  ⟨fun x hx => by unfold lnSample; linarith, reachableOk_twoCatServer.reachable, by decide!,
    (relevance_nonneg SplitIntoWordsSpec lnSample (fun x hx => by unfold lnSample; linarith)
      twoCatServer reachableOk_twoCatServer.reachable "city cat" (fun _ _ _ => true)
      [⟨42, 1 / 4, 2⟩, ⟨1, 0, 5⟩] (by decide!)).1⟩

end SearchServer

/-! ## `Paginate` -/

theorem PagesFrom.le {page_size end_it least left : Nat} {pages : List IteratorRange}
    (h : PagesFrom page_size end_it least left pages) : left + least ≤ end_it := by
  induction h with
  | last left h1 _ => exact h1
  | page left rest _ ih => omega

theorem PagesFrom.elements {α : Type} (c : List α) {page_size end_it least left : Nat}
    {pages : List IteratorRange} (h : PagesFrom page_size end_it least left pages) :
    (pages.map (IteratorRange.elements c)).flatten = (c.drop left).take (end_it - left) := by
  induction h with
  | last left _ _ => simp [IteratorRange.elements]
  | page left rest hrest ih =>
    have hle := hrest.le
    simp only [List.map_cons, List.flatten_cons, ih, IteratorRange.elements]
    have h1 : left + page_size - left = page_size := by omega
    have h2 : end_it - left = page_size + (end_it - (left + page_size)) := by omega
    rw [h1, h2, List.take_add, List.drop_drop]

theorem PagesFrom.full_pages {page_size end_it least left : Nat} {pages : List IteratorRange}
    (h : PagesFrom page_size end_it least left pages) :
    ∀ p ∈ pages.dropLast, p.size = page_size := by
  induction h with
  | last left _ _ => simp
  | page left rest hrest ih =>
    intro p hp
    cases rest with
    | nil => cases hrest
    | cons r rest' =>
      simp only [List.dropLast_cons₂, List.mem_cons] at hp
      rcases hp with hp | hp
      · rw [hp]
        simp [IteratorRange.size]
      · exact ih p hp

theorem PagesFrom.last_page {page_size end_it least left : Nat} {pages : List IteratorRange}
    (h : PagesFrom page_size end_it least left pages) :
    ∃ last, pages.getLast? = some last ∧ last.end_ = end_it ∧ least ≤ last.size ∧
      last.size ≤ page_size := by
  induction h with
  | last left h1 h2 =>
    exact ⟨⟨left, end_it⟩, rfl, rfl, by simp only [IteratorRange.size]; omega,
      by simp only [IteratorRange.size]; omega⟩
  | page left rest hrest ih =>
    obtain ⟨last, hlast, hrest'⟩ := ih
    cases rest with
    | nil => cases hrest
    | cons r rest' => exact ⟨last, by simpa [List.getLast?_cons_cons] using hlast, hrest'⟩

theorem PagesFrom.length {page_size end_it left : Nat} {pages : List IteratorRange}
    (hps : 1 ≤ page_size) (h : PagesFrom page_size end_it 1 left pages) :
    pages.length = (end_it - left + page_size - 1) / page_size := by
  induction h with
  | last left h1 h2 =>
    symm
    apply Nat.div_eq_of_lt_le
    · simp only [List.length_singleton, one_mul]; omega
    · simp only [List.length_singleton]; omega
  | page left rest hrest ih =>
    have hle := hrest.le
    have he : end_it - left + page_size - 1 =
        (end_it - (left + page_size) + page_size - 1) + page_size := by omega
    rw [List.length_cons, ih, he, Nat.add_div_right _ (by omega)]

/-- The pages the loop of the constructor adds to those it already has. -/
theorem Paginator_loop_pages (begin_it end_it page_size : Nat) (hps : 1 ≤ page_size)
    (remaining doc_it left_it : Nat) (page_ranges : List IteratorRange)
    (hend : doc_it + remaining = end_it) (hbegin : begin_it ≤ left_it)
    (hleft : left_it ≤ doc_it) (hsize : doc_it - left_it ≤ page_size)
    (hfirst : doc_it ≠ begin_it → left_it < doc_it) :
    ∃ tail, Paginator_loop begin_it end_it page_size remaining doc_it left_it page_ranges =
        page_ranges ++ tail ∧
      PagesFrom page_size end_it (if begin_it < end_it then 1 else 0) left_it tail := by
  induction remaining generalizing doc_it left_it page_ranges with
  | zero =>
    refine ⟨[⟨left_it, end_it⟩], rfl, PagesFrom.last left_it ?_ ?_⟩
    · split <;> omega
    · omega
  | succ remaining ih =>
    unfold Paginator_loop
    by_cases hc : (doc_it - left_it) % page_size = 0 ∧ doc_it ≠ begin_it
    · rw [if_pos hc]
      have hfull : doc_it - left_it = page_size := by
        have hlt := hfirst hc.2
        rcases Nat.lt_or_ge (doc_it - left_it) page_size with h | h
        · have := Nat.mod_eq_of_lt h
          omega
        · omega
      obtain ⟨tail, he, hpages⟩ := ih (doc_it + 1) doc_it (page_ranges ++ [⟨left_it, doc_it⟩])
        (by omega) (by omega) (by omega) (by omega) (by omega)
      refine ⟨⟨left_it, doc_it⟩ :: tail, by rw [he]; simp, ?_⟩
      have hd : doc_it = left_it + page_size := by omega
      rw [hd] at hpages ⊢
      exact PagesFrom.page left_it tail hpages
    · rw [if_neg hc]
      have hless : doc_it + 1 - left_it ≤ page_size := by
        by_cases hb : doc_it = begin_it
        · omega
        · have hlt := hfirst hb
          have hmod : (doc_it - left_it) % page_size ≠ 0 := fun h => hc ⟨h, hb⟩
          rcases Nat.lt_or_ge (doc_it - left_it) page_size with h | h
          · omega
          · have : doc_it - left_it = page_size := by omega
            rw [this, Nat.mod_self] at hmod
            exact absurd rfl hmod
      exact ih (doc_it + 1) left_it page_ranges (by omega) hbegin (by omega) hless (by omega)

/-- C38: for a container `c` and a page size of at least 1, `Paginate` returns pages
whose elements, concatenated in order, are the elements of `c` in order; every page but
the last has `page_size` elements; for a non-empty `c` the last page has between 1 and
`page_size` elements and the number of pages is `⌈n / page_size⌉`; for an empty `c` there
is exactly one page, and it is empty. -/
theorem Paginate_partitions {α : Type} (c : List α) (page_size : Nat) (hps : 1 ≤ page_size) :
    ∃ pages, Paginate c page_size = some pages ∧
      (pages.map (IteratorRange.elements c)).flatten = c ∧
      (∀ p ∈ pages.dropLast, p.size = page_size) ∧
      (c ≠ [] → ∃ last, pages.getLast? = some last ∧ 1 ≤ last.size ∧
        last.size ≤ page_size ∧
        pages.length = (c.length + page_size - 1) / page_size) ∧
      (c = [] → pages = [⟨0, 0⟩] ∧ IteratorRange.elements c ⟨0, 0⟩ = []) := by
  obtain ⟨tail, he, hpages⟩ := Paginator_loop_pages 0 c.length page_size hps (c.length - 0) 0 0 []
    (by omega) (by omega) (by omega) (by omega) (by omega)
  refine ⟨tail, ?_, ?_, hpages.full_pages, fun hne => ?_, fun hnil => ?_⟩
  · unfold Paginate Paginator
    rw [if_neg (by omega), he, List.nil_append]
  · rw [hpages.elements c]
    simp
  · have hlen : 0 < c.length := List.length_pos.mpr hne
    rw [if_pos hlen] at hpages
    obtain ⟨last, hlast, _, h1, h2⟩ := hpages.last_page
    refine ⟨last, hlast, h1, h2, ?_⟩
    have := PagesFrom.length hps hpages
    simpa using this
  · subst hnil
    simp only [List.length_nil, Nat.sub_self, Paginator_loop, List.nil_append] at he
    exact ⟨he.symm, rfl⟩

theorem Paginate_partitions_witness :
    (1 : Nat) ≤ 2 ∧
    Paginate [10, 20, 30, 40, 50] 2 = some [⟨0, 2⟩, ⟨2, 4⟩, ⟨4, 5⟩] ∧
    ([⟨0, 2⟩, ⟨2, 4⟩, ⟨4, 5⟩].map (IteratorRange.elements [10, 20, 30, 40, 50])).flatten =
      [10, 20, 30, 40, 50] ∧
    ∃ pages, Paginate [10, 20, 30, 40, 50] 2 = some pages ∧
      (pages.map (IteratorRange.elements [10, 20, 30, 40, 50])).flatten = [10, 20, 30, 40, 50] :=
  ⟨by decide, by decide, by decide,
    (Paginate_partitions [10, 20, 30, 40, 50] 2 (by decide)).imp (fun _ h => ⟨h.1, h.2.1⟩)⟩

/-! ## The password generator -/

theorem wrapInt64_of_fits (x : Int) (h1 : -9223372036854775808 ≤ x)
    (h2 : x < 9223372036854775808) : wrapInt64 x = x := by
  unfold wrapInt64
  omega

theorem tmod_range (x m : Int) (hx : 0 ≤ x) (hm : 0 < m) :
    0 ≤ Int.tmod x m ∧ Int.tmod x m < m :=
  ⟨Int.tmod_nonneg m hx, Int.tmod_lt_of_pos x hm⟩

/-- The numbers of the first loop of `RNG` stay in `[0, m)` when no product overflows. -/
theorem RNG_nums_range (a b m : Int) (ha : 0 ≤ a) (hb : 0 ≤ b) (hm : 0 < m)
    (hbound : ∀ x : Int, 0 ≤ x → x < m → x * a + b < 9223372036854775808) (count : Nat)
    (previous : Int) (hprev : 0 ≤ previous)
    (hfits : previous * a + b < 9223372036854775808) :
    (RNG_nums a b m count previous).length = count ∧
    ∀ num ∈ RNG_nums a b m count previous, 0 ≤ num ∧ num < m := by
  induction count generalizing previous with
  | zero => simp [RNG_nums]
  | succ count ih =>
    have hprod : 0 ≤ previous * a := mul_nonneg hprev ha
    have h1 : wrapInt64 (previous * a) = previous * a :=
      wrapInt64_of_fits _ (by omega) (by omega)
    have h2 : wrapInt64 (previous * a + b) = previous * a + b :=
      wrapInt64_of_fits _ (by omega) (by omega)
    have hnext := tmod_range (previous * a + b) m (by omega) hm
    unfold RNG_nums
    rw [h1, h2]
    obtain ⟨hlen, hmem⟩ := ih _ hnext.1 (hbound _ hnext.1 hnext.2)
    refine ⟨by simp [hlen], fun num hnum => ?_⟩
    rcases List.mem_cons.mp hnum with h | h
    · rw [h]; exact hnext
    · exact hmem num h

theorem RNG_Upgrade_pick_spec (array1 : List Int) (array3 : List Int)
    (hindex : ∀ index ∈ array3, 0 ≤ index ∧ index.toNat < array1.length) :
    ∃ array4, RNG_Upgrade_pick array1 array3 = some array4 ∧
      array4.length = array3.length ∧ ∀ num ∈ array4, num ∈ array1 := by
  induction array3 with
  | nil => exact ⟨[], rfl, rfl, by simp⟩
  | cons index rest ih =>
    obtain ⟨h0, hlt⟩ := hindex index (List.mem_cons_self _ _)
    obtain ⟨nums, hrest, hlen, hmem⟩ := ih (fun i hi => hindex i (List.mem_cons_of_mem _ hi))
    have hget : array1[index.toNat]? = some (array1[index.toNat]) :=
      List.getElem?_eq_getElem hlt
    refine ⟨array1[index.toNat] :: nums, ?_, by simp [hlen], fun num hnum => ?_⟩
    · simp [RNG_Upgrade_pick, h0, hget, hrest]
    · rcases List.mem_cons.mp hnum with h | h
      · rw [h]; exact List.getElem_mem _
      · exact hmem num h

theorem mem_zipWith_cases {α β γ : Type} (f : α → β → γ) (l₁ : List α) (l₂ : List β) (z : γ)
    (h : z ∈ List.zipWith f l₁ l₂) : ∃ x ∈ l₁, ∃ y ∈ l₂, z = f x y := by
  induction l₁ generalizing l₂ with
  | nil => simp at h
  | cons x xs ih =>
    cases l₂ with
    | nil => simp at h
    | cons y ys =>
      simp only [List.zipWith_cons_cons, List.mem_cons] at h
      rcases h with h | h
      · exact ⟨x, List.mem_cons_self _ _, y, List.mem_cons_self _ _, h⟩
      · obtain ⟨x', hx', y', hy', he⟩ := ih ys h
        exact ⟨x', List.mem_cons_of_mem _ hx', y', List.mem_cons_of_mem _ hy', he⟩

/-- The outcome of `RNG` for a positive size, positive moduli and a non-negative seed
whose first product does not overflow. -/
theorem RNG_spec (a b m seed N max_bound : Int) (ha : 0 ≤ a) (hb : 0 ≤ b) (hm : 0 < m)
    (hbound : ∀ x : Int, 0 ≤ x → x < m → x * a + b < 9223372036854775808)
    (hseed : 0 ≤ seed) (hfits : seed * a + b < 9223372036854775808) (hN : 0 < N)
    (hmax : 0 < max_bound) :
    ∃ nums, RNG a b m seed N max_bound = some nums ∧ nums.length = N.toNat ∧
      ∀ num ∈ nums, 0 ≤ num ∧ num < max_bound ∧ num < m := by
  obtain ⟨hlen, hmem⟩ := RNG_nums_range a b m ha hb hm hbound N.toNat seed hseed hfits
  refine ⟨(RNG_nums a b m N.toNat seed).map (fun num => Int.tmod num max_bound), ?_,
    by simp [hlen], fun num hnum => ?_⟩
  · unfold RNG
    rw [if_neg (by omega)]
  · obtain ⟨x, hx, he⟩ := List.mem_map.mp hnum
    obtain ⟨h0, h1⟩ := hmem x hx
    obtain ⟨h2, h3⟩ := tmod_range x max_bound h0 hmax
    rw [← he]
    refine ⟨h2, h3, ?_⟩
    have : Int.tmod x max_bound ≤ x := by
      rw [Int.tmod_eq_emod h0 (le_of_lt hmax)]
      have hdiv := Int.emod_add_ediv x max_bound
      have hq : 0 ≤ x / max_bound := Int.ediv_nonneg h0 (le_of_lt hmax)
      have hprod : 0 ≤ max_bound * (x / max_bound) := mul_nonneg (le_of_lt hmax) hq
      omega
    omega

/-- C40, refuted: for the non-negative seed `2^63 - 1` and `N = 1` the product
`seed * 7141` does not fit in 64 bits; with two's-complement wrap-around `RNG_Upgrade`
returns the negative number -181276 and the value cast to `char` is -11. -/
theorem passgen_seed_overflow :
    (0 : Int) ≤ 9223372036854775807 ∧
    ¬ ((9223372036854775807 : Int) * 7141 + 54773 < 9223372036854775808) ∧
    RNG 8121 28411 134456 (Int.tmod 9223372036854775807 1000) 1 (wrapInt32 (2 * 1)) =
      some [0] ∧
    RNG_Upgrade 9223372036854775807 1 = some [-181276] ∧
    passgen_main 9223372036854775807 1 = some [-11] :=
  ⟨by decide, by decide, by decide, by decide, by decide⟩

/-- C40, amended: for `1 ≤ N < 2^30` and a non-negative seed every value of `array3`
lies in `[0, 2N)`; when moreover `seed ≤ 1135743385895178`, so that `seed * 8121 + 28411`
fits in 64 bits, no product overflows, `RNG_Upgrade` returns `N` numbers, each of them
in `[0, 259567)`, and each of the `N` values `rng_nums[i] % 94 + 33` lies in
`[33, 126]`. -/
theorem passgen_in_bounds (seed N : Int) (hN : 1 ≤ N) (hint : N ≤ 1073741823)
    (hseed : 0 ≤ seed) :
    (∃ array3, RNG 8121 28411 134456 (Int.tmod seed 1000) N (wrapInt32 (2 * N)) =
        some array3 ∧ array3.length = N.toNat ∧
      ∀ index ∈ array3, 0 ≤ index ∧ index < 2 * N) ∧
    (seed ≤ 1135743385895178 →
      seed * 7141 + 54773 < 9223372036854775808 ∧
      seed * 8121 + 28411 < 9223372036854775808 ∧
      ∃ rng_nums codes, RNG_Upgrade seed N = some rng_nums ∧
        rng_nums.length = N.toNat ∧ (∀ num ∈ rng_nums, 0 ≤ num ∧ num < 259567) ∧
        passgen_main seed N = some codes ∧ codes.length = N.toNat ∧
        ∀ code ∈ codes, 33 ≤ code ∧ code ≤ 126) := by
  have hwrap : wrapInt32 (2 * N) = 2 * N := by
    unfold wrapInt32
    omega
  have hmax : wrapInt32 10000000000000000 = 1874919424 := by decide
  have hsmall := tmod_range seed 1000 hseed (by decide)
  obtain ⟨array3, h3, hlen3, hmem3⟩ := RNG_spec 8121 28411 134456 (Int.tmod seed 1000) N
    (2 * N) (by decide) (by decide) (by decide) (fun x _ hx => by omega) hsmall.1
    (by omega) (by omega) (by omega)
  have hindex : ∀ index ∈ array3, 0 ≤ index ∧ index < 2 * N :=
    fun index hi => ⟨(hmem3 index hi).1, (hmem3 index hi).2.1⟩
  refine ⟨⟨array3, by rw [hwrap]; exact h3, hlen3, hindex⟩, fun hbig => ?_⟩
  have hfits1 : seed * 7141 + 54773 < 9223372036854775808 := by omega
  have hfits2 : seed * 8121 + 28411 < 9223372036854775808 := by omega
  obtain ⟨array1, h1, hlen1, hmem1⟩ := RNG_spec 7141 54773 259200 seed (2 * N) 1874919424
    (by decide) (by decide) (by decide) (fun x _ hx => by omega) hseed hfits1 (by omega)
    (by decide)
  obtain ⟨array2, h2, hlen2, hmem2⟩ := RNG_spec 8121 28411 134456 seed (2 * N) 1874919424
    (by decide) (by decide) (by decide) (fun x _ hx => by omega) hseed hfits2 (by omega)
    (by decide)
  have hsum : ∀ num ∈ List.zipWith (fun num1 num2 => wrapInt64 (num1 + Int.tdiv num2 367))
      array1 array2, 0 ≤ num ∧ num < 259567 := by
    intro num hnum
    obtain ⟨x, hx, y, hy, he⟩ := mem_zipWith_cases _ array1 array2 num hnum
    obtain ⟨hx0, _, hx1⟩ := hmem1 x hx
    obtain ⟨hy0, _, hy1⟩ := hmem2 y hy
    have hdiv : Int.tdiv y 367 = y / 367 := Int.tdiv_eq_ediv hy0 (by decide)
    rw [he, hdiv, wrapInt64_of_fits _ (by omega) (by omega)]
    omega
  have hlen : (List.zipWith (fun num1 num2 => wrapInt64 (num1 + Int.tdiv num2 367))
      array1 array2).length = (2 * N).toNat := by
    simp [hlen1, hlen2]
  obtain ⟨array4, h4, hlen4, hmem4⟩ := RNG_Upgrade_pick_spec
    (List.zipWith (fun num1 num2 => wrapInt64 (num1 + Int.tdiv num2 367)) array1 array2) array3
    (fun index hi => ⟨(hindex index hi).1, by rw [hlen]; have := hindex index hi; omega⟩)
  have hup : RNG_Upgrade seed N = some array4 := by
    unfold RNG_Upgrade
    simp only [hwrap, hmax, h1, h2, h3, h4]
  refine ⟨hfits1, hfits2, array4, array4.map (fun num => Int.tmod num 94 + 33), hup,
    by rw [hlen4, hlen3], fun num hnum => hsum num (hmem4 num hnum), ?_,
    by simp [hlen4, hlen3], fun code hcode => ?_⟩
  · unfold passgen_main
    rw [hup]
  · obtain ⟨num, hnum, he⟩ := List.mem_map.mp hcode
    have := tmod_range num 94 (hsum num (hmem4 num hnum)).1 (by decide)
    omega

theorem passgen_in_bounds_witness :
    (1 : Int) ≤ 4 ∧ (4 : Int) ≤ 1073741823 ∧ (0 : Int) ≤ 1700000000 ∧
    RNG_Upgrade 1700000000 4 = some [44929, 78720, 184181, 204729] ∧
    passgen_main 1700000000 4 = some [124, 75, 68, 124] ∧
    ∃ array3, RNG 8121 28411 134456 (Int.tmod 1700000000 1000) 4 (wrapInt32 (2 * 4)) =
        some array3 ∧ array3.length = (4 : Int).toNat ∧
      ∀ index ∈ array3, 0 ≤ index ∧ index < 2 * 4 :=
  ⟨by decide, by decide, by decide, by decide, by decide,
    (passgen_in_bounds 1700000000 4 (by decide) (by decide) (by decide)).1⟩

/-! ## `SimpleVector` -/

theorem stdCopy_length {α : Type} (src : List α) (first last : Nat) (dest : List α)
    (d_first : Nat) (result : List α) (it : Nat)
    (h : stdCopy src first last dest d_first = .ok (result, it)) :
    result.length = dest.length ∧ it = d_first + (last - first) := by
  unfold stdCopy at h
  split at h
  · rename_i hc
    cases h
    refine ⟨?_, rfl⟩
    simp only [List.length_append, List.length_take, List.length_drop]
    omega
  · cases h

theorem stdCopyBackward_length {α : Type} (array : List α) (first last d_last : Nat)
    (result : List α) (it : Nat)
    (h : stdCopyBackward array first last d_last = .ok (result, it)) :
    result.length = array.length := by
  unfold stdCopyBackward at h
  split at h
  · rename_i hc
    cases h
    simp only [List.length_append, List.length_take, List.length_drop]
    omega
  · cases h

theorem ArrayPtr.write_length {α : Type} (ptr : ArrayPtr α) (index : Nat) (value : α)
    (result : ArrayPtr α) (h : ArrayPtr.write ptr index value = .ok result) :
    result.length = ptr.length := by
  unfold ArrayPtr.write at h
  split at h
  · cases h
    simp
  · cases h

namespace SimpleVector

variable {α : Type} [Inhabited α]

theorem NewSized_wellFormed (size : Nat) : WellFormed (NewSized size : SimpleVector α) :=
  ⟨by simp [NewSized], by simp [NewSized]⟩

theorem Resize_wellFormed (v v₁ : SimpleVector α) (new_size : Nat) (hv : WellFormed v)
    (h : Resize v new_size = .ok v₁) : WellFormed v₁ := by
  unfold Resize at h
  split at h
  · simp only [] at h
    split at h
    · cases h
    · rename_i ptr it hcopy
      cases h
      obtain ⟨hlen, _⟩ := stdCopy_length _ _ _ _ _ _ _ hcopy
      refine ⟨?_, ?_⟩
      · simpa [NewSized] using hlen
      · simp only [NewSized]
        exact le_max_right _ _
  · rename_i hc
    cases h
    exact ⟨hv.array, by simp only; omega⟩

theorem PushBack_wellFormed (v v₁ : SimpleVector α) (item : Reference α) (hv : WellFormed v)
    (h : PushBack v item = .ok v₁) : WellFormed v₁ := by
  unfold PushBack at h
  split at h
  · split at h
    · cases h
    · rename_i v₂ hres
      have hv₂ := Resize_wellFormed v v₂ _ hv hres
      split at h
      · cases h
      · split at h
        · cases h
        · rename_i ptr hw
          cases h
          exact ⟨by rw [ArrayPtr.write_length _ _ _ _ hw]; exact hv₂.array, hv₂.size⟩
  · rename_i hc
    split at h
    · cases h
    · split at h
      · cases h
      · rename_i ptr hw
        cases h
        refine ⟨by rw [ArrayPtr.write_length _ _ _ _ hw]; exact hv.array, ?_⟩
        have := hv.size
        have : (v.size_ + 1) % SIZE_MODULUS ≤ v.size_ + 1 := Nat.mod_le _ _
        simp only
        omega

theorem Insert_wellFormed (v v₁ : SimpleVector α) (pos it : Nat) (value : Reference α)
    (hv : WellFormed v) (h : Insert v pos value = .ok (v₁, it)) : WellFormed v₁ := by
  unfold Insert at h
  split at h
  · cases h
  · split at h
    · simp only [] at h
      split at h
      · cases h
      · rename_i temp htemp
        have ht := Resize_wellFormed _ temp _ (NewSized_wellFormed _) htemp
        split at h
        · cases h
        · rename_i ptr₁ paste_it h1
          split at h
          · cases h
          · split at h
            · cases h
            · rename_i ptr₂ h2
              split at h
              · cases h
              · rename_i ptr₃ it₃ h3
                cases h
                refine ⟨?_, ht.size⟩
                rw [(stdCopy_length _ _ _ _ _ _ _ h3).1, ArrayPtr.write_length _ _ _ _ h2,
                  (stdCopy_length _ _ _ _ _ _ _ h1).1]
                exact ht.array
    · rename_i hc
      simp only [] at h
      split at h
      · cases h
      · rename_i ptr₁ it₁ h1
        split at h
        · cases h
        · split at h
          · cases h
          · rename_i ptr₂ h2
            cases h
            refine ⟨?_, ?_⟩
            · rw [ArrayPtr.write_length _ _ _ _ h2, stdCopyBackward_length _ _ _ _ _ _ h1]
              exact hv.array
            · have := hv.size
              have : (v.size_ + 1) % SIZE_MODULUS ≤ v.size_ + 1 := Nat.mod_le _ _
              simp only
              omega

omit [Inhabited α] in
theorem PopBack_wellFormed (v v₁ : SimpleVector α) (hv : WellFormed v)
    (h : PopBack v = .ok v₁) : WellFormed v₁ := by
  unfold PopBack at h
  split at h
  · cases h
  · cases h
    exact ⟨hv.array, by have := hv.size; simp only; omega⟩

omit [Inhabited α] in
theorem Erase_wellFormed (v v₁ : SimpleVector α) (pos it : Nat) (hv : WellFormed v)
    (h : Erase v pos = .ok (v₁, it)) : WellFormed v₁ := by
  unfold Erase at h
  split at h
  · cases h
  · split at h
    · cases h
    · rename_i ptr it₁ h1
      cases h
      exact ⟨by rw [(stdCopy_length _ _ _ _ _ _ _ h1).1]; exact hv.array,
        by have := hv.size; simp only; omega⟩

omit [Inhabited α] in
theorem Assign_wellFormed (v v₁ : SimpleVector α) (index : Nat) (value : α)
    (hv : WellFormed v) (h : Assign v index value = .ok v₁) : WellFormed v₁ := by
  unfold Assign at h
  split at h
  · split at h
    · cases h
    · rename_i ptr hw
      cases h
      exact ⟨by rw [ArrayPtr.write_length _ _ _ _ hw]; exact hv.array, hv.size⟩
  · cases h

theorem Reserve_wellFormed (v v₁ : SimpleVector α) (new_capacity : Nat) (hv : WellFormed v)
    (h : Reserve v new_capacity = .ok v₁) : WellFormed v₁ := by
  unfold Reserve at h
  split at h
  · split at h
    · cases h
    · rename_i temp htemp
      have ht := Resize_wellFormed _ temp _ (NewSized_wellFormed _) htemp
      split at h
      · cases h
      · rename_i ptr it hcopy
        cases h
        exact ⟨by rw [(stdCopy_length _ _ _ _ _ _ _ hcopy).1]; exact ht.array, ht.size⟩
  · cases h
    exact hv

/-- Every vector a program can build satisfies the class invariant. -/
theorem Reachable.wellFormed {v : SimpleVector α} (h : Reachable v) : WellFormed v := by
  induction h with
  | new => exact ⟨rfl, le_refl _⟩
  | newSized size => exact NewSized_wellFormed size
  | newFilled size value => exact ⟨by simp [NewFilled], by simp [NewFilled]⟩
  | newFromList init => exact ⟨rfl, le_refl _⟩
  | assign v v₁ index value _ hres ih => exact Assign_wellFormed v v₁ index value ih hres
  | reserve v v₁ new_capacity _ hres ih => exact Reserve_wellFormed v v₁ new_capacity ih hres
  | clear v _ ih => exact ⟨ih.array, Nat.zero_le _⟩
  | resize v v₁ new_size _ hres ih => exact Resize_wellFormed v v₁ new_size ih hres
  | pushBack v v₁ item _ hres ih => exact PushBack_wellFormed v v₁ item ih hres
  | insert v v₁ pos it value _ hres ih => exact Insert_wellFormed v v₁ pos it value ih hres
  | popBack v v₁ _ hres ih => exact PopBack_wellFormed v v₁ ih hres
  | erase v v₁ pos it _ hres ih => exact Erase_wellFormed v v₁ pos it ih hres

end SimpleVector

theorem take_succ_set {α : Type} (ptr : List α) (size : Nat) (item : α)
    (h : size < ptr.length) :
    (ptr.set size item).take (size + 1) = ptr.take size ++ [item] := by
  apply List.ext_getElem?
  intro k
  simp only [List.getElem?_take, List.getElem?_set, List.getElem?_append, List.length_take]
  by_cases h1 : k < size
  · have : ¬ size = k := by omega
    simp [h1, this, Nat.lt_succ_of_lt h1, Nat.min_eq_left (le_of_lt h)]
  · by_cases h2 : k = size
    · subst h2
      simp [h, Nat.min_eq_left (le_of_lt h)]
    · have : ¬ k < size + 1 := by omega
      simp [this, h1, Nat.min_eq_left (le_of_lt h)]
      omega

namespace SimpleVector

variable {α : Type} [Inhabited α]

/-- A growing `Resize` beyond the capacity: the old elements, then default values. -/
theorem Resize_grow (v : SimpleVector α) (hv : WellFormed v) (new_size : Nat)
    (hgrow : v.capacity_ < new_size) :
    Resize v new_size =
      .ok ⟨new_size, max (v.capacity_ * 2 % SIZE_MODULUS) new_size,
        toList v ++ List.replicate (max (v.capacity_ * 2 % SIZE_MODULUS) new_size - v.size_)
          default⟩ := by
  have hsize := hv.size
  have harr := hv.array
  unfold Resize
  rw [if_pos hgrow]
  simp only [NewSized, stdCopy]
  rw [if_pos ⟨Nat.zero_le _, by omega, by
    simp only [List.length_replicate]
    have := le_max_right (v.capacity_ * 2 % SIZE_MODULUS) new_size
    omega⟩]
  simp [toList]

/-- For a vector that satisfies the class invariant, as every vector a program can build
does, and has a capacity below `2^63`, and an item that is an object outside the array, or
any reference when the vector is not full, `PushBack` returns; the elements afterwards are
the old ones followed by the value of the item; the capacity becomes `max(2 * capacity, 1)`
when the vector was full and is unchanged otherwise. -/
theorem PushBack_appends (v : SimpleVector α) (hwf : WellFormed v)
    (hcap : v.capacity_ < 9223372036854775808) (item : Reference α) (value : α)
    (hread : Reference.read item v.ptr_ false = .ok value)
    (hobject : GetSize v = GetCapacity v → item = Reference.object value) :
    ∃ v₁, PushBack v item = .ok v₁ ∧ toList v₁ = toList v ++ [value] ∧
      GetSize v₁ = GetSize v + 1 ∧
      GetCapacity v₁ =
        if GetSize v = GetCapacity v then max (2 * GetCapacity v) 1 else GetCapacity v := by
  have hsize := hwf.size
  have harr := hwf.array
  have hmod : (v.size_ + 1) % SIZE_MODULUS = v.size_ + 1 :=
    Nat.mod_eq_of_lt (by unfold SIZE_MODULUS; omega)
  have hdouble : v.capacity_ * 2 % SIZE_MODULUS = v.capacity_ * 2 :=
    Nat.mod_eq_of_lt (by unfold SIZE_MODULUS; omega)
  unfold GetSize GetCapacity at hobject
  unfold PushBack GetSize GetCapacity
  by_cases hfull : v.size_ = v.capacity_
  · rw [if_pos hfull, if_pos hfull, hmod, Resize_grow v hwf (v.size_ + 1) (by omega), hdouble,
      hobject hfull]
    simp only [Reference.read]
    have hprev : (v.size_ + 1 + SIZE_MODULUS - 1) % SIZE_MODULUS = v.size_ := by
      unfold SIZE_MODULUS
      omega
    have hlen : (toList v).length = v.size_ := by
      simp [toList, harr, hsize]
    have hroom : v.size_ < (toList v ++ List.replicate
        (max (v.capacity_ * 2) (v.size_ + 1) - v.size_) (default : α)).length := by
      simp only [List.length_append, hlen, List.length_replicate]
      have := le_max_right (v.capacity_ * 2) (v.size_ + 1)
      omega
    rw [hprev]
    unfold ArrayPtr.write
    rw [if_pos hroom]
    refine ⟨_, rfl, ?_, rfl, ?_⟩
    · have key := take_succ_set _ _ value hroom
      have hpre : List.take v.size_ (toList v ++ List.replicate
          (max (v.capacity_ * 2) (v.size_ + 1) - v.size_) (default : α)) = toList v := by
        rw [List.take_append_of_le_length (by rw [hlen]), List.take_of_length_le (by rw [hlen])]
      rw [hpre] at key
      exact key
    · simp only
      rcases Nat.eq_zero_or_pos v.capacity_ with h0 | h0
      · simp [h0, hfull]
      · have h1 : max (v.capacity_ * 2) (v.size_ + 1) = v.capacity_ * 2 :=
          max_eq_left (by omega)
        have h2 : max (2 * v.capacity_) 1 = 2 * v.capacity_ := max_eq_left (by omega)
        rw [h1, h2]
        omega
  · rw [if_neg hfull, if_neg hfull, hmod, hread]
    have hroom : v.size_ < v.ptr_.length := by omega
    simp only
    unfold ArrayPtr.write
    rw [if_pos hroom]
    exact ⟨_, rfl, take_succ_set _ _ _ hroom, rfl, rfl⟩

/-- On a full vector `PushBack` of a reference to a cell of the vector reads the cell
after `Resize` has released the array: the call is undefined. -/
theorem PushBack_full_cell (v : SimpleVector α) (hwf : WellFormed v)
    (hcap : v.capacity_ < 9223372036854775808) (index : Nat)
    (hfull : v.size_ = v.capacity_) :
    PushBack v (Reference.cell index) = .error VectorError.undefined := by
  have hmod : (v.size_ + 1) % SIZE_MODULUS = v.size_ + 1 :=
    Nat.mod_eq_of_lt (by unfold SIZE_MODULUS; omega)
  unfold PushBack
  rw [if_pos hfull, hmod, Resize_grow v hwf (v.size_ + 1) (by omega)]
  simp only [Reference.read]
  rw [if_pos (by simp; omega)]

end SimpleVector

namespace SimpleVector

variable {α : Type} [Inhabited α]

/-- `Insert` into a full vector, of any reference that can be read. -/
theorem Insert_full (v : SimpleVector α) (hwf : WellFormed v)
    (hcap : v.capacity_ < 9223372036854775808) (pos : Nat) (hpos : pos ≤ v.size_)
    (reference : Reference α) (value : α)
    (hread : Reference.read reference v.ptr_ false = .ok value)
    (hfull : v.size_ = v.capacity_) :
    ∃ v₁, Insert v pos reference = .ok (v₁, pos) ∧
      toList v₁ = (toList v).take pos ++ [value] ++ (toList v).drop pos ∧
      v₁.size_ = v.size_ + 1 ∧ v₁.capacity_ = max (v.capacity_ * 2) (v.size_ + 1) := by
  have hsize := hwf.size
  have harr := hwf.array
  have hmod : (v.size_ + 1) % SIZE_MODULUS = v.size_ + 1 :=
    Nat.mod_eq_of_lt (by unfold SIZE_MODULUS; omega)
  have hdouble : v.capacity_ * 2 % SIZE_MODULUS = v.capacity_ * 2 :=
    Nat.mod_eq_of_lt (by unfold SIZE_MODULUS; omega)
  have hnc := le_max_right (v.capacity_ * 2) (v.size_ + 1)
  generalize hncdef : max (v.capacity_ * 2) (v.size_ + 1) = nc at hnc
  have htemp : Resize (NewSized nc : SimpleVector α) (v.size_ + 1) =
      .ok ⟨v.size_ + 1, nc, List.replicate nc default⟩ := by
    unfold Resize
    rw [if_neg (by simp only [NewSized]; omega)]
    rfl
  unfold Insert
  rw [if_neg (by omega), if_pos hfull, hmod, hdouble, hncdef]
  simp only [htemp]
  unfold stdCopy
  rw [if_pos ⟨Nat.zero_le _, by omega, by simp only [List.length_replicate]; omega⟩]
  simp only [hread]
  unfold ArrayPtr.write
  rw [if_pos (by simp; omega)]
  simp only
  rw [if_pos ⟨hpos, by omega, by simp; omega⟩]
  simp only [Nat.zero_add, Nat.sub_zero, List.take_zero, List.nil_append, List.drop_zero]
  refine ⟨_, rfl, ?_, rfl, rfl⟩
  simp only [toList]
  apply List.ext_getElem?
  intro k
  simp only [List.getElem?_take, List.getElem?_append, List.getElem?_drop, List.getElem?_set,
    List.getElem?_replicate, List.length_take, List.length_append, List.length_drop,
    List.length_set, List.length_replicate, List.length_cons, List.length_nil,
    List.take_zero, List.nil_append, Nat.zero_add, Nat.sub_zero, List.drop_zero]
  have e1 : min pos v.ptr_.length = pos := by omega
  have e2 : min v.size_ v.ptr_.length = v.size_ := by omega
  have e3 : min pos v.size_ = pos := by omega
  have e4 : min (pos + 1) (pos + (nc - pos)) = pos + 1 := by omega
  have e5 : min (v.size_ - pos) (v.ptr_.length - pos) = v.size_ - pos := by omega
  simp only [e1, e2, e3, e4, e5]
  split_ifs <;>
    first
    | rfl
    | omega
    | exact congrArg (fun i => v.ptr_[i]?) (by omega)
    | (have hk : k - pos = 0 := by omega
       rw [hk]; rfl)

/-- `Insert` into a vector with spare capacity, of an object outside the array. -/
theorem Insert_spare (v : SimpleVector α) (hwf : WellFormed v)
    (hcap : v.capacity_ < 9223372036854775808) (pos : Nat) (hpos : pos ≤ v.size_) (value : α)
    (hspare : v.size_ ≠ v.capacity_) :
    ∃ v₁, Insert v pos (Reference.object value) = .ok (v₁, pos) ∧
      toList v₁ = (toList v).take pos ++ [value] ++ (toList v).drop pos ∧
      v₁.size_ = v.size_ + 1 ∧ v₁.capacity_ = v.capacity_ := by
  have hsize := hwf.size
  have harr := hwf.array
  have hmod : (v.size_ + 1) % SIZE_MODULUS = v.size_ + 1 :=
    Nat.mod_eq_of_lt (by unfold SIZE_MODULUS; omega)
  have hprev : (v.size_ + 1 + SIZE_MODULUS - 1) % SIZE_MODULUS = v.size_ := by
    unfold SIZE_MODULUS
    omega
  unfold Insert
  rw [if_neg (by omega), if_neg hspare]
  simp only [hmod, hprev]
  unfold stdCopyBackward
  rw [if_pos ⟨hpos, by omega, by omega, by omega, by omega⟩]
  simp only [Reference.read]
  unfold ArrayPtr.write
  rw [if_pos (by simp; omega)]
  refine ⟨_, rfl, ?_, rfl, rfl⟩
  simp only [toList]
  apply List.ext_getElem?
  intro k
  simp only [List.getElem?_take, List.getElem?_append, List.getElem?_drop, List.getElem?_set,
    List.length_take, List.length_append, List.length_drop, List.length_set,
    List.length_cons, List.length_nil]
  have e1 : min pos v.ptr_.length = pos := by omega
  have e2 : min v.size_ v.ptr_.length = v.size_ := by omega
  have e3 : min pos v.size_ = pos := by omega
  have e4 : min (v.size_ + 1 - (v.size_ - pos)) v.ptr_.length = pos + 1 := by omega
  have e5 : min (v.size_ - pos) (v.ptr_.length - pos) = v.size_ - pos := by omega
  have e6 : v.size_ + 1 - (v.size_ - pos) = pos + 1 := by omega
  have e7 : min (pos + 1) v.ptr_.length = pos + 1 := by omega
  simp only [e1, e2, e3, e4, e5, e6, e7]
  split_ifs <;>
    first
    | rfl
    | omega
    | exact congrArg (fun i => v.ptr_[i]?) (by omega)
    | (have hk : k - pos = 0 := by omega
       rw [hk]; rfl)

/-- `Insert` into a vector with spare capacity, of a reference to a cell of the vector
behind the position: the cell is read after the shift, when it holds the element that was
before it, and that element is inserted. -/
theorem Insert_spare_cell (v : SimpleVector α) (hwf : WellFormed v)
    (hcap : v.capacity_ < 9223372036854775808) (pos : Nat) (index : Nat)
    (hpos : pos < index) (hindex : index ≤ v.size_) (value : α)
    (hvalue : v.ptr_[index - 1]? = some value) (hspare : v.size_ ≠ v.capacity_) :
    ∃ v₁, Insert v pos (Reference.cell index) = .ok (v₁, pos) ∧
      toList v₁ = (toList v).take pos ++ [value] ++ (toList v).drop pos ∧
      v₁.size_ = v.size_ + 1 ∧ v₁.capacity_ = v.capacity_ := by
  have hsize := hwf.size
  have harr := hwf.array
  have hmod : (v.size_ + 1) % SIZE_MODULUS = v.size_ + 1 :=
    Nat.mod_eq_of_lt (by unfold SIZE_MODULUS; omega)
  have hprev : (v.size_ + 1 + SIZE_MODULUS - 1) % SIZE_MODULUS = v.size_ := by
    unfold SIZE_MODULUS
    omega
  have hshifted : (List.take (v.size_ + 1 - (v.size_ - pos)) v.ptr_ ++
      List.take (v.size_ - pos) (List.drop pos v.ptr_) ++
      List.drop (v.size_ + 1) v.ptr_)[index]? = some value := by
    rw [← hvalue]
    simp only [List.getElem?_take, List.getElem?_append, List.getElem?_drop,
      List.length_take, List.length_append, List.length_drop]
    have e1 : min (v.size_ + 1 - (v.size_ - pos)) v.ptr_.length = pos + 1 := by omega
    have e2 : min (v.size_ - pos) (v.ptr_.length - pos) = v.size_ - pos := by omega
    simp only [e1, e2]
    split_ifs <;>
      first
      | omega
      | exact congrArg (fun i => v.ptr_[i]?) (by omega)
  unfold Insert
  rw [if_neg (by omega), if_neg hspare]
  simp only [hmod, hprev]
  unfold stdCopyBackward
  rw [if_pos ⟨by omega, by omega, by omega, by omega, by omega⟩]
  simp only [Reference.read, ArrayPtr.read, hshifted, Bool.false_eq_true, if_false]
  unfold ArrayPtr.write
  rw [if_pos (by simp; omega)]
  refine ⟨_, rfl, ?_, rfl, rfl⟩
  simp only [toList]
  apply List.ext_getElem?
  intro k
  simp only [List.getElem?_take, List.getElem?_append, List.getElem?_drop, List.getElem?_set,
    List.length_take, List.length_append, List.length_drop, List.length_set,
    List.length_cons, List.length_nil]
  have e1 : min pos v.ptr_.length = pos := by omega
  have e2 : min v.size_ v.ptr_.length = v.size_ := by omega
  have e3 : min pos v.size_ = pos := by omega
  have e4 : min (v.size_ + 1 - (v.size_ - pos)) v.ptr_.length = pos + 1 := by omega
  have e5 : min (v.size_ - pos) (v.ptr_.length - pos) = v.size_ - pos := by omega
  have e6 : v.size_ + 1 - (v.size_ - pos) = pos + 1 := by omega
  have e7 : min (pos + 1) v.ptr_.length = pos + 1 := by omega
  simp only [e1, e2, e3, e4, e5, e6, e7]
  split_ifs <;>
    first
    | rfl
    | omega
    | exact congrArg (fun i => v.ptr_[i]?) (by omega)
    | (have hk : k - pos = 0 := by omega
       rw [hk]; rfl)

/-- For a vector that satisfies the class invariant, as every vector a program can build
does, with a capacity below `2^63`, a position from `begin()` to `end()`, and a value that
is an object outside the array, or any reference when the vector is full, `Insert` returns
the position of the inserted value; the elements afterwards are the old ones before the
position, the value, and the old ones from the position on; the capacity is doubled when
the vector was full, 1 when it was 0, and unchanged when the vector was not full. -/
theorem Insert_at_position (v : SimpleVector α) (hwf : WellFormed v)
    (hcap : v.capacity_ < 9223372036854775808) (pos : Nat) (hpos : pos ≤ GetSize v)
    (reference : Reference α) (value : α)
    (hread : Reference.read reference v.ptr_ false = .ok value)
    (hobject : GetSize v ≠ GetCapacity v → reference = Reference.object value) :
    ∃ v₁, Insert v pos reference = .ok (v₁, pos) ∧
      toList v₁ = (toList v).take pos ++ [value] ++ (toList v).drop pos ∧
      (toList v₁)[pos]? = some value ∧
      GetSize v₁ = GetSize v + 1 ∧
      GetCapacity v₁ =
        if GetSize v = GetCapacity v then
          (if GetCapacity v = 0 then 1 else 2 * GetCapacity v)
        else GetCapacity v := by
  have hget : ∀ l : List α, l = (toList v).take pos ++ [value] ++ (toList v).drop pos →
      l[pos]? = some value := by
    intro l hl
    have hlen : ((toList v).take pos).length = pos := by
      have := hwf.size
      have := hwf.array
      simp only [toList, GetSize] at hpos ⊢
      simp only [List.length_take]
      omega
    rw [hl, List.append_assoc, List.getElem?_append_right (by omega), hlen]
    simp
  unfold GetSize GetCapacity at *
  by_cases hfull : v.size_ = v.capacity_
  · obtain ⟨v₁, h1, h2, h3, h4⟩ := Insert_full v hwf hcap pos hpos reference value hread hfull
    refine ⟨v₁, h1, h2, hget _ h2, h3, ?_⟩
    rw [if_pos hfull, h4]
    by_cases h0 : v.capacity_ = 0
    · rw [if_pos h0]
      simp [h0, hfull]
    · rw [if_neg h0]
      rw [max_eq_left (by omega)]
      omega
  · rw [hobject hfull]
    obtain ⟨v₁, h1, h2, h3, h4⟩ := Insert_spare v hwf hcap pos hpos value hfull
    exact ⟨v₁, h1, h2, hget _ h2, h3, by rw [if_neg hfull, h4]⟩

end SimpleVector

namespace SimpleVector

/-- C31, evaluated at the failing calls `PushBack(7)`, `PopBack()`, `Resize(1)` on an
empty `SimpleVector<int>`: the growing `Resize` stays within the capacity, so it only
sets the size, and the element at index 0 is the popped value 7, not `int{}`. -/
theorem Resize_exposes_old_element :
    PushBack (New : SimpleVector Int) (Reference.object 7) = .ok ⟨1, 1, [7]⟩ ∧
    PopBack (⟨1, 1, [7]⟩ : SimpleVector Int) = .ok ⟨0, 1, [7]⟩ ∧
    Reachable (⟨0, 1, [7]⟩ : SimpleVector Int) ∧
    (1 : Nat) > GetSize (⟨0, 1, [7]⟩ : SimpleVector Int) ∧
    Resize (⟨0, 1, [7]⟩ : SimpleVector Int) 1 = .ok ⟨1, 1, [7]⟩ ∧
    Index (⟨1, 1, [7]⟩ : SimpleVector Int) 0 = .ok 7 ∧
    (default : Int) = 0 ∧ (7 : Int) ≠ default :=
  ⟨by decide, by decide,
    Reachable.popBack ⟨1, 1, [7]⟩ _
      (Reachable.pushBack New _ (Reference.object 7) Reachable.new (by decide)) (by decide),
    by decide, by decide, by decide, rfl, by decide⟩

variable {α : Type} [Inhabited α]

/-- C34: for a vector that satisfies the class invariant, as every vector a program can
build does, `At(index)` throws `out_of_range` exactly when `index >= size`, and
otherwise returns the element at that index, the one `operator[]` returns. -/
theorem At_bounds_checked (v : SimpleVector α) (hwf : WellFormed v) (index : Nat) :
    (At v index = .error VectorError.out_of_range ↔ GetSize v ≤ index) ∧
    (index < GetSize v →
      ∃ value, At v index = .ok value ∧ Index v index = .ok value ∧
        (toList v)[index]? = some value) := by
  have hsize := hwf.size
  have harr := hwf.array
  unfold GetSize
  constructor
  · unfold At
    constructor
    · intro h
      by_contra hlt
      rw [if_neg (by omega)] at h
      have hin : index < v.ptr_.length := by omega
      simp [ArrayPtr.read, List.getElem?_eq_getElem hin] at h
    · intro h
      rw [if_pos h]
  · intro hlt
    have hin : index < v.ptr_.length := by omega
    refine ⟨v.ptr_[index], ?_, ?_, ?_⟩
    · unfold At
      rw [if_neg (by omega)]
      simp [ArrayPtr.read, List.getElem?_eq_getElem hin]
    · unfold Index
      rw [if_pos hlt]
      simp [ArrayPtr.read, List.getElem?_eq_getElem hin]
    · simp [toList, List.getElem?_take, hlt, List.getElem?_eq_getElem hin]

end SimpleVector

theorem reachable_threeVector :
    SimpleVector.Reachable (⟨3, 4, [1, 2, 3, 0]⟩ : SimpleVector Int) :=
  SimpleVector.Reachable.pushBack ⟨2, 2, [1, 2]⟩ _ (Reference.object 3)
    (SimpleVector.Reachable.pushBack ⟨1, 1, [1]⟩ _ (Reference.object 2)
      (SimpleVector.Reachable.pushBack SimpleVector.New _ (Reference.object 1)
        SimpleVector.Reachable.new
        (by decide))
      (by decide))
    (by decide)

namespace SimpleVector

theorem At_bounds_checked_witness :
    Reachable (⟨3, 4, [1, 2, 3, 0]⟩ : SimpleVector Int) ∧
    WellFormed (⟨3, 4, [1, 2, 3, 0]⟩ : SimpleVector Int) ∧
    At (⟨3, 4, [1, 2, 3, 0]⟩ : SimpleVector Int) 3 = .error VectorError.out_of_range ∧
    At (⟨3, 4, [1, 2, 3, 0]⟩ : SimpleVector Int) 2 = .ok 3 ∧
    (At (⟨3, 4, [1, 2, 3, 0]⟩ : SimpleVector Int) 3 = .error VectorError.out_of_range ↔
      GetSize (⟨3, 4, [1, 2, 3, 0]⟩ : SimpleVector Int) ≤ 3) :=
  ⟨reachable_threeVector, reachable_threeVector.wellFormed, by decide, by decide,
    (At_bounds_checked ⟨3, 4, [1, 2, 3, 0]⟩ reachable_threeVector.wellFormed 3).1⟩

/-- `PushBack` of an object outside the array, on the full vector 1, 2. -/
theorem PushBack_appends_witness :
    Reachable (NewFromList [1, 2] : SimpleVector Int) ∧
    WellFormed (NewFromList [1, 2] : SimpleVector Int) ∧
    (NewFromList [1, 2] : SimpleVector Int).capacity_ < 9223372036854775808 ∧
    PushBack (NewFromList [1, 2] : SimpleVector Int) (Reference.object 3) =
      .ok ⟨3, 4, [1, 2, 3, 0]⟩ ∧
    ∃ v₁, PushBack (NewFromList [1, 2] : SimpleVector Int) (Reference.object 3) = .ok v₁ ∧
      toList v₁ = toList (NewFromList [1, 2] : SimpleVector Int) ++ [3] :=
  ⟨Reachable.newFromList [1, 2], (Reachable.newFromList [1, 2]).wellFormed, by decide,
    by decide,
    (PushBack_appends (NewFromList [1, 2]) (Reachable.newFromList [1, 2]).wellFormed
      (by decide) (Reference.object 3) 3 rfl (fun _ => rfl)).imp (fun _ h => ⟨h.1, h.2.1⟩)⟩

/-- `Insert` of an object outside the array, into the vector 1, 2, 3 of capacity 4. -/
theorem Insert_at_position_witness :
    Reachable (⟨3, 4, [1, 2, 3, 0]⟩ : SimpleVector Int) ∧
    WellFormed (⟨3, 4, [1, 2, 3, 0]⟩ : SimpleVector Int) ∧
    (4 : Nat) < 9223372036854775808 ∧
    (1 : Nat) ≤ GetSize (⟨3, 4, [1, 2, 3, 0]⟩ : SimpleVector Int) ∧
    Insert (⟨3, 4, [1, 2, 3, 0]⟩ : SimpleVector Int) 1 (Reference.object 7) =
      .ok (⟨4, 4, [1, 7, 2, 3]⟩, 1) ∧
    Insert (⟨4, 4, [1, 7, 2, 3]⟩ : SimpleVector Int) 4 (Reference.object 8) =
      .ok (⟨5, 8, [1, 7, 2, 3, 8, 0, 0, 0]⟩, 4) ∧
    ∃ v₁, Insert (⟨3, 4, [1, 2, 3, 0]⟩ : SimpleVector Int) 1 (Reference.object 7) =
        .ok (v₁, 1) ∧
      toList v₁ = (toList (⟨3, 4, [1, 2, 3, 0]⟩ : SimpleVector Int)).take 1 ++ [7] ++
        (toList (⟨3, 4, [1, 2, 3, 0]⟩ : SimpleVector Int)).drop 1 :=
  ⟨reachable_threeVector, reachable_threeVector.wellFormed, by decide, by decide, by decide,
    by decide,
    (Insert_at_position ⟨3, 4, [1, 2, 3, 0]⟩ reachable_threeVector.wellFormed (by decide) 1
      (by decide) (Reference.object 7) 7 rfl (fun _ => rfl)).imp (fun _ h => ⟨h.1, h.2.1⟩)⟩

/-- C32, evaluated at the failing call `v.Insert(v.begin(), v[2])` on the
`SimpleVector<int>` 1, 2, 3 with capacity 4 (built by `Reserve(4)`): the vector is not
full, so the parameter `value`, a reference to the cell 2, is read after
`std::copy_backward` has shifted the cells, when the cell holds 2; the contents become
2, 1, 2, 3 and not 3, 1, 2, 3.  On the full vector 1, 2, 3 the same call inserts 3. -/
theorem Insert_reads_shifted_cell :
    Reserve (NewFromList [1, 2, 3] : SimpleVector Int) 4 = .ok ⟨3, 4, [1, 2, 3, 0]⟩ ∧
    Reachable (⟨3, 4, [1, 2, 3, 0]⟩ : SimpleVector Int) ∧
    Index (⟨3, 4, [1, 2, 3, 0]⟩ : SimpleVector Int) 2 = .ok 3 ∧
    Insert (⟨3, 4, [1, 2, 3, 0]⟩ : SimpleVector Int) 0 (Reference.cell 2) =
      .ok (⟨4, 4, [2, 1, 2, 3]⟩, 0) ∧
    toList (⟨4, 4, [2, 1, 2, 3]⟩ : SimpleVector Int) ≠
      (toList (⟨3, 4, [1, 2, 3, 0]⟩ : SimpleVector Int)).take 0 ++ [3] ++
        (toList (⟨3, 4, [1, 2, 3, 0]⟩ : SimpleVector Int)).drop 0 ∧
    Insert (NewFromList [1, 2, 3] : SimpleVector Int) 0 (Reference.cell 2) =
      .ok (⟨4, 6, [3, 1, 2, 3, 0, 0]⟩, 0) :=
  ⟨by decide, Reachable.reserve (NewFromList [1, 2, 3]) _ 4 (Reachable.newFromList [1, 2, 3])
      (by decide), by decide, by decide, by decide, by decide⟩

/-- C33, evaluated at the failing call `v.PushBack(v[0])` on the full `SimpleVector<int>`
that holds 7: `Resize(size_ + 1)` moves the element to a new array and releases the old
one, and the parameter `item`, a reference to the cell 0 of the old array, is read after
that: the behaviour is undefined, and the contents do not become 7, 7.  With spare
capacity, and for an object outside the array, the call appends the value. -/
theorem PushBack_reads_released_array :
    Reachable (NewFromList [7] : SimpleVector Int) ∧
    GetSize (NewFromList [7] : SimpleVector Int) =
      GetCapacity (NewFromList [7] : SimpleVector Int) ∧
    Index (NewFromList [7] : SimpleVector Int) 0 = .ok 7 ∧
    Resize (NewFromList [7] : SimpleVector Int) 2 = .ok ⟨2, 2, [7, 0]⟩ ∧
    PushBack (NewFromList [7] : SimpleVector Int) (Reference.cell 0) =
      .error VectorError.undefined ∧
    PushBack (NewFromList [7] : SimpleVector Int) (Reference.object 7) = .ok ⟨2, 2, [7, 7]⟩ ∧
    PushBack (⟨3, 4, [1, 2, 3, 0]⟩ : SimpleVector Int) (Reference.cell 0) =
      .ok ⟨4, 4, [1, 2, 3, 1]⟩ :=
  ⟨Reachable.newFromList [7], by decide, by decide, by decide, by decide, by decide,
    by decide⟩

end SimpleVector

/-! ## `Vector::Emplace` -/

namespace AdvancedVector

namespace Vector

/-- C39, evaluated at the failing call `Insert(end(), 2)` on the `Vector<int>` built by
`Reserve(2)` and `PushBack(1)`: the vector has spare capacity and is not empty, so
`Emplace` calls `std::move_backward(pos, std::prev(end()), end())` with `pos == end()`,
a range whose end lies before its beginning, which is undefined behaviour; the elements
do not become 1, 2.  The same call at `begin()`, and at `end()` of a full vector, is as
the claim says. -/
theorem Emplace_at_end_with_spare_capacity :
    Reserve (New : Vector Int) 2 = .ok ⟨⟨[none, none], 2⟩, 0⟩ ∧
    EmplaceBack (⟨⟨[none, none], 2⟩, 0⟩ : Vector Int) 1 = .ok ⟨⟨[some 1, none], 2⟩, 1⟩ ∧
    Reachable (⟨⟨[some 1, none], 2⟩, 1⟩ : Vector Int) ∧
    Size (⟨⟨[some 1, none], 2⟩, 1⟩ : Vector Int) = 1 ∧
    Capacity (⟨⟨[some 1, none], 2⟩, 1⟩ : Vector Int) = 2 ∧
    stdCopyBackward [some (1 : Int), some 1] 1 0 1 = .error VectorError.undefined ∧
    Insert (⟨⟨[some 1, none], 2⟩, 1⟩ : Vector Int) 1 2 = .error VectorError.undefined ∧
    Insert (⟨⟨[some 1, none], 2⟩, 1⟩ : Vector Int) 0 2 =
      .ok (⟨⟨[some 2, some 1], 2⟩, 2⟩, 0) ∧
    Insert (⟨⟨[some 2, some 1], 2⟩, 2⟩ : Vector Int) 2 3 =
      .ok (⟨⟨[some 2, some 1, some 3, none], 4⟩, 3⟩, 2) :=
  ⟨by decide, by decide,
    Reachable.emplaceBack ⟨⟨[none, none], 2⟩, 0⟩ _ 1
      (Reachable.reserve New _ 2 Reachable.new (by decide)) (by decide),
    by decide, by decide, by decide, by decide, by decide, by decide⟩

end Vector

end AdvancedVector
